import Mathlib

/-!
darktable demosaic module: a shallow embedding of `src/iop/demosaic.c`

Conventions of the embedding.

* C `float`/`double` values are rationals `ℚ`.  The kernels come in two
  readings.  The plain definitions compute in exact arithmetic: they carry
  the statements that rounding does not touch (copies, frames, selections,
  clamps, loop structure, the formula a site is written with).  The
  definitions whose name ends in `_fl` round after every floating-point
  operation of the source, with `f32` for `float` and `f64` for `double`;
  they carry the statements in which rounding decides the value.
* A raw buffer `in[row*width + col]` is a function `Nat → Nat → ℚ` of the row
  and the column; an RGBA buffer `out[4*(row*width + col) + c]` is a function
  `Nat → Nat → Nat → ℚ` of row, column and channel.  Pointer displacements
  such as `buf_in[-2*width]` or `nt = buf - 4*width` are row/column
  displacements of the pixel the pointer designates.
* C `for` loops are folds over their index range (`loopN`, `forLoop`), applied
  to the buffer that the loop body mutates.
-/

namespace Demosaic

/-! ## Loops -/

/-- Runs `n` iterations of a loop body, the index starting at `k` and advancing by `step`. -/
def loopN {σ : Type} : Nat → Nat → Nat → (Nat → σ → σ) → σ → σ
  | 0, _, _, _, s => s
  | n + 1, k, step, body, s => loopN n (k + step) step body (body k s)

/-- Models `for (k = lo; k < hi; k += step) body` with `step ≥ 1`. -/
def forLoop {σ : Type} (lo hi step : Nat) (body : Nat → σ → σ) (s : σ) : σ :=
  loopN ((hi - lo + (step - 1)) / step) lo step body s

/-- Index set of `for (k = lo; k < hi; k += step)`. -/
def Visits (lo hi step k : Nat) : Prop := lo ≤ k ∧ k < hi ∧ (k - lo) % step = 0

/-- Conversion of a C `int` to `size_t` on a 64-bit target: a negative `n` becomes
`n + 2^64`. -/
def toSizeT (n : Int) : Nat := if n < 0 then (n + 2 ^ 64).toNat else n.toNat

/-! ## Buffers -/

/-- Single-channel raw buffer, addressed by row and column. -/
abbrev Raw := Nat → Nat → ℚ

/-- Four-channel buffer, addressed by row, column and channel. -/
abbrev Img := Nat → Nat → Nat → ℚ

/-- Stores `v` at one sample of a raw buffer. -/
def Raw.set (b : Raw) (j i : Nat) (v : ℚ) : Raw :=
  fun r c => if r = j ∧ c = i then v else b r c

/-- Stores `v` in one channel of one pixel. -/
def Img.set (o : Img) (j i c : Nat) (v : ℚ) : Img :=
  fun r k ch => if r = j ∧ k = i ∧ ch = c then v else o r k ch

/-! ## Binary floating point

The values of `float` and `double` are rationals.  `f32` and `f64` round a rational to the
nearest `float` and `double`; a kernel whose name ends in `_fl` applies the rounding function
it is given after every floating-point operation of the source. -/

/-- Upward search for the exponent of the spacing: the least `j`, from the start value on,
with `a < 2^(j+p)`; `pw` holds the power `2^(j+p)` of the current `j`. -/
def ulpUp : Nat → Int → ℚ → ℚ → Int
  | 0, j, _, _ => j
  | fuel + 1, j, pw, a => if a < pw then j else ulpUp fuel (j + 1) (2 * pw) a

/-- Downward search for the exponent of the spacing, from a `j` with `a < 2^(j+p)`: the
exponent is lowered as long as `a < 2^(j-1+p)`, at most `fuel` times; `pw` holds `2^(j+p)`. -/
def ulpDown : Nat → Int → ℚ → ℚ → Int
  | 0, j, _, _ => j
  | fuel + 1, j, pw, a => if a < pw / 2 then ulpDown fuel (j - 1) (pw / 2) a else j

/-- Exponent of the spacing of the binary numbers with `p` significant bits around `a >= 0`:
the least `j >= emin` with `a < 2^(j+p)`, searched downwards from 0 when `a < 2^p` and
upwards from 1 (on `fuel`) otherwise; `emin <= 0`. -/
def ulpExp (p : Nat) (emin : Int) (fuel : Nat) (a : ℚ) : Int :=
  if a < (2 : ℚ) ^ p then ulpDown (-emin).toNat 0 ((2 : ℚ) ^ p) a
  else ulpUp fuel 1 ((2 : ℚ) ^ (p + 1)) a

/-- Rounding to the nearest integer, ties to the even one. -/
def roundEven (q : ℚ) : Int :=
  if q - (⌊q⌋ : ℚ) < 1 / 2 then ⌊q⌋
  else if q - (⌊q⌋ : ℚ) > 1 / 2 then ⌊q⌋ + 1
  else if ⌊q⌋ % 2 = 0 then ⌊q⌋ else ⌊q⌋ + 1

/-- Rounding of `x` to the nearest multiple of `2^j`, ties to the even multiple. -/
def roundAt (x : ℚ) (j : Int) : ℚ := (roundEven (x / (2 : ℚ) ^ j) : ℚ) * (2 : ℚ) ^ j

/-- Rounding to the nearest binary number with `p` significant bits whose spacing is at least
`2^emin`, ties to even (the IEEE 754 default); overflow to infinity is not modelled. -/
def roundBin (p : Nat) (emin : Int) (fuel : Nat) (x : ℚ) : ℚ :=
  roundAt x (ulpExp p emin fuel |x|)

/-- Rounding to `float` (binary32: 24 significant bits, least spacing `2^-149`). -/
def f32 (x : ℚ) : ℚ := roundBin 24 (-149) 300 x

/-- Rounding to `double` (binary64: 53 significant bits, least spacing `2^-1074`). -/
def f64 (x : ℚ) : ℚ := roundBin 53 (-1074) 2200 x

/-! ## CFA indexers -/

/-- Bayer indexer `FC`: `filters >> (((row << 1 & 14) + (col & 1)) << 1) & 3`. -/
def FC (row col filters : Nat) : Nat :=
  (filters >>> ((((row <<< 1) &&& 14) + (col &&& 1)) <<< 1)) &&& 3

/-- Index expression of the macro `fcol`: `((n)+6)%6` with the C remainder. -/
def fcolIdx (n : Int) : Int := (n + 6).tmod 6

/-- Macro `fcol(row,col) = xtrans[((row)+6)%6][((col)+6)%6]`. -/
def fcol (xtrans : Int → Int → Nat) (row col : Int) : Nat :=
  xtrans (fcolIdx row) (fcolIdx col)

/-! ## Compare-exchange networks on nine values -/

/-- The array `med[9]` built from nine values. -/
def vec9 {α : Type} (a0 a1 a2 a3 a4 a5 a6 a7 a8 : α) : Fin 9 → α
  | ⟨0, _⟩ => a0
  | ⟨1, _⟩ => a1
  | ⟨2, _⟩ => a2
  | ⟨3, _⟩ => a3
  | ⟨4, _⟩ => a4
  | ⟨5, _⟩ => a5
  | ⟨6, _⟩ => a6
  | ⟨7, _⟩ => a7
  | ⟨_, _⟩ => a8

/-- Step `SWAPmed(I,J)`: `if (med[I] > med[J]) SWAP(med[I], med[J])`. -/
def swapMed {α : Type} [LinearOrder α] (I J : Fin 9) (med : Fin 9 → α) : Fin 9 → α :=
  if med I > med J then (fun k => if k = I then med J else if k = J then med I else med k)
  else med

/-- Runs a sequence of `SWAPmed` steps in order. -/
def runNetwork {α : Type} [LinearOrder α] (net : List (Fin 9 × Fin 9)) (med : Fin 9 → α) :
    Fin 9 → α :=
  net.foldl (fun m p => swapMed p.1 p.2 m) med

/-- The nineteen `SWAPmed` steps of `color_smoothing`, in source order. -/
def medianNetwork : List (Fin 9 × Fin 9) :=
  [(1, 2), (4, 5), (7, 8), (0, 1), (3, 4), (6, 7), (1, 2), (4, 5), (7, 8), (0, 3),
   (5, 8), (4, 7), (3, 6), (1, 4), (2, 5), (4, 7), (4, 2), (6, 4), (4, 2)]

/-- The exchange sort of `pre_median_b`:
`for (i=0; i<8; i++) for (ii=i+1; ii<9; ii++) if (med[i] > med[ii]) SWAP(med[i], med[ii])`. -/
def exchangeNetwork : List (Fin 9 × Fin 9) :=
  (List.finRange 9).flatMap (fun i => ((List.finRange 9).filter (fun ii => i < ii)).map (fun ii => (i, ii)))

/-- Nine Booleans read off the binary digits of a number. -/
def fromBits (n : Nat) : Fin 9 → Bool := fun k => n.testBit k.val

/-- The number whose binary digits are nine Booleans. -/
def toBits (v : Fin 9 → Bool) : Nat :=
  Nat.bit (v 0) (Nat.bit (v 1) (Nat.bit (v 2) (Nat.bit (v 3) (Nat.bit (v 4) (Nat.bit (v 5)
    (Nat.bit (v 6) (Nat.bit (v 7) (Nat.bit (v 8) 0))))))))

/-- The step `SWAPmed(I,J)` on the binary digits of a number. -/
def swapBits (I J : Fin 9) (n : Nat) : Nat :=
  if n.testBit I.val && !n.testBit J.val then n ^^^ (2 ^ I.val ^^^ 2 ^ J.val) else n

/-- A sequence of `SWAPmed` steps on the binary digits of a number. -/
def runBits (net : List (Fin 9 × Fin 9)) (n : Nat) : Nat :=
  net.foldl (fun m p => swapBits p.1 p.2 m) n

/-- Ascending sort of nine values, the reference the networks are compared with. -/
def sorted9 (med : Fin 9 → ℚ) : List ℚ := List.insertionSort (fun a b => a ≤ b) (List.ofFn med)

/-! ## Edge-aware pre-median (`pre_median_b`) -/

/-- The table `lim[5] = {0, 1, 2, 1, 0}` of `pre_median_b`. -/
def lim : Nat → Nat
  | 1 => 1
  | 2 => 2
  | 3 => 1
  | _ => 0

/-- Positions `pixi[width*(i-2) + j]` visited by
`for (i = 0; i < 5; i++) for (j = -lim[i]; j <= lim[i]; j += 2)` around `(row, col)`,
in the order in which they fill `med[0..8]`. -/
def diamond (row col : Nat) : List (Nat × Nat) :=
  (List.range 5).flatMap (fun i =>
    (List.range (lim i + 1)).map (fun t => (row + i - 2, col + 2 * t - lim i)))

/-- One entry of `med`: the sample when `fabsf(v - centre) < threshold`, else `64.0f + v`. -/
def medEntry (threshold centre v : ℚ) : ℚ :=
  if |v - centre| < threshold then v else 64 + v

/-- Value `pre_median_b` stores at a visited green site `(row, col)`. -/
def pre_median_site (inp : Raw) (row col : Nat) (threshold : ℚ) : ℚ :=
  let centre := inp row col
  let vals := (diamond row col).map (fun p => inp p.1 p.2)
  let cnt := vals.countP (fun v => decide (|v - centre| < threshold))
  let entries := vals.map (medEntry threshold centre)
  let med := runNetwork exchangeNetwork (fun k : Fin 9 => entries.getD k.val 0)
  if cnt = 1 then med 4 - 64 else med (Fin.ofNat ((cnt - 1) / 2))

/-- Function `pre_median_b(out, in, roi, filters, num_passes, threshold)`: the contents of
`out` on return.  `out` starts as a copy of `in` (the colour branch is the `memcpy`), then
every pass rewrites the green sites of rows `3 .. height-4` from `in`. -/
def pre_median_b (inp : Raw) (width height filters num_passes : Nat) (threshold : ℚ) : Raw :=
  forLoop 0 num_passes 1 (fun _ out =>
    forLoop 3 (height - 3) 1 (fun row out =>
      let col0 := if FC row 3 filters ≠ 1 ∧ FC row 3 filters ≠ 3 then 4 else 3
      forLoop col0 (width - 3) 2 (fun col out =>
        out.set row col (pre_median_site inp row col threshold)) out) out) inp

/-- Function `pre_median`, a plain call of `pre_median_b`. -/
def pre_median (inp : Raw) (width height filters num_passes : Nat) (threshold : ℚ) : Raw :=
  pre_median_b inp width height filters num_passes threshold

/-! ## Colour smoothing -/

/-- The nine chroma differences `outp[..+3] - outp[..+1]` of the 3x3 neighbourhood. -/
def smoothingMed (o : Img) (j i : Nat) : Fin 9 → ℚ :=
  vec9 (o (j - 1) (i - 1) 3 - o (j - 1) (i - 1) 1)
       (o (j - 1) i 3 - o (j - 1) i 1)
       (o (j - 1) (i + 1) 3 - o (j - 1) (i + 1) 1)
       (o j (i - 1) 3 - o j (i - 1) 1)
       (o j i 3 - o j i 1)
       (o j (i + 1) 3 - o j (i + 1) 1)
       (o (j + 1) (i - 1) 3 - o (j + 1) (i - 1) 1)
       (o (j + 1) i 3 - o (j + 1) i 1)
       (o (j + 1) (i + 1) 3 - o (j + 1) (i + 1) 1)

/-- One channel `c` of one pass of `color_smoothing`: copy channel `c` to channel 3, then
rewrite channel `c` of the interior pixels in place. -/
def color_smoothing_channel (width height c : Nat) (out : Img) : Img :=
  let snap := forLoop 0 height 1 (fun j o =>
    forLoop 0 width 1 (fun i o => o.set j i 3 (o j i c)) o) out
  forLoop 1 (height - 1) 1 (fun j o =>
    forLoop 1 (width - 1) 1 (fun i o =>
      o.set j i c (max (runNetwork medianNetwork (smoothingMed o j i) 4 + o j i 1) 0)) o) snap

/-- Function `color_smoothing(out, roi_out, num_passes)`: the contents of `out` on return. -/
def color_smoothing (out : Img) (width height num_passes : Nat) : Img :=
  forLoop 0 num_passes 1 (fun _ o =>
    forLoop 0 3 2 (fun c o => color_smoothing_channel width height c o) o) out

/-! ## Green equilibration -/

/-- Column offset `oi` of `green_equilibration_favg`. -/
def favg_oi (filters x y : Nat) : Nat :=
  if (FC (0 + y) (0 + x) filters) &&& 1 ≠ 1 then 1 else 0

/-- Offset `g2_offset = oi ? -1 : 1` of `green_equilibration_favg`. -/
def favg_g2 (filters x y : Nat) : Int :=
  if favg_oi filters x y ≠ 0 then -1 else 1

/-- The sums `(sum1, sum2)` of the first loop of `green_equilibration_favg`, whose indices
are `size_t` and whose bounds are converted from `int`. -/
def favg_sums (inp : Raw) (width height filters x y : Nat) : ℚ × ℚ :=
  let oi := favg_oi filters x y
  let g2 := favg_g2 filters x y
  forLoop 0 (toSizeT ((height : Int) - 1)) 2 (fun j s =>
    forLoop oi (toSizeT ((width : Int) - 1 - g2)) 2 (fun i s =>
      (s.1 + inp j i, s.2 + inp (j + 1) ((i : Int) + g2).toNat)) s) (0, 0)

/-- Function `green_equilibration_favg(out, in, width, height, filters, x, y)`: the contents
of `out` on return. -/
def green_equilibration_favg (inp : Raw) (width height filters x y : Nat) : Raw :=
  let oi := favg_oi filters x y
  let g2 := favg_g2 filters x y
  let sums := favg_sums inp width height filters x y
  if sums.1 > 0 ∧ sums.2 > 0 then
    let gr_ratio := sums.1 / sums.2
    forLoop 0 (height - 1) 2 (fun j out =>
      forLoop oi ((width : Int) - 1 - g2).toNat 2 (fun i out =>
        out.set j i (inp j i / gr_ratio)) out) inp
  else inp

/-- Start offsets `(oj, oi)` of `green_equilibration_lavg`. -/
def lavg_offsets (filters x y : Nat) : Nat × Nat :=
  let oj0 := 2
  let oi0 := 2
  let oj1 := if FC (oj0 + y) (oi0 + x) filters ≠ 1 then oj0 + 1 else oj0
  let oi1 := if FC (oj1 + y) (oi0 + x) filters ≠ 1 then oi0 + 1 else oi0
  let oj2 := if FC (oj1 + y) (oi1 + x) filters ≠ 1 then oj1 - 1 else oj1
  (oj2, oi1)

/-- Body of the loops of `green_equilibration_lavg` at the site `(j, i)`; `src` is the buffer
the reads go to and `out` the buffer written.  The literal `0.95f` is the `float`
15938355/16777216. -/
def lavg_site (src out : Raw) (j i : Nat) (thr : ℚ) : Raw :=
  let maximum : ℚ := 1
  let o1_1 := src (j - 1) (i - 1)
  let o1_2 := src (j - 1) (i + 1)
  let o1_3 := src (j + 1) (i - 1)
  let o1_4 := src (j + 1) (i + 1)
  let o2_1 := src (j - 2) i
  let o2_2 := src (j + 2) i
  let o2_3 := src j (i - 2)
  let o2_4 := src j (i + 2)
  let m1 := (o1_1 + o1_2 + o1_3 + o1_4) / 4
  let m2 := (o2_1 + o2_2 + o2_3 + o2_4) / 4
  if m2 > 0 ∧ m1 / m2 < maximum * 2 then
    let c1 := (|o1_1 - o1_2| + |o1_1 - o1_3| + |o1_1 - o1_4| + |o1_2 - o1_3| + |o1_3 - o1_4|
      + |o1_2 - o1_4|) / 6
    let c2 := (|o2_1 - o2_2| + |o2_1 - o2_3| + |o2_1 - o2_4| + |o2_2 - o2_3| + |o2_3 - o2_4|
      + |o2_2 - o2_4|) / 6
    if src j i < maximum * (15938355 / 16777216) ∧ c1 < maximum * thr ∧ c2 < maximum * thr then
      out.set j i (src j i * m1 / m2)
    else out
  else out

/-- Function `green_equilibration_lavg(out, in, width, height, filters, x, y, in_place, thr)`:
the contents of `out` on return.  With `in_place` the caller passes `out = in`, so the reads
see the writes of earlier iterations; otherwise `out` starts as a copy of `in`. -/
def green_equilibration_lavg (inp : Raw) (width height filters x y : Nat) (in_place : Bool)
    (thr : ℚ) : Raw :=
  let o := lavg_offsets filters x y
  forLoop o.1 (toSizeT ((height : Int) - 2)) 2 (fun j out =>
    forLoop o.2 (toSizeT ((width : Int) - 2)) 2 (fun i out =>
      lavg_site (if in_place then out else inp) out j i thr) out) inp

/-! ## PPG Bayer demosaic -/

/-- A `for (i = i0; i < width; i++)` loop whose body first moves the index to `jump i`
(and, with `brk`, leaves the loop when the moved index equals `width`).  The index may move
backwards, so the loop is run on `fuel` and yields `none` when the fuel runs out. -/
def jumpLoop {σ : Type} (jump : Nat → Nat) (brk : Bool) (width : Nat) (body : Nat → σ → σ) :
    Nat → Nat → σ → Option σ
  | 0, _, _ => none
  | fuel + 1, i, s =>
    if i < width then
      if brk ∧ jump i = width then some s
      else jumpLoop jump brk width body fuel (jump i + 1) (body (jump i) s)
    else some s

/-- Runs `n` iterations, from index `k` on, of a loop whose body may fail to return. -/
def loopNOpt {σ : Type} : Nat → Nat → (Nat → σ → Option σ) → σ → Option σ
  | 0, _, _, s => some s
  | n + 1, k, body, s =>
    match body k s with
    | none => none
    | some s2 => loopNOpt n (k + 1) body s2

/-- In-bounds positions `(y, x)` of the 3x3 neighbourhood of `(j, i)`, in the order of
`for (y = j-1; y != j+2; y++) for (x = i-1; x != i+2; x++)`, kept when
`yy >= 0 && xx >= 0 && yy < height && xx < width` (the ROI offset is zero). -/
def nbhd3 (j i height width : Nat) : List (Nat × Nat) :=
  (List.range 3).flatMap (fun dy => (List.range 3).filterMap (fun dx =>
    if 1 ≤ j + dy ∧ 1 ≤ i + dx ∧ j + dy - 1 < height ∧ i + dx - 1 < width
    then some (j + dy - 1, i + dx - 1) else none))

/-- One step `sum[f] += in[yy][xx]; sum[f+4]++` of the PPG border scan, with
`f = FC(y, x, filters)`. -/
def ppg_sum_step (inp : Raw) (filters : Nat) (sum : Nat → ℚ) (p : Nat × Nat) : Nat → ℚ :=
  let f := FC p.1 p.2 filters
  fun n => if n = f then sum n + inp p.1 p.2 else if n = f + 4 then sum n + 1 else sum n

/-- The array `sum[8]` of the PPG border loop after the neighbourhood scan. -/
def ppg_border_sum (inp : Raw) (wi hi filters j i : Nat) : Nat → ℚ :=
  (nbhd3 j i hi wi).foldl (ppg_sum_step inp filters) (fun _ => 0)

/-- Value the PPG border loop stores in channel `c` of the pixel `(j, i)`:
`sum[c] / sum[c+4]` if `c != f && sum[c+4] > 0.0f`, else the sample of the pixel. -/
def ppg_border_val (inp : Raw) (wi hi filters j i c : Nat) : ℚ :=
  let sum := ppg_border_sum inp wi hi filters j i
  let f := FC j i filters
  if c ≠ f ∧ sum (c + 4) > 0 then sum c / sum (c + 4) else inp j i

/-- Border interpolation of one pixel in `demosaic_ppg`: `for (c = 0; c < 3; c++)`. -/
def ppg_border_pixel (inp : Raw) (wi hi filters j i : Nat) (out : Img) : Img :=
  forLoop 0 3 1 (fun c o => o.set j i c (ppg_border_val inp wi hi filters j i c)) out

/-- The index move of the PPG border loop:
`if (i == offx && j >= offy && j < height-offY) i = width-offX;` with all offsets 3. -/
def ppg_jump (wo ho j i : Nat) : Nat :=
  if i = 3 ∧ 3 ≤ j ∧ j < ho - 3 then wo - 3 else i

/-- The border loop of `demosaic_ppg`. -/
def ppg_border (fuel : Nat) (inp : Raw) (wo ho wi hi filters : Nat) (out : Img) : Option Img :=
  loopNOpt ho 0 (fun j o =>
    jumpLoop (ppg_jump wo ho j) true wo (fun i o => ppg_border_pixel inp wi hi filters j i o)
      fuel 0 o) out

/-- First pass of `demosaic_ppg` at `(j, i)`: copy the sample to its colour and interpolate
green at red and blue sites.  The store writes back the channels loaded from `buf`. -/
def ppg_green_pixel (inp : Raw) (filters j i : Nat) (out : Img) : Img :=
  let c := FC j i filters
  let pc := inp j i
  if c = 0 ∨ c = 2 then
    let pym := inp (j - 1) i
    let pym2 := inp (j - 2) i
    let pym3 := inp (j - 3) i
    let pyM := inp (j + 1) i
    let pyM2 := inp (j + 2) i
    let pyM3 := inp (j + 3) i
    let pxm := inp j (i - 1)
    let pxm2 := inp j (i - 2)
    let pxm3 := inp j (i - 3)
    let pxM := inp j (i + 1)
    let pxM2 := inp j (i + 2)
    let pxM3 := inp j (i + 3)
    let guessx := (pxm + pc + pxM) * 2 - pxM2 - pxm2
    let diffx := (|pxm2 - pc| + |pxM2 - pc| + |pxm - pxM|) * 3 + (|pxM3 - pxM| + |pxm3 - pxm|) * 2
    let guessy := (pym + pc + pyM) * 2 - pyM2 - pym2
    let diffy := (|pym2 - pc| + |pyM2 - pc| + |pym - pyM|) * 3 + (|pyM3 - pyM| + |pym3 - pym|) * 2
    if diffx > diffy then
      let m := min pym pyM
      let M := max pym pyM
      (out.set j i c pc).set j i 1 (max (min (guessy * (1 / 4)) M) m)
    else
      let m := min pxm pxM
      let M := max pxm pxM
      (out.set j i c pc).set j i 1 (max (min (guessx * (1 / 4)) M) m)
  else out.set j i 1 pc

/-- Second pass of `demosaic_ppg` at `(j, i)`: red and blue, read from and written to `out`. -/
def ppg_redblue_pixel (filters j i : Nat) (out : Img) : Img :=
  let c := FC j i filters
  let g := out j i 1
  if c &&& 1 ≠ 0 then
    let nt := out (j - 1) i
    let nb := out (j + 1) i
    let nl := out j (i - 1)
    let nr := out j (i + 1)
    if FC j (i + 1) filters = 0 then
      (out.set j i 2 ((nt 2 + nb 2 + 2 * g - nt 1 - nb 1) * (1 / 2))).set j i 0
        ((nl 0 + nr 0 + 2 * g - nl 1 - nr 1) * (1 / 2))
    else
      (out.set j i 0 ((nt 0 + nb 0 + 2 * g - nt 1 - nb 1) * (1 / 2))).set j i 2
        ((nl 2 + nr 2 + 2 * g - nl 1 - nr 1) * (1 / 2))
  else
    let ntl := out (j - 1) (i - 1)
    let ntr := out (j - 1) (i + 1)
    let nbl := out (j + 1) (i - 1)
    let nbr := out (j + 1) (i + 1)
    let x := if c = 0 then 2 else 0
    let diff1 := |ntl x - nbr x| + |ntl 1 - g| + |nbr 1 - g|
    let guess1 := ntl x + nbr x + 2 * g - ntl 1 - nbr 1
    let diff2 := |ntr x - nbl x| + |ntr 1 - g| + |nbl 1 - g|
    let guess2 := ntr x + nbl x + 2 * g - ntr 1 - nbl 1
    if diff1 > diff2 then out.set j i x (guess2 * (1 / 2))
    else if diff1 < diff2 then out.set j i x (guess1 * (1 / 2))
    else out.set j i x ((guess1 + guess2) * (1 / 4))

/-- Function `demosaic_ppg(out, in, roi_out, roi_in, filters, thrs)`: the contents of `out`
on return, `none` when the border loop does not return within `fuel` steps per row.
`wo, ho` are the sizes of `roi_out` and `wi, hi` those of `roi_in`; the function sets
`roi_out->x = roi_out->y = 0`.  `out` is the previous content of the output buffer. -/
def demosaic_ppg (fuel : Nat) (out : Img) (inp : Raw) (wo ho wi hi filters : Nat) (thrs : ℚ) :
    Option Img :=
  match ppg_border fuel inp wo ho wi hi filters out with
  | none => none
  | some o1 =>
    let inp2 := if thrs > 0 then pre_median inp wi hi filters 1 thrs else inp
    let o2 := forLoop 3 (ho - 3) 1 (fun j o =>
      forLoop 3 (wo - 3) 1 (fun i o => ppg_green_pixel inp2 filters j i o) o) o1
    some (forLoop 1 (ho - 1) 1 (fun j o =>
      forLoop 1 (wo - 1) 1 (fun i o => ppg_redblue_pixel filters j i o) o) o2)

/-! ## X-Trans linear interpolation -/

/-- One step `sum[f] += in[y][x]; count[f]++` of the X-Trans border scan, with
`f = fcol(y + roi_in->y, x + roi_in->x)`; the state is the pair `(sum, count)`. -/
def xtrans_sum_step (inp : Raw) (xtrans : Int → Int → Nat) (ix iy : Int)
    (s : (Nat → ℚ) × (Nat → Nat)) (p : Nat × Nat) : (Nat → ℚ) × (Nat → Nat) :=
  let f := fcol xtrans ((p.1 : Int) + iy) ((p.2 : Int) + ix)
  (fun n => if n = f then s.1 n + inp p.1 p.2 else s.1 n,
   fun n => if n = f then s.2 n + 1 else s.2 n)

/-- The arrays `sum[3]` and `count[3]` of the border loop of `xtrans_lin_interpolate` after
the neighbourhood scan, as a pair. -/
def xtrans_border_sum (inp : Raw) (xtrans : Int → Int → Nat) (ix iy : Int)
    (wi hi row col : Nat) : (Nat → ℚ) × (Nat → Nat) :=
  (nbhd3 row col hi wi).foldl (xtrans_sum_step inp xtrans ix iy) (fun _ => 0, fun _ => 0)

/-- Value the X-Trans border loop stores in channel `c` of the pixel `(row, col)`:
`sum[c] / count[c]` if `c != f && count[c] != 0`, else the sample of the pixel. -/
def xtrans_border_val (inp : Raw) (xtrans : Int → Int → Nat) (ix iy : Int)
    (wi hi row col c : Nat) : ℚ :=
  let s := xtrans_border_sum inp xtrans ix iy wi hi row col
  let f := fcol xtrans ((row : Int) + iy) ((col : Int) + ix)
  if c ≠ f ∧ s.2 c ≠ 0 then s.1 c / (s.2 c : ℚ) else inp row col

/-- Border interpolation of one pixel in `xtrans_lin_interpolate`:
`for (c = 0; c < 3; c++)`. -/
def xtrans_border_pixel (inp : Raw) (xtrans : Int → Int → Nat) (ix iy : Int)
    (wi hi row col : Nat) (out : Img) : Img :=
  forLoop 0 3 1 (fun c o =>
    o.set row col c (xtrans_border_val inp xtrans ix iy wi hi row col c)) out

/-- The index move of the X-Trans border loop:
`if (col == 1 && row >= 1 && row < height-1) col = width-1;`. -/
def xtrans_jump (wo ho row col : Nat) : Nat :=
  if col = 1 ∧ 1 ≤ row ∧ row < ho - 1 then wo - 1 else col

/-- One record of the table `lookup[6][6][32]`. -/
structure LinLookup where
  /-- The triples `(OFFSET, WEIGHT, COLOR)`, the offset kept as a `(y, x)` displacement. -/
  nbrs : List (Int × Int × Nat × Nat)
  /-- The pairs `(COLOR, TOT_WEIGHT)` of the colours other than the centre colour. -/
  totals : List (Nat × Nat)
  /-- The field `COLORPIX`, the colour of the centre pixel. -/
  colorpix : Nat

/-- The nine displacements `(y, x)` of `for (y = -1; y <= 1; y++) for (x = -1; x <= 1; x++)`. -/
def offsets3 : List (Int × Int) :=
  [(-1, -1), (-1, 0), (-1, 1), (0, -1), (0, 0), (0, 1), (1, -1), (1, 0), (1, 1)]

/-- One step `sum[ip[2]] += buf_in[ip[0]] * ip[1]` of the interior loop of
`xtrans_lin_interpolate` at the pixel `(row, col)`, for the triple `t = (y, x, WEIGHT, COLOR)`. -/
def lin_sum_step (inp : Raw) (row col : Nat) (s : Nat → ℚ) (t : Int × Int × Nat × Nat) :
    Nat → ℚ :=
  fun n => if n = t.2.2.2
    then s n + inp ((row : Int) + t.1).toNat ((col : Int) + t.2.1).toNat * (t.2.2.1 : ℚ)
    else s n

/-- The entry `TOT_WEIGHT` of colour `c`: the weights of the listed neighbours of colour `c`
added up. -/
def lin_total (nbrs : List (Int × Int × Nat × Nat)) (c : Nat) : Nat :=
  ((nbrs.filter (fun t => t.2.2.2 = c)).map (fun t => t.2.2.1)).sum

/-- The record `lookup[row][col]` built by `xtrans_lin_interpolate`. -/
def linLookup (xtrans : Int → Int → Nat) (ix iy : Int) (row col : Nat) : LinLookup :=
  let f := fcol xtrans ((row : Int) + iy) ((col : Int) + ix)
  let nbrs := offsets3.filterMap (fun p =>
    let weight : Nat := 1 <<< ((if p.1 = (0 : Int) then (1 : Nat) else 0) + (if p.2 = (0 : Int) then (1 : Nat) else 0))
    let color := fcol xtrans ((row : Int) + p.1 + iy) ((col : Int) + p.2 + ix)
    if color = f then none else some (p.1, p.2, weight, color))
  { nbrs := nbrs
    totals := ((List.range 3).filter (fun c => c ≠ f)).map (fun c => (c, lin_total nbrs c))
    colorpix := f }

/-- Interior interpolation of one pixel in `xtrans_lin_interpolate`, from the record
`lookup[row % 6][col % 6]`. -/
def xtrans_lin_pixel (inp : Raw) (xtrans : Int → Int → Nat) (ix iy : Int) (row col : Nat)
    (out : Img) : Img :=
  let l := linLookup xtrans ix iy (row % 6) (col % 6)
  let sum : Nat → ℚ := l.nbrs.foldl (lin_sum_step inp row col) (fun _ => 0)
  let o := (l.totals.take 2).foldl (fun o t => o.set row col t.1 (sum t.1 / (t.2 : ℚ))) out
  o.set row col l.colorpix (inp row col)

/-- Function `xtrans_lin_interpolate(out, in, roi_out, roi_in, xtrans)`: the contents of
`out` on return, `none` when a border row does not return within `fuel` steps.  `wo, ho`
are the sizes of `roi_out`, whose `x` and `y` are zero as `process` passes them;
`ix, iy, wi, hi` are the fields of `roi_in`. -/
def xtrans_lin_interpolate (fuel : Nat) (out : Img) (inp : Raw) (wo ho wi hi : Nat)
    (ix iy : Int) (xtrans : Int → Int → Nat) : Option Img :=
  match loopNOpt ho 0 (fun row o =>
      jumpLoop (xtrans_jump wo ho row) false wo
        (fun col o => xtrans_border_pixel inp xtrans ix iy wi hi row col o) fuel 0 o) out with
  | none => none
  | some o1 =>
    some (forLoop 1 (ho - 1) 1 (fun row o =>
      forLoop 1 (wo - 1) 1 (fun col o => xtrans_lin_pixel inp xtrans ix iy row col o) o) o1)

/-! ## Dispatcher -/

/-- Modelled from the spec: the pipeline kinds `DT_DEV_PIXELPIPE_*` that `process` tests,
declared outside `demosaic.c` (preview, full, export). -/
inductive PipeType
  | preview
  | full
  | export
  deriving DecidableEq, Repr

/-- The three branches of `process`. -/
inductive Path
  /-- The branch `scale > .99999f && scale < 1.00001f` ("output 1:1"). -/
  | one_to_one
  /-- The branch "demosaic and then clip and zoom". -/
  | demosaic_then_zoom
  /-- The branch "sample half (or 1/3)-size raw". -/
  | subsample
  deriving DecidableEq, Repr

/-- Kernels and collaborators that `process` calls. -/
inductive Call
  | xtrans_lin
  | xtrans_vng
  | xtrans_markesteijn (passes : Int)
  | favg
  | lavg (in_place : Bool)
  | ppg
  | amaze
  | clip_and_zoom
  | third_size_xtrans
  | pre_median_b
  | half_size
  | color_smoothing (passes : Nat)
  deriving DecidableEq, Repr

/-- Method constants of `dt_iop_demosaic_method_t`. -/
def DEMOSAIC_XTRANS : Int := 1024

/-- Constant `DT_IOP_DEMOSAIC_PPG`. -/
def DT_IOP_DEMOSAIC_PPG : Int := 0

/-- Constant `DT_IOP_DEMOSAIC_AMAZE`. -/
def DT_IOP_DEMOSAIC_AMAZE : Int := 1

/-- Constant `DT_IOP_DEMOSAIC_LINEAR = DEMOSAIC_XTRANS | 0`. -/
def DT_IOP_DEMOSAIC_LINEAR : Int := 1024

/-- Constant `DT_IOP_DEMOSAIC_VNG = DEMOSAIC_XTRANS | 1`. -/
def DT_IOP_DEMOSAIC_VNG : Int := 1025

/-- Constant `DT_IOP_DEMOSAIC_MARKESTEIJN = DEMOSAIC_XTRANS | 2`. -/
def DT_IOP_DEMOSAIC_MARKESTEIJN : Int := 1026

/-- Constant `DT_IOP_DEMOSAIC_MARKESTEIJN_3 = DEMOSAIC_XTRANS | 3`. -/
def DT_IOP_DEMOSAIC_MARKESTEIJN_3 : Int := 1027

/-- What `process` reads from its arguments. -/
structure ProcessInput where
  /-- Field `piece->pipe->type`. -/
  pipe : PipeType
  /-- Result of `get_quality()`. -/
  qual : Int
  /-- Field `roi_out->scale`. -/
  scale : ℚ
  /-- Field `img->filters` (9 for X-Trans). -/
  filters : Nat
  /-- Field `data->demosaicing_method`, as the `int` it is assigned to. -/
  demosaicing_method : Int
  /-- Field `data->green_eq`. -/
  green_eq : Nat
  /-- Field `data->median_thrs`. -/
  median_thrs : ℚ
  /-- Field `data->color_smoothing`. -/
  color_smoothing : Nat

/-- What `process` does: the method after the quality override, the branch, the calls. -/
structure Dispatch where
  /-- Value of the local `demosaicing_method` after the override. -/
  method : Int
  /-- Branch taken. -/
  path : Path
  /-- Calls made, in order. -/
  calls : List Call
  deriving DecidableEq, Repr

/-- The override of `demosaicing_method` at the head of `process`. -/
def process_method (p : ProcessInput) : Int :=
  if p.pipe = PipeType.full ∧ p.qual < 2 ∧ p.scale ≤ 99999 / 100000 then
    (if p.filters ≠ 9 then DT_IOP_DEMOSAIC_PPG
     else min p.demosaicing_method (DT_IOP_DEMOSAIC_LINEAR + p.qual))
  else p.demosaicing_method

/-- The X-Trans kernel chosen from the method. -/
def xtrans_call (method : Int) : Call :=
  if method = DT_IOP_DEMOSAIC_LINEAR then Call.xtrans_lin
  else if method < DT_IOP_DEMOSAIC_MARKESTEIJN then Call.xtrans_vng
  else Call.xtrans_markesteijn (1 + (method - DT_IOP_DEMOSAIC_MARKESTEIJN) * 2)

/-- The green equilibration calls of the `switch (data->green_eq)`. -/
def green_eq_calls (green_eq : Nat) : List Call :=
  if green_eq = 2 then [Call.favg]
  else if green_eq = 1 then [Call.lavg false]
  else if green_eq = 3 then [Call.favg, Call.lavg true]
  else []

/-- The Bayer kernel chosen from the method. -/
def bayer_call (method : Int) : Call :=
  if method ≠ DT_IOP_DEMOSAIC_AMAZE then Call.ppg else Call.amaze

/-- The demosaic calls shared by the 1:1 branch and the demosaic-then-zoom branch. -/
def demosaic_calls (p : ProcessInput) (method : Int) : List Call :=
  if p.filters = 9 then [xtrans_call method]
  else if p.green_eq ≠ 0 then green_eq_calls p.green_eq ++ [bayer_call method]
  else [bayer_call method]

/-- Function `process`: branch selection and the calls made.  The literal `0.333f` is the
`float` 5586813/16777216 and `.5f` is 1/2.  The literals `.99999f` (a `float` just below
0.99999) and `1.00001f` (a `float` just above 1.00001) are written as the decimals: no
`float` lies between a decimal and its literal, so the tests `scale > .99999f` and
`scale < 1.00001f` select the same `float` scales as the tests against the decimals. -/
def process (p : ProcessInput) : Dispatch :=
  let method := process_method p
  let smoothing := if p.color_smoothing ≠ 0 then [Call.color_smoothing p.color_smoothing] else []
  if p.scale > 99999 / 100000 ∧ p.scale < 100001 / 100000 then
    { method := method, path := Path.one_to_one, calls := demosaic_calls p method ++ smoothing }
  else if p.scale > (if p.filters = 9 then 5586813 / 16777216 else 1 / 2)
      ∨ (p.pipe = PipeType.full ∧ p.qual > 0) ∨ p.pipe = PipeType.export then
    { method := method, path := Path.demosaic_then_zoom,
      calls := demosaic_calls p method ++ [Call.clip_and_zoom] ++ smoothing }
  else
    { method := method, path := Path.subsample,
      calls := (if p.filters = 9 then [Call.third_size_xtrans]
        else if p.pipe = PipeType.export ∧ p.median_thrs > 0
          then [Call.pre_median_b, Call.half_size]
        else [Call.half_size]) ++ smoothing }

/-! ## Bayer layouts and test buffers -/

/-- A descriptor encodes a Bayer layout: the sixteen entries `FC` can return repeat a 2x2
cell with the greens (codes 1 and 3) on one diagonal and red (0) and blue (2) on the other.
`0x94949494` (RGGB), `0x16161616` (BGGR), `0x61616161` (GRBG) and `0x49494949` (GBRG) are of
this kind. -/
def IsBayer (filters : Nat) : Prop :=
  (∀ r < 8, ∀ c < 2, FC r c filters = FC (r % 2) c filters) ∧
  ((FC 0 0 filters % 2 = 1 ∧ FC 1 1 filters % 2 = 1 ∧
      ((FC 0 1 filters = 0 ∧ FC 1 0 filters = 2) ∨ (FC 0 1 filters = 2 ∧ FC 1 0 filters = 0))) ∨
   (FC 0 1 filters % 2 = 1 ∧ FC 1 0 filters % 2 = 1 ∧
      ((FC 0 0 filters = 0 ∧ FC 1 1 filters = 2) ∨ (FC 0 0 filters = 2 ∧ FC 1 1 filters = 0))))

instance (filters : Nat) : Decidable (IsBayer filters) := by
  unfold IsBayer
  infer_instance

/-- Channel that holds the sample of a site of CFA code `f` in PPG: `color[c]` for the codes
0 and 2, `color[1]` for the green codes 1 and 3. -/
def nativeChannel (f : Nat) : Nat := if f = 0 ∨ f = 2 then f else 1

/-- A 7x7 raw buffer, zero but for the sample 1 at its centre `(3, 3)`. -/
def spikeRaw : Raw := fun r c => if r = 3 ∧ c = 3 then 1 else 0

/-- A constant-chroma image with negative red: `R = -1`, `G = B = 0` at every pixel. -/
def negRedImg : Img := fun _ _ c => if c = 0 then -1 else 0

/-- A raw buffer holding 1 on the even rows and 1/2 on the odd rows. -/
def rowsRaw : Raw := fun r _ => if r % 2 = 0 then 1 else 1 / 2

/-- Closed form of a row of the PPG border loop, for the sizes where the row returns: rows
`3 <= j < ho-3` of a buffer at least 6 wide visit the columns `0, 1, 2, wo-3, wo-2, wo-1`,
every other row visits every column. -/
def ppg_border_row (inp : Raw) (wo ho wi hi filters j : Nat) (o : Img) : Img :=
  if (3 ≤ j ∧ j < ho - 3) ∧ 6 ≤ wo then
    forLoop (wo - 3) wo 1 (fun i o => ppg_border_pixel inp wi hi filters j i o)
      (forLoop 0 3 1 (fun i o => ppg_border_pixel inp wi hi filters j i o) o)
  else forLoop 0 wo 1 (fun i o => ppg_border_pixel inp wi hi filters j i o) o

/-- A 9x9 GRBG raw buffer with samples in [0, 1]: every green holds 1 except the green at
the centre `(4, 4)`, which holds 0; every red and blue holds 0. -/
def holeRaw : Raw :=
  fun r c => if (r + c) % 2 = 0 then (if r = 4 ∧ c = 4 then 0 else 1) else 0

/-- Closed form of a row of the X-Trans border loop: rows `1 <= row < ho-1` of a buffer at
least 2 wide visit the columns `0` and `wo-1`, every other row visits every column. -/
def xtrans_border_row (inp : Raw) (xtrans : Int → Int → Nat) (ix iy : Int)
    (wo ho wi hi row : Nat) (o : Img) : Img :=
  if (1 ≤ row ∧ row < ho - 1) ∧ 2 ≤ wo then
    xtrans_border_pixel inp xtrans ix iy wi hi row (wo - 1)
      (xtrans_border_pixel inp xtrans ix iy wi hi row 0 o)
  else forLoop 0 wo 1 (fun col o => xtrans_border_pixel inp xtrans ix iy wi hi row col o) o

/-- A 6x6 table of the colours 0, 1, 2 in which every 3x3 neighbourhood, taken cyclically,
contains all three colours. -/
def XtransComplete (xtrans : Int → Int → Nat) : Prop :=
  ∀ r : Fin 6, ∀ c : Fin 6, xtrans (r.val : Int) (c.val : Int) < 3 ∧
    ∀ ch : Fin 3, ∃ p ∈ offsets3,
      xtrans (((r.val : Int) + p.1) % 6) (((c.val : Int) + p.2) % 6) = ch.val

instance (xtrans : Int → Int → Nat) : Decidable (XtransComplete xtrans) := by
  unfold XtransComplete
  infer_instance

/-- The X-Trans layout of the Fuji sensors (0 = red, 1 = green, 2 = blue), indices taken
modulo 6. -/
def xtransStd : Int → Int → Nat := fun r c =>
  (([[1, 2, 1, 1, 0, 1],
     [0, 1, 0, 2, 1, 2],
     [1, 2, 1, 1, 0, 1],
     [1, 0, 1, 1, 2, 1],
     [2, 1, 2, 0, 1, 0],
     [1, 0, 1, 1, 2, 1]] : List (List Nat)).getD (r % 6).toNat []).getD (c % 6).toNat 0

/-! ## Kernel order, ROI and parameters -/

/-- Rank of a demosaicing kernel in the orders PPG < AMAZE (Bayer) and
LINEAR < VNG < MARKESTEIJN_1 < MARKESTEIJN_3 (X-Trans, Markesteijn ranked by its number of
passes); `none` for a call that is not a demosaicing kernel. -/
def kernel_rank : Call → Option Nat
  | Call.ppg => some 0
  | Call.amaze => some 1
  | Call.xtrans_lin => some 0
  | Call.xtrans_vng => some 1
  | Call.xtrans_markesteijn passes => some (if passes ≤ 1 then 2 else 3)
  | _ => none

/-- Rank of the kernel that a run of `process` calls, 0 when it calls none (the half-size
and third-size branch). -/
def dispatch_rank (d : Dispatch) : Nat :=
  ((d.calls.filterMap kernel_rank).head?).getD 0

/-- The methods of a CFA kind: PPG and AMAZE for Bayer, the four X-Trans methods for
`filters = 9`. -/
def method_of_kind (filters : Nat) (m : Int) : Prop :=
  if filters = 9 then
    m = DT_IOP_DEMOSAIC_LINEAR ∨ m = DT_IOP_DEMOSAIC_VNG ∨ m = DT_IOP_DEMOSAIC_MARKESTEIJN ∨
      m = DT_IOP_DEMOSAIC_MARKESTEIJN_3
  else m = DT_IOP_DEMOSAIC_PPG ∨ m = DT_IOP_DEMOSAIC_AMAZE

instance (filters : Nat) (m : Int) : Decidable (method_of_kind filters m) := by
  unfold method_of_kind
  infer_instance

/-- The fields of `dt_iop_roi_t`. -/
structure Roi where
  /-- Field `x`. -/
  x : Int
  /-- Field `y`. -/
  y : Int
  /-- Field `width`. -/
  width : Int
  /-- Field `height`. -/
  height : Int
  /-- Field `scale`. -/
  scale : ℚ

/-- Conversion of a float quotient to `int`: the fraction is dropped (rounding to zero). -/
def truncf (q : ℚ) : Int := if 0 ≤ q then Int.floor q else Int.ceil q

/-- The compound assignment `n /= scale` of an `int` field by a `float`: the field is converted
to `float`, divided in `float` and the quotient converted back to `int`. -/
def divScale (n : Int) (scale : ℚ) : Int := truncf (f32 (f32 (n : ℚ) / scale))

/-- Function `modify_roi_in(self, piece, roi_out, roi_in)`: the contents of `*roi_in` on
return; `filters` is `data->filters`, `image_width` and `image_height` are
`piece->pipe->image.width` and `.height`.  The quotient `1.0f/roi_out->scale` and the
conversion of the `int` difference to `float` for the comparison are rounded. -/
def modify_roi_in (filters : Nat) (image_width image_height : Int) (roi_out : Roi) : Roi :=
  let x := divScale roi_out.x roi_out.scale
  let y := divScale roi_out.y roi_out.scale
  let width := divScale roi_out.width roi_out.scale
  let height := divScale roi_out.height roi_out.scale
  let x2 := if filters ≠ 9 then max 0 (Int.land x (~~~(1 : Int))) else max 0 (x - x.tmod 3)
  let y2 := if filters ≠ 9 then max 0 (Int.land y (~~~(1 : Int))) else max 0 (y - y.tmod 3)
  let lim : ℚ := max ((Int.ceil (f32 (1 / roi_out.scale)) : Int) : ℚ) 10
  let width2 := if f32 ((|image_width - width| : Int) : ℚ) < lim then image_width else width
  let height2 := if f32 ((|image_height - height| : Int) : ℚ) < lim then image_height else height
  { x := x2, y := y2, width := width2, height := height2, scale := 1 }

/-- The fields of `dt_iop_demosaic_params_t`. -/
structure dt_iop_demosaic_params_t where
  /-- Field `green_eq`. -/
  green_eq : Nat
  /-- Field `median_thrs`. -/
  median_thrs : ℚ
  /-- Field `color_smoothing`. -/
  color_smoothing : Nat
  /-- Field `demosaicing_method`. -/
  demosaicing_method : Nat
  /-- Field `yet_unused_data_specific_to_demosaicing_method`. -/
  yet_unused_data_specific_to_demosaicing_method : Nat
  deriving DecidableEq

/-- Function `legacy_params(self, old_params, old_version, new_params, new_version)`: the
return value and the contents of `*new_params` on return. -/
def legacy_params (old_params : dt_iop_demosaic_params_t) (old_version : Int)
    (new_params : dt_iop_demosaic_params_t) (new_version : Int) :
    Int × dt_iop_demosaic_params_t :=
  if old_version = 2 ∧ new_version = 3 then
    (0, { new_params with
          green_eq := old_params.green_eq
          median_thrs := old_params.median_thrs
          color_smoothing := 0
          demosaicing_method := 0
          yet_unused_data_specific_to_demosaicing_method := 0 })
  else (1, new_params)

/-- A dispatcher input: an X-Trans image on the export pipeline at scale 1 with full quality
and method 0. -/
def exportXtransInput : ProcessInput :=
  { pipe := PipeType.export, qual := 2, scale := 1, filters := 9, demosaicing_method := 0,
    green_eq := 0, median_thrs := 0, color_smoothing := 0 }

/-! ## Border rule and the Markesteijn halo -/

/-- The border rule in the words of the specification: the arithmetic mean of the samples of
the positions of `nbrs` whose colour is `c`. -/
def neighbourMean {α : Type} (sample : α → ℚ) (colour : α → Nat) (nbrs : List α) (c : Nat) : ℚ :=
  ((nbrs.filter (fun p => colour p = c)).map sample).sum
    / ((nbrs.filter (fun p => colour p = c)).length : ℚ)

/-- The border rule with its fallback: the mean of the neighbours of colour `c` for a colour
other than the pixel's own that has at least one neighbour, else the sample of the pixel. -/
def borderRule {α : Type} (sample : α → ℚ) (colour : α → Nat) (nbrs : List α) (f : Nat)
    (own : ℚ) (c : Nat) : ℚ :=
  if c ≠ f ∧ 0 < (nbrs.filter (fun p => colour p = c)).length
  then neighbourMean sample colour nbrs c else own

/-- Macro `TRANSLATE(n,size)` of `xtrans_markesteijn_interpolate`. -/
def TRANSLATE (n size : Int) : Int :=
  if n < 6 then 6 - n else if n ≥ size - 6 then 2 * size - n - 20 else n - 6

/-- The read `in[roi_in->width*yy + xx]` at a row and a column computed as `int`s; both are
inside the buffer when the padded sizes are at least 20. -/
def rawAt (inp : Raw) (p : Int × Int) : ℚ := inp p.1.toNat p.2.toNat

/-- One step `sum[f] += in[yy][xx]; count[f]++` of the halo scan of
`xtrans_markesteijn_interpolate`, with `f = fcol(yy+yoff, xx+xoff)`, at the mirrored position
`p = (yy, xx)`; the state is the pair `(sum, count)` (at most nine increments, so the
`uint8_t` counts do not wrap). -/
def halo_sum_step (inp : Raw) (xtrans : Int → Int → Nat) (xoff yoff : Int)
    (s : (Nat → ℚ) × (Nat → Nat)) (p : Int × Int) : (Nat → ℚ) × (Nat → Nat) :=
  let f := fcol xtrans (p.1 + yoff) (p.2 + xoff)
  (fun n => if n = f then s.1 n + rawAt inp p else s.1 n,
   fun n => if n = f then s.2 n + 1 else s.2 n)

/-- The mirrored positions `(yy, xx) = (TRANSLATE(y,height), TRANSLATE(x,width))` of
`for (y = row-1; y <= row+1; y++) for (x = col-1; x <= col+1; x++)`. -/
def halo_nbrs (width height row col : Int) : List (Int × Int) :=
  offsets3.map (fun p => (TRANSLATE (row + p.1) height, TRANSLATE (col + p.2) width))

/-- Value stored in `image[row*width+col][c]` by the first loop of
`xtrans_markesteijn_interpolate`; `width` and `height` are the padded sizes. -/
def markesteijn_image_val (inp : Raw) (xtrans : Int → Int → Nat) (xoff yoff : Int)
    (width height : Int) (row col : Nat) (c : Nat) : ℚ :=
  if (col : Int) ≥ 6 ∧ (row : Int) ≥ 6 ∧ (col : Int) < width - 6 ∧ (row : Int) < height - 6 then
    (if c = fcol xtrans ((row : Int) - 6 + yoff) ((col : Int) - 6 + xoff)
      then inp (row - 6) (col - 6) else 0)
  else
    let s := (halo_nbrs width height row col).foldl (halo_sum_step inp xtrans xoff yoff)
      (fun _ => 0, fun _ => 0)
    let cx := TRANSLATE col width
    let cy := TRANSLATE row height
    let f := fcol xtrans (cy + yoff) (cx + xoff)
    if c ≠ f ∧ s.2 c ≠ 0 then s.1 c / (s.2 c : ℚ) else rawAt inp (cy, cx)

/-- The first loop of `xtrans_markesteijn_interpolate`: the contents of the 4-colour buffer
`image` with its 6-pixel halo, for an output region of `wo` by `ho` pixels. -/
def markesteijn_image (image : Img) (inp : Raw) (xtrans : Int → Int → Nat) (xoff yoff : Int)
    (wo ho : Nat) : Img :=
  forLoop 0 (ho + 12) 1 (fun row im =>
    forLoop 0 (wo + 12) 1 (fun col im =>
      forLoop 0 3 1 (fun c im =>
        im.set row col c
          (markesteijn_image_val inp xtrans xoff yoff ((wo : Int) + 12) ((ho : Int) + 12)
            row col c)) im) im) image

/-! ## VNG interpolation -/

/-- Modelled from the spec: the macro `CLAMPS(x, 0, 1)` behind `CLIPF`, defined in the
darktable headers and not in `demosaic.c`; the specification has it clamp to [0, 1]. -/
def CLIPF (x : ℚ) : ℚ := if x > 0 then (if x < 1 then x else 1) else 0

/-- The table `terms[]` of `xtrans_vng_interpolate`, one tuple
`(y1, x1, y2, x2, weight, grads)` per term; `grads` is the byte whose bits 0..7 are tested
by `grads & 1<<g`. -/
def vng_terms : List (Int × Int × Int × Int × Nat × Nat) :=
  [
     (-2, -2, 0, -1, 1, 0x01), (-2, -2, 0, 0, 2, 0x01), (-2, -1, -1, 0, 1, 0x01),
     (-2, -1, 0, -1, 1, 0x02), (-2, -1, 0, 0, 1, 0x03), (-2, -1, 0, 1, 2, 0x01),
     (-2, 0, 0, -1, 1, 0x06), (-2, 0, 0, 0, 2, 0x02), (-2, 0, 0, 1, 1, 0x03),
     (-2, 1, -1, 0, 1, 0x04), (-2, 1, 0, -1, 2, 0x04), (-2, 1, 0, 0, 1, 0x06),
     (-2, 1, 0, 1, 1, 0x02), (-2, 2, 0, 0, 2, 0x04), (-2, 2, 0, 1, 1, 0x04),
     (-1, -2, -1, 0, 1, 0x80), (-1, -2, 0, -1, 1, 0x01), (-1, -2, 1, -1, 1, 0x01),
     (-1, -2, 1, 0, 2, 0x01), (-1, -1, -1, 1, 1, 0x88), (-1, -1, 1, -2, 1, 0x40),
     (-1, -1, 1, -1, 1, 0x22), (-1, -1, 1, 0, 1, 0x33), (-1, -1, 1, 1, 2, 0x11),
     (-1, 0, -1, 2, 1, 0x08), (-1, 0, 0, -1, 1, 0x44), (-1, 0, 0, 1, 1, 0x11),
     (-1, 0, 1, -2, 2, 0x40), (-1, 0, 1, -1, 1, 0x66), (-1, 0, 1, 0, 2, 0x22),
     (-1, 0, 1, 1, 1, 0x33), (-1, 0, 1, 2, 2, 0x10), (-1, 1, 1, -1, 2, 0x44),
     (-1, 1, 1, 0, 1, 0x66), (-1, 1, 1, 1, 1, 0x22), (-1, 1, 1, 2, 1, 0x10),
     (-1, 2, 0, 1, 1, 0x04), (-1, 2, 1, 0, 2, 0x04), (-1, 2, 1, 1, 1, 0x04),
     (0, -2, 0, 0, 2, 0x80), (0, -1, 0, 1, 2, 0x88), (0, -1, 1, -2, 1, 0x40),
     (0, -1, 1, 0, 1, 0x11), (0, -1, 2, -2, 1, 0x40), (0, -1, 2, -1, 1, 0x20),
     (0, -1, 2, 0, 1, 0x30), (0, -1, 2, 1, 2, 0x10), (0, 0, 0, 2, 2, 0x08),
     (0, 0, 2, -2, 2, 0x40), (0, 0, 2, -1, 1, 0x60), (0, 0, 2, 0, 2, 0x20),
     (0, 0, 2, 1, 1, 0x30), (0, 0, 2, 2, 2, 0x10), (0, 1, 1, 0, 1, 0x44),
     (0, 1, 1, 2, 1, 0x10), (0, 1, 2, -1, 2, 0x40), (0, 1, 2, 0, 1, 0x60),
     (0, 1, 2, 1, 1, 0x20), (0, 1, 2, 2, 1, 0x10), (1, -2, 1, 0, 1, 0x80),
     (1, -1, 1, 1, 1, 0x88), (1, 0, 1, 2, 1, 0x08), (1, 0, 2, -1, 1, 0x40),
     (1, 0, 2, 1, 1, 0x10)
  ]

/-- The table `chood[]` of `xtrans_vng_interpolate`, one pair `(y, x)` per direction. -/
def vng_chood : List (Int × Int) :=
  [(-1, -1), (-1, 0), (-1, 1), (0, 1), (1, 1), (1, 0), (1, -1), (0, -1)]

/-- One gradient record of `code[row][col]`: the two pixels compared, as displacements with
their channel `color`, the weight, and the directions `g` with `grads & 1<<g`. -/
structure VngGrad where
  /-- Displacement of `ip[0] = (y1*width + x1)*4 + color`. -/
  y1 : Int
  /-- Displacement of `ip[0]`, column part. -/
  x1 : Int
  /-- Displacement of `ip[1] = (y2*width + x2)*4 + color`. -/
  y2 : Int
  /-- Displacement of `ip[1]`, column part. -/
  x2 : Int
  /-- Channel read at both pixels. -/
  color : Nat
  /-- Field `ip[2]`. -/
  weight : Nat
  /-- The directions listed after the weight, up to the `-1`. -/
  dirs : List Nat

/-- The gradient records of `code[row][col]`, in the order of `terms[]`. -/
def vng_grads (xtrans : Int → Int → Nat) (row col : Nat) : List VngGrad :=
  vng_terms.filterMap (fun t =>
    let color := fcol xtrans ((row : Int) + t.1) ((col : Int) + t.2.1)
    if fcol xtrans ((row : Int) + t.2.2.1) ((col : Int) + t.2.2.2.1) ≠ color then none
    else
      let diag : Int :=
        if fcol xtrans (row : Int) ((col : Int) + 1) = color ∧
          fcol xtrans ((row : Int) + 1) (col : Int) = color then 2 else 1
      if |t.1 - t.2.2.1| = diag ∧ |t.2.1 - t.2.2.2.1| = diag then none
      else some
        { y1 := t.1, x1 := t.2.1, y2 := t.2.2.1, x2 := t.2.2.2.1, color := color,
          weight := t.2.2.2.2.1,
          dirs := (List.range 8).filter (fun g => t.2.2.2.2.2 &&& (1 <<< g) ≠ 0) })

/-- The eight neighbour records of `code[row][col]`: the displacement `(y, x)` of
`ip[0] = (y*width + x) * 4`, and whether `ip[1] = (y*width + x) * 8 + color` is stored (the
pixel two steps away in the same direction, channel `color`) or 0.  In a buffer at least 2
wide a stored `ip[1]` is not 0. -/
def vng_nbrs (xtrans : Int → Int → Nat) (row col : Nat) : List (Int × Int × Bool) :=
  vng_chood.map (fun p =>
    let color := fcol xtrans (row : Int) (col : Int)
    (p.1, p.2,
      decide (fcol xtrans ((row : Int) + p.1) ((col : Int) + p.2) ≠ color ∧
        fcol xtrans ((row : Int) + p.1 * 2) ((col : Int) + p.2 * 2) = color)))

/-- The read `pix[(y*width + x)*4 + c]` of the image at a displacement from `(row, col)`. -/
def pixAt (o : Img) (row col : Nat) (y x : Int) (c : Nat) : ℚ :=
  o ((row : Int) + y).toNat ((col : Int) + x).toNat c

/-- The array `gval[8]` after the gradient loop at `(row, col)`. -/
def vng_gval (o : Img) (xtrans : Int → Int → Nat) (row col : Nat) : Nat → ℚ :=
  (vng_grads xtrans (row % 6) (col % 6)).foldl (fun gval t =>
    let diff := |pixAt o row col t.y1 t.x1 t.color - pixAt o row col t.y2 t.x2 t.color|
      * (t.weight : ℚ)
    t.dirs.foldl (fun gv g => fun n => if n = g then gv n + diff else gv n) gval)
    (fun _ => 0)

/-- The pair `(gmin, gmax)` of `for (g=1; g < 8; g++)`. -/
def vng_minmax (gval : Nat → ℚ) : ℚ × ℚ :=
  forLoop 1 8 1 (fun g m =>
    let gmin := if m.1 > gval g then gval g else m.1
    let gmax := if m.2 < gval g then gval g else m.2
    (gmin, gmax)) (gval 0, gval 0)

/-- The pair `(sum, num)` after the loop "Average the neighbors" at `(row, col)`. -/
def vng_average (o : Img) (xtrans : Int → Int → Nat) (row col : Nat) (gval : Nat → ℚ)
    (thold : ℚ) : (Nat → ℚ) × Nat :=
  let color := fcol xtrans (row : Int) (col : Int)
  let nbrs := vng_nbrs xtrans (row % 6) (col % 6)
  forLoop 0 8 1 (fun g s =>
    let nb := nbrs.getD g (0, 0, false)
    if gval g ≤ thold then
      (fun c => if c < 3 then
          (if c = color ∧ nb.2.2 = true
            then s.1 c + (o row col c + pixAt o row col (nb.1 * 2) (nb.2.1 * 2) color) * (1 / 2)
            else s.1 c + pixAt o row col nb.1 nb.2.1 c)
        else s.1 c,
       s.2 + 1)
    else s) (fun _ => 0, 0)

/-- The four floats of `brow[2][col]` after the body of the column loop at `(row, col)`;
`old` is their previous content. -/
def vng_pixel (o : Img) (xtrans : Int → Int → Nat) (row col : Nat) (old : Nat → ℚ) :
    Nat → ℚ :=
  let gval := vng_gval o xtrans row col
  let m := vng_minmax gval
  if m.2 = 0 then fun c => if c < 4 then o row col c else old c
  else
    let thold := m.1 + m.2 * (1 / 2)
    let color := fcol xtrans (row : Int) (col : Int)
    let s := vng_average o xtrans row col gval thold
    fun c => if c < 3 then
        CLIPF (if c ≠ color then o row col color + (s.1 c - s.1 color) / (s.2 : ℚ)
          else o row col color)
      else old c

/-- State of the row loop of `xtrans_vng_interpolate`: the image, the pointers `brow[0..3]`
as numbers of rows of the scratch buffer `brow[4]`, and the content of that buffer. -/
structure VngState where
  /-- The image `out`. -/
  out : Img
  /-- The pointers `brow[0..3]`. -/
  brow : Nat → Nat
  /-- The content of the scratch buffer, by row, column and channel. -/
  buf : Nat → Nat → Nat → ℚ

/-- The call `memcpy (out + 4*(dst*width+2), src+2, (width-4)*4*sizeof *out)`. -/
def vng_copy_row (o : Img) (dst : Nat) (src : Nat → Nat → ℚ) (width : Nat) : Img :=
  fun r k c => if r = dst ∧ 2 ≤ k ∧ k < width - 2 ∧ c < 4 then src k c else o r k c

/-- One iteration of the row loop of `xtrans_vng_interpolate`: the column loop fills
`brow[2]`, the row `row-2` is written from `brow[0]` when `row > 3`, the pointers rotate. -/
def vng_row (xtrans : Int → Int → Nat) (width : Nat) (row : Nat) (st : VngState) : VngState :=
  let buf := forLoop 2 (width - 2) 1 (fun col buf =>
    fun r k c => if r = st.brow 2 ∧ k = col
      then vng_pixel st.out xtrans row col (buf r k) c else buf r k c) st.buf
  let out := if row > 3 then vng_copy_row st.out (row - 2) (buf (st.brow 0)) width else st.out
  let brow := forLoop 0 4 1 (fun g b =>
    fun n => if n = (g + 3) % 4 then b g else b n) st.brow
  { out := out, brow := brow, buf := buf }

/-- Function `xtrans_vng_interpolate(out, in, roi_out, roi_in, xtrans)`: the contents of
`out` on return, for an output region of at least 4 by 4 pixels and successful allocations
(below that size the final `memcpy` calls leave the buffer).  `scratch` is the content of
the freshly allocated buffer `brow[4]`, which the function does not initialise; the pointer
`brow[3]` is assigned before it is read. -/
def xtrans_vng_interpolate (fuel : Nat) (out : Img) (scratch : Nat → Nat → Nat → ℚ)
    (inp : Raw) (wo ho wi hi : Nat) (ix iy : Int) (xtrans : Int → Int → Nat) : Option Img :=
  match xtrans_lin_interpolate fuel out inp wo ho wi hi ix iy xtrans with
  | none => none
  | some o1 =>
    let st := forLoop 2 (ho - 2) 1 (vng_row xtrans wo)
      { out := o1, brow := fun n => if n < 3 then n else 0, buf := scratch }
    some (vng_copy_row (vng_copy_row st.out (ho - 4) (st.buf (st.brow 0)) wo)
      (ho - 3) (st.buf (st.brow 1)) wo)

/-- Invariant of the row loop of `xtrans_vng_interpolate` after `m` iterations, for samples
in [0, 1]: the colour channels of the image lie in [0, 1], the pointers `brow[0..2]` are
distinct, `brow[1]` holds a computed row once one iteration is done and `brow[0]` once two
are. -/
def VngInv (wo ho m : Nat) (st : VngState) : Prop :=
  (∀ j i ch, j < ho → i < wo → ch < 3 → 0 ≤ st.out j i ch ∧ st.out j i ch ≤ 1) ∧
  (st.brow 0 ≠ st.brow 1 ∧ st.brow 0 ≠ st.brow 2 ∧ st.brow 1 ≠ st.brow 2) ∧
  (1 ≤ m → ∀ k ch, 2 ≤ k → k < wo - 2 → ch < 3 →
    0 ≤ st.buf (st.brow 1) k ch ∧ st.buf (st.brow 1) k ch ≤ 1) ∧
  (2 ≤ m → ∀ k ch, 2 ≤ k → k < wo - 2 → ch < 3 →
    0 ≤ st.buf (st.brow 0) k ch ∧ st.buf (st.brow 0) k ch ≤ 1)

/-! ## Tiling -/

/-- The fields of `dt_develop_tiling_t` that `tiling_callback` sets. -/
structure Tiling where
  /-- Field `factor`. -/
  factor : ℚ
  /-- Field `maxbuf`. -/
  maxbuf : ℚ
  /-- Field `overhead`. -/
  overhead : Nat
  /-- Field `overlap`. -/
  overlap : Nat
  /-- Field `xalign`. -/
  xalign : Nat
  /-- Field `yalign`. -/
  yalign : Nat

/-- Function `tiling_callback(self, piece, roi_in, roi_out, tiling)`: the contents of
`*tiling` on return.  `p` carries `piece->data`, `piece->pipe->type` and the result of
`get_quality()`; the scale read is `roi_out->scale`. -/
def tiling_callback (p : ProcessInput) (roi_in roi_out : Roi) : Tiling :=
  let ioratio : ℚ := (roi_out.width : ℚ) * (roi_out.height : ℚ)
    / ((roi_in.width : ℚ) * (roi_in.height : ℚ))
  let smooth : ℚ := if p.color_smoothing ≠ 0 then ioratio else 0
  let factor : ℚ := 1 + ioratio
  let factor2 : ℚ :=
    if roi_out.scale > 99999 / 100000 ∧ roi_out.scale < 100001 / 100000 then
      factor + max (1 / 4) smooth
    else if roi_out.scale > 1 / 2 ∨ (p.pipe = PipeType.full ∧ p.qual > 0)
        ∨ p.pipe = PipeType.export then
      factor + max (5 / 4) smooth
    else factor + max (1 / 4) smooth
  { factor := factor2, maxbuf := 1, overhead := 0, overlap := 5, xalign := 2, yalign := 2 }

/-! ## The PPG and green-equilibration rules in the words of the specification -/

/-- The clamp `clamp(v, m, M)` of the specification. -/
def clampTo (v m M : ℚ) : ℚ := if v < m then m else if M < v then M else v

/-- The candidate `guess_x = (pxm + pc + pxM)*2 - pxm2 - pxM2` of the specification. -/
def ppg_guess_x (inp : Raw) (j i : Nat) : ℚ :=
  (inp j (i - 1) + inp j i + inp j (i + 1)) * 2 - inp j (i - 2) - inp j (i + 2)

/-- The candidate `guess_y = (pym + pc + pyM)*2 - pym2 - pyM2` of the specification. -/
def ppg_guess_y (inp : Raw) (j i : Nat) : ℚ :=
  (inp (j - 1) i + inp j i + inp (j + 1) i) * 2 - inp (j - 2) i - inp (j + 2) i

/-- The edge score
`diff_x = 3(|pxm2-pc| + |pxM2-pc| + |pxm-pxM|) + 2(|pxM3-pxM| + |pxm3-pxm|)` of the
specification. -/
def ppg_diff_x (inp : Raw) (j i : Nat) : ℚ :=
  3 * (|inp j (i - 2) - inp j i| + |inp j (i + 2) - inp j i| + |inp j (i - 1) - inp j (i + 1)|)
    + 2 * (|inp j (i + 3) - inp j (i + 1)| + |inp j (i - 3) - inp j (i - 1)|)

/-- The edge score `diff_y` of the specification, `diff_x` along the column. -/
def ppg_diff_y (inp : Raw) (j i : Nat) : ℚ :=
  3 * (|inp (j - 2) i - inp j i| + |inp (j + 2) i - inp j i| + |inp (j - 1) i - inp (j + 1) i|)
    + 2 * (|inp (j + 3) i - inp (j + 1) i| + |inp (j - 3) i - inp (j - 1) i|)

/-- The green of the specification at a non-green site: the axis is `y` when
`diff_x > diff_y` and `x` otherwise, and the value is `clamp(guess/4, m, M)` with `m, M` the
min and max of the two immediate neighbours on that axis. -/
def ppg_green_rule (inp : Raw) (j i : Nat) : ℚ :=
  if ppg_diff_x inp j i > ppg_diff_y inp j i then
    clampTo (ppg_guess_y inp j i / 4) (min (inp (j - 1) i) (inp (j + 1) i))
      (max (inp (j - 1) i) (inp (j + 1) i))
  else
    clampTo (ppg_guess_x inp j i / 4) (min (inp j (i - 1)) (inp j (i + 1)))
      (max (inp j (i - 1)) (inp j (i + 1)))

/-- A raw buffer that is constant along each column, with a vertical edge between the
columns 7 and 8: 1/10 to the left, 9/10 to the right. -/
def edgeRaw : Raw := fun _ c => if c < 8 then 1 / 10 else 9 / 10

/-- A raw buffer with the `float` 0.95f = 15938355/16777216 at `(4, 4)`, 3/8 on the other
sites of the odd rows and 1/4 on the other sites of the even rows. -/
def brightRaw : Raw := fun r c =>
  if r = 4 ∧ c = 4 then 15938355 / 16777216 else if r % 2 = 1 then 3 / 8 else 1 / 4

/-- A constant image with `R = 3/4`, `G = 1/2` and `B = 1/4` (and 0 in the fourth channel) at
every pixel. -/
def warmImg : Img := fun _ _ c => if c = 0 then 3 / 4 else if c = 1 then 1 / 2
  else if c = 2 then 1 / 4 else 0

/-- A raw buffer: the sample 1 at `(3, 3)` and the `float` 0.1f = 13421773/134217728
everywhere else. -/
def dimSpikeRaw : Raw := fun r c => if r = 3 ∧ c = 3 then 1 else 13421773 / 134217728

/-- A raw buffer for the 4x4 GRBG layout: 1/2 on the even rows, which hold the sampled
first-green sites `(0, 0)` and `(2, 0)`, and the `float`s 0.8f = 13421773/16777216 on row 1
and 0.9f = 7549747/8388608 on row 3, which hold the sampled second-green sites `(1, 1)` and
`(3, 1)`. -/
def favgRaw : Raw :=
  fun r _ => if r = 1 then 13421773 / 16777216 else if r = 3 then 7549747 / 8388608 else 1 / 2

/-- The mean of a quadruple. -/
def quadMean (a b c d : ℚ) : ℚ := (a + b + c + d) / 4

/-- The sum of the six absolute pairwise differences of a quadruple, divided by 6. -/
def quadSpread (a b c d : ℚ) : ℚ :=
  (|a - b| + |a - c| + |a - d| + |b - c| + |b - d| + |c - d|) / 6

/-- The rule of local green equilibration in the words of the specification: with `m1` the
mean of the four diagonal neighbours, `m2` the mean of the four neighbours at distance 2
along the axes and `c1`, `c2` the spreads of the two quadruples, the sample times `m1 / m2`
if `m2 > 0`, `m1 / m2 < 2`, the sample is below 0.95 and both spreads are below `thr`; the
sample otherwise.  The bound 0.95 is the `float` literal `0.95f` = 15938355/16777216. -/
def lavg_rule (inp : Raw) (j i : Nat) (thr : ℚ) : ℚ :=
  let m1 := quadMean (inp (j - 1) (i - 1)) (inp (j - 1) (i + 1)) (inp (j + 1) (i - 1))
    (inp (j + 1) (i + 1))
  let m2 := quadMean (inp (j - 2) i) (inp (j + 2) i) (inp j (i - 2)) (inp j (i + 2))
  let c1 := quadSpread (inp (j - 1) (i - 1)) (inp (j - 1) (i + 1)) (inp (j + 1) (i - 1))
    (inp (j + 1) (i + 1))
  let c2 := quadSpread (inp (j - 2) i) (inp (j + 2) i) (inp j (i - 2)) (inp j (i + 2))
  if m2 > 0 ∧ m1 / m2 < 2 ∧ inp j i < 15938355 / 16777216 ∧ c1 < thr ∧ c2 < thr
  then inp j i * m1 / m2 else inp j i

/-- The four standard Bayer descriptors: RGGB, BGGR, GRBG, GBRG. -/
def standardBayer : List Nat := [0x94949494, 0x16161616, 0x61616161, 0x49494949]

/-! ## The X-Trans linear rule in the words of the specification -/

/-- The eight neighbours of a pixel as displacements `(y, x)`. -/
def offsets8 : List (Int × Int) :=
  [(-1, -1), (-1, 0), (-1, 1), (0, -1), (0, 1), (1, -1), (1, 0), (1, 1)]

/-- The weight of a neighbour: 2 for the four edge neighbours, 1 for the four corner
neighbours. -/
def lin_weight (p : Int × Int) : Nat := if p.1 = 0 ∨ p.2 = 0 then 2 else 1

/-- The sample of the raw buffer at a displacement from `(row, col)`. -/
def rawNbr (inp : Raw) (row col : Nat) (p : Int × Int) : ℚ :=
  inp ((row : Int) + p.1).toNat ((col : Int) + p.2).toNat

/-- The neighbours of `(row, col)` whose CFA colour, with the ROI offset, is `c`. -/
def lin_contrib (xtrans : Int → Int → Nat) (ix iy : Int) (row col c : Nat) :
    List (Int × Int) :=
  offsets8.filter (fun p => fcol xtrans ((row : Int) + p.1 + iy) ((col : Int) + p.2 + ix) = c)

/-- The weighted mean of the specification: the samples of colour `c` among the eight
neighbours, weighted 2 (edge) or 1 (corner), divided by the total weight. -/
def lin_rule (inp : Raw) (xtrans : Int → Int → Nat) (ix iy : Int) (row col c : Nat) : ℚ :=
  ((lin_contrib xtrans ix iy row col c).map
      (fun p => rawNbr inp row col p * (lin_weight p : ℚ))).sum
    / ((((lin_contrib xtrans ix iy row col c).map lin_weight).sum : Nat) : ℚ)

/-! ## The pre-median in the words of the specification -/

/-- The samples of the nine-sample neighbourhood of `(row, col)` that are included:
`|sample - centre| < threshold`. -/
def included_samples (inp : Raw) (row col : Nat) (threshold : ℚ) : List ℚ :=
  ((diamond row col).map (fun p => inp p.1 p.2)).filter
    (fun v => decide (|v - inp row col| < threshold))

/-- The explicit formulation of the median: the element of index `(cnt - 1) / 2` of the
ascending sort of the included samples alone, `cnt` being their number. -/
def explicit_median (inp : Raw) (row col : Nat) (threshold : ℚ) : Option ℚ :=
  (List.insertionSort (fun a b => a ≤ b) (included_samples inp row col threshold))[
    ((included_samples inp row col threshold).length - 1) / 2]?

/-- A raw buffer with two samples of 100, at `(4, 5)` and `(4, 7)`, and 0 elsewhere. -/
def pairRaw : Raw := fun r c => if r = 4 ∧ (c = 5 ∨ c = 7) then 100 else 0

/-! ## Markesteijn tiles and the homogeneity vote -/

/-- Macro `TS`, the tile size. -/
def TS : Nat := 256

/-- The bound `mrow` of the averaging loop of the tile that starts at row `top` of a padded
image of `size` rows: `mrow = MIN(top+TS, size-3)`, then `mrow -= top`, then
`if (size-top < TS+4) mrow = size-top+2`.  The bound `mcol` is computed in the same way from
`left` and the padded width. -/
def tile_mrow (size top : Int) : Int :=
  let mrow := min (top + (TS : Int)) (size - 3)
  let mrow := mrow - top
  if size - top < (TS : Int) + 4 then size - top + 2 else mrow

/-- The rows `r = row + top` of `image` that the averaging loop
`for (row = MIN(top,8); row < mrow-8; row++)` of the tile at `top` writes. -/
def tile_writes (size top r : Int) : Prop :=
  min top 8 ≤ r - top ∧ r - top < tile_mrow size top - 8

instance (size top r : Int) : Decidable (tile_writes size top r) := by
  unfold tile_writes
  infer_instance

/-- The tile starts of `for (top = 3; top < size-19; top += TS-16)`. -/
def tile_start (size top : Nat) : Prop := Visits 3 (size - 19) (TS - 16) top

instance (size top : Nat) : Decidable (tile_start size top) := by
  unfold tile_start Visits
  infer_instance

/-- The number of directions `ndir = 4 << (passes > 1)`. -/
def markesteijn_ndir (passes : Int) : Nat := 4 <<< (if passes > 1 then 1 else 0)

/-- The suppression loop of the vote:
`for (d = 0; d < ndir-4; d++) if (hm[d] < hm[d+4]) hm[d] = 0; else if (hm[d] > hm[d+4]) hm[d+4] = 0;`. -/
def vote_suppress (ndir : Nat) (hm : Nat → Nat) : Nat → Nat :=
  forLoop 0 (ndir - 4) 1 (fun d hm =>
    if hm d < hm (d + 4) then (fun k => if k = d then 0 else hm k)
    else if hm d > hm (d + 4) then (fun k => if k = d + 4 then 0 else hm k)
    else hm) hm

/-- The threshold of the vote, an `unsigned short`: `max = hm[0]`, then
`if (max < hm[d]) max = hm[d]` for `d = 1 .. ndir-1`, then `max -= max >> 3`. -/
def vote_threshold (ndir : Nat) (hm : Nat → Nat) : Nat :=
  let max := forLoop 1 ndir 1 (fun d max => if max < hm d then hm d % 65536 else max)
    (hm 0 % 65536)
  (max - (max >>> 3)) % 65536

/-- The sums of the vote: for every direction with `hm[d] >= max`, `avg[c] += rgb[d][c]` for
`c < 3` and `avg[3] += 1`; `rgb d c` is the candidate `rgb[d][row][col][c]`. -/
def vote_avg (ndir : Nat) (hm : Nat → Nat) (max : Nat) (rgb : Nat → Nat → ℚ) : Nat → ℚ :=
  forLoop 0 ndir 1 (fun d avg =>
    if hm d ≥ max then
      (fun c => if c < 3 then avg c + rgb d c else if c = 3 then avg c + 1 else avg c)
    else avg) (fun _ => 0)

/-- The value `avg[c]/avg[3]` that the vote stores in channel `c` of the pixel, from the
5x5 homogeneity sums `hm` and the candidates `rgb`. -/
def vote_pixel (ndir : Nat) (hm : Nat → Nat) (rgb : Nat → Nat → ℚ) (c : Nat) : ℚ :=
  let hm2 := vote_suppress ndir hm
  let max := vote_threshold ndir hm2
  let avg := vote_avg ndir hm2 max rgb
  avg c / avg 3

/-- The directions the vote selects: those with `hm[d] >= max` after the suppression. -/
def vote_selected (ndir : Nat) (hm : Nat → Nat) : List Nat :=
  (List.range ndir).filter (fun d =>
    decide (vote_suppress ndir hm d ≥ vote_threshold ndir (vote_suppress ndir hm)))

/-! ## Colour smoothing in the words of the specification -/

/-- The nine values `X - G` of the 3x3 neighbourhood of `(j, i)` in the image `o`, for the
channel `c` of the colour `X`. -/
def chroma9 (o : Img) (c j i : Nat) : List ℚ :=
  [j - 1, j, j + 1].flatMap (fun r => [i - 1, i, i + 1].map (fun k => o r k c - o r k 1))

/-- The median of the nine values: the element of index 4 of their ascending sort. -/
def snapshot_median (o : Img) (c j i : Nat) : ℚ :=
  (List.insertionSort (fun a b => a ≤ b) (chroma9 o c j i)).getD 4 0

/-- The snapshot rule: `max(m + G, 0)` with `m` the median of `X - G` taken from `o`. -/
def smoothing_rule (o : Img) (c j i : Nat) : ℚ :=
  max (snapshot_median o c j i + o j i 1) 0

/-! ## The positions the PPG border loop visits -/

/-- The positions `(j, i)` at which the border loop of `demosaic_ppg` runs its body, in the
order of the run: the loops of `ppg_border` with a body that records the position. -/
def ppg_border_visits (fuel wo ho : Nat) : Option (List (Nat × Nat)) :=
  loopNOpt ho 0 (fun j l =>
    jumpLoop (ppg_jump wo ho j) true wo (fun i l => l ++ [(j, i)]) fuel 0 l) []

/-! ## Markesteijn: the hexagon table, the green bounds and the frame of the function -/

/-- Table `orth[12]` of `xtrans_markesteijn_interpolate`. -/
def orth (k : Nat) : Int := ([1, 0, 0, 1, -1, 0, 0, -1, 1, 0, 0, 1] : List Int).getD k 0

/-- Table `patt[2][16]` of `xtrans_markesteijn_interpolate`. -/
def patt (g k : Nat) : Int :=
  (([[0, 1, 0, -1, 2, 0, -1, 0, 1, 1, 1, -1, 0, 0, 0, 0],
     [0, 1, 0, -2, 1, 0, -2, 0, 1, 1, -2, -2, 1, -1, -1, 1]] : List (List Int)).getD g []).getD k 0

/-- What the loop "Map a green hexagon around each non-green pixel and vice versa" leaves:
`sgrow`, `sgcol` and the table `allhex`.  The entry `allhex[row][col][0][c] = h + v*width` is
kept as the pair `(v, h)`; `allhex[row][col][1][c] = h + v*TS` holds the same pair. -/
structure HexState where
  /-- Row of the solitary green, `sgrow`. -/
  sgrow : Nat
  /-- Column of the solitary green, `sgcol`. -/
  sgcol : Nat
  /-- The offsets `(v, h)` of `allhex[row][col][.][c]`. -/
  allhex : Nat → Nat → Nat → Int × Int

/-- One turn `d` of `for (ng=0, d=0; d < 10; d+=2)` at `(row, col)`; the state is `ng` and the
results so far. -/
def hex_step (xtrans : Int → Int → Nat) (row col d : Nat) (s : Nat × HexState) :
    Nat × HexState :=
  let g : Nat := if fcol xtrans (row : Int) (col : Int) = 1 then 1 else 0
  let ng := if fcol xtrans ((row : Int) + orth d) ((col : Int) + orth (d + 2)) = 1 then 0
    else s.1 + 1
  let st := if ng = 4 then { s.2 with sgrow := row, sgcol := col } else s.2
  let st := if ng = g + 1 then
      forLoop 0 8 1 (fun c st =>
        let v := orth d * patt g (c * 2) + orth (d + 1) * patt g (c * 2 + 1)
        let h := orth (d + 2) * patt g (c * 2) + orth (d + 3) * patt g (c * 2 + 1)
        { st with allhex := fun r k e =>
            if r = row ∧ k = col ∧ e = c ^^^ ((g * 2) &&& d) then (v, h)
            else st.allhex r k e }) st
    else st
  (ng, st)

/-- The loop that maps the hexagons; `allhex0` is the content of the uninitialised table and
`sgrow = sgcol = 0` at the start. -/
def markesteijn_hex (xtrans : Int → Int → Nat) (allhex0 : Nat → Nat → Nat → Int × Int) :
    HexState :=
  forLoop 0 3 1 (fun row st =>
    forLoop 0 3 1 (fun col st =>
      (forLoop 0 10 2 (fun d s => hex_step xtrans row col d s) (0, st)).2) st)
    { sgrow := 0, sgcol := 0, allhex := allhex0 }

/-- Constant `FLT_MAX`. -/
def FLT_MAX : ℚ := 340282346638528859811704183484516925440

/-- The variables of the loop "Set green1 and green3 to the minimum and maximum allowed
values": `row`, `col`, `min`, `max` and the buffer `image`. -/
structure MMState where
  /-- Loop variable `row`. -/
  row : Nat
  /-- Loop variable `col`. -/
  col : Nat
  /-- Variable `min`. -/
  mn : ℚ
  /-- Variable `max`. -/
  mx : ℚ
  /-- Buffer `image`. -/
  image : Img

/-- One turn of `for (col = 2; col < width-2; col++)` in the loop of the green bounds: the
body, which may move `row` and `col`, followed by `col++`.  `row >= 2 >= sgrow` throughout,
so `row - sgrow` is not negative; `pix[hex[c]]` is the pixel `(row + v, col + h)`. -/
def minmax_step (xtrans : Int → Int → Nat) (xoff yoff : Int) (width height : Nat)
    (hx : HexState) (s : MMState) : MMState :=
  if fcol xtrans (yoff + (s.row : Int)) (xoff + (s.col : Int)) = 1 then
    { s with mn := FLT_MAX, mx := 0, col := s.col + 1 }
  else
    let hex := hx.allhex (s.row % 3) (s.col % 3)
    let mm := if s.mx = 0 then
        forLoop 0 6 1 (fun c m =>
          let val := s.image ((s.row : Int) + (hex c).1).toNat ((s.col : Int) + (hex c).2).toNat 1
          (min m.1 val, max m.2 val)) (s.mn, s.mx)
      else (s.mn, s.mx)
    let image := (s.image.set s.row s.col 1 mm.1).set s.row s.col 3 mm.2
    if (s.row - hx.sgrow) % 3 = 1 then
      (if (s.row : Int) < (height : Int) - 3 then
        { row := s.row + 1, col := s.col - 1 + 1, mn := mm.1, mx := mm.2, image := image }
      else { row := s.row, col := s.col + 1, mn := mm.1, mx := mm.2, image := image })
    else if (s.row - hx.sgrow) % 3 = 2 then
      (if ((s.col : Int) + 2 < (width : Int) - 3) ∧ s.row > 2 then
        { row := s.row - 1, col := s.col + 2 + 1, mn := FLT_MAX, mx := 0, image := image }
      else { row := s.row, col := s.col + 2 + 1, mn := FLT_MAX, mx := 0, image := image })
    else { row := s.row, col := s.col + 1, mn := mm.1, mx := mm.2, image := image }

/-- A loop `while (cond) step`, run on `fuel`; `none` when the fuel runs out. -/
def whileLoop {σ : Type} (cond : σ → Bool) (step : σ → σ) : Nat → σ → Option σ
  | 0, _ => none
  | fuel + 1, s => if cond s = true then whileLoop cond step fuel (step s) else some s

/-- The loop `for (col = 2; col < width-2; col++)` of the green bounds, from the state `s`. -/
def minmax_row (xtrans : Int → Int → Nat) (xoff yoff : Int) (width height : Nat)
    (hx : HexState) (fuel : Nat) (s : MMState) : Option MMState :=
  whileLoop (fun s => decide ((s.col : Int) < (width : Int) - 2))
    (minmax_step xtrans xoff yoff width height hx) fuel s

/-- The loop `for (row = 2; row < height-2; row++)` of the green bounds, from `row` on; the
inner loop moves `row`, so the loop is run on fuel (`fuel0` for each inner loop). -/
def minmax_rows (xtrans : Int → Int → Nat) (xoff yoff : Int) (width height : Nat)
    (hx : HexState) (fuel0 : Nat) : Nat → Nat → Img → Option Img
  | 0, _, _ => none
  | fuel + 1, row, image =>
    if (row : Int) < (height : Int) - 2 then
      match minmax_row xtrans xoff yoff width height hx fuel0
          { row := row, col := 2, mn := FLT_MAX, mx := 0, image := image } with
      | none => none
      | some s => minmax_rows xtrans xoff yoff width height hx fuel0 fuel (s.row + 1) s.image
    else some image

/-- Function `xtrans_markesteijn_interpolate`: the contents of `out` on return, for an
output region of `wo` by `ho` pixels (the allocation is taken to succeed).  `image0` and
`allhex0` are the contents of the fresh buffers.  The body of the tile loops
`for (top = 3; top < height-19; top += TS-16) for (left = 3; left < width-19; left += TS-16)`
(the candidates, the homogeneity maps and the vote) enters as the function `tile`. -/
def xtrans_markesteijn_interpolate (fuel : Nat) (out image0 : Img)
    (allhex0 : Nat → Nat → Nat → Int × Int) (tile : Nat → Nat → Img → Img) (inp : Raw)
    (xtrans : Int → Int → Nat) (xoff yoff : Int) (wo ho : Nat) : Option Img :=
  let width := wo + 12
  let height := ho + 12
  let image := markesteijn_image image0 inp xtrans xoff yoff wo ho
  let hx := markesteijn_hex xtrans allhex0
  match minmax_rows xtrans xoff yoff width height hx fuel fuel 2 image with
  | none => none
  | some image =>
    let image := forLoop 3 (height - 19) (TS - 16) (fun top image =>
      forLoop 3 (width - 19) (TS - 16) (fun left image => tile top left image) image) image
    some (forLoop 0 ho 1 (fun row out =>
      forLoop 0 wo 1 (fun col out =>
        forLoop 0 3 1 (fun c out => out.set row col c (image (row + 6) (col + 6) c)) out) out)
      out)

/-- A 6x6 table with the layout the hexagon loop expects: colours 0, 1, 2, and on every row
that is not a row of solitary greens (`row - sgrow` not a multiple of 3) the pixels that are
not green are those of the columns of the solitary greens (`col - sgcol` a multiple of 3). -/
def HexLayout (xtrans : Int → Int → Nat) : Prop :=
  ∀ r : Fin 6, ∀ c : Fin 6,
    xtrans (r.val : Int) (c.val : Int) < 3 ∧
    ((r.val + 3 - (markesteijn_hex xtrans (fun _ _ _ => (0, 0))).sgrow) % 3 ≠ 0 →
      (xtrans (r.val : Int) (c.val : Int) = 1 ↔
        (c.val + 3 - (markesteijn_hex xtrans (fun _ _ _ => (0, 0))).sgcol) % 3 ≠ 0))

instance (xtrans : Int → Int → Nat) : Decidable (HexLayout xtrans) := by
  unfold HexLayout
  infer_instance

/-- What the loop of the green bounds keeps of `image`: the channels 0 and 2 of every pixel
and the channel 1 of every green pixel. -/
def MMKeep (xtrans : Int → Int → Nat) (xoff yoff : Int) (image img : Img) : Prop :=
  ∀ r k ch : Nat,
    (ch = 0 ∨ ch = 2 ∨ (ch = 1 ∧ fcol xtrans (yoff + (r : Int)) (xoff + (k : Int)) = 1)) →
      img r k ch = image r k ch

/-! ## The kernels with rounding

The definitions of this section repeat kernels of the sections above with the rounding
function `fl` applied after every floating-point operation, in the order in which the source
evaluates the expression; comparisons, `fabsf`, `fmaxf` and the exchanges of the sorting
networks are exact.  With `fl = f32` they are the `float` computations of the code, and with
the identity for `fl` they are the exact definitions above. -/

/-- A finite `float` with at most `bits` significant bits: `n * 2^e` with `|n| < 2^bits` and
`-50 <= e <= 50`.  For `bits <= 24` these are values of `float`, and sums and products of a
few of them are again values of `float` as long as their significands stay below `2^24`. -/
def OnGrid (bits : Nat) (x : ℚ) : Prop :=
  ∃ n e : Int, |n| < 2 ^ bits ∧ -50 ≤ e ∧ e ≤ 50 ∧ x = (n : ℚ) * (2 : ℚ) ^ e

/-- A multiple `n * 2^e` of the power `2^e` with `|n| < 2^bits`. -/
def OnGridAt (bits : Nat) (e : Int) (x : ℚ) : Prop :=
  ∃ n : Int, |n| < 2 ^ bits ∧ x = (n : ℚ) * (2 : ℚ) ^ e

/-- A pixel `px` (its channels) whose colour `x` and green are multiples of `2^e` with
significands below `2^20` and differ by `d`: `X - G = d`. -/
def HueAt (e : Int) (d : ℚ) (px : Nat → ℚ) (x : Nat) : Prop :=
  OnGridAt 20 e (px x) ∧ OnGridAt 20 e (px 1) ∧ px x - px 1 = d

/-- One entry of `med` in `pre_median_b`, rounded: the test rounds the difference and the
sentinel sum `64.0f + v` is rounded. -/
def medEntry_fl (fl : ℚ → ℚ) (threshold centre v : ℚ) : ℚ :=
  if |fl (v - centre)| < threshold then v else fl (64 + v)

/-- Value `pre_median_b` stores at a visited green site `(row, col)`, rounded. -/
def pre_median_site_fl (fl : ℚ → ℚ) (inp : Raw) (row col : Nat) (threshold : ℚ) : ℚ :=
  let centre := inp row col
  let vals := (diamond row col).map (fun p => inp p.1 p.2)
  let cnt := vals.countP (fun v => decide (|fl (v - centre)| < threshold))
  let entries := vals.map (medEntry_fl fl threshold centre)
  let med := runNetwork exchangeNetwork (fun k : Fin 9 => entries.getD k.val 0)
  if cnt = 1 then fl (med 4 - 64) else med (Fin.ofNat ((cnt - 1) / 2))

/-- Function `pre_median_b`, rounded: the loops of `pre_median_b` around
`pre_median_site_fl`. -/
def pre_median_b_fl (fl : ℚ → ℚ) (inp : Raw) (width height filters num_passes : Nat)
    (threshold : ℚ) : Raw :=
  forLoop 0 num_passes 1 (fun _ out =>
    forLoop 3 (height - 3) 1 (fun row out =>
      let col0 := if FC row 3 filters ≠ 1 ∧ FC row 3 filters ≠ 3 then 4 else 3
      forLoop col0 (width - 3) 2 (fun col out =>
        out.set row col (pre_median_site_fl fl inp row col threshold)) out) out) inp

/-- Function `pre_median`, rounded. -/
def pre_median_fl (fl : ℚ → ℚ) (inp : Raw) (width height filters num_passes : Nat)
    (threshold : ℚ) : Raw :=
  pre_median_b_fl fl inp width height filters num_passes threshold

/-- The nine chroma differences of `color_smoothing`, each rounded. -/
def smoothingMed_fl (fl : ℚ → ℚ) (o : Img) (j i : Nat) : Fin 9 → ℚ :=
  vec9 (fl (o (j - 1) (i - 1) 3 - o (j - 1) (i - 1) 1))
       (fl (o (j - 1) i 3 - o (j - 1) i 1))
       (fl (o (j - 1) (i + 1) 3 - o (j - 1) (i + 1) 1))
       (fl (o j (i - 1) 3 - o j (i - 1) 1))
       (fl (o j i 3 - o j i 1))
       (fl (o j (i + 1) 3 - o j (i + 1) 1))
       (fl (o (j + 1) (i - 1) 3 - o (j + 1) (i - 1) 1))
       (fl (o (j + 1) i 3 - o (j + 1) i 1))
       (fl (o (j + 1) (i + 1) 3 - o (j + 1) (i + 1) 1))

/-- One channel `c` of one pass of `color_smoothing`, rounded: the store is
`fmaxf(med[4] + outp[1], 0.0f)` with the sum rounded. -/
def color_smoothing_channel_fl (fl : ℚ → ℚ) (width height c : Nat) (out : Img) : Img :=
  let snap := forLoop 0 height 1 (fun j o =>
    forLoop 0 width 1 (fun i o => o.set j i 3 (o j i c)) o) out
  forLoop 1 (height - 1) 1 (fun j o =>
    forLoop 1 (width - 1) 1 (fun i o =>
      o.set j i c (max (fl (runNetwork medianNetwork (smoothingMed_fl fl o j i) 4 + o j i 1)) 0))
      o) snap

/-- Function `color_smoothing`, rounded. -/
def color_smoothing_fl (fl : ℚ → ℚ) (out : Img) (width height num_passes : Nat) : Img :=
  forLoop 0 num_passes 1 (fun _ o =>
    forLoop 0 3 2 (fun c o => color_smoothing_channel_fl fl width height c o) o) out

/-- The sums `(sum1, sum2)` of `green_equilibration_favg`, rounded: the sums are `double`s,
`fd` rounds to `double`. -/
def favg_sums_fl (fd : ℚ → ℚ) (inp : Raw) (width height filters x y : Nat) : ℚ × ℚ :=
  let oi := favg_oi filters x y
  let g2 := favg_g2 filters x y
  forLoop 0 (toSizeT ((height : Int) - 1)) 2 (fun j s =>
    forLoop oi (toSizeT ((width : Int) - 1 - g2)) 2 (fun i s =>
      (fd (s.1 + inp j i), fd (s.2 + inp (j + 1) ((i : Int) + g2).toNat))) s) (0, 0)

/-- Function `green_equilibration_favg`, rounded: `gr_ratio` and the quotient
`in / gr_ratio` are `double`s (`fd`), the store converts the quotient to `float` (`fs`). -/
def green_equilibration_favg_fl (fd fs : ℚ → ℚ) (inp : Raw) (width height filters x y : Nat) :
    Raw :=
  let oi := favg_oi filters x y
  let g2 := favg_g2 filters x y
  let sums := favg_sums_fl fd inp width height filters x y
  if sums.1 > 0 ∧ sums.2 > 0 then
    let gr_ratio := fd (sums.1 / sums.2)
    forLoop 0 (height - 1) 2 (fun j out =>
      forLoop oi ((width : Int) - 1 - g2).toNat 2 (fun i out =>
        out.set j i (fs (fd (inp j i / gr_ratio)))) out) inp
  else inp

/-- The mean `(a + b + c + d) / 4.0f` of `green_equilibration_lavg`, rounded. -/
def quadMean_fl (fl : ℚ → ℚ) (a b c d : ℚ) : ℚ := fl (fl (fl (fl (a + b) + c) + d) / 4)

/-- The spread `(fabsf(a-b) + fabsf(a-c) + fabsf(a-d) + fabsf(b-c) + fabsf(c-d) + fabsf(b-d))
/ 6.0f` of `green_equilibration_lavg`, rounded. -/
def quadSpread_fl (fl : ℚ → ℚ) (a b c d : ℚ) : ℚ :=
  fl (fl (fl (fl (fl (fl (|fl (a - b)| + |fl (a - c)|) + |fl (a - d)|) + |fl (b - c)|)
    + |fl (c - d)|) + |fl (b - d)|) / 6)

/-- Body of the loops of `green_equilibration_lavg` at the site `(j, i)`, rounded. -/
def lavg_site_fl (fl : ℚ → ℚ) (src out : Raw) (j i : Nat) (thr : ℚ) : Raw :=
  let maximum : ℚ := 1
  let o1_1 := src (j - 1) (i - 1)
  let o1_2 := src (j - 1) (i + 1)
  let o1_3 := src (j + 1) (i - 1)
  let o1_4 := src (j + 1) (i + 1)
  let o2_1 := src (j - 2) i
  let o2_2 := src (j + 2) i
  let o2_3 := src j (i - 2)
  let o2_4 := src j (i + 2)
  let m1 := quadMean_fl fl o1_1 o1_2 o1_3 o1_4
  let m2 := quadMean_fl fl o2_1 o2_2 o2_3 o2_4
  if m2 > 0 ∧ fl (m1 / m2) < fl (maximum * 2) then
    let c1 := quadSpread_fl fl o1_1 o1_2 o1_3 o1_4
    let c2 := quadSpread_fl fl o2_1 o2_2 o2_3 o2_4
    if src j i < fl (maximum * (15938355 / 16777216)) ∧ c1 < fl (maximum * thr)
        ∧ c2 < fl (maximum * thr) then
      out.set j i (fl (fl (src j i * m1) / m2))
    else out
  else out

/-- Function `green_equilibration_lavg`, rounded. -/
def green_equilibration_lavg_fl (fl : ℚ → ℚ) (inp : Raw) (width height filters x y : Nat)
    (in_place : Bool) (thr : ℚ) : Raw :=
  let o := lavg_offsets filters x y
  forLoop o.1 (toSizeT ((height : Int) - 2)) 2 (fun j out =>
    forLoop o.2 (toSizeT ((width : Int) - 2)) 2 (fun i out =>
      lavg_site_fl fl (if in_place then out else inp) out j i thr) out) inp

/-- The guess `(a + b + 2.0f*g - a1 - b1)` of the second pass of `demosaic_ppg`, rounded. -/
def ppg_guess_fl (fl : ℚ → ℚ) (a b g a1 b1 : ℚ) : ℚ :=
  fl (fl (fl (fl (a + b) + fl (2 * g)) - a1) - b1)

/-- The measure `fabsf(a - b) + fabsf(a1 - g) + fabsf(b1 - g)` of the second pass of
`demosaic_ppg`, rounded. -/
def ppg_diff_fl (fl : ℚ → ℚ) (a b g a1 b1 : ℚ) : ℚ :=
  fl (fl (|fl (a - b)| + |fl (a1 - g)|) + |fl (b1 - g)|)

/-- Second pass of `demosaic_ppg` at `(j, i)`, rounded. -/
def ppg_redblue_pixel_fl (fl : ℚ → ℚ) (filters j i : Nat) (out : Img) : Img :=
  let c := FC j i filters
  let g := out j i 1
  if c &&& 1 ≠ 0 then
    let nt := out (j - 1) i
    let nb := out (j + 1) i
    let nl := out j (i - 1)
    let nr := out j (i + 1)
    if FC j (i + 1) filters = 0 then
      (out.set j i 2 (fl (ppg_guess_fl fl (nt 2) (nb 2) g (nt 1) (nb 1) * (1 / 2)))).set j i 0
        (fl (ppg_guess_fl fl (nl 0) (nr 0) g (nl 1) (nr 1) * (1 / 2)))
    else
      (out.set j i 0 (fl (ppg_guess_fl fl (nt 0) (nb 0) g (nt 1) (nb 1) * (1 / 2)))).set j i 2
        (fl (ppg_guess_fl fl (nl 2) (nr 2) g (nl 1) (nr 1) * (1 / 2)))
  else
    let ntl := out (j - 1) (i - 1)
    let ntr := out (j - 1) (i + 1)
    let nbl := out (j + 1) (i - 1)
    let nbr := out (j + 1) (i + 1)
    let x := if c = 0 then 2 else 0
    let diff1 := ppg_diff_fl fl (ntl x) (nbr x) g (ntl 1) (nbr 1)
    let guess1 := ppg_guess_fl fl (ntl x) (nbr x) g (ntl 1) (nbr 1)
    let diff2 := ppg_diff_fl fl (ntr x) (nbl x) g (ntr 1) (nbl 1)
    let guess2 := ppg_guess_fl fl (ntr x) (nbl x) g (ntr 1) (nbl 1)
    if diff1 > diff2 then out.set j i x (fl (guess2 * (1 / 2)))
    else if diff1 < diff2 then out.set j i x (fl (guess1 * (1 / 2)))
    else out.set j i x (fl (fl (guess1 + guess2) * (1 / 4)))

/-- One step `sum[ip[2]] += buf_in[ip[0]] * ip[1]` of the interior loop of
`xtrans_lin_interpolate`, rounded: the product and the sum are rounded. -/
def lin_sum_step_fl (fl : ℚ → ℚ) (inp : Raw) (row col : Nat) (s : Nat → ℚ)
    (t : Int × Int × Nat × Nat) : Nat → ℚ :=
  fun n => if n = t.2.2.2
    then fl (s n + fl (inp ((row : Int) + t.1).toNat ((col : Int) + t.2.1).toNat * (t.2.2.1 : ℚ)))
    else s n

/-- Interior interpolation of one pixel in `xtrans_lin_interpolate`, rounded. -/
def xtrans_lin_pixel_fl (fl : ℚ → ℚ) (inp : Raw) (xtrans : Int → Int → Nat) (ix iy : Int)
    (row col : Nat) (out : Img) : Img :=
  let l := linLookup xtrans ix iy (row % 6) (col % 6)
  let sum : Nat → ℚ := l.nbrs.foldl (lin_sum_step_fl fl inp row col) (fun _ => 0)
  let o := (l.totals.take 2).foldl (fun o t => o.set row col t.1 (fl (sum t.1 / (t.2 : ℚ)))) out
  o.set row col l.colorpix (inp row col)

/-- The sums of the Markesteijn vote, rounded: `avg[c] += rgb[d][row][col][c]` and
`avg[3] += 1` are `float` additions. -/
def vote_avg_fl (fl : ℚ → ℚ) (ndir : Nat) (hm : Nat → Nat) (max : Nat) (rgb : Nat → Nat → ℚ) :
    Nat → ℚ :=
  forLoop 0 ndir 1 (fun d avg =>
    if hm d ≥ max then
      (fun c => if c < 3 then fl (avg c + rgb d c) else if c = 3 then fl (avg c + 1) else avg c)
    else avg) (fun _ => 0)

/-- The value `avg[c]/avg[3]` that the vote stores in channel `c` of the pixel, rounded. -/
def vote_pixel_fl (fl : ℚ → ℚ) (ndir : Nat) (hm : Nat → Nat) (rgb : Nat → Nat → ℚ) (c : Nat) :
    ℚ :=
  let hm2 := vote_suppress ndir hm
  let max := vote_threshold ndir hm2
  let avg := vote_avg_fl fl ndir hm2 max rgb
  fl (avg c / avg 3)

/-- One step `sum[f] += in[yy][xx]; sum[f+4]++` of the PPG border scan, rounded. -/
def ppg_sum_step_fl (fl : ℚ → ℚ) (inp : Raw) (filters : Nat) (sum : Nat → ℚ) (p : Nat × Nat) :
    Nat → ℚ :=
  let f := FC p.1 p.2 filters
  fun n => if n = f then fl (sum n + inp p.1 p.2) else if n = f + 4 then fl (sum n + 1)
    else sum n

/-- Value the PPG border loop stores in channel `c` of the pixel `(j, i)`, rounded. -/
def ppg_border_val_fl (fl : ℚ → ℚ) (inp : Raw) (wi hi filters j i c : Nat) : ℚ :=
  let sum := (nbhd3 j i hi wi).foldl (ppg_sum_step_fl fl inp filters) (fun _ => 0)
  let f := FC j i filters
  if c ≠ f ∧ sum (c + 4) > 0 then fl (sum c / sum (c + 4)) else inp j i

/-- Border interpolation of one pixel in `demosaic_ppg`, rounded. -/
def ppg_border_pixel_fl (fl : ℚ → ℚ) (inp : Raw) (wi hi filters j i : Nat) (out : Img) : Img :=
  forLoop 0 3 1 (fun c o => o.set j i c (ppg_border_val_fl fl inp wi hi filters j i c)) out

/-- The guess `(a + pc + b) * 2.0f - a2 - b2` of the first pass of `demosaic_ppg`, rounded;
the call passes `a2 = pxM2, b2 = pxm2` (or the `y` samples). -/
def ppg_green_guess_fl (fl : ℚ → ℚ) (a pc b a2 b2 : ℚ) : ℚ :=
  fl (fl (fl (fl (fl (a + pc) + b) * 2) - a2) - b2)

/-- The measure `(fabsf(m2 - pc) + fabsf(M2 - pc) + fabsf(m - M)) * 3.0f
+ (fabsf(M3 - M) + fabsf(m3 - m)) * 2.0f` of the first pass of `demosaic_ppg`, rounded. -/
def ppg_green_diff_fl (fl : ℚ → ℚ) (pc m m2 m3 M M2 M3 : ℚ) : ℚ :=
  fl (fl (fl (fl (|fl (m2 - pc)| + |fl (M2 - pc)|) + |fl (m - M)|) * 3)
    + fl (fl (|fl (M3 - M)| + |fl (m3 - m)|) * 2))

/-- First pass of `demosaic_ppg` at `(j, i)`, rounded. -/
def ppg_green_pixel_fl (fl : ℚ → ℚ) (inp : Raw) (filters j i : Nat) (out : Img) : Img :=
  let c := FC j i filters
  let pc := inp j i
  if c = 0 ∨ c = 2 then
    let pym := inp (j - 1) i
    let pym2 := inp (j - 2) i
    let pym3 := inp (j - 3) i
    let pyM := inp (j + 1) i
    let pyM2 := inp (j + 2) i
    let pyM3 := inp (j + 3) i
    let pxm := inp j (i - 1)
    let pxm2 := inp j (i - 2)
    let pxm3 := inp j (i - 3)
    let pxM := inp j (i + 1)
    let pxM2 := inp j (i + 2)
    let pxM3 := inp j (i + 3)
    let guessx := ppg_green_guess_fl fl pxm pc pxM pxM2 pxm2
    let diffx := ppg_green_diff_fl fl pc pxm pxm2 pxm3 pxM pxM2 pxM3
    let guessy := ppg_green_guess_fl fl pym pc pyM pyM2 pym2
    let diffy := ppg_green_diff_fl fl pc pym pym2 pym3 pyM pyM2 pyM3
    if diffx > diffy then
      let m := min pym pyM
      let M := max pym pyM
      (out.set j i c pc).set j i 1 (max (min (fl (guessy * (1 / 4))) M) m)
    else
      let m := min pxm pxM
      let M := max pxm pxM
      (out.set j i c pc).set j i 1 (max (min (fl (guessx * (1 / 4))) M) m)
  else out.set j i 1 pc

/-- Function `demosaic_ppg`, rounded. -/
def demosaic_ppg_fl (fl : ℚ → ℚ) (fuel : Nat) (out : Img) (inp : Raw)
    (wo ho wi hi filters : Nat) (thrs : ℚ) : Option Img :=
  match loopNOpt ho 0 (fun j o =>
      jumpLoop (ppg_jump wo ho j) true wo
        (fun i o => ppg_border_pixel_fl fl inp wi hi filters j i o) fuel 0 o) out with
  | none => none
  | some o1 =>
    let inp2 := if thrs > 0 then pre_median_fl fl inp wi hi filters 1 thrs else inp
    let o2 := forLoop 3 (ho - 3) 1 (fun j o =>
      forLoop 3 (wo - 3) 1 (fun i o => ppg_green_pixel_fl fl inp2 filters j i o) o) o1
    some (forLoop 1 (ho - 1) 1 (fun j o =>
      forLoop 1 (wo - 1) 1 (fun i o => ppg_redblue_pixel_fl fl filters j i o) o) o2)

/-- One step `sum[f] += in[y][x]; count[f]++` of the X-Trans border scan, rounded. -/
def xtrans_sum_step_fl (fl : ℚ → ℚ) (inp : Raw) (xtrans : Int → Int → Nat) (ix iy : Int)
    (s : (Nat → ℚ) × (Nat → Nat)) (p : Nat × Nat) : (Nat → ℚ) × (Nat → Nat) :=
  let f := fcol xtrans ((p.1 : Int) + iy) ((p.2 : Int) + ix)
  (fun n => if n = f then fl (s.1 n + inp p.1 p.2) else s.1 n,
   fun n => if n = f then s.2 n + 1 else s.2 n)

/-- Value the X-Trans border loop stores in channel `c` of the pixel `(row, col)`, rounded. -/
def xtrans_border_val_fl (fl : ℚ → ℚ) (inp : Raw) (xtrans : Int → Int → Nat) (ix iy : Int)
    (wi hi row col c : Nat) : ℚ :=
  let s := (nbhd3 row col hi wi).foldl (xtrans_sum_step_fl fl inp xtrans ix iy)
    (fun _ => 0, fun _ => 0)
  let f := fcol xtrans ((row : Int) + iy) ((col : Int) + ix)
  if c ≠ f ∧ s.2 c ≠ 0 then fl (s.1 c / (s.2 c : ℚ)) else inp row col

/-- Border interpolation of one pixel in `xtrans_lin_interpolate`, rounded. -/
def xtrans_border_pixel_fl (fl : ℚ → ℚ) (inp : Raw) (xtrans : Int → Int → Nat) (ix iy : Int)
    (wi hi row col : Nat) (out : Img) : Img :=
  forLoop 0 3 1 (fun c o =>
    o.set row col c (xtrans_border_val_fl fl inp xtrans ix iy wi hi row col c)) out

/-- Function `xtrans_lin_interpolate`, rounded. -/
def xtrans_lin_interpolate_fl (fl : ℚ → ℚ) (fuel : Nat) (out : Img) (inp : Raw)
    (wo ho wi hi : Nat) (ix iy : Int) (xtrans : Int → Int → Nat) : Option Img :=
  match loopNOpt ho 0 (fun row o =>
      jumpLoop (xtrans_jump wo ho row) false wo
        (fun col o => xtrans_border_pixel_fl fl inp xtrans ix iy wi hi row col o) fuel 0 o)
      out with
  | none => none
  | some o1 =>
    some (forLoop 1 (ho - 1) 1 (fun row o =>
      forLoop 1 (wo - 1) 1 (fun col o => xtrans_lin_pixel_fl fl inp xtrans ix iy row col o) o)
      o1)

/-! # Lemmas and theorems -/

/-! ## Loop reasoning -/

theorem loopN_inv_aux {σ : Type} (body : Nat → σ → σ) (step : Nat) :
    ∀ (n : Nat) (P : Nat → σ → Prop) (k : Nat) (s : σ), P 0 s →
      (∀ m, m < n → ∀ s, P m s → P (m + 1) (body (k + m * step) s)) →
      P n (loopN n k step body s) := by
  intro n
  induction n with
  | zero => intro P k s h0 _; exact h0
  | succ n ih =>
    intro P k s h0 hstep
    have h1 : P 1 (body k s) := by
      have := hstep 0 (Nat.succ_pos n) s h0
      simpa using this
    exact ih (fun m s => P (m + 1) s) (k + step) (body k s) h1 (by
      intro m hm s hs
      have := hstep (m + 1) (Nat.succ_lt_succ hm) s hs
      have e : k + (m + 1) * step = k + step + m * step := by ring
      rw [e] at this
      exact this)

theorem loopN_inv {σ : Type} (P : Nat → σ → Prop) (body : Nat → σ → σ) (step : Nat)
    (n k : Nat) (s : σ) (h0 : P 0 s)
    (hstep : ∀ m, m < n → ∀ s, P m s → P (m + 1) (body (k + m * step) s)) :
    P n (loopN n k step body s) :=
  loopN_inv_aux body step n P k s h0 hstep

theorem visits_of_lt_count (lo hi step m : Nat) (hstep : 0 < step)
    (hm : m < (hi - lo + (step - 1)) / step) : Visits lo hi step (lo + m * step) := by
  have h1 : (m + 1) * step ≤ hi - lo + (step - 1) := (Nat.le_div_iff_mul_le hstep).mp hm
  have h2 : (m + 1) * step = m * step + step := by ring
  refine ⟨Nat.le_add_right _ _, by omega, ?_⟩
  simp

theorem forLoop_inv {σ : Type} (R : σ → Prop) (lo hi step : Nat) (hstep : 0 < step)
    (body : Nat → σ → σ) (s : σ) (h0 : R s)
    (hbody : ∀ k s, Visits lo hi step k → R s → R (body k s)) :
    R (forLoop lo hi step body s) := by
  unfold forLoop
  exact loopN_inv (fun _ s => R s) body step _ lo s h0
    (fun m hm s hs => hbody _ s (visits_of_lt_count lo hi step m hstep hm) hs)

theorem count_of_visits (lo hi step k : Nat) (hstep : 0 < step) (hk : Visits lo hi step k) :
    ∃ m, m < (hi - lo + (step - 1)) / step ∧ k = lo + m * step := by
  obtain ⟨h1, h2, h3⟩ := hk
  refine ⟨(k - lo) / step, ?_, ?_⟩
  · rw [Nat.lt_iff_add_one_le, Nat.le_div_iff_mul_le hstep]
    have := Nat.div_add_mod (k - lo) step
    rw [h3] at this
    have e : ((k - lo) / step + 1) * step = step * ((k - lo) / step) + step := by ring
    omega
  · have := Nat.div_add_mod (k - lo) step
    rw [h3] at this
    have e : (k - lo) / step * step = step * ((k - lo) / step) := by ring
    omega

/-- Postcondition of a loop: an invariant `R` together with a property `Q k` that the body
establishes at index `k` and that the other iterations keep. -/
theorem forLoop_post {σ : Type} (R : σ → Prop) (Q : Nat → σ → Prop) (lo hi step : Nat)
    (hstep : 0 < step) (body : Nat → σ → σ) (s : σ) (h0 : R s)
    (hbody : ∀ k s, Visits lo hi step k → R s → R (body k s) ∧ Q k (body k s))
    (hkeep : ∀ k k2 s, Visits lo hi step k → Visits lo hi step k2 → k2 ≠ k → R s → Q k s →
      Q k (body k2 s)) :
    R (forLoop lo hi step body s) ∧
      ∀ k, Visits lo hi step k → Q k (forLoop lo hi step body s) := by
  unfold forLoop
  have key := loopN_inv
    (fun m s => R s ∧ ∀ m2, m2 < m → m2 < (hi - lo + (step - 1)) / step → Q (lo + m2 * step) s)
    body step ((hi - lo + (step - 1)) / step) lo s ⟨h0, fun m2 h => absurd h (Nat.not_lt_zero _)⟩
    (by
      intro m hm s ⟨hR, hQ⟩
      have hv := visits_of_lt_count lo hi step m hstep hm
      refine ⟨(hbody _ s hv hR).1, ?_⟩
      intro m2 hm2 hm2n
      by_cases e : m2 = m
      · subst e
        exact (hbody _ s hv hR).2
      · have hlt : m2 < m := by omega
        have hv2 := visits_of_lt_count lo hi step m2 hstep hm2n
        refine hkeep _ _ s hv2 hv ?_ hR (hQ m2 hlt hm2n)
        intro heq
        have : m * step = m2 * step := by omega
        exact e (Nat.eq_of_mul_eq_mul_right hstep this).symm)
  refine ⟨key.1, ?_⟩
  intro k hk
  obtain ⟨m, hm, rfl⟩ := count_of_visits lo hi step k hstep hk
  exact key.2 m hm hm

/-- Postcondition of a doubly nested loop over sites `(j, i)`. -/
theorem forLoop2_post {σ : Type} (R : σ → Prop) (Q : Nat → Nat → σ → Prop)
    (lo1 hi1 s1 : Nat) (lo2 hi2 : Nat → Nat) (s2 : Nat) (hs1 : 0 < s1) (hs2 : 0 < s2)
    (body : Nat → Nat → σ → σ) (s : σ) (h0 : R s)
    (hbody : ∀ j i s, Visits lo1 hi1 s1 j → Visits (lo2 j) (hi2 j) s2 i → R s →
      R (body j i s) ∧ Q j i (body j i s))
    (hkeep : ∀ j i j2 i2 s, Visits lo1 hi1 s1 j → Visits (lo2 j) (hi2 j) s2 i →
      Visits lo1 hi1 s1 j2 → Visits (lo2 j2) (hi2 j2) s2 i2 → ¬ (j2 = j ∧ i2 = i) → R s →
      Q j i s → Q j i (body j2 i2 s)) :
    R (forLoop lo1 hi1 s1 (fun j o => forLoop (lo2 j) (hi2 j) s2 (fun i o => body j i o) o) s) ∧
      ∀ j i, Visits lo1 hi1 s1 j → Visits (lo2 j) (hi2 j) s2 i →
        Q j i (forLoop lo1 hi1 s1
          (fun j o => forLoop (lo2 j) (hi2 j) s2 (fun i o => body j i o) o) s) := by
  have key := forLoop_post R (fun j s => ∀ i, Visits (lo2 j) (hi2 j) s2 i → Q j i s)
    lo1 hi1 s1 hs1 (fun j o => forLoop (lo2 j) (hi2 j) s2 (fun i o => body j i o) o) s h0
    (by
      intro j s hj hR
      exact forLoop_post R (Q j) (lo2 j) (hi2 j) s2 hs2 (fun i o => body j i o) s hR
        (fun i s hi hR => hbody j i s hj hi hR)
        (fun i i2 s hi hi2 hne hR hQ =>
          hkeep j i j i2 s hj hi hj hi2 (fun h => hne h.2) hR hQ))
    (by
      intro j j2 s hj hj2 hne hR hQ i hi
      have := forLoop_inv (fun s => R s ∧ Q j i s) (lo2 j2) (hi2 j2) s2 hs2
        (fun i o => body j2 i o) s ⟨hR, hQ i hi⟩
        (fun i2 s hi2 ⟨hR, hQ⟩ =>
          ⟨(hbody j2 i2 s hj2 hi2 hR).1,
            hkeep j i j2 i2 s hj hi hj2 hi2 (fun h => hne h.1) hR hQ⟩)
      exact this.2)
  exact ⟨key.1, fun j i hj hi => key.2 j hj i hi⟩

/-- Invariant of a doubly nested loop. -/
theorem forLoop2_inv {σ : Type} (R : σ → Prop)
    (lo1 hi1 s1 : Nat) (lo2 hi2 : Nat → Nat) (s2 : Nat) (hs1 : 0 < s1) (hs2 : 0 < s2)
    (body : Nat → Nat → σ → σ) (s : σ) (h0 : R s)
    (hbody : ∀ j i s, Visits lo1 hi1 s1 j → Visits (lo2 j) (hi2 j) s2 i → R s → R (body j i s)) :
    R (forLoop lo1 hi1 s1 (fun j o => forLoop (lo2 j) (hi2 j) s2 (fun i o => body j i o) o) s) :=
  forLoop_inv R lo1 hi1 s1 hs1 _ s h0 (fun j s hj hR =>
    forLoop_inv R (lo2 j) (hi2 j) s2 hs2 _ s hR (fun i s hi hR => hbody j i s hj hi hR))

theorem visits_one (lo hi k : Nat) : Visits lo hi 1 k ↔ lo ≤ k ∧ k < hi := by
  unfold Visits
  simp [Nat.mod_one]

/-! ## Networks on Booleans, run on the binary digits of a number -/

theorem fromBits_toBits (v : Fin 9 → Bool) : fromBits (toBits v) = v := by
  funext k
  unfold fromBits toBits
  fin_cases k <;> simp [Nat.testBit_bit_zero, Nat.testBit_bit_succ]

theorem fromBits_mod (n : Nat) : fromBits (n % 512) = fromBits n := by
  funext k
  unfold fromBits
  have h : (512 : Nat) = 2 ^ 9 := by decide
  rw [h, Nat.testBit_mod_two_pow]
  have := k.isLt
  simp [this]

theorem swapMed_fromBits (I J : Fin 9) (n : Nat) :
    swapMed I J (fromBits n) = fromBits (swapBits I J n) := by
  funext k
  unfold swapMed swapBits
  cases hI : n.testBit I.val <;> cases hJ : n.testBit J.val
  · have : ¬ fromBits n I > fromBits n J := by unfold fromBits; rw [hI, hJ]; decide
    rw [if_neg this]
    simp
  · have : ¬ fromBits n I > fromBits n J := by unfold fromBits; rw [hI, hJ]; decide
    rw [if_neg this]
    simp
  · have : fromBits n I > fromBits n J := by unfold fromBits; rw [hI, hJ]; decide
    rw [if_pos this]
    have hne : I ≠ J := by
      intro h
      rw [h, hJ] at hI
      exact Bool.noConfusion hI
    have hne2 : I.val ≠ J.val := fun h => hne (Fin.ext h)
    simp only [Bool.not_false, Bool.and_self, if_true]
    unfold fromBits
    rw [Nat.testBit_xor, Nat.testBit_xor, Nat.testBit_two_pow, Nat.testBit_two_pow]
    by_cases h1 : k = I
    · subst h1
      rw [if_pos rfl, hJ, hI]
      simp [hne2, Ne.symm hne2]
    · by_cases h2 : k = J
      · subst h2
        rw [if_neg h1, if_pos rfl, hI, hJ]
        have : ¬ I.val = k.val := hne2
        simp [this]
      · rw [if_neg h1, if_neg h2]
        have e1 : ¬ I.val = k.val := fun h => h1 (Fin.ext h.symm)
        have e2 : ¬ J.val = k.val := fun h => h2 (Fin.ext h.symm)
        simp [e1, e2]
  · have : ¬ fromBits n I > fromBits n J := by unfold fromBits; rw [hI, hJ]; decide
    rw [if_neg this]
    simp

theorem runNetwork_fromBits (net : List (Fin 9 × Fin 9)) (n : Nat) :
    runNetwork net (fromBits n) = fromBits (runBits net n) := by
  induction net generalizing n with
  | nil => rfl
  | cons p ps ih =>
    simp only [runNetwork, runBits, List.foldl_cons] at ih ⊢
    rw [swapMed_fromBits, ih]

set_option maxHeartbeats 4000000 in
theorem exchangeNetwork_bits_0 : ∀ m : Fin 64, ∀ k : Fin 9,
    fromBits (runBits exchangeNetwork (0 + m.val)) k
      = decide ((List.ofFn (fromBits (0 + m.val))).count false ≤ k.val) := by
  decide!

set_option maxHeartbeats 4000000 in
theorem exchangeNetwork_bits_1 : ∀ m : Fin 64, ∀ k : Fin 9,
    fromBits (runBits exchangeNetwork (64 + m.val)) k
      = decide ((List.ofFn (fromBits (64 + m.val))).count false ≤ k.val) := by
  decide!

set_option maxHeartbeats 4000000 in
theorem exchangeNetwork_bits_2 : ∀ m : Fin 64, ∀ k : Fin 9,
    fromBits (runBits exchangeNetwork (128 + m.val)) k
      = decide ((List.ofFn (fromBits (128 + m.val))).count false ≤ k.val) := by
  decide!

set_option maxHeartbeats 4000000 in
theorem exchangeNetwork_bits_3 : ∀ m : Fin 64, ∀ k : Fin 9,
    fromBits (runBits exchangeNetwork (192 + m.val)) k
      = decide ((List.ofFn (fromBits (192 + m.val))).count false ≤ k.val) := by
  decide!

set_option maxHeartbeats 4000000 in
theorem exchangeNetwork_bits_4 : ∀ m : Fin 64, ∀ k : Fin 9,
    fromBits (runBits exchangeNetwork (256 + m.val)) k
      = decide ((List.ofFn (fromBits (256 + m.val))).count false ≤ k.val) := by
  decide!

set_option maxHeartbeats 4000000 in
theorem exchangeNetwork_bits_5 : ∀ m : Fin 64, ∀ k : Fin 9,
    fromBits (runBits exchangeNetwork (320 + m.val)) k
      = decide ((List.ofFn (fromBits (320 + m.val))).count false ≤ k.val) := by
  decide!

set_option maxHeartbeats 4000000 in
theorem exchangeNetwork_bits_6 : ∀ m : Fin 64, ∀ k : Fin 9,
    fromBits (runBits exchangeNetwork (384 + m.val)) k
      = decide ((List.ofFn (fromBits (384 + m.val))).count false ≤ k.val) := by
  decide!

set_option maxHeartbeats 4000000 in
theorem exchangeNetwork_bits_7 : ∀ m : Fin 64, ∀ k : Fin 9,
    fromBits (runBits exchangeNetwork (448 + m.val)) k
      = decide ((List.ofFn (fromBits (448 + m.val))).count false ≤ k.val) := by
  decide!

theorem exchangeNetwork_bits (m : Nat) (hm : m < 512) (k : Fin 9) :
    fromBits (runBits exchangeNetwork m) k
      = decide ((List.ofFn (fromBits m)).count false ≤ k.val) := by
  have hdiv : m / 64 < 8 := by omega
  have hmod : m % 64 < 64 := Nat.mod_lt _ (by decide)
  have hsplit : m = 64 * (m / 64) + m % 64 := (Nat.div_add_mod m 64).symm
  rw [hsplit]
  generalize m / 64 = c at hdiv
  interval_cases c
  · exact exchangeNetwork_bits_0 ⟨m % 64, hmod⟩ k
  · exact exchangeNetwork_bits_1 ⟨m % 64, hmod⟩ k
  · exact exchangeNetwork_bits_2 ⟨m % 64, hmod⟩ k
  · exact exchangeNetwork_bits_3 ⟨m % 64, hmod⟩ k
  · exact exchangeNetwork_bits_4 ⟨m % 64, hmod⟩ k
  · exact exchangeNetwork_bits_5 ⟨m % 64, hmod⟩ k
  · exact exchangeNetwork_bits_6 ⟨m % 64, hmod⟩ k
  · exact exchangeNetwork_bits_7 ⟨m % 64, hmod⟩ k

set_option maxHeartbeats 4000000 in
theorem medianNetwork_bits_0 : ∀ m : Fin 128,
    fromBits (runBits medianNetwork (0 + m.val)) 4
      = decide (5 ≤ (List.ofFn (fromBits (0 + m.val))).count true) := by
  decide!

set_option maxHeartbeats 4000000 in
theorem medianNetwork_bits_1 : ∀ m : Fin 128,
    fromBits (runBits medianNetwork (128 + m.val)) 4
      = decide (5 ≤ (List.ofFn (fromBits (128 + m.val))).count true) := by
  decide!

set_option maxHeartbeats 4000000 in
theorem medianNetwork_bits_2 : ∀ m : Fin 128,
    fromBits (runBits medianNetwork (256 + m.val)) 4
      = decide (5 ≤ (List.ofFn (fromBits (256 + m.val))).count true) := by
  decide!

set_option maxHeartbeats 4000000 in
theorem medianNetwork_bits_3 : ∀ m : Fin 128,
    fromBits (runBits medianNetwork (384 + m.val)) 4
      = decide (5 ≤ (List.ofFn (fromBits (384 + m.val))).count true) := by
  decide!

theorem medianNetwork_bits (m : Nat) (hm : m < 512) :
    fromBits (runBits medianNetwork m) 4
      = decide (5 ≤ (List.ofFn (fromBits m)).count true) := by
  have hdiv : m / 128 < 4 := by omega
  have hmod : m % 128 < 128 := Nat.mod_lt _ (by decide)
  have hsplit : m = 128 * (m / 128) + m % 128 := (Nat.div_add_mod m 128).symm
  rw [hsplit]
  generalize m / 128 = c at hdiv
  interval_cases c
  · exact medianNetwork_bits_0 ⟨m % 128, hmod⟩
  · exact medianNetwork_bits_1 ⟨m % 128, hmod⟩
  · exact medianNetwork_bits_2 ⟨m % 128, hmod⟩
  · exact medianNetwork_bits_3 ⟨m % 128, hmod⟩

theorem exchangeNetwork_bool (v : Fin 9 → Bool) (k : Fin 9) :
    runNetwork exchangeNetwork v k = decide ((List.ofFn v).count false ≤ k.val) := by
  have hv : v = fromBits (toBits v % 512) := by rw [fromBits_mod, fromBits_toBits]
  have h := exchangeNetwork_bits (toBits v % 512) (Nat.mod_lt _ (by decide)) k
  rw [hv, runNetwork_fromBits]
  exact h

theorem medianNetwork_bool (v : Fin 9 → Bool) :
    runNetwork medianNetwork v 4 = decide (5 ≤ (List.ofFn v).count true) := by
  have hv : v = fromBits (toBits v % 512) := by rw [fromBits_mod, fromBits_toBits]
  have h := medianNetwork_bits (toBits v % 512) (Nat.mod_lt _ (by decide))
  rw [hv, runNetwork_fromBits]
  exact h


/-! ## Compare-exchange networks: the zero-one argument -/

theorem swapMed_comp {α β : Type} [LinearOrder α] [LinearOrder β] (f : α → β) (hf : Monotone f)
    (I J : Fin 9) (med : Fin 9 → α) : f ∘ swapMed I J med = swapMed I J (f ∘ med) := by
  funext k
  unfold swapMed
  by_cases h : med I > med J
  · have hle : f (med J) ≤ f (med I) := hf (le_of_lt h)
    by_cases h2 : f (med I) > f (med J)
    · simp only [h, h2, if_true, Function.comp]
      split_ifs <;> rfl
    · have heq : f (med I) = f (med J) := le_antisymm (not_lt.mp h2) hle
      simp only [h, if_true, Function.comp, h2, if_false]
      split_ifs with h3 h4
      · rw [h3, heq]
      · rw [h4, heq]
      · rfl
  · have hle : f (med I) ≤ f (med J) := hf (not_lt.mp h)
    have h2 : ¬ f (med I) > f (med J) := not_lt.mpr hle
    simp only [h, if_false, Function.comp, h2]

theorem runNetwork_comp {α β : Type} [LinearOrder α] [LinearOrder β] (f : α → β) (hf : Monotone f)
    (net : List (Fin 9 × Fin 9)) (med : Fin 9 → α) :
    f ∘ runNetwork net med = runNetwork net (f ∘ med) := by
  induction net generalizing med with
  | nil => rfl
  | cons p ps ih =>
    simp only [runNetwork, List.foldl_cons] at ih ⊢
    rw [ih, swapMed_comp f hf]

theorem swapMed_perm {α : Type} [LinearOrder α] (I J : Fin 9) (med : Fin 9 → α) :
    ∃ σ : Equiv.Perm (Fin 9), swapMed I J med = med ∘ σ := by
  unfold swapMed
  by_cases h : med I > med J
  · refine ⟨Equiv.swap I J, ?_⟩
    funext k
    simp only [h, if_true, Function.comp, Equiv.swap_apply_def]
    split_ifs <;> rfl
  · exact ⟨Equiv.refl _, by simp [h]⟩

theorem runNetwork_perm {α : Type} [LinearOrder α] (net : List (Fin 9 × Fin 9))
    (med : Fin 9 → α) : ∃ σ : Equiv.Perm (Fin 9), runNetwork net med = med ∘ σ := by
  induction net generalizing med with
  | nil => exact ⟨Equiv.refl _, rfl⟩
  | cons p ps ih =>
    obtain ⟨σ1, h1⟩ := swapMed_perm p.1 p.2 med
    obtain ⟨σ2, h2⟩ := ih (swapMed p.1 p.2 med)
    refine ⟨σ2.trans σ1, ?_⟩
    simp only [runNetwork, List.foldl_cons] at h2 ⊢
    rw [h2, h1]
    rfl

theorem runNetwork_ofFn_perm (net : List (Fin 9 × Fin 9)) (med : Fin 9 → ℚ) :
    (List.ofFn (runNetwork net med)).Perm (List.ofFn med) := by
  obtain ⟨σ, h⟩ := runNetwork_perm net med
  rw [h]
  exact Equiv.Perm.ofFn_comp_perm σ med

theorem above_monotone (t : ℚ) : Monotone (fun x : ℚ => decide (t < x)) := by
  intro a b hab
  by_cases h : t < a
  · have : t < b := lt_of_lt_of_le h hab
    simp [h, this]
  · simp [h]

theorem ofFn9 {α : Type} (med : Fin 9 → α) :
    List.ofFn med = [med 0, med 1, med 2, med 3, med 4, med 5, med 6, med 7, med 8] := by
  rfl

theorem list9_of_length {α : Type} (l : List α) (h : l.length = 9) :
    ∃ a0 a1 a2 a3 a4 a5 a6 a7 a8, l = [a0, a1, a2, a3, a4, a5, a6, a7, a8] := by
  match l, h with
  | [a0, a1, a2, a3, a4, a5, a6, a7, a8], _ => exact ⟨a0, a1, a2, a3, a4, a5, a6, a7, a8, rfl⟩

theorem sorted9_length (med : Fin 9 → ℚ) : (sorted9 med).length = 9 := by
  unfold sorted9
  rw [List.length_insertionSort, List.length_ofFn]

theorem sorted9_perm (med : Fin 9 → ℚ) : (sorted9 med).Perm (List.ofFn med) :=
  List.perm_insertionSort _ _

theorem sorted9_sorted (med : Fin 9 → ℚ) : (sorted9 med).Sorted (fun a b => a ≤ b) :=
  List.sorted_insertionSort _ _

/-- In an ascending list of nine values, the element of index 4 exceeds `t` exactly when at
least five elements do. -/
theorem sorted_fifth_iff (s0 s1 s2 s3 s4 s5 s6 s7 s8 t : ℚ)
    (hs : List.Sorted (fun a b => a ≤ b) [s0, s1, s2, s3, s4, s5, s6, s7, s8]) :
    t < s4 ↔ 5 ≤ List.countP (fun x => decide (t < x)) [s0, s1, s2, s3, s4, s5, s6, s7, s8] := by
  simp only [List.Sorted, List.pairwise_cons, List.mem_cons, forall_eq_or_imp,
    List.mem_singleton, forall_eq] at hs
  have hsplit : [s0, s1, s2, s3, s4, s5, s6, s7, s8] = [s0, s1, s2, s3] ++ [s4, s5, s6, s7, s8] := rfl
  have hsplit2 : [s0, s1, s2, s3, s4, s5, s6, s7, s8] = [s0, s1, s2, s3, s4] ++ [s5, s6, s7, s8] := rfl
  by_cases h : t < s4
  · have h5 : t < s5 := by linarith [hs.2.2.2.2.1.1]
    have h6 : t < s6 := by linarith [hs.2.2.2.2.1.2.1]
    have h7 : t < s7 := by linarith [hs.2.2.2.2.1.2.2.1]
    have h8 : t < s8 := by linarith [hs.2.2.2.2.1.2.2.2.1]
    have : List.countP (fun x => decide (t < x)) [s4, s5, s6, s7, s8] = 5 := by
      simp [List.countP_cons, h, h5, h6, h7, h8]
    rw [hsplit, List.countP_append, this]
    exact ⟨fun _ => by omega, fun _ => h⟩
  · have h0 : ¬ t < s0 := by linarith [hs.1.2.2.2.1]
    have h1 : ¬ t < s1 := by linarith [hs.2.1.2.2.1]
    have h2 : ¬ t < s2 := by linarith [hs.2.2.1.2.1]
    have h3 : ¬ t < s3 := by linarith [hs.2.2.2.1.1]
    have hz : List.countP (fun x => decide (t < x)) [s0, s1, s2, s3, s4] = 0 := by
      simp [List.countP_cons, h, h0, h1, h2, h3]
    have hle := @List.countP_le_length ℚ (fun x => decide (t < x)) [s5, s6, s7, s8]
    rw [hsplit2, List.countP_append, hz]
    simp only [List.length_cons, List.length_nil] at hle
    exact ⟨fun h' => absurd h' h, fun h' => by omega⟩

theorem medianNetwork_above (med : Fin 9 → ℚ) (t : ℚ) :
    t < runNetwork medianNetwork med 4
      ↔ 5 ≤ List.countP (fun x => decide (t < x)) (List.ofFn med) := by
  have h := congrFun (runNetwork_comp _ (above_monotone t) medianNetwork med) 4
  rw [medianNetwork_bool, ← List.map_ofFn, List.count_eq_countP, List.countP_map] at h
  simp only [Function.comp] at h
  have h2 : (t < runNetwork medianNetwork med 4)
      ↔ 5 ≤ List.countP ((fun x => x == true) ∘ fun x => decide (t < x)) (List.ofFn med) := by
    constructor
    · intro ht
      have := h.symm.trans (decide_eq_true ht)
      exact of_decide_eq_true this
    · intro hc
      have := h.trans (decide_eq_true hc)
      exact of_decide_eq_true this
  rw [h2]
  have : ((fun x => x == true) ∘ fun x => decide (t < x)) = (fun x : ℚ => decide (t < x)) := by
    funext x; simp
  rw [this]

theorem medianNetwork_eq_sorted (med : Fin 9 → ℚ) :
    (sorted9 med)[4]? = some (runNetwork medianNetwork med 4) := by
  obtain ⟨s0, s1, s2, s3, s4, s5, s6, s7, s8, hs⟩ := list9_of_length _ (sorted9_length med)
  have hsorted := sorted9_sorted med
  have hperm := sorted9_perm med
  rw [hs] at hsorted hperm
  have key : ∀ t, t < runNetwork medianNetwork med 4 ↔ t < s4 := by
    intro t
    rw [medianNetwork_above, sorted_fifth_iff s0 s1 s2 s3 s4 s5 s6 s7 s8 t hsorted,
      hperm.countP_eq]
  have h1 : ¬ s4 < runNetwork medianNetwork med 4 := fun h => lt_irrefl _ ((key _).mp h)
  have h2 : ¬ runNetwork medianNetwork med 4 < s4 := fun h => lt_irrefl _ ((key _).mpr h)
  rw [hs]
  show some s4 = some _
  rw [le_antisymm (not_lt.mp h1) (not_lt.mp h2)]


/-- C8: fed to the nineteen `SWAPmed` steps of `color_smoothing`, every vector of nine values
leaves at `med[4]` the fifth smallest of the nine inputs, i.e. the element of index 4 of their
ascending sort; the vector `[9,1,8,2,7,3,6,4,5]` gives 5. -/
theorem C8_median_network :
    (∀ med : Fin 9 → ℚ, (sorted9 med)[4]? = some (runNetwork medianNetwork med 4)) ∧
    runNetwork medianNetwork (vec9 9 1 8 2 7 3 6 4 5) 4 = 5 :=
  ⟨medianNetwork_eq_sorted, by decide!⟩

/-! ## The exchange sort of `pre_median_b` sorts -/

theorem mono_of_threshold (out : Fin 9 → ℚ) (cnt : ℚ → Nat)
    (h : ∀ t k, decide (t < out k) = decide (cnt t ≤ k.val)) (i j : Fin 9) (hij : i ≤ j) :
    out i ≤ out j := by
  by_contra hlt
  have hlt2 := not_le.mp hlt
  have h1 : cnt (out j) ≤ i.val := of_decide_eq_true ((h (out j) i).symm.trans (decide_eq_true hlt2))
  have h2 : ¬ cnt (out j) ≤ j.val := fun hc =>
    lt_irrefl (out j) (of_decide_eq_true ((h (out j) j).trans (decide_eq_true hc)))
  have : i.val ≤ j.val := hij
  omega

theorem exchangeNetwork_threshold (med : Fin 9 → ℚ) (t : ℚ) (k : Fin 9) :
    decide (t < runNetwork exchangeNetwork med k)
      = decide ((List.ofFn ((fun x => decide (t < x)) ∘ med)).count false ≤ k.val) := by
  have h := congrFun (runNetwork_comp _ (above_monotone t) exchangeNetwork med) k
  rw [Function.comp_apply] at h
  rw [h]
  exact exchangeNetwork_bool _ k

theorem exchangeNetwork_mono (med : Fin 9 → ℚ) (i j : Fin 9) (hij : i ≤ j) :
    runNetwork exchangeNetwork med i ≤ runNetwork exchangeNetwork med j :=
  mono_of_threshold _ _ (exchangeNetwork_threshold med) i j hij

theorem exchangeNetwork_sorted (med : Fin 9 → ℚ) :
    List.Sorted (fun a b => a ≤ b) (List.ofFn (runNetwork exchangeNetwork med)) := by
  unfold List.Sorted
  rw [List.pairwise_ofFn]
  intro i j hij
  exact exchangeNetwork_mono med i j (le_of_lt hij)

/-- The exchange sort yields the ascending sort of the nine entries. -/
theorem exchangeNetwork_eq_sorted (med : Fin 9 → ℚ) :
    List.ofFn (runNetwork exchangeNetwork med) = sorted9 med :=
  List.eq_of_perm_of_sorted
    ((runNetwork_ofFn_perm exchangeNetwork med).trans (sorted9_perm med).symm)
    (exchangeNetwork_sorted med) (sorted9_sorted med)

theorem runNetwork_getElem (net : List (Fin 9 × Fin 9)) (med : Fin 9 → ℚ) (k : Fin 9) :
    (List.ofFn (runNetwork net med))[k.val]? = some (runNetwork net med k) := by
  rw [List.getElem?_ofFn]
  simp [List.ofFnNthVal]

/-! ## The Bayer indexer -/

theorem FC_lt (row col filters : Nat) : FC row col filters < 4 := by
  unfold FC
  have := @Nat.and_le_right (filters >>> ((((row <<< 1) &&& 14) + (col &&& 1)) <<< 1)) 3
  omega

theorem shl_and_14 (row : Nat) : (row <<< 1) &&& 14 = 2 * (row % 8) := by
  have h1 : row <<< 1 = 2 * row := by rw [Nat.shiftLeft_eq]; ring
  have h2 : (14 : Nat) = 15 &&& 14 := by decide
  have h3 : (15 : Nat) = 2 ^ 4 - 1 := by decide
  rw [h1, h2, ← Nat.and_assoc, h3, Nat.and_pow_two_sub_one_eq_mod]
  have h4 : 2 * row % 2 ^ 4 = 2 * (row % 8) := by omega
  rw [h4]
  have h5 : ∀ s, s < 8 → (2 * s) &&& 14 = 2 * s := by decide
  exact h5 _ (Nat.mod_lt _ (by decide))

theorem and_one (col : Nat) : col &&& 1 = col % 2 := by
  exact Nat.and_pow_two_sub_one_eq_mod col 1

/-- The indexer only reads `row mod 8` and `col mod 2`. -/
theorem FC_mod (row col filters : Nat) :
    FC row col filters = FC (row % 8) (col % 2) filters := by
  unfold FC
  rw [shl_and_14, and_one, shl_and_14 (row % 8), and_one (col % 2)]
  simp

theorem FC_col_add_two (row col filters : Nat) :
    FC row (col + 2) filters = FC row col filters := by
  rw [FC_mod row (col + 2), FC_mod row col]
  simp

theorem FC_col_parity (row c1 c2 filters : Nat) (h : c1 % 2 = c2 % 2) :
    FC row c1 filters = FC row c2 filters := by
  rw [FC_mod row c1, FC_mod row c2, h]

theorem FC_mod2 {filters : Nat} (hb : IsBayer filters) (r c : Nat) :
    FC r c filters = FC (r % 2) (c % 2) filters := by
  rw [FC_mod r c, hb.1 (r % 8) (Nat.mod_lt _ (by decide)) (c % 2) (Nat.mod_lt _ (by decide))]
  congr 1
  omega

/-- The layout relations of a Bayer descriptor at an arbitrary site. -/
theorem isBayer_at {filters : Nat} (hb : IsBayer filters) (r c : Nat) :
    (FC r c filters % 2 = 1 →
      FC r (c + 1) filters % 2 = 0 ∧ FC (r + 1) c filters % 2 = 0 ∧
      FC (r + 1) (c + 1) filters % 2 = 1 ∧ FC (r + 1) c filters ≠ FC r (c + 1) filters) ∧
    (FC r c filters = 0 →
      FC (r + 1) (c + 1) filters = 2 ∧ FC r (c + 1) filters % 2 = 1 ∧
      FC (r + 1) c filters % 2 = 1) ∧
    (FC r c filters = 2 →
      FC (r + 1) (c + 1) filters = 0 ∧ FC r (c + 1) filters % 2 = 1 ∧
      FC (r + 1) c filters % 2 = 1) := by
  rw [FC_mod2 hb r c, FC_mod2 hb r (c + 1), FC_mod2 hb (r + 1) c, FC_mod2 hb (r + 1) (c + 1)]
  have hcell := hb.2
  rcases Nat.mod_two_eq_zero_or_one r with hr | hr <;>
    rcases Nat.mod_two_eq_zero_or_one c with hc | hc
  all_goals
    have hr1 : (r + 1) % 2 = 1 - r % 2 := by omega
    have hc1 : (c + 1) % 2 = 1 - c % 2 := by omega
    rw [hr1, hc1, hr, hc]
    simp only [Nat.sub_zero, Nat.sub_self]
    omega

theorem isBayer_standard :
    IsBayer 0x94949494 ∧ IsBayer 0x16161616 ∧ IsBayer 0x61616161 ∧ IsBayer 0x49494949 := by
  decide

/-! ## Pre-median -/

theorem diamond_eq (row col : Nat) (hr : 2 ≤ row) (hc : 2 ≤ col) :
    diamond row col = [(row - 2, col), (row - 1, col - 1), (row - 1, col + 1), (row, col - 2),
      (row, col), (row, col + 2), (row + 1, col - 1), (row + 1, col + 1), (row + 2, col)] := by
  have e : diamond row col = [(row + 0 - 2, col + 2 * 0 - 0), (row + 1 - 2, col + 2 * 0 - 1),
      (row + 1 - 2, col + 2 * 1 - 1), (row + 2 - 2, col + 2 * 0 - 2), (row + 2 - 2, col + 2 * 1 - 2),
      (row + 2 - 2, col + 2 * 2 - 2), (row + 3 - 2, col + 2 * 0 - 1), (row + 3 - 2, col + 2 * 1 - 1),
      (row + 4 - 2, col + 2 * 0 - 0)] := rfl
  rw [e]
  have h1 : row + 0 - 2 = row - 2 := by omega
  have h2 : row + 1 - 2 = row - 1 := by omega
  have h3 : row + 2 - 2 = row := by omega
  have h4 : row + 3 - 2 = row + 1 := by omega
  have h5 : row + 4 - 2 = row + 2 := by omega
  have h6 : col + 2 * 0 - 0 = col := by omega
  have h7 : col + 2 * 0 - 1 = col - 1 := by omega
  have h8 : col + 2 * 1 - 1 = col + 1 := by omega
  have h9 : col + 2 * 0 - 2 = col - 2 := by omega
  have h10 : col + 2 * 1 - 2 = col := by omega
  have h11 : col + 2 * 2 - 2 = col + 2 := by omega
  rw [h1, h2, h3, h4, h5, h6, h7, h8, h9, h10, h11]

/-- Start column of the green scan of `pre_median_b` in a row. -/
theorem pre_median_b_unfold (inp : Raw) (width height filters num_passes : Nat) (threshold : ℚ) :
    pre_median_b inp width height filters num_passes threshold
      = forLoop 0 num_passes 1 (fun _ out =>
          forLoop 3 (height - 3) 1 (fun row out =>
            forLoop (if FC row 3 filters ≠ 1 ∧ FC row 3 filters ≠ 3 then 4 else 3) (width - 3) 2
              (fun col out => out.set row col (pre_median_site inp row col threshold)) out) out)
          inp := rfl

/-- One pass of the green scan leaves `pre_median_site` at every site it visits. -/
theorem pre_median_pass_visited (inp : Raw) (width height filters : Nat) (threshold : ℚ)
    (row col : Nat) (hrow : Visits 3 (height - 3) 1 row)
    (hcol : Visits (if FC row 3 filters ≠ 1 ∧ FC row 3 filters ≠ 3 then 4 else 3) (width - 3) 2
      col) (s : Raw) :
    forLoop 3 (height - 3) 1 (fun row out =>
        forLoop (if FC row 3 filters ≠ 1 ∧ FC row 3 filters ≠ 3 then 4 else 3) (width - 3) 2
          (fun col out => out.set row col (pre_median_site inp row col threshold)) out) s row col
      = pre_median_site inp row col threshold := by
  have h2 := forLoop2_post (fun _ : Raw => True)
    (fun j i (out : Raw) => out j i = pre_median_site inp j i threshold)
    3 (height - 3) 1 (fun row => if FC row 3 filters ≠ 1 ∧ FC row 3 filters ≠ 3 then 4 else 3)
    (fun _ => width - 3) 2 Nat.one_pos (by decide)
    (fun row col out => out.set row col (pre_median_site inp row col threshold)) s trivial
    (by
      intro j i s _ _ _
      exact ⟨trivial, by simp [Raw.set]⟩)
    (by
      intro j i j2 i2 s _ _ _ _ hne _ hQ
      simp only [Raw.set]
      rw [if_neg (fun h => hne ⟨h.1.symm, h.2.symm⟩)]
      exact hQ)
  exact h2.2 row col hrow hcol

/-- A site that the green scan visits holds `pre_median_site` after at least one pass. -/
theorem pre_median_b_visited (inp : Raw) (width height filters num_passes : Nat) (threshold : ℚ)
    (row col : Nat) (hpass : 1 ≤ num_passes) (hrow : Visits 3 (height - 3) 1 row)
    (hcol : Visits (if FC row 3 filters ≠ 1 ∧ FC row 3 filters ≠ 3 then 4 else 3) (width - 3) 2
      col) :
    pre_median_b inp width height filters num_passes threshold row col
      = pre_median_site inp row col threshold := by
  rw [pre_median_b_unfold]
  have hp := forLoop_post (fun _ : Raw => True)
    (fun _ (out : Raw) => out row col = pre_median_site inp row col threshold)
    0 num_passes 1 Nat.one_pos
    (fun _ out =>
      forLoop 3 (height - 3) 1 (fun row out =>
        forLoop (if FC row 3 filters ≠ 1 ∧ FC row 3 filters ≠ 3 then 4 else 3) (width - 3) 2
          (fun col out => out.set row col (pre_median_site inp row col threshold)) out) out)
    inp trivial
    (fun k s _ _ =>
      ⟨trivial, pre_median_pass_visited inp width height filters threshold row col hrow hcol s⟩)
    (fun k k2 s _ _ _ _ _ =>
      pre_median_pass_visited inp width height filters threshold row col hrow hcol s)
  exact hp.2 0 ⟨le_refl _, by omega, by simp⟩

/-- In a Bayer layout the green scan visits every green site of the interior rows. -/
theorem pre_median_visits_green {filters : Nat} (hb : IsBayer filters) (width row col : Nat)
    (hcol : 3 ≤ col ∧ col < width - 3)
    (hgreen : FC row col filters = 1 ∨ FC row col filters = 3) :
    Visits (if FC row 3 filters ≠ 1 ∧ FC row 3 filters ≠ 3 then 4 else 3) (width - 3) 2 col := by
  have h3 := FC_lt row 3 filters
  rcases Nat.mod_two_eq_zero_or_one col with hc | hc
  · have e : FC row col filters = FC row (3 + 1) filters := FC_col_parity _ _ _ _ (by omega)
    have hb3 := (isBayer_at hb row 3).1
    have hne : FC row 3 filters ≠ 1 ∧ FC row 3 filters ≠ 3 := by
      constructor <;> intro h <;> have := hb3 (by omega) <;> omega
    rw [if_pos hne]
    unfold Visits
    omega
  · have e : FC row col filters = FC row 3 filters := FC_col_parity _ _ _ _ (by omega)
    have hne : ¬ (FC row 3 filters ≠ 1 ∧ FC row 3 filters ≠ 3) := by
      intro h
      omega
    rw [if_neg hne]
    unfold Visits
    omega

theorem list8_of_length {α : Type} (l : List α) (h : l.length = 8) :
    ∃ a0 a1 a2 a3 a4 a5 a6 a7, l = [a0, a1, a2, a3, a4, a5, a6, a7] := by
  match l, h with
  | [a0, a1, a2, a3, a4, a5, a6, a7], _ => exact ⟨a0, a1, a2, a3, a4, a5, a6, a7, rfl⟩

/-- C6 (as stated, refuted): in the 7x7 GRBG buffer `spikeRaw` the centre green `(3, 3)`
holds 1 and its eight diamond neighbours hold 0, so each differs from the centre by more than
the threshold 1/2; `pre_median` nevertheless writes 0 there, not the centre sample 1. -/
theorem C6_isolated_centre_not_kept :
    (0 : ℚ) < 1 / 2 ∧ FC 3 3 0x61616161 = 1 ∧
    (∀ p ∈ diamond 3 3, p ≠ (3, 3) → (1 / 2 : ℚ) < |spikeRaw p.1 p.2 - spikeRaw 3 3|) ∧
    spikeRaw 3 3 = 1 ∧ pre_median spikeRaw 7 7 0x61616161 1 (1 / 2) 3 3 = 0 ∧
    pre_median spikeRaw 7 7 0x61616161 1 (1 / 2) 3 3 ≠ spikeRaw 3 3 := by
  decide!

/-! ## Colour smoothing -/

theorem vec9_const {α : Type} (d : α) (k : Fin 9) : vec9 d d d d d d d d d k = d := by
  fin_cases k <;> rfl

theorem runNetwork_const (net : List (Fin 9 × Fin 9)) (d : ℚ) (k : Fin 9) :
    runNetwork net (vec9 d d d d d d d d d) k = d := by
  obtain ⟨σ, h⟩ := runNetwork_perm net (vec9 d d d d d d d d d)
  rw [h]
  exact vec9_const d _

theorem img_set_apply (o : Img) (j i c : Nat) (v : ℚ) (r k ch : Nat) :
    (o.set j i c v) r k ch = if r = j ∧ k = i ∧ ch = c then v else o r k ch := rfl

theorem raw_set_apply (b : Raw) (j i : Nat) (v : ℚ) (r c : Nat) :
    (b.set j i v) r c = if r = j ∧ c = i then v else b r c := rfl

theorem img_set_same (o : Img) (j i c : Nat) : o.set j i c (o j i c) = o := by
  funext r k ch
  unfold Img.set
  split_ifs with h
  · obtain ⟨h1, h2, h3⟩ := h
    rw [h1, h2, h3]
  · rfl

/-- C7 (as stated, refuted): the 3x3 image `negRedImg` has `R - G = -1` and `B - G = 0` at
every pixel, yet one pass of `color_smoothing` changes the red of the centre pixel from -1
to 0. -/
theorem C7_negative_red_changed :
    (∀ j i, negRedImg j i 0 - negRedImg j i 1 = -1) ∧
    (∀ j i, negRedImg j i 2 - negRedImg j i 1 = 0) ∧
    negRedImg 1 1 0 = -1 ∧ color_smoothing negRedImg 3 3 1 1 1 0 = 0 ∧
    color_smoothing negRedImg 3 3 1 1 1 0 ≠ negRedImg 1 1 0 :=
  ⟨fun _ _ => by norm_num [negRedImg], fun _ _ => by norm_num [negRedImg], by decide!, by decide!,
    by decide!⟩

/-! ## Green equilibration -/

theorem toSizeT_nonneg (n : Int) (h : 0 ≤ n) : toSizeT n = n.toNat := by
  unfold toSizeT
  rw [if_neg (not_lt.mpr h)]

theorem raw_set_same (b : Raw) (j i : Nat) : b.set j i (b j i) = b := by
  funext r c
  unfold Raw.set
  split_ifs with h
  · rw [h.1, h.2]
  · rfl

theorem lavg_offsets_ge (filters x y : Nat) :
    2 ≤ (lavg_offsets filters x y).1 ∧ 2 ≤ (lavg_offsets filters x y).2 := by
  unfold lavg_offsets
  by_cases h1 : FC (2 + y) (2 + x) filters ≠ 1
  · simp only [h1, if_true]
    split_ifs <;> simp
  · simp only [h1, if_false]
    exact ⟨le_refl _, le_refl _⟩

/-- The site update of `lavg` writes at most the sample `(j, i)`. -/
theorem lavg_site_frame (src out : Raw) (j i : Nat) (thr : ℚ) (r c : Nat)
    (hne : ¬ (r = j ∧ c = i)) : lavg_site src out j i thr r c = out r c := by
  unfold lavg_site
  simp only []
  split_ifs
  · rw [raw_set_apply, if_neg hne]
  · rfl
  · rfl

theorem favg_oi_g2 (filters x y : Nat) :
    (favg_oi filters x y = 0 ∧ favg_g2 filters x y = 1) ∨
    (favg_oi filters x y = 1 ∧ favg_g2 filters x y = -1) := by
  unfold favg_g2 favg_oi
  split_ifs <;> simp_all

/-- In a Bayer layout the site `(0, oi)` of the buffer is green. -/
theorem favg_first_green {filters : Nat} (hb : IsBayer filters) (x y : Nat) :
    FC y (favg_oi filters x y + x) filters % 2 = 1 := by
  unfold favg_oi
  rw [and_one]
  simp only [Nat.zero_add]
  have hlt := FC_lt y x filters
  split_ifs with h
  · have h2 := isBayer_at hb y x
    have e : FC y (1 + x) filters = FC y (x + 1) filters := by rw [Nat.add_comm]
    rw [e]
    have h02 : FC y x filters = 0 ∨ FC y x filters = 2 := by omega
    rcases h02 with h0 | h0
    · exact (h2.2.1 h0).2.1
    · exact (h2.2.2 h0).2.1
  · simp only [Nat.zero_add]
    omega

/-- In a Bayer layout the sites sampled as first greens are green, and so are their
partners in the next row. -/
theorem favg_sampled_green {filters : Nat} (hb : IsBayer filters) (x y j i : Nat)
    (hj : j % 2 = 0) (hi : favg_oi filters x y ≤ i ∧ (i - favg_oi filters x y) % 2 = 0) :
    FC (j + y) (i + x) filters % 2 = 1 ∧
    FC (j + 1 + y) (((i : Int) + favg_g2 filters x y).toNat + x) filters % 2 = 1 := by
  have h0 := favg_first_green hb x y
  have hd := ((isBayer_at hb y (favg_oi filters x y + x)).1 h0).2.2.1
  rw [FC_mod2 hb] at h0 hd
  rw [FC_mod2 hb (j + y), FC_mod2 hb (j + 1 + y)]
  have e1 : (j + y) % 2 = y % 2 := by omega
  have e2 : (i + x) % 2 = (favg_oi filters x y + x) % 2 := by omega
  have e3 : (j + 1 + y) % 2 = (y + 1) % 2 := by omega
  have e4 : ((((i : Int) + favg_g2 filters x y).toNat) + x) % 2
      = (favg_oi filters x y + x + 1) % 2 := by
    rcases favg_oi_g2 filters x y with h | h <;> omega
  rw [e1, e2, e3, e4]
  exact ⟨h0, hd⟩

/-- In a Bayer layout a green site of an even buffer row lies on the columns the loops of
`favg` step through. -/
theorem favg_green_column {filters : Nat} (hb : IsBayer filters) (x y j i : Nat)
    (hj : j % 2 = 0) (hg : FC (j + y) (i + x) filters % 2 = 1) :
    favg_oi filters x y ≤ i ∧ (i - favg_oi filters x y) % 2 = 0 := by
  have h0 := favg_first_green hb x y
  have hh := ((isBayer_at hb y (favg_oi filters x y + x)).1 h0).1
  rw [FC_mod2 hb] at h0 hh hg
  have e1 : (j + y) % 2 = y % 2 := by omega
  rw [e1] at hg
  by_contra hcon
  have e2 : (i + x) % 2 = (favg_oi filters x y + x + 1) % 2 := by
    rcases favg_oi_g2 filters x y with h | h <;> omega
  rw [e2] at hg
  omega

/-- The sums of `favg` on a buffer whose first greens hold `a` and second greens hold `b`:
they are in the ratio `a : b`, and positive once a site has been sampled. -/
theorem favg_sums_ratio {filters : Nat} (hb : IsBayer filters) (inp : Raw)
    (width height x y : Nat) (a b : ℚ) (hw : 2 ≤ width) (hh : 2 ≤ height) (ha : 0 < a)
    (hpb : 0 < b)
    (hfirst : ∀ j i, j < height → i < width → j % 2 = 0 →
      FC (j + y) (i + x) filters % 2 = 1 → inp j i = a)
    (hsecond : ∀ j i, j < height → i < width → j % 2 = 1 →
      FC (j + y) (i + x) filters % 2 = 1 → inp j i = b) :
    (favg_sums inp width height filters x y).1 * b = (favg_sums inp width height filters x y).2 * a
    ∧ ∀ j i, Visits 0 (height - 1) 2 j →
        Visits (favg_oi filters x y) ((width : Int) - 1 - favg_g2 filters x y).toNat 2 i →
        0 < (favg_sums inp width height filters x y).1 ∧
        0 < (favg_sums inp width height filters x y).2 := by
  have hhz : toSizeT ((height : Int) - 1) = height - 1 := by
    rw [toSizeT_nonneg _ (by omega)]; omega
  have hwz : toSizeT ((width : Int) - 1 - favg_g2 filters x y)
      = ((width : Int) - 1 - favg_g2 filters x y).toNat := by
    rw [toSizeT_nonneg _ (by rcases favg_oi_g2 filters x y with h | h <;> omega)]
  unfold favg_sums
  simp only []
  rw [hhz, hwz]
  have key := forLoop2_post (fun s : ℚ × ℚ => 0 ≤ s.1 ∧ 0 ≤ s.2 ∧ s.1 * b = s.2 * a)
    (fun _ _ (s : ℚ × ℚ) => 0 < s.1 ∧ 0 < s.2)
    0 (height - 1) 2 (fun _ => favg_oi filters x y)
    (fun _ => ((width : Int) - 1 - favg_g2 filters x y).toNat) 2 (by decide) (by decide)
    (fun j i s => (s.1 + inp j i, s.2 + inp (j + 1) ((i : Int) + favg_g2 filters x y).toNat))
    (0, 0) ⟨le_refl _, le_refl _, by simp⟩
    (by
      intro j i s hj hi ⟨h1, h2, h3⟩
      simp only [Visits] at hj hi
      have hg := favg_sampled_green hb x y j i (by omega) ⟨hi.1, hi.2.2⟩
      have r1 : inp j i = a := hfirst j i (by omega)
        (by rcases favg_oi_g2 filters x y with h | h <;> omega) (by omega) hg.1
      have r2 : inp (j + 1) ((i : Int) + favg_g2 filters x y).toNat = b :=
        hsecond _ _ (by omega) (by rcases favg_oi_g2 filters x y with h | h <;> omega)
          (by omega) hg.2
      simp only [r1, r2]
      refine ⟨⟨by linarith, by linarith, by linarith⟩, by linarith, by linarith⟩)
    (by
      intro j i j2 i2 s hj hi hj2 hi2 _ ⟨h1, h2, h3⟩ ⟨q1, q2⟩
      simp only [Visits] at hj2 hi2
      have hg := favg_sampled_green hb x y j2 i2 (by omega) ⟨hi2.1, hi2.2.2⟩
      have r1 : inp j2 i2 = a := hfirst j2 i2 (by omega)
        (by rcases favg_oi_g2 filters x y with h | h <;> omega) (by omega) hg.1
      have r2 : inp (j2 + 1) ((i2 : Int) + favg_g2 filters x y).toNat = b :=
        hsecond _ _ (by omega) (by rcases favg_oi_g2 filters x y with h | h <;> omega)
          (by omega) hg.2
      simp only [r1, r2]
      exact ⟨by linarith, by linarith⟩)
  exact ⟨key.1.2.2, key.2⟩

/-- C4 (as stated, refuted): with first greens 1 and second greens 1/2 (buffer `rowsRaw`,
GRBG, phase (0, 0)), `favg` leaves the first green `(0, 0)` of a 2x2 buffer at 1, and in a
4x3 buffer it rescales `(0, 0)` to 1/2 but leaves the first green `(2, 0)` of the last row
at 1. -/
theorem C4_first_green_not_rescaled :
    FC 0 0 0x61616161 = 1 ∧ FC 1 1 0x61616161 = 1 ∧ FC 2 0 0x61616161 = 1 ∧
    rowsRaw 0 0 = 1 ∧ rowsRaw 1 1 = 1 / 2 ∧ rowsRaw 2 0 = 1 ∧
    green_equilibration_favg rowsRaw 2 2 0x61616161 0 0 0 0 = 1 ∧
    green_equilibration_favg rowsRaw 4 3 0x61616161 0 0 0 0 = 1 / 2 ∧
    green_equilibration_favg rowsRaw 4 3 0x61616161 0 0 2 0 = 1 := by
  decide!

/-- C4 (amended): for every Bayer buffer of width >= 2 and height >= 2, every CFA phase
`(x, y)` and positive values a, b, if every first-green site (green site on an even buffer
row) holds a and every second-green site (green site on an odd buffer row) holds b, then
after `green_equilibration_favg` every first-green site `(j, i)` that the loops sample, that
is with `j + 1 < height` and `i < width - 1 - g2_offset`, holds b. -/
theorem C4_favg_imbalance (inp : Raw) (width height filters x y : Nat) (a b : ℚ)
    (hb : IsBayer filters) (hw : 2 ≤ width) (hh : 2 ≤ height) (ha : 0 < a) (hpb : 0 < b)
    (hfirst : ∀ j i, j < height → i < width → j % 2 = 0 →
      FC (j + y) (i + x) filters % 2 = 1 → inp j i = a)
    (hsecond : ∀ j i, j < height → i < width → j % 2 = 1 →
      FC (j + y) (i + x) filters % 2 = 1 → inp j i = b)
    (j i : Nat) (hj : j % 2 = 0) (hj2 : j + 1 < height)
    (hi : (i : Int) < (width : Int) - 1 - favg_g2 filters x y)
    (hgreen : FC (j + y) (i + x) filters % 2 = 1) :
    green_equilibration_favg inp width height filters x y j i = b := by
  have hcol := favg_green_column hb x y j i hj hgreen
  have hvj : Visits 0 (height - 1) 2 j := ⟨Nat.zero_le _, by omega, by omega⟩
  have hvi : Visits (favg_oi filters x y) ((width : Int) - 1 - favg_g2 filters x y).toNat 2 i :=
    ⟨hcol.1, by omega, hcol.2⟩
  obtain ⟨hratio, hposs⟩ := favg_sums_ratio hb inp width height x y a b hw hh ha hpb hfirst hsecond
  have hpos := hposs j i hvj hvi
  unfold green_equilibration_favg
  simp only []
  rw [if_pos hpos]
  have key := forLoop2_post (fun _ : Raw => True) (fun j i (s : Raw) => s j i = b)
    0 (height - 1) 2 (fun _ => favg_oi filters x y)
    (fun _ => ((width : Int) - 1 - favg_g2 filters x y).toNat) 2 (by decide) (by decide)
    (fun j i (out : Raw) => out.set j i (inp j i / ((favg_sums inp width height filters x y).1
      / (favg_sums inp width height filters x y).2)))
    inp trivial
    (by
      intro j i s hj hi _
      refine ⟨trivial, ?_⟩
      simp only [raw_set_apply, and_self, if_true]
      simp only [Visits] at hj hi
      have hg := favg_sampled_green hb x y j i (by omega) ⟨hi.1, hi.2.2⟩
      have r1 : inp j i = a := hfirst j i (by omega)
        (by rcases favg_oi_g2 filters x y with h | h <;> omega) (by omega) hg.1
      rw [r1]
      have h2 : (favg_sums inp width height filters x y).2 ≠ 0 := ne_of_gt hpos.2
      have h1 : (favg_sums inp width height filters x y).1 ≠ 0 := ne_of_gt hpos.1
      field_simp
      linarith)
    (by
      intro j i j2 i2 s _ _ _ _ hne _ hQ
      simp only [raw_set_apply]
      rw [if_neg (fun h => hne ⟨h.1.symm, h.2.symm⟩)]
      exact hQ)
  exact key.2 j i hvj hvi

/-- C4 (amended), instance: the 4x4 GRBG buffer `rowsRaw` (first greens 1, second greens
1/2), site `(0, 0)`. -/
theorem C4_favg_imbalance_witness :
    green_equilibration_favg rowsRaw 4 4 0x61616161 0 0 0 0 = 1 / 2 :=
  C4_favg_imbalance rowsRaw 4 4 0x61616161 0 0 1 (1 / 2) (by decide) (by decide) (by decide)
    (by decide!) (by decide!)
    (fun j _ _ _ hj _ => by simp [rowsRaw, hj])
    (fun j _ _ _ hj _ => by simp [rowsRaw, hj])
    0 0 (by decide) (by decide) (by decide) (by decide)

/-! ## Dispatcher -/

theorem process_method_eq (p : ProcessInput) : (process p).method = process_method p := by
  unfold process
  simp only []
  split_ifs <;> rfl

theorem process_path_eq (p : ProcessInput) :
    (process p).path =
      if p.scale > 99999 / 100000 ∧ p.scale < 100001 / 100000 then Path.one_to_one
      else if p.scale > (if p.filters = 9 then 5586813 / 16777216 else 1 / 2)
          ∨ (p.pipe = PipeType.full ∧ p.qual > 0) ∨ p.pipe = PipeType.export
        then Path.demosaic_then_zoom
      else Path.subsample := by
  unfold process
  simp only []
  split_ifs <;> rfl

theorem path_cases (c1 c2 : Prop) [Decidable c1] [Decidable c2] (path : Path)
    (h : path = if c1 then Path.one_to_one else if c2 then Path.demosaic_then_zoom
      else Path.subsample) :
    (path = Path.one_to_one ↔ c1) ∧ (path = Path.demosaic_then_zoom ↔ (¬ c1 ∧ c2)) ∧
    (path = Path.subsample ↔ (¬ c1 ∧ ¬ c2)) := by
  subst h
  by_cases h1 : c1 <;> by_cases h2 : c2 <;> simp [h1, h2]

theorem process_zoom_calls (p : ProcessInput)
    (h : (process p).path = Path.demosaic_then_zoom) :
    Call.clip_and_zoom ∈ (process p).calls := by
  unfold process at h ⊢
  simp only [] at h ⊢
  split_ifs at h ⊢ <;> simp

theorem process_subsample_calls (p : ProcessInput) (h : (process p).path = Path.subsample) :
    (Call.third_size_xtrans ∈ (process p).calls ↔ p.filters = 9) ∧
    (Call.half_size ∈ (process p).calls ↔ p.filters ≠ 9) := by
  unfold process at h ⊢
  simp only [] at h ⊢
  split_ifs at h ⊢ <;> simp_all

/-- Every branch that demosaics runs the kernel of the method: the X-Trans kernel for an
X-Trans image, PPG or AMAZE for a Bayer image. -/
theorem demosaic_calls_kernel (p : ProcessInput) (method : Int) :
    (if p.filters = 9 then xtrans_call method else bayer_call method)
      ∈ demosaic_calls p method := by
  unfold demosaic_calls
  split_ifs <;> simp

/-- C9: for every scale, CFA kind, pipeline kind and quality, `process` takes the 1:1 branch
exactly when `0.99999 < scale < 1.00001`, and then calls the demosaic kernels and nothing
after them but the colour smoothing; otherwise it demosaics at full size and resamples (the
demosaic kernels, then `dt_iop_clip_and_zoom`) exactly when `scale > 0.5` (Bayer) or
`scale > 0.333f` (X-Trans; the literal is the `float` 5586813/16777216), or the pipeline is
full with `qual > 0`, or the pipeline is export; otherwise it takes the half-size (Bayer) or
third-size (X-Trans) branch, which calls no demosaic kernel.  The three cases are exhaustive
and mutually exclusive. -/
theorem C9_process_path (p : ProcessInput) :
    ((process p).path = Path.one_to_one ↔
      (p.scale > 99999 / 100000 ∧ p.scale < 100001 / 100000)) ∧
    ((process p).path = Path.demosaic_then_zoom ↔
      (¬ (p.scale > 99999 / 100000 ∧ p.scale < 100001 / 100000) ∧
        (p.scale > (if p.filters = 9 then 5586813 / 16777216 else 1 / 2)
          ∨ (p.pipe = PipeType.full ∧ p.qual > 0) ∨ p.pipe = PipeType.export))) ∧
    ((process p).path = Path.subsample ↔
      (¬ (p.scale > 99999 / 100000 ∧ p.scale < 100001 / 100000) ∧
        ¬ (p.scale > (if p.filters = 9 then 5586813 / 16777216 else 1 / 2)
          ∨ (p.pipe = PipeType.full ∧ p.qual > 0) ∨ p.pipe = PipeType.export))) ∧
    ((process p).path = Path.one_to_one →
      (process p).calls = demosaic_calls p (process p).method
        ++ (if p.color_smoothing ≠ 0 then [Call.color_smoothing p.color_smoothing] else [])) ∧
    ((process p).path = Path.demosaic_then_zoom →
      (process p).calls = demosaic_calls p (process p).method ++ [Call.clip_and_zoom]
        ++ (if p.color_smoothing ≠ 0 then [Call.color_smoothing p.color_smoothing] else [])) ∧
    ((process p).path = Path.subsample →
      (process p).calls = (if p.filters = 9 then [Call.third_size_xtrans]
          else if p.pipe = PipeType.export ∧ p.median_thrs > 0
            then [Call.pre_median_b, Call.half_size]
          else [Call.half_size])
        ++ (if p.color_smoothing ≠ 0 then [Call.color_smoothing p.color_smoothing] else [])) ∧
    (if p.filters = 9 then xtrans_call (process p).method else bayer_call (process p).method)
      ∈ demosaic_calls p (process p).method ∧
    ((process p).path = Path.demosaic_then_zoom → Call.clip_and_zoom ∈ (process p).calls) ∧
    ((process p).path = Path.subsample →
      (Call.third_size_xtrans ∈ (process p).calls ↔ p.filters = 9) ∧
      (Call.half_size ∈ (process p).calls ↔ p.filters ≠ 9)) := by
  obtain ⟨h1, h2, h3⟩ := path_cases _ _ _ (process_path_eq p)
  refine ⟨h1, h2, h3, ?_, ?_, ?_, demosaic_calls_kernel p _, process_zoom_calls p,
    process_subsample_calls p⟩
  · intro h
    unfold process at h ⊢
    simp only [] at h ⊢
    split_ifs at h ⊢ <;> rfl
  · intro h
    unfold process at h ⊢
    simp only [] at h ⊢
    split_ifs at h ⊢ <;> rfl
  · intro h
    unfold process at h ⊢
    simp only [] at h ⊢
    split_ifs at h ⊢ <;> rfl

/-- At the scale `0.333f` itself an X-Trans preview is not demosaiced at full size, it takes
the third-size branch; at the `float` 5586814/16777216 just above, it is demosaiced and
resampled. -/
theorem process_path_at_third :
    (process ⟨PipeType.preview, 0, 5586813 / 16777216, 9, 1026, 0, 0, 0⟩).path
      = Path.subsample ∧
    (process ⟨PipeType.preview, 0, 5586814 / 16777216, 9, 1026, 0, 0, 0⟩).calls
      = [Call.xtrans_markesteijn 1, Call.clip_and_zoom] := by
  constructor <;> decide!

theorem process_calls_slow (p : ProcessInput)
    (h1 : ¬ (p.scale > 99999 / 100000 ∧ p.scale < 100001 / 100000)) :
    (process p).calls = demosaic_calls p (process_method p) ++ [Call.clip_and_zoom]
        ++ (if p.color_smoothing ≠ 0 then [Call.color_smoothing p.color_smoothing] else [])
    ∨ ((process p).path = Path.subsample ∧
       (process p).calls = (if p.filters = 9 then [Call.third_size_xtrans]
          else if p.pipe = PipeType.export ∧ p.median_thrs > 0
            then [Call.pre_median_b, Call.half_size]
          else [Call.half_size])
        ++ (if p.color_smoothing ≠ 0 then [Call.color_smoothing p.color_smoothing] else [])) := by
  unfold process
  simp only []
  rw [if_neg h1]
  split_ifs
  all_goals first
    | (left; rfl)
    | (right; exact ⟨rfl, rfl⟩)

/-- C10: when the pipeline is full, the quality is fast (`qual = 0`) and
`scale <= 0.99999`, the method `process` uses is PPG for every Bayer image whatever is
configured (AMAZE is never called), and `min(configured, LINEAR + qual)` for every X-Trans
image, whose kernel is the one called whenever a demosaic kernel runs. -/
theorem C10_method_downgrade (p : ProcessInput) (hpipe : p.pipe = PipeType.full)
    (hq : p.qual = 0) (hs : p.scale ≤ 99999 / 100000) :
    (p.filters ≠ 9 →
      (process p).method = DT_IOP_DEMOSAIC_PPG ∧ Call.amaze ∉ (process p).calls) ∧
    (p.filters = 9 →
      (process p).method = min p.demosaicing_method (DT_IOP_DEMOSAIC_LINEAR + p.qual) ∧
      ((process p).path ≠ Path.subsample →
        xtrans_call (min p.demosaicing_method (DT_IOP_DEMOSAIC_LINEAR + p.qual))
          ∈ (process p).calls)) := by
  have hm : process_method p = if p.filters ≠ 9 then DT_IOP_DEMOSAIC_PPG
      else min p.demosaicing_method (DT_IOP_DEMOSAIC_LINEAR + p.qual) := by
    unfold process_method
    rw [if_pos ⟨hpipe, by omega, hs⟩]
  have h1 : ¬ (p.scale > 99999 / 100000 ∧ p.scale < 100001 / 100000) :=
    fun h => absurd hs (not_le.mpr h.1)
  have hcalls := process_calls_slow p h1
  constructor
  · intro h9
    rw [if_pos h9] at hm
    refine ⟨by rw [process_method_eq, hm], ?_⟩
    have hb : bayer_call DT_IOP_DEMOSAIC_PPG = Call.ppg := by decide
    rcases hcalls with hc | ⟨_, hc⟩
    · rw [hc, hm]
      unfold demosaic_calls green_eq_calls
      rw [hb, if_neg h9]
      split_ifs <;> simp
    · rw [hc, if_neg h9]
      split_ifs <;> simp
  · intro h9
    rw [if_neg (not_not.mpr h9)] at hm
    refine ⟨by rw [process_method_eq, hm], ?_⟩
    intro hp
    rcases hcalls with hc | ⟨hsub, _⟩
    · rw [hc, hm]
      unfold demosaic_calls
      rw [if_pos h9]
      simp
    · exact absurd hsub hp

/-- C10, instance: full pipeline, fast quality, scale 0.7, a Bayer image configured for
AMAZE and an X-Trans image configured for MARKESTEIJN_3. -/
theorem C10_method_downgrade_witness :
    (process ⟨PipeType.full, 0, 7 / 10, 0x94949494, 1, 0, 0, 0⟩).method = 0 ∧
    (process ⟨PipeType.full, 0, 7 / 10, 9, 1027, 0, 0, 0⟩).method = 1024 :=
  ⟨((C10_method_downgrade ⟨PipeType.full, 0, 7 / 10, 0x94949494, 1, 0, 0, 0⟩ rfl rfl (by decide!)).1
      (by decide)).1,
   ((C10_method_downgrade ⟨PipeType.full, 0, 7 / 10, 9, 1027, 0, 0, 0⟩ rfl rfl (by decide!)).2
      rfl).1⟩

/-! ## Loops with a moving index -/

theorem forLoop_one (lo hi : Nat) {σ : Type} (body : Nat → σ → σ) (s : σ) :
    forLoop lo hi 1 body s = loopN (hi - lo) lo 1 body s := by
  unfold forLoop
  simp

/-- Where the index is never moved, the loop with a moving index is the plain loop. -/
theorem jumpLoop_plain {σ : Type} (jump : Nat → Nat) (brk : Bool) (width : Nat)
    (body : Nat → σ → σ) :
    ∀ (n a : Nat) (s : σ) (fuel : Nat), width - a = n → n < fuel →
      (∀ i, a ≤ i → i < width → jump i = i) →
      jumpLoop jump brk width body fuel a s = some (loopN n a 1 body s) := by
  intro n
  induction n with
  | zero =>
    intro a s fuel hn hf _
    obtain ⟨f, rfl⟩ : ∃ f, fuel = f + 1 := ⟨fuel - 1, by omega⟩
    unfold jumpLoop
    rw [if_neg (by omega)]
    rfl
  | succ n ih =>
    intro a s fuel hn hf hj
    obtain ⟨f, rfl⟩ : ∃ f, fuel = f + 1 := ⟨fuel - 1, by omega⟩
    unfold jumpLoop
    rw [if_pos (by omega), hj a (le_refl _) (by omega), if_neg (by omega)]
    rw [ih (a + 1) (body a s) f (by omega) (by omega)
      (fun i h1 h2 => hj i (by omega) h2)]
    rfl

theorem loopNOpt_some {σ : Type} (f : Nat → σ → Option σ) (g : Nat → σ → σ)
    (h : ∀ k s, f k s = some (g k s)) :
    ∀ (n k : Nat) (s : σ), loopNOpt n k f s = some (loopN n k 1 g s) := by
  intro n
  induction n with
  | zero => intro k s; rfl
  | succ n ih =>
    intro k s
    unfold loopNOpt
    rw [h k s]
    simp only []
    rw [ih (k + 1) (g k s)]
    rfl

/-- A row of the PPG border loop that is not split visits every column. -/
theorem ppg_row_plain {σ : Type} (wo ho j fuel : Nat) (body : Nat → σ → σ) (s : σ)
    (hf : wo < fuel) (h : ¬ (3 ≤ j ∧ j < ho - 3) ∨ wo ≤ 3) :
    jumpLoop (ppg_jump wo ho j) true wo body fuel 0 s = some (forLoop 0 wo 1 body s) := by
  rw [forLoop_one]
  refine jumpLoop_plain _ _ _ _ (wo - 0) 0 s fuel rfl (by omega) ?_
  intro i _ hi
  unfold ppg_jump
  rw [if_neg]
  intro hc
  omega

/-- A split row of the PPG border loop visits the columns `0, 1, 2` and `wo-3, wo-2, wo-1`
when the width is at least 6. -/
theorem ppg_row_split {σ : Type} (wo ho j fuel : Nat) (body : Nat → σ → σ) (s : σ)
    (hf : wo < fuel) (h : 3 ≤ j ∧ j < ho - 3) (hw : 6 ≤ wo) :
    jumpLoop (ppg_jump wo ho j) true wo body fuel 0 s
      = some (forLoop (wo - 3) wo 1 body (forLoop 0 3 1 body s)) := by
  obtain ⟨f, rfl⟩ : ∃ f, fuel = f + 4 := ⟨fuel - 4, by omega⟩
  have j0 : ppg_jump wo ho j 0 = 0 := by unfold ppg_jump; simp
  have j1 : ppg_jump wo ho j 1 = 1 := by unfold ppg_jump; simp
  have j2 : ppg_jump wo ho j 2 = 2 := by unfold ppg_jump; simp
  have j3 : ppg_jump wo ho j 3 = wo - 3 := by unfold ppg_jump; rw [if_pos ⟨rfl, h⟩]
  have hrest := jumpLoop_plain (ppg_jump wo ho j) true wo body 2 (wo - 3 + 1)
    (body (wo - 3) (body 2 (body 1 (body 0 s)))) f (by omega) (by omega) (by
      intro i h1 h2
      unfold ppg_jump
      rw [if_neg]
      intro hc
      omega)
  have e1 : jumpLoop (ppg_jump wo ho j) true wo body (f + 4) 0 s
      = jumpLoop (ppg_jump wo ho j) true wo body f (wo - 3 + 1)
          (body (wo - 3) (body 2 (body 1 (body 0 s)))) := by
    rw [jumpLoop, if_pos (by omega), j0, if_neg (by simp; omega)]
    rw [jumpLoop, if_pos (by omega), j1, if_neg (by simp; omega)]
    rw [jumpLoop, if_pos (by omega), j2, if_neg (by simp; omega)]
    rw [jumpLoop, if_pos (by omega), j3, if_neg (by simp; omega)]
  rw [e1, hrest, forLoop_one, forLoop_one]
  have e2 : wo - (wo - 3) = 3 := by omega
  rw [e2]
  rfl

/-! ## PPG border interpolation -/

theorem nbhd3_mem (j i height width : Nat) (p : Nat × Nat) (hp : p ∈ nbhd3 j i height width) :
    p.1 < height ∧ p.2 < width := by
  unfold nbhd3 at hp
  rw [List.mem_flatMap] at hp
  obtain ⟨dy, _, hdy⟩ := hp
  rw [List.mem_filterMap] at hdy
  obtain ⟨dx, _, hdx⟩ := hdy
  split_ifs at hdx with hc
  have := Option.some.inj hdx
  rw [← this]
  exact ⟨hc.2.2.1, hc.2.2.2⟩

/-- Invariant of the border scan for one colour: the count is not negative, an empty count
has an empty sum, and a positive count has its mean in the convex set `P`. -/
theorem ppg_sum_fold (P : ℚ → Prop)
    (hconv : ∀ x y t : ℚ, P x → P y → 0 ≤ t → t ≤ 1 → P (t * x + (1 - t) * y))
    (inp : Raw) (wi hi filters : Nat)
    (hin : ∀ r c, r < hi → c < wi → P (inp r c)) (c : Nat) (hc : c < 4) :
    ∀ (l : List (Nat × Nat)) (sum : Nat → ℚ),
      (∀ p ∈ l, p.1 < hi ∧ p.2 < wi) →
      (0 ≤ sum (c + 4) ∧ (sum (c + 4) = 0 → sum c = 0) ∧
        (sum (c + 4) > 0 → P (sum c / sum (c + 4)))) →
      (0 ≤ (l.foldl (ppg_sum_step inp filters) sum) (c + 4) ∧
        ((l.foldl (ppg_sum_step inp filters) sum) (c + 4) = 0 →
          (l.foldl (ppg_sum_step inp filters) sum) c = 0) ∧
        ((l.foldl (ppg_sum_step inp filters) sum) (c + 4) > 0 →
          P ((l.foldl (ppg_sum_step inp filters) sum) c /
            (l.foldl (ppg_sum_step inp filters) sum) (c + 4)))) := by
  intro l
  induction l with
  | nil => intro sum _ h; exact h
  | cons p ps ih =>
    intro sum hmem h
    rw [List.foldl_cons]
    apply ih
    · intro q hq; exact hmem q (List.mem_cons_of_mem _ hq)
    · have hp := hmem p (List.mem_cons_self _ _)
      have hf := FC_lt p.1 p.2 filters
      have hx := hin p.1 p.2 hp.1 hp.2
      obtain ⟨h1, h2, h3⟩ := h
      unfold ppg_sum_step
      by_cases e : c = FC p.1 p.2 filters
      · have e4 : ¬ (c + 4 = FC p.1 p.2 filters) := by omega
        have e5 : c + 4 = FC p.1 p.2 filters + 4 := by omega
        rw [if_pos e, if_neg e4, if_pos e5]
        refine ⟨by linarith, fun h0 => by linarith, fun _ => ?_⟩
        by_cases hz : sum (c + 4) = 0
        · rw [hz, h2 hz]
          simpa using hx
        · have hp0 : 0 < sum (c + 4) := lt_of_le_of_ne h1 (Ne.symm hz)
          have hP := h3 hp0
          have hne : sum (c + 4) + 1 ≠ 0 := by linarith
          have ht1 : 0 ≤ sum (c + 4) / (sum (c + 4) + 1) := div_nonneg h1 (by linarith)
          have ht2 : sum (c + 4) / (sum (c + 4) + 1) ≤ 1 := by
            rw [div_le_one (by linarith)]
            linarith
          have hcv := hconv _ _ (sum (c + 4) / (sum (c + 4) + 1)) hP hx ht1 ht2
          have e6 : sum (c + 4) / (sum (c + 4) + 1) * (sum c / sum (c + 4))
              + (1 - sum (c + 4) / (sum (c + 4) + 1)) * inp p.1 p.2
              = (sum c + inp p.1 p.2) / (sum (c + 4) + 1) := by
            field_simp
            ring
          rw [e6] at hcv
          exact hcv
      · have e4 : ¬ (c + 4 = FC p.1 p.2 filters) := by omega
        have e5 : ¬ (c + 4 = FC p.1 p.2 filters + 4) := by omega
        have e7 : ¬ (c = FC p.1 p.2 filters + 4) := by omega
        rw [if_neg e, if_neg e4, if_neg e5, if_neg e7]
        exact ⟨h1, h2, h3⟩

/-- The colour sums of the border loop are averages: for a convex set `P` of sample values
holding every sample of the buffer, each colour with a positive count has its mean in `P`. -/
theorem ppg_border_sum_avg (P : ℚ → Prop)
    (hconv : ∀ x y t : ℚ, P x → P y → 0 ≤ t → t ≤ 1 → P (t * x + (1 - t) * y))
    (inp : Raw) (wi hi filters j i : Nat)
    (hin : ∀ r c, r < hi → c < wi → P (inp r c)) (c : Nat) (hc : c < 4)
    (hpos : ppg_border_sum inp wi hi filters j i (c + 4) > 0) :
    P (ppg_border_sum inp wi hi filters j i c / ppg_border_sum inp wi hi filters j i (c + 4)) :=
  (ppg_sum_fold P hconv inp wi hi filters hin c hc _ _ (nbhd3_mem j i hi wi)
    ⟨le_refl _, fun _ => rfl, fun h => absurd h (lt_irrefl _)⟩).2.2 hpos

theorem forLoop_three {σ : Type} (body : Nat → σ → σ) (s : σ) :
    forLoop 0 3 1 body s = body 2 (body 1 (body 0 s)) := rfl

theorem ppg_border_pixel_eq (inp : Raw) (wi hi filters j i : Nat) (o : Img) :
    ppg_border_pixel inp wi hi filters j i o
      = ((o.set j i 0 (ppg_border_val inp wi hi filters j i 0)).set j i 1
          (ppg_border_val inp wi hi filters j i 1)).set j i 2
          (ppg_border_val inp wi hi filters j i 2) := rfl

/-- The border interpolation of a pixel writes only channels 0, 1, 2 of that pixel. -/
theorem ppg_border_pixel_frame (inp : Raw) (wi hi filters j i : Nat) (o : Img) (r k ch : Nat)
    (h : ¬ (r = j ∧ k = i ∧ ch < 3)) :
    ppg_border_pixel inp wi hi filters j i o r k ch = o r k ch := by
  rw [ppg_border_pixel_eq]
  simp only [img_set_apply]
  rw [if_neg (by omega), if_neg (by omega), if_neg (by omega)]

/-- The border interpolation of a pixel stores `ppg_border_val` in its channels 0, 1, 2. -/
theorem ppg_border_pixel_at (inp : Raw) (wi hi filters j i : Nat) (o : Img) (ch : Nat)
    (hch : ch < 3) :
    ppg_border_pixel inp wi hi filters j i o j i ch = ppg_border_val inp wi hi filters j i ch := by
  rw [ppg_border_pixel_eq]
  simp only [img_set_apply]
  have h3 : ch = 0 ∨ ch = 1 ∨ ch = 2 := by omega
  rcases h3 with rfl | rfl | rfl <;> simp

/-- The border values lie in every convex set `P` that holds the samples of the buffer. -/
theorem ppg_border_val_good (P : ℚ → Prop)
    (hconv : ∀ x y t : ℚ, P x → P y → 0 ≤ t → t ≤ 1 → P (t * x + (1 - t) * y))
    (inp : Raw) (wi hi filters j i : Nat)
    (hin : ∀ r c, r < hi → c < wi → P (inp r c)) (hj : j < hi) (hi2 : i < wi)
    (ch : Nat) (hch : ch < 3) :
    P (ppg_border_val inp wi hi filters j i ch) := by
  unfold ppg_border_val
  simp only []
  split_ifs with h
  · exact ppg_border_sum_avg P hconv inp wi hi filters j i hin ch (by omega) h.2
  · exact hin j i hj hi2

/-- The border loop of `demosaic_ppg` returns, with `fuel > wo`, whenever the width is not 4
or 5 or the height is at most 6; its result is the fold of the rows in closed form. -/
theorem ppg_border_eq (fuel : Nat) (inp : Raw) (wo ho wi hi filters : Nat) (out : Img)
    (hT : wo ≤ 3 ∨ 6 ≤ wo ∨ ho ≤ 6) (hf : wo < fuel) :
    ppg_border fuel inp wo ho wi hi filters out
      = some (forLoop 0 ho 1 (ppg_border_row inp wo ho wi hi filters) out) := by
  unfold ppg_border
  rw [forLoop_one]
  apply loopNOpt_some
  intro j s
  unfold ppg_border_row
  by_cases h : (3 ≤ j ∧ j < ho - 3) ∧ 6 ≤ wo
  · rw [if_pos h]
    exact ppg_row_split wo ho j fuel _ s hf h.1 h.2
  · rw [if_neg h]
    apply ppg_row_plain wo ho j fuel _ s hf
    by_cases h2 : 3 ≤ j ∧ j < ho - 3
    · right
      have : ¬ 6 ≤ wo := fun h6 => h ⟨h2, h6⟩
      omega
    · left; exact h2

/-- A row of the border loop writes only in its own row, channels 0, 1, 2. -/
theorem ppg_border_row_frame (inp : Raw) (wo ho wi hi filters j : Nat) (o : Img)
    (r k ch : Nat) (h : r ≠ j ∨ 3 ≤ ch) :
    ppg_border_row inp wo ho wi hi filters j o r k ch = o r k ch := by
  have hloop : ∀ lo up (s : Img),
      forLoop lo up 1 (fun i o => ppg_border_pixel inp wi hi filters j i o) s r k ch
        = s r k ch := by
    intro lo up s
    exact forLoop_inv (fun s2 : Img => s2 r k ch = s r k ch) lo up 1 Nat.one_pos _ s rfl
      (fun i s2 _ hs2 => by
        beta_reduce
        rw [ppg_border_pixel_frame _ _ _ _ _ _ _ _ _ _ (by omega)]
        exact hs2)
  unfold ppg_border_row
  split_ifs
  · rw [hloop, hloop]
  · rw [hloop]

/-- A row of the border loop leaves `ppg_border_val` in the pixels it visits. -/
theorem ppg_border_row_at (inp : Raw) (wo ho wi hi filters j : Nat) (o : Img)
    (i ch : Nat) (hi2 : i < wo) (hch : ch < 3)
    (hv : ¬ (3 ≤ j ∧ j < ho - 3 ∧ 3 ≤ i ∧ i < wo - 3)) :
    ppg_border_row inp wo ho wi hi filters j o j i ch
      = ppg_border_val inp wi hi filters j i ch := by
  have hloop : ∀ lo up (s : Img), lo ≤ i → i < up →
      forLoop lo up 1 (fun i o => ppg_border_pixel inp wi hi filters j i o) s j i ch
        = ppg_border_val inp wi hi filters j i ch := by
    intro lo up s h1 h2
    have := forLoop_post (fun _ : Img => True)
      (fun i (s : Img) => s j i ch = ppg_border_val inp wi hi filters j i ch)
      lo up 1 Nat.one_pos (fun i o => ppg_border_pixel inp wi hi filters j i o) s trivial
      (fun k s _ _ => ⟨trivial, ppg_border_pixel_at inp wi hi filters j k s ch hch⟩)
      (fun k k2 s _ _ hne _ hQ => by
        beta_reduce
        rw [ppg_border_pixel_frame _ _ _ _ _ _ _ _ _ _ (by omega)]
        exact hQ)
    exact this.2 i ((visits_one _ _ _).mpr ⟨h1, h2⟩)
  have hkeep : ∀ lo up (s : Img), ¬ (lo ≤ i ∧ i < up) →
      forLoop lo up 1 (fun i o => ppg_border_pixel inp wi hi filters j i o) s j i ch
        = s j i ch := by
    intro lo up s hn
    exact forLoop_inv (fun s2 : Img => s2 j i ch = s j i ch) lo up 1 Nat.one_pos _ s rfl
      (fun k s2 hk hs2 => by
        rw [visits_one] at hk
        rw [ppg_border_pixel_frame _ _ _ _ _ _ _ _ _ _ (by omega)]
        exact hs2)
  unfold ppg_border_row
  split_ifs with h
  · by_cases h3 : i < 3
    · rw [hkeep _ _ _ (by omega), hloop 0 3 o (Nat.zero_le _) h3]
    · rw [hloop _ _ _ (by omega) hi2]
  · exact hloop 0 wo o (Nat.zero_le _) hi2

/-- After the border loop every pixel outside the interior holds `ppg_border_val` in its
channels 0, 1, 2. -/
theorem ppg_border_result_at (inp : Raw) (wo ho wi hi filters : Nat) (out : Img)
    (j i ch : Nat) (hj : j < ho) (hi2 : i < wo) (hch : ch < 3)
    (hv : ¬ (3 ≤ j ∧ j < ho - 3 ∧ 3 ≤ i ∧ i < wo - 3)) :
    forLoop 0 ho 1 (ppg_border_row inp wo ho wi hi filters) out j i ch
      = ppg_border_val inp wi hi filters j i ch := by
  have := forLoop_post (fun _ : Img => True)
    (fun j2 (s : Img) => j2 = j → s j i ch = ppg_border_val inp wi hi filters j i ch)
    0 ho 1 Nat.one_pos (ppg_border_row inp wo ho wi hi filters) out trivial
    (fun k s _ _ => ⟨trivial, fun e => by
      subst e
      exact ppg_border_row_at inp wo ho wi hi filters k s i ch hi2 hch hv⟩)
    (fun k k2 s _ _ hne _ hQ e => by
      subst e
      rw [ppg_border_row_frame _ _ _ _ _ _ _ _ _ _ _ (Or.inl (Ne.symm hne))]
      exact hQ rfl)
  exact this.2 j ((visits_one _ _ _).mpr ⟨Nat.zero_le _, hj⟩) rfl

/-! ## PPG first pass -/

/-- A convex set holds every value between two of its members. -/
theorem convex_between (P : ℚ → Prop)
    (hconv : ∀ x y t : ℚ, P x → P y → 0 ≤ t → t ≤ 1 → P (t * x + (1 - t) * y))
    (a b v : ℚ) (ha : P a) (hb : P b) (h1 : min a b ≤ v) (h2 : v ≤ max a b) : P v := by
  by_cases hab : a = b
  · subst hab
    simp only [min_self, max_self] at h1 h2
    rw [le_antisymm h2 h1]
    exact ha
  · have hd : a - b ≠ 0 := sub_ne_zero.mpr hab
    have key := hconv a b ((v - b) / (a - b)) ha hb
    have e : (v - b) / (a - b) * a + (1 - (v - b) / (a - b)) * b = v := by
      field_simp
      ring
    rw [e] at key
    rcases lt_or_gt_of_ne hab with hlt | hgt
    · rw [min_eq_left (le_of_lt hlt)] at h1
      rw [max_eq_right (le_of_lt hlt)] at h2
      have hneg : a - b < 0 := by linarith
      apply key
      · exact div_nonneg_of_nonpos (by linarith) (le_of_lt hneg)
      · rw [div_le_one_of_neg hneg]
        linarith
    · rw [min_eq_right (le_of_lt hgt)] at h1
      rw [max_eq_left (le_of_lt hgt)] at h2
      have hpos : 0 < a - b := by linarith
      apply key
      · exact div_nonneg (by linarith) (le_of_lt hpos)
      · rw [div_le_one hpos]
        linarith

/-- The clamp `fmaxf(fminf(g, M), m)` between the min and the max of two values. -/
theorem clamp_between (a b g : ℚ) :
    min a b ≤ max (min g (max a b)) (min a b) ∧ max (min g (max a b)) (min a b) ≤ max a b := by
  refine ⟨le_max_right _ _, max_le (min_le_right _ _) ?_⟩
  exact le_trans (min_le_left a b) (le_max_left a b)

/-- The first pass writes only the pixel it is at. -/
theorem ppg_green_pixel_frame (inp : Raw) (filters j i : Nat) (o : Img) (r k ch : Nat)
    (h : ¬ (r = j ∧ k = i)) : ppg_green_pixel inp filters j i o r k ch = o r k ch := by
  unfold ppg_green_pixel
  simp only []
  split_ifs <;> simp only [img_set_apply] <;> (repeat' rw [if_neg (fun hc => h ⟨hc.1, hc.2.1⟩)])

/-- The first pass stores the sample read in the channel of the site's own colour. -/
theorem ppg_green_pixel_native (inp : Raw) (filters j i : Nat) (o : Img) :
    ppg_green_pixel inp filters j i o j i (nativeChannel (FC j i filters)) = inp j i := by
  unfold ppg_green_pixel nativeChannel
  simp only []
  by_cases hc : FC j i filters = 0 ∨ FC j i filters = 2
  · rw [if_pos hc, if_pos hc]
    have hne : ¬ FC j i filters = 1 := by omega
    split_ifs <;> simp [img_set_apply, hne]
  · rw [if_neg hc, if_neg hc]
    simp [img_set_apply]

/-- The green that the first pass stores lies in every convex set that holds the samples
read around the site. -/
theorem ppg_green_pixel_green (P : ℚ → Prop)
    (hconv : ∀ x y t : ℚ, P x → P y → 0 ≤ t → t ≤ 1 → P (t * x + (1 - t) * y))
    (inp : Raw) (filters j i : Nat) (o : Img)
    (h0 : P (inp j i)) (h1 : P (inp (j - 1) i)) (h2 : P (inp (j + 1) i))
    (h3 : P (inp j (i - 1))) (h4 : P (inp j (i + 1))) :
    P (ppg_green_pixel inp filters j i o j i 1) := by
  unfold ppg_green_pixel
  simp only []
  split_ifs
  · simp only [img_set_apply, and_self, if_true]
    exact convex_between P hconv _ _ _ h1 h2 (clamp_between _ _ _).1 (clamp_between _ _ _).2
  · simp only [img_set_apply, and_self, if_true]
    exact convex_between P hconv _ _ _ h3 h4 (clamp_between _ _ _).1 (clamp_between _ _ _).2
  · simp only [img_set_apply, and_self, if_true]
    exact h0

/-- After the first pass every interior pixel holds the sample read in the channel of its
own colour. -/
theorem ppg_pass1_native (inp : Raw) (filters wo ho : Nat) (o1 : Img) (j i : Nat)
    (hj : 3 ≤ j ∧ j < ho - 3) (hi : 3 ≤ i ∧ i < wo - 3) :
    forLoop 3 (ho - 3) 1 (fun j o =>
        forLoop 3 (wo - 3) 1 (fun i o => ppg_green_pixel inp filters j i o) o) o1 j i
        (nativeChannel (FC j i filters))
      = inp j i := by
  have := forLoop2_post (fun _ : Img => True)
    (fun j i (s : Img) => s j i (nativeChannel (FC j i filters)) = inp j i)
    3 (ho - 3) 1 (fun _ => 3) (fun _ => wo - 3) 1 Nat.one_pos Nat.one_pos
    (fun j i o => ppg_green_pixel inp filters j i o) o1 trivial
    (fun j i s _ _ _ => ⟨trivial, ppg_green_pixel_native inp filters j i s⟩)
    (fun j i j2 i2 s _ _ _ _ hne _ hQ => by
      beta_reduce
      rw [ppg_green_pixel_frame _ _ _ _ _ _ _ _ (fun h => hne ⟨h.1.symm, h.2.symm⟩)]
      exact hQ)
  exact this.2 j i ((visits_one _ _ _).mpr hj) ((visits_one _ _ _).mpr hi)

/-- After the first pass the green of every interior pixel lies in every convex set that
holds the samples of the buffer read. -/
theorem ppg_pass1_green (P : ℚ → Prop)
    (hconv : ∀ x y t : ℚ, P x → P y → 0 ≤ t → t ≤ 1 → P (t * x + (1 - t) * y))
    (inp : Raw) (filters wo ho wi hi : Nat) (hw : wo ≤ wi) (hh : ho ≤ hi)
    (hin : ∀ r c, r < hi → c < wi → P (inp r c)) (o1 : Img) (j i : Nat)
    (hj : 3 ≤ j ∧ j < ho - 3) (hi2 : 3 ≤ i ∧ i < wo - 3) :
    P (forLoop 3 (ho - 3) 1 (fun j o =>
        forLoop 3 (wo - 3) 1 (fun i o => ppg_green_pixel inp filters j i o) o) o1 j i 1) := by
  have := forLoop2_post (fun _ : Img => True) (fun j i (s : Img) => P (s j i 1))
    3 (ho - 3) 1 (fun _ => 3) (fun _ => wo - 3) 1 Nat.one_pos Nat.one_pos
    (fun j i o => ppg_green_pixel inp filters j i o) o1 trivial
    (fun j i s hj hi _ => by
      simp only [visits_one] at hj hi
      exact ⟨trivial, ppg_green_pixel_green P hconv inp filters j i s
        (hin _ _ (by omega) (by omega)) (hin _ _ (by omega) (by omega))
        (hin _ _ (by omega) (by omega)) (hin _ _ (by omega) (by omega))
        (hin _ _ (by omega) (by omega))⟩)
    (fun j i j2 i2 s _ _ _ _ hne _ hQ => by
      beta_reduce
      rw [ppg_green_pixel_frame _ _ _ _ _ _ _ _ (fun h => hne ⟨h.1.symm, h.2.symm⟩)]
      exact hQ)
  exact this.2 j i ((visits_one _ _ _).mpr hj) ((visits_one _ _ _).mpr hi2)

/-- The first pass leaves the pixels outside the interior as they are. -/
theorem ppg_pass1_frame (inp : Raw) (filters wo ho : Nat) (o1 : Img) (r k ch : Nat)
    (h : ¬ (3 ≤ r ∧ r < ho - 3 ∧ 3 ≤ k ∧ k < wo - 3)) :
    forLoop 3 (ho - 3) 1 (fun j o =>
        forLoop 3 (wo - 3) 1 (fun i o => ppg_green_pixel inp filters j i o) o) o1 r k ch
      = o1 r k ch :=
  forLoop2_inv (fun s : Img => s r k ch = o1 r k ch)
    3 (ho - 3) 1 (fun _ => 3) (fun _ => wo - 3) 1 Nat.one_pos Nat.one_pos
    (fun j i o => ppg_green_pixel inp filters j i o) o1 rfl
    (fun j i s hj hi hs => by
      simp only [visits_one] at hj hi
      beta_reduce
      rw [ppg_green_pixel_frame _ _ _ _ _ _ _ _ (by omega)]
      exact hs)

/-! ## PPG second pass -/

/-- Colours of the neighbours of a site in a Bayer layout. -/
theorem bayer_nbrs {filters : Nat} (hb : IsBayer filters) (j i : Nat) (hj : 1 ≤ j)
    (hi : 1 ≤ i) :
    (FC j i filters % 2 = 1 → FC j (i + 1) filters = 0 →
      FC (j - 1) i filters = 2 ∧ FC (j + 1) i filters = 2 ∧ FC j (i - 1) filters = 0) ∧
    (FC j i filters % 2 = 1 → FC j (i + 1) filters ≠ 0 →
      FC (j - 1) i filters = 0 ∧ FC (j + 1) i filters = 0 ∧ FC j (i - 1) filters = 2 ∧
      FC j (i + 1) filters = 2) ∧
    (FC j i filters = 0 →
      FC (j - 1) (i - 1) filters = 2 ∧ FC (j - 1) (i + 1) filters = 2 ∧
      FC (j + 1) (i - 1) filters = 2 ∧ FC (j + 1) (i + 1) filters = 2) ∧
    (FC j i filters = 2 →
      FC (j - 1) (i - 1) filters = 0 ∧ FC (j - 1) (i + 1) filters = 0 ∧
      FC (j + 1) (i - 1) filters = 0 ∧ FC (j + 1) (i + 1) filters = 0) := by
  rw [FC_mod2 hb j i, FC_mod2 hb j (i + 1), FC_mod2 hb j (i - 1), FC_mod2 hb (j - 1) i,
    FC_mod2 hb (j + 1) i, FC_mod2 hb (j - 1) (i - 1), FC_mod2 hb (j - 1) (i + 1),
    FC_mod2 hb (j + 1) (i - 1), FC_mod2 hb (j + 1) (i + 1)]
  have hcell := hb.2
  have l00 := FC_lt 0 0 filters
  have l01 := FC_lt 0 1 filters
  have l10 := FC_lt 1 0 filters
  have l11 := FC_lt 1 1 filters
  have hr1 : (j + 1) % 2 = 1 - j % 2 := by omega
  have hr2 : (j - 1) % 2 = 1 - j % 2 := by omega
  have hc1 : (i + 1) % 2 = 1 - i % 2 := by omega
  have hc2 : (i - 1) % 2 = 1 - i % 2 := by omega
  rw [hr1, hr2, hc1, hc2]
  rcases Nat.mod_two_eq_zero_or_one j with hr | hr <;>
    rcases Nat.mod_two_eq_zero_or_one i with hc | hc
  all_goals
    rw [hr, hc]
    simp only [Nat.sub_zero, Nat.sub_self]
    omega

/-- The second pass writes only the pixel it is at. -/
theorem ppg_redblue_pixel_frame (filters j i : Nat) (o : Img) (r k ch : Nat)
    (h : ¬ (r = j ∧ k = i)) : ppg_redblue_pixel filters j i o r k ch = o r k ch := by
  unfold ppg_redblue_pixel
  simp only []
  split_ifs <;> simp only [img_set_apply] <;> (repeat' rw [if_neg (fun hc => h ⟨hc.1, hc.2.1⟩)])

/-- The second pass keeps the green and the channel of the site's own colour. -/
theorem ppg_redblue_pixel_keep (filters j i : Nat) (o : Img) (ch : Nat)
    (h : ch = 1 ∨ ch = nativeChannel (FC j i filters)) :
    ppg_redblue_pixel filters j i o j i ch = o j i ch := by
  have hlt := FC_lt j i filters
  unfold ppg_redblue_pixel
  unfold nativeChannel at h
  simp only []
  rw [and_one]
  by_cases hodd : FC j i filters % 2 ≠ 0
  · rw [if_pos hodd]
    have hn : ¬ (FC j i filters = 0 ∨ FC j i filters = 2) := by omega
    rw [if_neg hn] at h
    have h1 : ch = 1 := by omega
    subst h1
    split_ifs <;> simp [img_set_apply]
  · rw [if_neg hodd]
    have hn : FC j i filters = 0 ∨ FC j i filters = 2 := by omega
    rw [if_pos hn] at h
    rcases hn with h0 | h2
    · rw [h0] at h ⊢
      simp only [if_true]
      split_ifs <;> simp only [img_set_apply] <;> rw [if_neg (by omega)]
    · rw [h2] at h ⊢
      simp only [OfNat.ofNat_ne_zero, if_false]
      split_ifs <;> simp only [img_set_apply] <;> rw [if_neg (by omega)]

/-- In a Bayer layout the second pass leaves, in the three channels of its pixel, values of
`P2`, when the greens and own-colour channels of the pixel and its eight neighbours are in
`P` and the hue formulas map `P` into `P2`. -/
theorem ppg_redblue_pixel_good (P P2 : ℚ → Prop)
    (hhue : ∀ a b g c d : ℚ, P a → P b → P g → P c → P d →
      P2 ((a + b + 2 * g - c - d) * (1 / 2)))
    (hhue4 : ∀ a b c d a2 b2 c2 d2 g : ℚ, P a → P b → P c → P d → P a2 → P b2 → P c2 → P d2 →
      P g → P2 ((a + b + 2 * g - c - d + (a2 + b2 + 2 * g - c2 - d2)) * (1 / 4)))
    (hP2 : ∀ x, P x → P2 x)
    {filters : Nat} (hb : IsBayer filters) (j i : Nat) (hj : 1 ≤ j) (hi : 1 ≤ i) (s : Img)
    (hR : ∀ r k, j - 1 ≤ r → r ≤ j + 1 → i - 1 ≤ k → k ≤ i + 1 →
      P (s r k 1) ∧ P (s r k (nativeChannel (FC r k filters))))
    (ch : Nat) (hch : ch < 3) : P2 (ppg_redblue_pixel filters j i s j i ch) := by
  have hlt := FC_lt j i filters
  have hnb := bayer_nbrs hb j i hj hi
  have g0 := (hR j i (by omega) (by omega) (by omega) (by omega)).1
  have n0 := (hR j i (by omega) (by omega) (by omega) (by omega)).2
  have hT := hR (j - 1) i (by omega) (by omega) (by omega) (by omega)
  have hB := hR (j + 1) i (by omega) (by omega) (by omega) (by omega)
  have hL := hR j (i - 1) (by omega) (by omega) (by omega) (by omega)
  have hRt := hR j (i + 1) (by omega) (by omega) (by omega) (by omega)
  have hTL := hR (j - 1) (i - 1) (by omega) (by omega) (by omega) (by omega)
  have hTR := hR (j - 1) (i + 1) (by omega) (by omega) (by omega) (by omega)
  have hBL := hR (j + 1) (i - 1) (by omega) (by omega) (by omega) (by omega)
  have hBR := hR (j + 1) (i + 1) (by omega) (by omega) (by omega) (by omega)
  by_cases hkeep : ch = 1 ∨ ch = nativeChannel (FC j i filters)
  · rw [ppg_redblue_pixel_keep filters j i s ch hkeep]
    rcases hkeep with h | h
    · rw [h]; exact hP2 _ g0
    · rw [h]; exact hP2 _ n0
  · unfold nativeChannel at hkeep hT hB hL hRt hTL hTR hBL hBR
    unfold ppg_redblue_pixel
    simp only []
    rw [and_one]
    by_cases hodd : FC j i filters % 2 ≠ 0
    · rw [if_pos hodd]
      have hodd1 : FC j i filters % 2 = 1 := by omega
      by_cases hred : FC j (i + 1) filters = 0
      · obtain ⟨e1, e2, e3⟩ := hnb.1 hodd1 hred
        rw [if_pos hred]
        rw [e1] at hT
        rw [e2] at hB
        rw [e3] at hL
        rw [hred] at hRt
        simp only [OfNat.ofNat_ne_zero, or_true, true_or, if_true, OfNat.zero_ne_ofNat,
          or_false, false_or] at hT hB hL hRt
        have h3 : ch = 0 ∨ ch = 2 := by omega
        rcases h3 with rfl | rfl
        · simp only [img_set_apply, and_self, if_true]
          exact hhue _ _ _ _ _ hL.2 hRt.2 g0 hL.1 hRt.1
        · simp only [img_set_apply]
          rw [if_neg (by omega), if_pos (by simp)]
          exact hhue _ _ _ _ _ hT.2 hB.2 g0 hT.1 hB.1
      · obtain ⟨e1, e2, e3, e4⟩ := hnb.2.1 hodd1 hred
        rw [if_neg hred]
        rw [e1] at hT
        rw [e2] at hB
        rw [e3] at hL
        rw [e4] at hRt
        simp only [OfNat.ofNat_ne_zero, or_true, true_or, if_true, OfNat.zero_ne_ofNat,
          or_false, false_or] at hT hB hL hRt
        have h3 : ch = 0 ∨ ch = 2 := by omega
        rcases h3 with rfl | rfl
        · simp only [img_set_apply]
          rw [if_neg (by omega), if_pos (by simp)]
          exact hhue _ _ _ _ _ hT.2 hB.2 g0 hT.1 hB.1
        · simp only [img_set_apply, and_self, if_true]
          exact hhue _ _ _ _ _ hL.2 hRt.2 g0 hL.1 hRt.1
    · rw [if_neg hodd]
      have h02 : FC j i filters = 0 ∨ FC j i filters = 2 := by omega
      rw [if_pos h02] at hkeep
      rcases h02 with h0 | h2
      · obtain ⟨e1, e2, e3, e4⟩ := hnb.2.2.1 h0
        rw [e1] at hTL
        rw [e2] at hTR
        rw [e3] at hBL
        rw [e4] at hBR
        simp only [OfNat.ofNat_ne_zero, or_true, true_or, if_true, OfNat.zero_ne_ofNat,
          or_false, false_or] at hTL hTR hBL hBR
        have hc2 : ch = 2 := by omega
        subst hc2
        rw [h0]
        simp only [if_true]
        split_ifs <;> simp only [img_set_apply, and_self, if_true]
        · exact hhue _ _ _ _ _ hTR.2 hBL.2 g0 hTR.1 hBL.1
        · exact hhue _ _ _ _ _ hTL.2 hBR.2 g0 hTL.1 hBR.1
        · exact hhue4 _ _ _ _ _ _ _ _ _ hTL.2 hBR.2 hTL.1 hBR.1 hTR.2 hBL.2 hTR.1 hBL.1 g0
      · obtain ⟨e1, e2, e3, e4⟩ := hnb.2.2.2 h2
        rw [e1] at hTL
        rw [e2] at hTR
        rw [e3] at hBL
        rw [e4] at hBR
        simp only [OfNat.ofNat_ne_zero, or_true, true_or, if_true, OfNat.zero_ne_ofNat,
          or_false, false_or] at hTL hTR hBL hBR
        have hc0 : ch = 0 := by omega
        subst hc0
        rw [h2]
        simp only [OfNat.ofNat_ne_zero, if_false]
        split_ifs <;> simp only [img_set_apply, and_self, if_true]
        · exact hhue _ _ _ _ _ hTR.2 hBL.2 g0 hTR.1 hBL.1
        · exact hhue _ _ _ _ _ hTL.2 hBR.2 g0 hTL.1 hBR.1
        · exact hhue4 _ _ _ _ _ _ _ _ _ hTL.2 hBR.2 hTL.1 hBR.1 hTR.2 hBL.2 hTR.1 hBL.1 g0

theorem nativeChannel_lt (f : Nat) (hf : f < 4) : nativeChannel f < 3 := by
  unfold nativeChannel
  split_ifs <;> omega

/-- The second pass leaves the outermost frame as it is. -/
theorem ppg_pass2_frame (filters wo ho : Nat) (o2 : Img) (r k ch : Nat)
    (h : ¬ (1 ≤ r ∧ r < ho - 1 ∧ 1 ≤ k ∧ k < wo - 1)) :
    forLoop 1 (ho - 1) 1 (fun j o =>
        forLoop 1 (wo - 1) 1 (fun i o => ppg_redblue_pixel filters j i o) o) o2 r k ch
      = o2 r k ch :=
  forLoop2_inv (fun s : Img => s r k ch = o2 r k ch)
    1 (ho - 1) 1 (fun _ => 1) (fun _ => wo - 1) 1 Nat.one_pos Nat.one_pos
    (fun j i o => ppg_redblue_pixel filters j i o) o2 rfl
    (fun j i s hj hi hs => by
      simp only [visits_one] at hj hi
      beta_reduce
      rw [ppg_redblue_pixel_frame _ _ _ _ _ _ _ (by omega)]
      exact hs)

/-- PPG on a Bayer layout, for a convex set `P` of sample values and a set `P2` that holds
`P` and the values of the hue formulas on `P`: when the border loop returns, `demosaic_ppg`
returns an image all of whose colour values are in `P2`. -/
theorem ppg_generic (P P2 : ℚ → Prop)
    (hconv : ∀ x y t : ℚ, P x → P y → 0 ≤ t → t ≤ 1 → P (t * x + (1 - t) * y))
    (hhue : ∀ a b g c d : ℚ, P a → P b → P g → P c → P d →
      P2 ((a + b + 2 * g - c - d) * (1 / 2)))
    (hhue4 : ∀ a b c d a2 b2 c2 d2 g : ℚ, P a → P b → P c → P d → P a2 → P b2 → P c2 → P d2 →
      P g → P2 ((a + b + 2 * g - c - d + (a2 + b2 + 2 * g - c2 - d2)) * (1 / 4)))
    (hP2 : ∀ x, P x → P2 x)
    {filters : Nat} (hb : IsBayer filters) (fuel : Nat) (out : Img) (inp : Raw)
    (wo ho wi hi : Nat) (thrs : ℚ) (hw : wo ≤ wi) (hh : ho ≤ hi)
    (hT : wo ≤ 3 ∨ 6 ≤ wo ∨ ho ≤ 6) (hf : wo < fuel)
    (hin : ∀ r c, r < hi → c < wi → P (inp r c))
    (hin2 : ∀ r c, r < hi → c < wi →
      P ((if thrs > 0 then pre_median inp wi hi filters 1 thrs else inp) r c)) :
    ∃ o, demosaic_ppg fuel out inp wo ho wi hi filters thrs = some o ∧
      ∀ j i ch, j < ho → i < wo → ch < 3 → P2 (o j i ch) := by
  unfold demosaic_ppg
  rw [ppg_border_eq fuel inp wo ho wi hi filters out hT hf]
  simp only []
  refine ⟨_, rfl, ?_⟩
  -- the state after the first pass
  have hborder : ∀ j i ch, j < ho → i < wo → ch < 3 →
      ¬ (3 ≤ j ∧ j < ho - 3 ∧ 3 ≤ i ∧ i < wo - 3) →
      P (forLoop 3 (ho - 3) 1 (fun j o =>
        forLoop 3 (wo - 3) 1 (fun i o => ppg_green_pixel
          (if thrs > 0 then pre_median inp wi hi filters 1 thrs else inp) filters j i o) o)
        (forLoop 0 ho 1 (ppg_border_row inp wo ho wi hi filters) out) j i ch) := by
    intro j i ch hj hi2 hch hni
    rw [ppg_pass1_frame _ _ _ _ _ _ _ _ hni,
      ppg_border_result_at inp wo ho wi hi filters out j i ch hj hi2 hch hni]
    exact ppg_border_val_good P hconv inp wi hi filters j i hin (by omega) (by omega) ch hch
  have hG1 : ∀ j i, j < ho → i < wo →
      P (forLoop 3 (ho - 3) 1 (fun j o =>
        forLoop 3 (wo - 3) 1 (fun i o => ppg_green_pixel
          (if thrs > 0 then pre_median inp wi hi filters 1 thrs else inp) filters j i o) o)
        (forLoop 0 ho 1 (ppg_border_row inp wo ho wi hi filters) out) j i 1) ∧
      P (forLoop 3 (ho - 3) 1 (fun j o =>
        forLoop 3 (wo - 3) 1 (fun i o => ppg_green_pixel
          (if thrs > 0 then pre_median inp wi hi filters 1 thrs else inp) filters j i o) o)
        (forLoop 0 ho 1 (ppg_border_row inp wo ho wi hi filters) out) j i
        (nativeChannel (FC j i filters))) := by
    intro j i hj hi2
    by_cases hint : 3 ≤ j ∧ j < ho - 3 ∧ 3 ≤ i ∧ i < wo - 3
    · refine ⟨ppg_pass1_green P hconv _ filters wo ho wi hi hw hh hin2 _ j i
        ⟨hint.1, hint.2.1⟩ ⟨hint.2.2.1, hint.2.2.2⟩, ?_⟩
      rw [ppg_pass1_native _ filters wo ho _ j i ⟨hint.1, hint.2.1⟩ ⟨hint.2.2.1, hint.2.2.2⟩]
      exact hin2 j i (by omega) (by omega)
    · exact ⟨hborder j i 1 hj hi2 (by omega) hint,
        hborder j i _ hj hi2 (nativeChannel_lt _ (FC_lt j i filters)) hint⟩
  -- the second pass
  have key := forLoop2_post
    (fun s : Img => ∀ j i, j < ho → i < wo →
      P (s j i 1) ∧ P (s j i (nativeChannel (FC j i filters))))
    (fun j i (s : Img) => ∀ ch, ch < 3 → P2 (s j i ch))
    1 (ho - 1) 1 (fun _ => 1) (fun _ => wo - 1) 1 Nat.one_pos Nat.one_pos
    (fun j i o => ppg_redblue_pixel filters j i o) _ hG1
    (by
      intro j i s hj hi2 hR
      simp only [visits_one] at hj hi2
      beta_reduce
      constructor
      · intro r k hr hk
        by_cases e : r = j ∧ k = i
        · rw [e.1, e.2, ppg_redblue_pixel_keep filters j i s 1 (Or.inl rfl),
            ppg_redblue_pixel_keep filters j i s _ (Or.inr rfl)]
          exact hR j i (by omega) (by omega)
        · rw [ppg_redblue_pixel_frame _ _ _ _ _ _ _ e, ppg_redblue_pixel_frame _ _ _ _ _ _ _ e]
          exact hR r k hr hk
      · intro ch hch
        exact ppg_redblue_pixel_good P P2 hhue hhue4 hP2 hb j i hj.1 hi2.1 s
          (fun r k h1 h2 h3 h4 => hR r k (by omega) (by omega)) ch hch)
    (by
      intro j i j2 i2 s _ _ _ _ hne _ hQ ch hch
      beta_reduce
      rw [ppg_redblue_pixel_frame _ _ _ _ _ _ _ (fun h => hne ⟨h.1.symm, h.2.symm⟩)]
      exact hQ ch hch)
  intro j i ch hj hi2 hch
  by_cases hin3 : 1 ≤ j ∧ j < ho - 1 ∧ 1 ≤ i ∧ i < wo - 1
  · exact key.2 j i ((visits_one _ _ _).mpr ⟨hin3.1, hin3.2.1⟩)
      ((visits_one _ _ _).mpr ⟨hin3.2.2.1, hin3.2.2.2⟩) ch hch
  · rw [ppg_pass2_frame _ _ _ _ _ _ _ hin3]
    exact hP2 _ (hborder j i ch hj hi2 hch (by omega))

/-- The second pass keeps the channel of every pixel's own colour. -/
theorem ppg_pass2_native (filters wo ho : Nat) (o2 : Img) (r k : Nat) :
    forLoop 1 (ho - 1) 1 (fun j o =>
        forLoop 1 (wo - 1) 1 (fun i o => ppg_redblue_pixel filters j i o) o) o2 r k
        (nativeChannel (FC r k filters))
      = o2 r k (nativeChannel (FC r k filters)) :=
  forLoop2_inv (fun s : Img => s r k (nativeChannel (FC r k filters))
      = o2 r k (nativeChannel (FC r k filters)))
    1 (ho - 1) 1 (fun _ => 1) (fun _ => wo - 1) 1 Nat.one_pos Nat.one_pos
    (fun j i o => ppg_redblue_pixel filters j i o) o2 rfl
    (fun j i s _ _ hs => by
      beta_reduce
      by_cases e : r = j ∧ k = i
      · rw [e.1, e.2, ppg_redblue_pixel_keep filters j i s _ (Or.inr rfl)]
        rw [e.1, e.2] at hs
        exact hs
      · rw [ppg_redblue_pixel_frame _ _ _ _ _ _ _ e]
        exact hs)

/-- The green scan of `pre_median_b` leaves every site it does not visit as it is. -/
theorem pre_median_b_unvisited (inp : Raw) (width height filters num_passes : Nat)
    (threshold : ℚ) (row col : Nat)
    (h : ¬ (Visits 3 (height - 3) 1 row ∧
      Visits (if FC row 3 filters ≠ 1 ∧ FC row 3 filters ≠ 3 then 4 else 3) (width - 3) 2 col)) :
    pre_median_b inp width height filters num_passes threshold row col = inp row col := by
  rw [pre_median_b_unfold]
  refine forLoop_inv (fun s : Raw => s row col = inp row col) 0 num_passes 1 Nat.one_pos _ inp
    rfl ?_
  intro _ s _ hs
  refine forLoop2_inv (fun s : Raw => s row col = inp row col) 3 (height - 3) 1
    (fun r => if FC r 3 filters ≠ 1 ∧ FC r 3 filters ≠ 3 then 4 else 3) (fun _ => width - 3) 2
    Nat.one_pos (by decide) (fun r c out => out.set r c (pre_median_site inp r c threshold))
    s hs ?_
  intro j i s2 hj hi hs2
  beta_reduce
  rw [raw_set_apply, if_neg]
  · exact hs2
  · intro e
    apply h
    rw [e.1, e.2]
    exact ⟨hj, hi⟩

/-- In a Bayer layout the green scan of `pre_median_b` visits green sites only. -/
theorem pre_median_visits_only_green {filters : Nat} (hb : IsBayer filters)
    (width row col : Nat)
    (h : Visits (if FC row 3 filters ≠ 1 ∧ FC row 3 filters ≠ 3 then 4 else 3) (width - 3) 2 col) :
    FC row col filters % 2 = 1 := by
  have h3 := FC_lt row 3 filters
  have hb3 := isBayer_at hb row 3
  unfold Visits at h
  split_ifs at h with hc
  · have e : FC row col filters = FC row (3 + 1) filters := FC_col_parity _ _ _ _ (by omega)
    rw [e]
    have h02 : FC row 3 filters = 0 ∨ FC row 3 filters = 2 := by omega
    rcases h02 with h0 | h2
    · exact (hb3.2.1 h0).2.1
    · exact (hb3.2.2 h2).2.1
  · have e : FC row col filters = FC row 3 filters := FC_col_parity _ _ _ _ (by omega)
    rw [e]
    omega

/-- C1 (as stated, refuted): with the median on (`thrs = 1/2`), PPG on the 7x7 GRBG buffer
`spikeRaw` writes green 0 at the interior green site `(3, 3)`, whose raw sample is 1. -/
theorem C1_median_changes_native_green :
    FC 3 3 0x61616161 = 1 ∧ spikeRaw 3 3 = 1 ∧
    (demosaic_ppg 8 (fun _ _ _ => 0) spikeRaw 7 7 7 7 0x61616161 (1 / 2)).map
      (fun o => o 3 3 1) = some 0 := by
  decide!

/-- C1 (amended): for every raw buffer, every descriptor and every median threshold, at every
interior output pixel `(row, col)` (at least 3 pixels from each edge) `demosaic_ppg` returns
and writes, in the channel of the pixel's native colour, the sample of the buffer it
interpolates from: the raw sample `in[row][col]` when the median is off (`thrs <= 0`), the
pre-median output when it is on (`thrs > 0`), which in a Bayer layout is again the raw sample
at every red and blue site. -/
theorem C1_ppg_native_channel (fuel : Nat) (out : Img) (inp : Raw)
    (wo ho wi hi filters : Nat) (thrs : ℚ) (row col : Nat) (hf : wo < fuel)
    (hrow : 3 ≤ row ∧ row < ho - 3) (hcol : 3 ≤ col ∧ col < wo - 3) :
    ∃ o, demosaic_ppg fuel out inp wo ho wi hi filters thrs = some o ∧
      (thrs ≤ 0 → o row col (nativeChannel (FC row col filters)) = inp row col) ∧
      (thrs > 0 → o row col (nativeChannel (FC row col filters))
        = pre_median inp wi hi filters 1 thrs row col) ∧
      (IsBayer filters → FC row col filters % 2 = 0 →
        o row col (nativeChannel (FC row col filters)) = inp row col) := by
  unfold demosaic_ppg
  rw [ppg_border_eq fuel inp wo ho wi hi filters out (by omega) hf]
  simp only []
  refine ⟨_, rfl, ?_⟩
  rw [ppg_pass2_native, ppg_pass1_native _ filters wo ho _ row col hrow hcol]
  refine ⟨fun h => by rw [if_neg (not_lt.mpr h)], fun h => by rw [if_pos h], ?_⟩
  intro hb heven
  split_ifs
  · unfold pre_median
    apply pre_median_b_unvisited
    intro hv
    have := pre_median_visits_only_green hb wi row col hv.2
    omega
  · rfl

/-- C1 (amended), instance: the 7x7 GRBG buffer `spikeRaw`, median off, pixel `(3, 3)`. -/
theorem C1_ppg_native_channel_witness :
    ∃ o, demosaic_ppg 8 (fun _ _ _ => 0) spikeRaw 7 7 7 7 0x61616161 0 = some o ∧
      o 3 3 1 = spikeRaw 3 3 :=
  (C1_ppg_native_channel 8 (fun _ _ _ => 0) spikeRaw 7 7 7 7 0x61616161 0 3 3 (by decide)
    (by decide) (by decide)).imp (fun _ h => ⟨h.1, h.2.1 (le_refl 0)⟩)

/-- C2 (as stated, refuted): on the 9x9 GRBG buffer `holeRaw`, whose samples all lie in
[0, 1], PPG with the median off writes red `-1` at pixel `(4, 4)`. -/
theorem C2_ppg_negative_red :
    (∀ r : Fin 9, ∀ c : Fin 9, 0 ≤ holeRaw r.val c.val ∧ holeRaw r.val c.val ≤ 1) ∧
    (demosaic_ppg 10 (fun _ _ _ => 0) holeRaw 9 9 9 9 0x61616161 0).map
      (fun o => o 4 4 0) = some (-1) := by
  decide!

/-- The exchange sort applied to nine entries, each a sample of [0, 1] or such a sample
raised by 64: the unraised samples come first, the raised ones after them. -/
theorem exchange_sentinel (v : Fin 9 → ℚ) (a : Fin 9 → Bool)
    (hv : ∀ k, 0 ≤ v k ∧ v k ≤ 1) (k : Fin 9) :
    ((List.ofFn a).count true ≤ k.val →
      0 ≤ runNetwork exchangeNetwork (fun j => if a j = true then v j else 64 + v j) k - 64 ∧
      runNetwork exchangeNetwork (fun j => if a j = true then v j else 64 + v j) k - 64 ≤ 1) ∧
    (k.val < (List.ofFn a).count true →
      0 ≤ runNetwork exchangeNetwork (fun j => if a j = true then v j else 64 + v j) k ∧
      runNetwork exchangeNetwork (fun j => if a j = true then v j else 64 + v j) k ≤ 1) := by
  obtain ⟨σ, hσ⟩ := runNetwork_perm exchangeNetwork
    (fun j => if a j = true then v j else 64 + v j)
  have hk := congrFun hσ k
  rw [Function.comp_apply] at hk
  have hthr := exchangeNetwork_threshold (fun j => if a j = true then v j else 64 + v j) 32 k
  have hfun : ((fun x : ℚ => decide (32 < x)) ∘ (fun j => if a j = true then v j else 64 + v j))
      = (fun b => !b) ∘ a := by
    funext j
    simp only [Function.comp_apply]
    have := hv j
    cases a j
    · simp only [Bool.false_eq_true, if_false, Bool.not_false, decide_eq_true_eq]
      linarith
    · simp only [if_true, Bool.not_true, decide_eq_false_iff_not, not_lt]
      linarith
  have hcount : (List.ofFn ((fun b => !b) ∘ a)).count false = (List.ofFn a).count true := by
    rw [← List.map_ofFn, List.count_eq_countP, List.countP_map, List.count_eq_countP]
    apply List.countP_congr
    intro b _
    cases b <;> simp
  rw [hfun, hcount] at hthr
  have hvσ := hv (σ k)
  constructor
  · intro hle
    have h32 : 32 < runNetwork exchangeNetwork (fun j => if a j = true then v j else 64 + v j) k :=
      of_decide_eq_true (hthr.trans (decide_eq_true hle))
    rw [hk] at h32 ⊢
    split_ifs at h32 ⊢ with ha
    · linarith
    · constructor <;> linarith
  · intro hlt
    have h32 : ¬ 32 < runNetwork exchangeNetwork
        (fun j => if a j = true then v j else 64 + v j) k := by
      intro h
      have := of_decide_eq_true (hthr.symm.trans (decide_eq_true h))
      omega
    rw [hk] at h32 ⊢
    split_ifs at h32 ⊢ with ha
    · exact hvσ
    · exfalso
      apply h32
      linarith

/-- With a positive threshold and the nine samples around `(row, col)` in [0, 1], the value
`pre_median_b` stores at `(row, col)` is in [0, 1]. -/
theorem pre_median_site_unit (inp : Raw) (row col : Nat) (threshold : ℚ)
    (hr : 2 ≤ row) (hc : 2 ≤ col) (hthr : 0 < threshold)
    (hin : ∀ p ∈ diamond row col, 0 ≤ inp p.1 p.2 ∧ inp p.1 p.2 ≤ 1) :
    0 ≤ pre_median_site inp row col threshold ∧ pre_median_site inp row col threshold ≤ 1 := by
  rw [diamond_eq row col hr hc] at hin
  simp only [List.mem_cons, List.mem_singleton, List.not_mem_nil, or_false, forall_eq_or_imp,
    forall_eq] at hin
  obtain ⟨g0, g1, g2, g3, g4, g5, g6, g7, g8⟩ := hin
  have hv : ∀ k : Fin 9, 0 ≤ vec9 (inp (row - 2) col) (inp (row - 1) (col - 1))
      (inp (row - 1) (col + 1)) (inp row (col - 2)) (inp row col) (inp row (col + 2))
      (inp (row + 1) (col - 1)) (inp (row + 1) (col + 1)) (inp (row + 2) col) k ∧
      vec9 (inp (row - 2) col) (inp (row - 1) (col - 1))
      (inp (row - 1) (col + 1)) (inp row (col - 2)) (inp row col) (inp row (col + 2))
      (inp (row + 1) (col - 1)) (inp (row + 1) (col + 1)) (inp (row + 2) col) k ≤ 1 := by
    intro k
    fin_cases k <;> assumption
  have hsent := exchange_sentinel _ (fun k => decide (|vec9 (inp (row - 2) col)
      (inp (row - 1) (col - 1)) (inp (row - 1) (col + 1)) (inp row (col - 2)) (inp row col)
      (inp row (col + 2)) (inp (row + 1) (col - 1)) (inp (row + 1) (col + 1))
      (inp (row + 2) col) k - inp row col| < threshold)) hv
  have hentries : (fun k : Fin 9 => (((diamond row col).map (fun p => inp p.1 p.2)).map
      (medEntry threshold (inp row col))).getD k.val 0)
      = (fun j : Fin 9 => if (fun k => decide (|vec9 (inp (row - 2) col)
      (inp (row - 1) (col - 1)) (inp (row - 1) (col + 1)) (inp row (col - 2)) (inp row col)
      (inp row (col + 2)) (inp (row + 1) (col - 1)) (inp (row + 1) (col + 1))
      (inp (row + 2) col) k - inp row col| < threshold)) j = true
        then vec9 (inp (row - 2) col)
      (inp (row - 1) (col - 1)) (inp (row - 1) (col + 1)) (inp row (col - 2)) (inp row col)
      (inp row (col + 2)) (inp (row + 1) (col - 1)) (inp (row + 1) (col + 1))
      (inp (row + 2) col) j else 64 + vec9 (inp (row - 2) col)
      (inp (row - 1) (col - 1)) (inp (row - 1) (col + 1)) (inp row (col - 2)) (inp row col)
      (inp row (col + 2)) (inp (row + 1) (col - 1)) (inp (row + 1) (col + 1))
      (inp (row + 2) col) j) := by
    rw [diamond_eq row col hr hc]
    funext k
    simp only [decide_eq_true_eq]
    fin_cases k <;> rfl
  have hcnt : ((diamond row col).map (fun p => inp p.1 p.2)).countP
      (fun v => decide (|v - inp row col| < threshold))
      = (List.ofFn (fun k => decide (|vec9 (inp (row - 2) col)
      (inp (row - 1) (col - 1)) (inp (row - 1) (col + 1)) (inp row (col - 2)) (inp row col)
      (inp row (col + 2)) (inp (row + 1) (col - 1)) (inp (row + 1) (col + 1))
      (inp (row + 2) col) k - inp row col| < threshold))).count true := by
    rw [diamond_eq row col hr hc, ofFn9, List.count_eq_countP]
    have e : ∀ l : List ℚ, l.countP (fun v => decide (|v - inp row col| < threshold))
        = (l.map (fun v => decide (|v - inp row col| < threshold))).countP (fun b => b == true) := by
      intro l
      rw [List.countP_map]
      apply List.countP_congr
      intro b _
      simp
    rw [e]
    rfl
  have hpos : 1 ≤ ((diamond row col).map (fun p => inp p.1 p.2)).countP
      (fun v => decide (|v - inp row col| < threshold)) := by
    apply List.countP_pos_iff.mpr
    refine ⟨inp row col, ?_, by simpa using hthr⟩
    rw [diamond_eq row col hr hc]
    simp
  have hle9 : ((diamond row col).map (fun p => inp p.1 p.2)).countP
      (fun v => decide (|v - inp row col| < threshold)) ≤ 9 := by
    refine le_trans (List.countP_le_length _) ?_
    rw [diamond_eq row col hr hc]
    rfl
  unfold pre_median_site
  simp only []
  rw [hentries]
  rw [hcnt] at hpos hle9 ⊢
  split_ifs with h1
  · exact (hsent 4).1 (by rw [h1]; decide)
  · apply (hsent _).2
    simp only [Fin.ofNat, Fin.val_mk]
    omega

/-- With a positive threshold, `pre_median` maps a buffer with samples in [0, 1] to a buffer
with samples in [0, 1]. -/
theorem pre_median_unit (inp : Raw) (width height filters num_passes : Nat) (threshold : ℚ)
    (hthr : 0 < threshold)
    (hin : ∀ r c, r < height → c < width → 0 ≤ inp r c ∧ inp r c ≤ 1) :
    ∀ r c, r < height → c < width →
      0 ≤ pre_median inp width height filters num_passes threshold r c ∧
      pre_median inp width height filters num_passes threshold r c ≤ 1 := by
  unfold pre_median
  rw [pre_median_b_unfold]
  refine forLoop_inv (fun s : Raw => ∀ r c, r < height → c < width → 0 ≤ s r c ∧ s r c ≤ 1)
    0 num_passes 1 Nat.one_pos _ inp hin ?_
  intro _ s _ hs
  refine forLoop2_inv (fun s : Raw => ∀ r c, r < height → c < width → 0 ≤ s r c ∧ s r c ≤ 1)
    3 (height - 3) 1
    (fun r => if FC r 3 filters ≠ 1 ∧ FC r 3 filters ≠ 3 then 4 else 3) (fun _ => width - 3) 2
    Nat.one_pos (by decide) (fun r c out => out.set r c (pre_median_site inp r c threshold))
    s hs ?_
  intro j i s2 hj hi hs2 r c hr hc
  beta_reduce
  rw [raw_set_apply]
  have hj2 : 3 ≤ j ∧ j < height - 3 := by
    unfold Visits at hj
    omega
  have hi2 : 3 ≤ i ∧ i < width - 3 := by
    unfold Visits at hi
    beta_reduce at hi
    split_ifs at hi <;> omega
  split_ifs with e
  · apply pre_median_site_unit inp j i threshold (by omega) (by omega) hthr
    intro p hp
    rw [diamond_eq j i (by omega) (by omega)] at hp
    simp only [List.mem_cons, List.mem_singleton, List.not_mem_nil, or_false] at hp
    rcases hp with h | h | h | h | h | h | h | h | h <;> rw [h] <;> apply hin <;> omega
  · exact hs2 r c hr hc

/-- C2 (amended): for a Bayer descriptor, a raw buffer with samples in [0, 1] and sizes for
which the border loop returns, `demosaic_ppg` returns and every channel 0..2 of every output
pixel lies in [-1, 2]. -/
theorem C2_ppg_range {filters : Nat} (hb : IsBayer filters) (fuel : Nat) (out : Img)
    (inp : Raw) (wo ho wi hi : Nat) (thrs : ℚ) (hw : wo ≤ wi) (hh : ho ≤ hi)
    (hT : wo ≤ 3 ∨ 6 ≤ wo ∨ ho ≤ 6) (hf : wo < fuel)
    (hin : ∀ r c, r < hi → c < wi → 0 ≤ inp r c ∧ inp r c ≤ 1) :
    ∃ o, demosaic_ppg fuel out inp wo ho wi hi filters thrs = some o ∧
      ∀ j i ch, j < ho → i < wo → ch < 3 → -1 ≤ o j i ch ∧ o j i ch ≤ 2 := by
  refine ppg_generic (fun x => 0 ≤ x ∧ x ≤ 1) (fun x => -1 ≤ x ∧ x ≤ 2) ?_ ?_ ?_ ?_ hb fuel out
    inp wo ho wi hi thrs hw hh hT hf hin ?_
  · intro x y t hx hy h0 h1
    constructor
    · have := mul_nonneg h0 hx.1
      have := mul_nonneg (sub_nonneg.mpr h1) hy.1
      linarith
    · have := mul_le_mul_of_nonneg_left hx.2 h0
      have := mul_le_mul_of_nonneg_left hy.2 (sub_nonneg.mpr h1)
      linarith
  · intro a b g c d ha hb2 hg hc hd
    constructor <;> linarith [ha.1, ha.2, hb2.1, hb2.2, hg.1, hg.2, hc.1, hc.2, hd.1, hd.2]
  · intro a b c d a2 b2 c2 d2 g ha hb2 hc hd ha2 hb3 hc2 hd2 hg
    constructor <;> linarith [ha.1, ha.2, hb2.1, hb2.2, hg.1, hg.2, hc.1, hc.2, hd.1, hd.2,
      ha2.1, ha2.2, hb3.1, hb3.2, hc2.1, hc2.2, hd2.1, hd2.2]
  · intro x hx
    constructor <;> linarith [hx.1, hx.2]
  · intro r c hr hc
    split_ifs with ht
    · exact pre_median_unit inp wi hi filters 1 thrs ht hin r c hr hc
    · exact hin r c hr hc

/-- C2 (amended), instance: the 9x9 GRBG buffer `holeRaw` with the median off. -/
theorem C2_ppg_range_witness :
    ∃ o, demosaic_ppg 10 (fun _ _ _ => 0) holeRaw 9 9 9 9 0x61616161 0 = some o ∧
      ∀ j i ch, j < 9 → i < 9 → ch < 3 → -1 ≤ o j i ch ∧ o j i ch ≤ 2 :=
  C2_ppg_range (by decide) 10 (fun _ _ _ => 0) holeRaw 9 9 9 9 0 (le_refl 9) (le_refl 9)
    (Or.inr (Or.inl (by decide))) (by decide)
    (fun r c _ _ => by
      unfold holeRaw
      split_ifs <;> norm_num)

/-! ## X-Trans linear interpolation -/

theorem xtransStd_complete : XtransComplete xtransStd := by decide

/-- The index expression of `fcol` is the non-negative remainder for arguments from -6 on. -/
theorem fcolIdx_emod (n : Int) (h : -6 ≤ n) : fcolIdx n = n % 6 := by
  unfold fcolIdx
  rw [Int.tmod_eq_emod (by omega) (by decide)]
  omega

/-- Adding a sample with a positive weight to a weighted sum keeps the mean in a convex
set. -/
theorem wmean_step (P : ℚ → Prop)
    (hconv : ∀ x y t : ℚ, P x → P y → 0 ≤ t → t ≤ 1 → P (t * x + (1 - t) * y))
    (s w x u : ℚ) (hw : 0 ≤ w) (hu : 0 < u) (hx : P x) (h0 : w = 0 → s = 0)
    (h1 : 0 < w → P (s / w)) : P ((s + x * u) / (w + u)) := by
  by_cases hz : w = 0
  · rw [hz, h0 hz, zero_add, zero_add, mul_div_assoc, div_self (ne_of_gt hu), mul_one]
    exact hx
  · have hp0 : 0 < w := lt_of_le_of_ne hw (Ne.symm hz)
    have ht1 : 0 ≤ w / (w + u) := div_nonneg hw (by linarith)
    have ht2 : w / (w + u) ≤ 1 := by
      rw [div_le_one (by linarith)]
      linarith
    have hcv := hconv _ _ (w / (w + u)) (h1 hp0) hx ht1 ht2
    have hne : w + u ≠ 0 := by linarith
    have e6 : w / (w + u) * (s / w) + (1 - w / (w + u)) * x = (s + x * u) / (w + u) := by
      field_simp
      ring
    rw [e6] at hcv
    exact hcv

/-- A row of the X-Trans border loop returns with `fuel > wo`, in closed form. -/
theorem xtrans_row_eq {σ : Type} (wo ho row fuel : Nat) (body : Nat → σ → σ) (s : σ)
    (hf : wo < fuel) :
    jumpLoop (xtrans_jump wo ho row) false wo body fuel 0 s
      = some (if (1 ≤ row ∧ row < ho - 1) ∧ 2 ≤ wo then body (wo - 1) (body 0 s)
          else forLoop 0 wo 1 body s) := by
  by_cases h : (1 ≤ row ∧ row < ho - 1) ∧ 2 ≤ wo
  · rw [if_pos h]
    obtain ⟨f, rfl⟩ : ∃ f, fuel = f + 3 := ⟨fuel - 3, by omega⟩
    have j0 : xtrans_jump wo ho row 0 = 0 := by unfold xtrans_jump; simp
    have j1 : xtrans_jump wo ho row 1 = wo - 1 := by
      unfold xtrans_jump
      rw [if_pos ⟨rfl, h.1⟩]
    rw [jumpLoop, if_pos (by omega), j0, if_neg (by simp)]
    rw [jumpLoop, if_pos (by omega), j1, if_neg (by simp)]
    rw [jumpLoop, if_neg (by omega)]
  · rw [if_neg h, forLoop_one]
    refine jumpLoop_plain _ _ _ _ (wo - 0) 0 s fuel rfl (by omega) ?_
    intro i _ hi
    unfold xtrans_jump
    rw [if_neg]
    intro hc
    omega

theorem xtrans_border_pixel_eq (inp : Raw) (xtrans : Int → Int → Nat) (ix iy : Int)
    (wi hi row col : Nat) (o : Img) :
    xtrans_border_pixel inp xtrans ix iy wi hi row col o
      = ((o.set row col 0 (xtrans_border_val inp xtrans ix iy wi hi row col 0)).set row col 1
          (xtrans_border_val inp xtrans ix iy wi hi row col 1)).set row col 2
          (xtrans_border_val inp xtrans ix iy wi hi row col 2) := rfl

/-- The border interpolation of a pixel writes only channels 0, 1, 2 of that pixel. -/
theorem xtrans_border_pixel_frame (inp : Raw) (xtrans : Int → Int → Nat) (ix iy : Int)
    (wi hi row col : Nat) (o : Img) (r k ch : Nat) (h : ¬ (r = row ∧ k = col ∧ ch < 3)) :
    xtrans_border_pixel inp xtrans ix iy wi hi row col o r k ch = o r k ch := by
  rw [xtrans_border_pixel_eq]
  simp only [img_set_apply]
  rw [if_neg (by omega), if_neg (by omega), if_neg (by omega)]

/-- The border interpolation of a pixel stores `xtrans_border_val` in channels 0, 1, 2. -/
theorem xtrans_border_pixel_at (inp : Raw) (xtrans : Int → Int → Nat) (ix iy : Int)
    (wi hi row col : Nat) (o : Img) (ch : Nat) (hch : ch < 3) :
    xtrans_border_pixel inp xtrans ix iy wi hi row col o row col ch
      = xtrans_border_val inp xtrans ix iy wi hi row col ch := by
  rw [xtrans_border_pixel_eq]
  simp only [img_set_apply]
  have h3 : ch = 0 ∨ ch = 1 ∨ ch = 2 := by omega
  rcases h3 with rfl | rfl | rfl <;> simp

/-- The border loop of `xtrans_lin_interpolate` returns for every size, with `fuel > wo`. -/
theorem xtrans_border_eq (fuel : Nat) (inp : Raw) (xtrans : Int → Int → Nat) (ix iy : Int)
    (wo ho wi hi : Nat) (out : Img) (hf : wo < fuel) :
    loopNOpt ho 0 (fun row o =>
      jumpLoop (xtrans_jump wo ho row) false wo
        (fun col o => xtrans_border_pixel inp xtrans ix iy wi hi row col o) fuel 0 o) out
      = some (forLoop 0 ho 1 (xtrans_border_row inp xtrans ix iy wo ho wi hi) out) := by
  rw [forLoop_one]
  apply loopNOpt_some
  intro row s
  rw [xtrans_row_eq wo ho row fuel _ s hf]
  rfl

/-- A row of the border loop writes only in its own row, channels 0, 1, 2. -/
theorem xtrans_border_row_frame (inp : Raw) (xtrans : Int → Int → Nat) (ix iy : Int)
    (wo ho wi hi row : Nat) (o : Img) (r k ch : Nat) (h : r ≠ row ∨ 3 ≤ ch) :
    xtrans_border_row inp xtrans ix iy wo ho wi hi row o r k ch = o r k ch := by
  unfold xtrans_border_row
  split_ifs
  · rw [xtrans_border_pixel_frame _ _ _ _ _ _ _ _ _ _ _ _ (by omega),
      xtrans_border_pixel_frame _ _ _ _ _ _ _ _ _ _ _ _ (by omega)]
  · exact forLoop_inv (fun s2 : Img => s2 r k ch = o r k ch) 0 wo 1 Nat.one_pos _ o rfl
      (fun i s2 _ hs2 => by
        beta_reduce
        rw [xtrans_border_pixel_frame _ _ _ _ _ _ _ _ _ _ _ _ (by omega)]
        exact hs2)

/-- A row of the border loop leaves `xtrans_border_val` in the pixels of the outermost
frame. -/
theorem xtrans_border_row_at (inp : Raw) (xtrans : Int → Int → Nat) (ix iy : Int)
    (wo ho wi hi row : Nat) (o : Img) (col ch : Nat) (hc : col < wo) (hch : ch < 3)
    (hv : ¬ (1 ≤ row ∧ row < ho - 1 ∧ 1 ≤ col ∧ col < wo - 1)) :
    xtrans_border_row inp xtrans ix iy wo ho wi hi row o row col ch
      = xtrans_border_val inp xtrans ix iy wi hi row col ch := by
  unfold xtrans_border_row
  split_ifs with h
  · by_cases h0 : col = 0
    · subst h0
      by_cases h1 : wo - 1 = 0
      · rw [h1, xtrans_border_pixel_at _ _ _ _ _ _ _ _ _ _ hch]
      · rw [xtrans_border_pixel_frame _ _ _ _ _ _ _ _ _ _ _ _ (by omega),
          xtrans_border_pixel_at _ _ _ _ _ _ _ _ _ _ hch]
    · have e : col = wo - 1 := by omega
      rw [e, xtrans_border_pixel_at _ _ _ _ _ _ _ _ _ _ hch]
  · have := forLoop_post (fun _ : Img => True)
      (fun i (s : Img) => s row i ch = xtrans_border_val inp xtrans ix iy wi hi row i ch)
      0 wo 1 Nat.one_pos (fun i o => xtrans_border_pixel inp xtrans ix iy wi hi row i o) o
      trivial
      (fun k s _ _ => ⟨trivial, xtrans_border_pixel_at inp xtrans ix iy wi hi row k s ch hch⟩)
      (fun k k2 s _ _ hne _ hQ => by
        beta_reduce
        rw [xtrans_border_pixel_frame _ _ _ _ _ _ _ _ _ _ _ _ (by omega)]
        exact hQ)
    exact this.2 col ((visits_one _ _ _).mpr ⟨Nat.zero_le _, hc⟩)

/-- After the border loop every pixel of the outermost frame holds `xtrans_border_val` in
its channels 0, 1, 2. -/
theorem xtrans_border_result_at (inp : Raw) (xtrans : Int → Int → Nat) (ix iy : Int)
    (wo ho wi hi : Nat) (out : Img) (row col ch : Nat) (hr : row < ho) (hc : col < wo)
    (hch : ch < 3) (hv : ¬ (1 ≤ row ∧ row < ho - 1 ∧ 1 ≤ col ∧ col < wo - 1)) :
    forLoop 0 ho 1 (xtrans_border_row inp xtrans ix iy wo ho wi hi) out row col ch
      = xtrans_border_val inp xtrans ix iy wi hi row col ch := by
  have := forLoop_post (fun _ : Img => True)
    (fun j2 (s : Img) => j2 = row → s row col ch
      = xtrans_border_val inp xtrans ix iy wi hi row col ch)
    0 ho 1 Nat.one_pos (xtrans_border_row inp xtrans ix iy wo ho wi hi) out trivial
    (fun k s _ _ => ⟨trivial, fun e => by
      subst e
      exact xtrans_border_row_at inp xtrans ix iy wo ho wi hi k s col ch hc hch hv⟩)
    (fun k k2 s _ _ hne _ hQ e => by
      subst e
      rw [xtrans_border_row_frame _ _ _ _ _ _ _ _ _ _ _ _ _ (Or.inl (Ne.symm hne))]
      exact hQ rfl)
  exact this.2 row ((visits_one _ _ _).mpr ⟨Nat.zero_le _, hr⟩) rfl

/-- Invariant of the X-Trans border scan for one colour: an empty count has an empty sum,
and a positive count has its mean in the convex set `P`. -/
theorem xtrans_sum_fold (P : ℚ → Prop)
    (hconv : ∀ x y t : ℚ, P x → P y → 0 ≤ t → t ≤ 1 → P (t * x + (1 - t) * y))
    (inp : Raw) (xtrans : Int → Int → Nat) (ix iy : Int) (wi hi : Nat)
    (hin : ∀ r c, r < hi → c < wi → P (inp r c)) (c : Nat) :
    ∀ (l : List (Nat × Nat)) (s : (Nat → ℚ) × (Nat → Nat)),
      (∀ p ∈ l, p.1 < hi ∧ p.2 < wi) →
      ((s.2 c = 0 → s.1 c = 0) ∧ (s.2 c ≠ 0 → P (s.1 c / (s.2 c : ℚ)))) →
      (((l.foldl (xtrans_sum_step inp xtrans ix iy) s).2 c = 0 →
          (l.foldl (xtrans_sum_step inp xtrans ix iy) s).1 c = 0) ∧
        ((l.foldl (xtrans_sum_step inp xtrans ix iy) s).2 c ≠ 0 →
          P ((l.foldl (xtrans_sum_step inp xtrans ix iy) s).1 c /
            ((l.foldl (xtrans_sum_step inp xtrans ix iy) s).2 c : ℚ)))) := by
  intro l
  induction l with
  | nil => intro s _ h; exact h
  | cons p ps ih =>
    intro s hmem h
    rw [List.foldl_cons]
    apply ih
    · intro q hq; exact hmem q (List.mem_cons_of_mem _ hq)
    · have hp := hmem p (List.mem_cons_self _ _)
      have hx := hin p.1 p.2 hp.1 hp.2
      obtain ⟨h2, h3⟩ := h
      unfold xtrans_sum_step
      simp only []
      by_cases e : c = fcol xtrans ((p.1 : Int) + iy) ((p.2 : Int) + ix)
      · rw [if_pos e, if_pos e]
        refine ⟨fun h0 => absurd h0 (Nat.succ_ne_zero _), fun _ => ?_⟩
        have := wmean_step P hconv (s.1 c) (s.2 c : ℚ) (inp p.1 p.2) 1 (Nat.cast_nonneg _)
          one_pos hx (fun hz => h2 (by exact_mod_cast hz))
          (fun hz => h3 (by
            intro h0
            rw [h0] at hz
            simp at hz))
        rw [mul_one] at this
        push_cast
        exact this
      · rw [if_neg e, if_neg e]
        exact ⟨h2, h3⟩

/-- The X-Trans border values lie in every convex set `P` that holds the samples. -/
theorem xtrans_border_val_good (P : ℚ → Prop)
    (hconv : ∀ x y t : ℚ, P x → P y → 0 ≤ t → t ≤ 1 → P (t * x + (1 - t) * y))
    (inp : Raw) (xtrans : Int → Int → Nat) (ix iy : Int) (wi hi row col : Nat)
    (hin : ∀ r c, r < hi → c < wi → P (inp r c)) (hr : row < hi) (hc : col < wi)
    (ch : Nat) : P (xtrans_border_val inp xtrans ix iy wi hi row col ch) := by
  unfold xtrans_border_val
  simp only []
  split_ifs with h
  · exact (xtrans_sum_fold P hconv inp xtrans ix iy wi hi hin ch _ _ (nbhd3_mem row col hi wi)
      ⟨fun _ => rfl, fun h0 => absurd rfl h0⟩).2 h.2
  · exact hin row col hr hc

/-- Invariant of the weighted sums of the interior loop: for a colour `c`, the sum divided
by the total weight of the neighbours of colour `c` read so far lies in the convex set `P`. -/
theorem lin_sum_fold (P : ℚ → Prop)
    (hconv : ∀ x y t : ℚ, P x → P y → 0 ≤ t → t ≤ 1 → P (t * x + (1 - t) * y))
    (inp : Raw) (row col c : Nat) :
    ∀ (l : List (Int × Int × Nat × Nat)) (s : Nat → ℚ) (w : Nat),
      (∀ t ∈ l, P (inp ((row : Int) + t.1).toNat ((col : Int) + t.2.1).toNat) ∧ 0 < t.2.2.1) →
      ((w = 0 → s c = 0) ∧ (0 < w → P (s c / (w : ℚ)))) →
      ((w + lin_total l c = 0 → (l.foldl (lin_sum_step inp row col) s) c = 0) ∧
        (0 < w + lin_total l c →
          P ((l.foldl (lin_sum_step inp row col) s) c / ((w + lin_total l c : Nat) : ℚ)))) := by
  intro l
  induction l with
  | nil =>
    intro s w _ h
    exact h
  | cons t ts ih =>
    intro s w hmem h
    rw [List.foldl_cons]
    have ht := hmem t (List.mem_cons_self _ _)
    have hrest := ih (lin_sum_step inp row col s t)
      (if t.2.2.2 = c then w + t.2.2.1 else w)
      (fun q hq => hmem q (List.mem_cons_of_mem _ hq))
    have etot : w + lin_total (t :: ts) c
        = (if t.2.2.2 = c then w + t.2.2.1 else w) + lin_total ts c := by
      unfold lin_total
      by_cases e : t.2.2.2 = c
      · rw [List.filter_cons_of_pos (by simpa using e), if_pos e, List.map_cons, List.sum_cons]
        omega
      · rw [List.filter_cons_of_neg (by simpa using e), if_neg e]
    rw [etot]
    apply hrest
    unfold lin_sum_step
    by_cases e : t.2.2.2 = c
    · rw [if_pos e, if_pos e.symm]
      refine ⟨fun h0 => by omega, fun _ => ?_⟩
      have := wmean_step P hconv (s c) (w : ℚ) _ (t.2.2.1 : ℚ) (Nat.cast_nonneg _)
        (by exact_mod_cast ht.2) ht.1 (fun hz => h.1 (by exact_mod_cast hz))
        (fun hz => h.2 (by exact_mod_cast hz))
      push_cast
      exact this
    · rw [if_neg e, if_neg (fun h2 => e h2.symm)]
      exact h

/-- Every listed neighbour is one of the eight adjoining pixels with a positive weight and a
colour other than the centre colour. -/
theorem linLookup_nbrs_mem (xtrans : Int → Int → Nat) (ix iy : Int) (row col : Nat)
    (t : Int × Int × Nat × Nat) (ht : t ∈ (linLookup xtrans ix iy row col).nbrs) :
    (-1 ≤ t.1 ∧ t.1 ≤ 1) ∧ (-1 ≤ t.2.1 ∧ t.2.1 ≤ 1) ∧ 0 < t.2.2.1 := by
  unfold linLookup at ht
  simp only [List.mem_filterMap] at ht
  obtain ⟨p, hp, hpt⟩ := ht
  by_cases hcol : fcol xtrans ((row : Int) + p.1 + iy) ((col : Int) + p.2 + ix)
      = fcol xtrans ((row : Int) + iy) ((col : Int) + ix)
  · rw [if_pos hcol] at hpt
    exact absurd hpt (by simp)
  · rw [if_neg hcol] at hpt
    have e := Option.some.inj hpt
    rw [← e]
    simp only [Nat.one_shiftLeft]
    refine ⟨?_, ?_, Nat.pow_pos (by decide)⟩
    · simp only [offsets3, List.mem_cons, List.mem_singleton, List.not_mem_nil, or_false] at hp
      rcases hp with h | h | h | h | h | h | h | h | h <;> rw [h] <;> simp
    · simp only [offsets3, List.mem_cons, List.mem_singleton, List.not_mem_nil, or_false] at hp
      rcases hp with h | h | h | h | h | h | h | h | h <;> rw [h] <;> simp

/-- A colour present among the eight adjoining pixels and other than the centre colour has a
positive total weight. -/
theorem linLookup_total_pos (xtrans : Int → Int → Nat) (ix iy : Int) (row col c : Nat)
    (hc : c ≠ fcol xtrans ((row : Int) + iy) ((col : Int) + ix))
    (hex : ∃ p ∈ offsets3, fcol xtrans ((row : Int) + p.1 + iy) ((col : Int) + p.2 + ix) = c) :
    0 < lin_total (linLookup xtrans ix iy row col).nbrs c := by
  obtain ⟨p, hp, hpc⟩ := hex
  have hmem : (p.1, p.2, (1 : Nat) <<< ((if p.1 = (0 : Int) then (1 : Nat) else 0)
      + (if p.2 = (0 : Int) then (1 : Nat) else 0)), c)
      ∈ (linLookup xtrans ix iy row col).nbrs := by
    unfold linLookup
    simp only [List.mem_filterMap]
    refine ⟨p, hp, ?_⟩
    rw [hpc, if_neg hc]
  unfold lin_total
  apply Nat.pos_of_ne_zero
  intro h0
  rw [List.sum_eq_zero_iff] at h0
  have := h0 _ (List.mem_map.mpr ⟨_, List.mem_filter.mpr ⟨hmem, by simp⟩, rfl⟩)
  have hpos := (linLookup_nbrs_mem xtrans ix iy row col _ hmem).2.2
  simp only [] at this hpos
  omega

/-- In a complete table, every position from `(0, 0)` on has a colour below 3 and sees all
three colours among itself and its eight neighbours. -/
theorem complete_at {xtrans : Int → Int → Nat} (h : XtransComplete xtrans) (R C : Int)
    (hR : 0 ≤ R) (hC : 0 ≤ C) :
    fcol xtrans R C < 3 ∧
      ∀ ch, ch < 3 → ∃ p ∈ offsets3, fcol xtrans (R + p.1) (C + p.2) = ch := by
  have hr : (R % 6).toNat < 6 := by omega
  have hc : (C % 6).toNat < 6 := by omega
  have key := h ⟨(R % 6).toNat, hr⟩ ⟨(C % 6).toNat, hc⟩
  simp only [] at key
  have er : (((R % 6).toNat : Nat) : Int) = R % 6 := Int.toNat_of_nonneg (by omega)
  have ec : (((C % 6).toNat : Nat) : Int) = C % 6 := Int.toNat_of_nonneg (by omega)
  rw [er, ec] at key
  constructor
  · unfold fcol
    rw [fcolIdx_emod R (by omega), fcolIdx_emod C (by omega)]
    exact key.1
  · intro ch hch
    obtain ⟨p, hp, hpc⟩ := key.2 ⟨ch, hch⟩
    refine ⟨p, hp, ?_⟩
    have hb : (-1 ≤ p.1 ∧ p.1 ≤ 1) ∧ (-1 ≤ p.2 ∧ p.2 ≤ 1) := by
      simp only [offsets3, List.mem_cons, List.mem_singleton, List.not_mem_nil, or_false] at hp
      rcases hp with h | h | h | h | h | h | h | h | h <;> rw [h] <;> simp
    unfold fcol
    rw [fcolIdx_emod _ (by omega), fcolIdx_emod _ (by omega)]
    have e1 : (R + p.1) % 6 = (R % 6 + p.1) % 6 := by omega
    have e2 : (C + p.2) % 6 = (C % 6 + p.2) % 6 := by omega
    rw [e1, e2]
    exact hpc

theorem foldl_set_frame {α : Type} (row col : Nat) (g : α → Nat) (v : α → ℚ) (r k ch : Nat)
    (h : ¬ (r = row ∧ k = col)) :
    ∀ (l : List α) (o : Img),
      (l.foldl (fun o t => o.set row col (g t) (v t)) o) r k ch = o r k ch := by
  intro l
  induction l with
  | nil => intro o; rfl
  | cons t ts ih =>
    intro o
    rw [List.foldl_cons, ih, img_set_apply, if_neg (fun e => h ⟨e.1, e.2.1⟩)]

/-- The interior interpolation of a pixel writes only to that pixel. -/
theorem xtrans_lin_pixel_frame (inp : Raw) (xtrans : Int → Int → Nat) (ix iy : Int)
    (row col : Nat) (o : Img) (r k ch : Nat) (h : ¬ (r = row ∧ k = col)) :
    xtrans_lin_pixel inp xtrans ix iy row col o r k ch = o r k ch := by
  unfold xtrans_lin_pixel
  rw [img_set_apply, if_neg (fun e => h ⟨e.1, e.2.1⟩)]
  exact foldl_set_frame row col _ _ r k ch h _ o

/-- The values the interior interpolation leaves in the three channels of its pixel, when
the centre colour is below 3: the sample in the centre colour, the weighted sum over the
total weight in the two others. -/
theorem xtrans_lin_pixel_at (inp : Raw) (xtrans : Int → Int → Nat) (ix iy : Int)
    (row col : Nat) (o : Img) (ch : Nat) (hch : ch < 3)
    (hf : fcol xtrans (((row % 6 : Nat) : Int) + iy) (((col % 6 : Nat) : Int) + ix) < 3) :
    xtrans_lin_pixel inp xtrans ix iy row col o row col ch
      = if ch = fcol xtrans (((row % 6 : Nat) : Int) + iy) (((col % 6 : Nat) : Int) + ix)
        then inp row col
        else ((linLookup xtrans ix iy (row % 6) (col % 6)).nbrs.foldl
            (lin_sum_step inp row col) (fun _ => 0)) ch
          / (lin_total (linLookup xtrans ix iy (row % 6) (col % 6)).nbrs ch : ℚ) := by
  have htot : (linLookup xtrans ix iy (row % 6) (col % 6)).totals
      = ((List.range 3).filter (fun c => c ≠ fcol xtrans (((row % 6 : Nat) : Int) + iy)
          (((col % 6 : Nat) : Int) + ix))).map
        (fun c => (c, lin_total (linLookup xtrans ix iy (row % 6) (col % 6)).nbrs c)) := rfl
  have hpix : (linLookup xtrans ix iy (row % 6) (col % 6)).colorpix
      = fcol xtrans (((row % 6 : Nat) : Int) + iy) (((col % 6 : Nat) : Int) + ix) := rfl
  unfold xtrans_lin_pixel
  rw [htot, hpix]
  generalize fcol xtrans (((row % 6 : Nat) : Int) + iy) (((col % 6 : Nat) : Int) + ix) = f at hf
  generalize (linLookup xtrans ix iy (row % 6) (col % 6)).nbrs = nb
  have h3 : f = 0 ∨ f = 1 ∨ f = 2 := by omega
  have c3 : ch = 0 ∨ ch = 1 ∨ ch = 2 := by omega
  rcases h3 with rfl | rfl | rfl <;> rcases c3 with rfl | rfl | rfl <;>
    simp [List.range, List.range.loop, img_set_apply]

/-- The interior interpolation leaves values of the convex set `P` in the three channels of
its pixel, when the table is complete and the eight neighbours are inside the buffer. -/
theorem xtrans_lin_pixel_good (P : ℚ → Prop)
    (hconv : ∀ x y t : ℚ, P x → P y → 0 ≤ t → t ≤ 1 → P (t * x + (1 - t) * y))
    {xtrans : Int → Int → Nat} (hx : XtransComplete xtrans) (ix iy : Int) (hix : 0 ≤ ix)
    (hiy : 0 ≤ iy) (inp : Raw) (wi hi : Nat) (hin : ∀ r c, r < hi → c < wi → P (inp r c))
    (row col : Nat) (hr : 1 ≤ row ∧ row + 1 < hi) (hc : 1 ≤ col ∧ col + 1 < wi) (o : Img)
    (ch : Nat) (hch : ch < 3) :
    P (xtrans_lin_pixel inp xtrans ix iy row col o row col ch) := by
  have hcomp := complete_at hx (((row % 6 : Nat) : Int) + iy) (((col % 6 : Nat) : Int) + ix)
    (by omega) (by omega)
  rw [xtrans_lin_pixel_at inp xtrans ix iy row col o ch hch hcomp.1]
  split_ifs with hf
  · exact hin row col (by omega) (by omega)
  · have hex : ∃ p ∈ offsets3, fcol xtrans (((row % 6 : Nat) : Int) + p.1 + iy)
        (((col % 6 : Nat) : Int) + p.2 + ix) = ch := by
      obtain ⟨p, hp, hpc⟩ := hcomp.2 ch hch
      refine ⟨p, hp, ?_⟩
      rw [add_right_comm _ p.1 iy, add_right_comm _ p.2 ix]
      exact hpc
    have hpos := linLookup_total_pos xtrans ix iy (row % 6) (col % 6) ch hf hex
    have hfold := lin_sum_fold P hconv inp row col ch
      (linLookup xtrans ix iy (row % 6) (col % 6)).nbrs (fun _ => 0) 0
      (fun t ht => by
        have hb := linLookup_nbrs_mem xtrans ix iy (row % 6) (col % 6) t ht
        exact ⟨hin _ _ (by omega) (by omega), hb.2.2⟩)
      ⟨fun _ => rfl, fun h0 => absurd h0 (lt_irrefl _)⟩
    rw [Nat.zero_add] at hfold
    exact hfold.2 hpos

/-- For a complete table, a non-negative ROI offset and an output region inside the raw
buffer, `xtrans_lin_interpolate` returns and every channel 0..2 of every output pixel lies
in each convex set `P` that holds the samples of the buffer. -/
theorem xtrans_lin_generic (P : ℚ → Prop)
    (hconv : ∀ x y t : ℚ, P x → P y → 0 ≤ t → t ≤ 1 → P (t * x + (1 - t) * y))
    {xtrans : Int → Int → Nat} (hx : XtransComplete xtrans) (ix iy : Int) (hix : 0 ≤ ix)
    (hiy : 0 ≤ iy) (fuel : Nat) (out : Img) (inp : Raw) (wo ho wi hi : Nat)
    (hw : wo ≤ wi) (hh : ho ≤ hi) (hf : wo < fuel)
    (hin : ∀ r c, r < hi → c < wi → P (inp r c)) :
    ∃ o, xtrans_lin_interpolate fuel out inp wo ho wi hi ix iy xtrans = some o ∧
      ∀ j i ch, j < ho → i < wo → ch < 3 → P (o j i ch) := by
  unfold xtrans_lin_interpolate
  rw [xtrans_border_eq fuel inp xtrans ix iy wo ho wi hi out hf]
  refine ⟨_, rfl, ?_⟩
  intro j i ch hj hi2 hch
  by_cases hint : 1 ≤ j ∧ j < ho - 1 ∧ 1 ≤ i ∧ i < wo - 1
  · have := forLoop2_post (fun _ : Img => True)
      (fun r k (s : Img) => P (s r k ch))
      1 (ho - 1) 1 (fun _ => 1) (fun _ => wo - 1) 1 Nat.one_pos Nat.one_pos
      (fun row col o => xtrans_lin_pixel inp xtrans ix iy row col o)
      (forLoop 0 ho 1 (xtrans_border_row inp xtrans ix iy wo ho wi hi) out) trivial
      (fun r k s hr hk _ => by
        rw [visits_one] at hr hk
        beta_reduce at hk
        exact ⟨trivial, xtrans_lin_pixel_good P hconv hx ix iy hix hiy inp wi hi hin r k
          (by omega) (by omega) s ch hch⟩)
      (fun r k r2 k2 s _ _ _ _ hne _ hQ => by
        beta_reduce
        rw [xtrans_lin_pixel_frame _ _ _ _ _ _ _ _ _ _ (fun e => hne ⟨e.1.symm, e.2.symm⟩)]
        exact hQ)
    exact this.2 j i ((visits_one _ _ _).mpr ⟨hint.1, hint.2.1⟩)
      ((visits_one _ _ _).mpr ⟨hint.2.2.1, hint.2.2.2⟩)
  · refine forLoop2_inv (fun s : Img => P (s j i ch))
      1 (ho - 1) 1 (fun _ => 1) (fun _ => wo - 1) 1 Nat.one_pos Nat.one_pos
      (fun row col o => xtrans_lin_pixel inp xtrans ix iy row col o) _ ?_ ?_
    · beta_reduce
      rw [xtrans_border_result_at inp xtrans ix iy wo ho wi hi out j i ch hj hi2 hch hint]
      exact xtrans_border_val_good P hconv inp xtrans ix iy wi hi j i hin (by omega) (by omega) ch
    · intro r k s hr hk hs
      rw [visits_one] at hr hk
      beta_reduce at hk hs ⊢
      rw [xtrans_lin_pixel_frame _ _ _ _ _ _ _ _ _ _ (by omega)]
      exact hs

/-! ## Dispatch order -/

theorem green_eq_no_kernel (g : Nat) : (green_eq_calls g).filterMap kernel_rank = [] := by
  unfold green_eq_calls
  split_ifs <;> rfl

/-- Rank of the kernel `process` runs: none on the half-size and third-size branch, else the
kernel chosen from the method after the quality override. -/
theorem dispatch_rank_eq (p : ProcessInput) :
    dispatch_rank (process p)
      = if (process p).path = Path.subsample then 0
        else (kernel_rank (if p.filters = 9 then xtrans_call (process_method p)
          else bayer_call (process_method p))).getD 0 := by
  have hx : ∀ m, ∃ n, kernel_rank (xtrans_call m) = some n := by
    intro m
    unfold xtrans_call
    split_ifs <;> exact ⟨_, rfl⟩
  have hbq : ∀ m, ∃ n, kernel_rank (bayer_call m) = some n := by
    intro m
    unfold bayer_call
    split_ifs <;> exact ⟨_, rfl⟩
  obtain ⟨nx, hnx⟩ := hx (process_method p)
  obtain ⟨nb, hnb⟩ := hbq (process_method p)
  have hg := green_eq_no_kernel p.green_eq
  unfold process dispatch_rank demosaic_calls
  simp only []
  have k1 : kernel_rank Call.clip_and_zoom = none := rfl
  have k2 : kernel_rank Call.third_size_xtrans = none := rfl
  have k3 : kernel_rank Call.pre_median_b = none := rfl
  have k4 : kernel_rank Call.half_size = none := rfl
  have k5 : ∀ n, kernel_rank (Call.color_smoothing n) = none := fun _ => rfl
  split_ifs <;>
    first
    | contradiction
    | simp [List.filterMap_append, List.filterMap_cons, hnx, hnb, hg, k1, k2, k3, k4, k5]

theorem process_method_full_quality (p : ProcessInput) (hq : p.qual = 2) :
    process_method p = p.demosaicing_method := by
  unfold process_method
  rw [if_neg]
  intro h
  omega

/-- C11: with `qual = 2` and all other inputs fixed, for two configured methods `m1 <= m2` of
the CFA kind of the image, `process` takes the same branch and the kernel it runs for `m2` is
at least as strong as the one it runs for `m1`, in the orders PPG < AMAZE and
LINEAR < VNG < MARKESTEIJN_1 < MARKESTEIJN_3. -/
theorem C11_dispatch_monotone (p : ProcessInput) (m1 m2 : Int) (hq : p.qual = 2)
    (h1 : method_of_kind p.filters m1) (h2 : method_of_kind p.filters m2) (h12 : m1 ≤ m2) :
    (process { p with demosaicing_method := m1 }).path
      = (process { p with demosaicing_method := m2 }).path ∧
    dispatch_rank (process { p with demosaicing_method := m1 })
      ≤ dispatch_rank (process { p with demosaicing_method := m2 }) := by
  have hpath : (process { p with demosaicing_method := m1 }).path
      = (process { p with demosaicing_method := m2 }).path := by
    rw [process_path_eq, process_path_eq]
  refine ⟨hpath, ?_⟩
  have e1 := process_method_full_quality { p with demosaicing_method := m1 } hq
  have e2 := process_method_full_quality { p with demosaicing_method := m2 } hq
  rw [dispatch_rank_eq, dispatch_rank_eq, hpath, e1, e2]
  simp only []
  unfold method_of_kind at h1 h2
  by_cases h9 : p.filters = 9
  · simp only [h9, if_true] at h1 h2 ⊢
    unfold DT_IOP_DEMOSAIC_LINEAR DT_IOP_DEMOSAIC_VNG DT_IOP_DEMOSAIC_MARKESTEIJN
      DT_IOP_DEMOSAIC_MARKESTEIJN_3 at h1 h2
    rcases h1 with rfl | rfl | rfl | rfl <;> rcases h2 with rfl | rfl | rfl | rfl <;>
      first
      | exact absurd h12 (by decide)
      | (split_ifs <;> decide)
  · simp only [h9, if_false] at h1 h2 ⊢
    unfold DT_IOP_DEMOSAIC_PPG DT_IOP_DEMOSAIC_AMAZE at h1 h2
    rcases h1 with rfl | rfl <;> rcases h2 with rfl | rfl <;>
      first
      | exact absurd h12 (by decide)
      | (split_ifs <;> decide)

/-- C11, instance: an X-Trans image on the export pipeline at scale 1, LINEAR against
MARKESTEIJN_3. -/
theorem C11_dispatch_monotone_witness :
    (process { exportXtransInput with demosaicing_method := 1024 }).path
      = (process { exportXtransInput with demosaicing_method := 1027 }).path ∧
    dispatch_rank (process { exportXtransInput with demosaicing_method := 1024 })
      ≤ dispatch_rank (process { exportXtransInput with demosaicing_method := 1027 }) :=
  C11_dispatch_monotone exportXtransInput 1024 1027 rfl (by decide) (by decide) (by decide)

/-! ## ROI snapping -/

theorem ldiff_one (m : Nat) : Nat.ldiff m 1 = 2 * (m / 2) := by
  apply Nat.eq_of_testBit_eq
  intro i
  rw [Nat.testBit_ldiff]
  cases i with
  | zero => simp [Nat.testBit_zero]
  | succ k =>
    rw [Nat.testBit_succ, Nat.testBit_succ, Nat.testBit_succ]
    simp

/-- The mask `& ~1` clears the lowest bit of a non-negative `int` and keeps a negative one
negative. -/
theorem land_not_one (v : Int) :
    (0 ≤ v → Int.land v (~~~(1 : Int)) = 2 * (v / 2)) ∧ (v < 0 → Int.land v (~~~(1 : Int)) < 0) := by
  cases v with
  | ofNat m =>
    constructor
    · intro _
      show ((Nat.ldiff m 1 : Nat) : Int) = 2 * ((m : Int) / 2)
      rw [ldiff_one]
      push_cast
      rfl
    · intro h
      exact absurd h (by simp)
  | negSucc m =>
    constructor
    · intro h
      exact absurd h (by simp)
    · intro _
      show Int.negSucc (m ||| 1) < 0
      exact Int.negSucc_lt_zero _

/-- Snapping to the Bayer period. -/
theorem snap_even (v : Int) :
    0 ≤ max 0 (Int.land v (~~~(1 : Int))) ∧ (2 : Int) ∣ max 0 (Int.land v (~~~(1 : Int))) ∧
    (0 ≤ v → max 0 (Int.land v (~~~(1 : Int))) ≤ v ∧ v < max 0 (Int.land v (~~~(1 : Int))) + 2) := by
  have h := land_not_one v
  by_cases hv : 0 ≤ v
  · rw [h.1 hv]
    have e : max 0 (2 * (v / 2)) = 2 * (v / 2) := max_eq_right (by omega)
    rw [e]
    refine ⟨by omega, ⟨v / 2, rfl⟩, fun _ => ⟨by omega, by omega⟩⟩
  · have hneg := h.2 (by omega)
    have e : max 0 (Int.land v (~~~(1 : Int))) = 0 := max_eq_left (le_of_lt hneg)
    rw [e]
    exact ⟨le_refl 0, ⟨0, rfl⟩, fun h0 => absurd h0 hv⟩

/-- Snapping to the period 3 of the X-Trans branch. -/
theorem snap_three (v : Int) :
    0 ≤ max 0 (v - v.tmod 3) ∧ (3 : Int) ∣ max 0 (v - v.tmod 3) ∧
    (0 ≤ v → max 0 (v - v.tmod 3) ≤ v ∧ v < max 0 (v - v.tmod 3) + 3) := by
  by_cases hv : 0 ≤ v
  · rw [Int.tmod_eq_emod hv (by decide)]
    have e : max 0 (v - v % 3) = v - v % 3 := max_eq_right (by omega)
    rw [e]
    refine ⟨by omega, ⟨v / 3, by omega⟩, fun _ => ⟨by omega, by omega⟩⟩
  · have e : max 0 (v - v.tmod 3) = 0 := by
      apply max_eq_left
      cases v with
      | ofNat m => exact absurd (Int.ofNat_nonneg m) hv
      | negSucc m =>
        have hm : (Int.negSucc m).tmod 3 = -(((m + 1) % 3 : Nat) : Int) := rfl
        rw [hm, Int.negSucc_eq]
        omega
    rw [e]
    exact ⟨le_refl 0, ⟨0, rfl⟩, fun h0 => absurd h0 hv⟩

/-- C12: for every `roi_out` with `scale > 0`, `modify_roi_in` yields `roi_in.x` and
`roi_in.y` that are non-negative multiples of 2 for a Bayer image (`filters != 9`) and of 3
for an X-Trans image (`filters = 9`); when the scaled coordinate `v = trunc(roi_out.x / scale)`
is non-negative the result is the largest such multiple `<= v`, and likewise for `y`.  The
quotient is the `float` quotient of the compound assignment, `divScale`. -/
theorem C12_roi_snapping (filters : Nat) (image_width image_height : Int) (roi_out : Roi)
    (_hs : 0 < roi_out.scale) :
    (0 ≤ (modify_roi_in filters image_width image_height roi_out).x ∧
      (if filters = 9 then (3 : Int) else 2)
        ∣ (modify_roi_in filters image_width image_height roi_out).x ∧
      (0 ≤ divScale roi_out.x roi_out.scale →
        (modify_roi_in filters image_width image_height roi_out).x
            ≤ divScale roi_out.x roi_out.scale ∧
          divScale roi_out.x roi_out.scale
            < (modify_roi_in filters image_width image_height roi_out).x
              + (if filters = 9 then (3 : Int) else 2))) ∧
    (0 ≤ (modify_roi_in filters image_width image_height roi_out).y ∧
      (if filters = 9 then (3 : Int) else 2)
        ∣ (modify_roi_in filters image_width image_height roi_out).y ∧
      (0 ≤ divScale roi_out.y roi_out.scale →
        (modify_roi_in filters image_width image_height roi_out).y
            ≤ divScale roi_out.y roi_out.scale ∧
          divScale roi_out.y roi_out.scale
            < (modify_roi_in filters image_width image_height roi_out).y
              + (if filters = 9 then (3 : Int) else 2))) := by
  unfold modify_roi_in
  simp only []
  by_cases h9 : filters = 9
  · rw [if_pos h9, if_neg (not_not.mpr h9), if_neg (not_not.mpr h9)]
    exact ⟨snap_three _, snap_three _⟩
  · rw [if_neg h9, if_pos h9, if_pos h9]
    exact ⟨snap_even _, snap_even _⟩

/-- C12, instance: a Bayer image, `roi_out.x = 101`, `roi_out.y = 57`, scale 1/2. -/
theorem C12_roi_snapping_witness :
    (0 ≤ (modify_roi_in 0x94949494 4000 3000 ⟨101, 57, 640, 480, 1 / 2⟩).x ∧
      (if 0x94949494 = 9 then (3 : Int) else 2)
        ∣ (modify_roi_in 0x94949494 4000 3000 ⟨101, 57, 640, 480, 1 / 2⟩).x ∧
      (0 ≤ divScale (Roi.mk 101 57 640 480 (1 / 2)).x (Roi.mk 101 57 640 480 (1 / 2)).scale →
        (modify_roi_in 0x94949494 4000 3000 ⟨101, 57, 640, 480, 1 / 2⟩).x
            ≤ divScale (Roi.mk 101 57 640 480 (1 / 2)).x (Roi.mk 101 57 640 480 (1 / 2)).scale ∧
          divScale (Roi.mk 101 57 640 480 (1 / 2)).x (Roi.mk 101 57 640 480 (1 / 2)).scale
            < (modify_roi_in 0x94949494 4000 3000 ⟨101, 57, 640, 480, 1 / 2⟩).x
              + (if 0x94949494 = 9 then (3 : Int) else 2))) ∧
    (0 ≤ (modify_roi_in 0x94949494 4000 3000 ⟨101, 57, 640, 480, 1 / 2⟩).y ∧
      (if 0x94949494 = 9 then (3 : Int) else 2)
        ∣ (modify_roi_in 0x94949494 4000 3000 ⟨101, 57, 640, 480, 1 / 2⟩).y ∧
      (0 ≤ divScale (Roi.mk 101 57 640 480 (1 / 2)).y (Roi.mk 101 57 640 480 (1 / 2)).scale →
        (modify_roi_in 0x94949494 4000 3000 ⟨101, 57, 640, 480, 1 / 2⟩).y
            ≤ divScale (Roi.mk 101 57 640 480 (1 / 2)).y (Roi.mk 101 57 640 480 (1 / 2)).scale ∧
          divScale (Roi.mk 101 57 640 480 (1 / 2)).y (Roi.mk 101 57 640 480 (1 / 2)).scale
            < (modify_roi_in 0x94949494 4000 3000 ⟨101, 57, 640, 480, 1 / 2⟩).y
              + (if 0x94949494 = 9 then (3 : Int) else 2))) :=
  C12_roi_snapping 0x94949494 4000 3000 ⟨101, 57, 640, 480, 1 / 2⟩ (by norm_num)

/-- The scaled coordinate is the truncated `float` quotient: for `roi_out.x = 3` and the scale
0.1f = 13421773/134217728 the `float` quotient is 30 and `roi_in.x = 30`, while the quotient
without rounding truncates to 29. -/
theorem roi_snapping_at_tenth :
    divScale 3 (13421773 / 134217728) = 30 ∧
    truncf ((3 : ℚ) / (13421773 / 134217728)) = 29 ∧
    (modify_roi_in 0x94949494 4000 3000 ⟨3, 3, 640, 480, 13421773 / 134217728⟩).x = 30 := by
  decide!

/-! ## Indexers, parameters, degenerate `favg` -/

/-- The indexer returns the 2-bit field at bit position `2 * (2 * (row mod 8) + col mod 2)`. -/
theorem FC_field (row col filters : Nat) :
    FC row col filters = (filters >>> (2 * (2 * (row % 8) + col % 2))) &&& 3 := by
  unfold FC
  rw [shl_and_14, and_one, Nat.shiftLeft_eq]
  congr 2
  ring

theorem byte_periodic_field :
    ∀ b : Fin 256, ∀ r : Fin 8, ∀ c : Fin 2,
      ((b.val * 0x01010101) >>> (2 * (2 * r.val + c.val))) &&& 3
        = ((b.val * 0x01010101) >>> (2 * (2 * (r.val % 2) + c.val))) &&& 3 := by
  decide!

/-- C16 (as stated, refuted): for the 32-bit descriptor `0x100`, `FC(2, 0)` is 1 while the
field at bit position `2 * (((2 & 1) << 1) | (0 & 1)) = 0` is 0. -/
theorem C16_row_read_modulo_eight :
    FC 2 0 0x100 = 1 ∧ (0x100 >>> (2 * (2 * (2 % 2) + 0 % 2))) &&& 3 = 0 ∧ 0x100 < 2 ^ 32 := by
  decide

/-- C16 (amended): for every row, column and descriptor, `FC(row, col, filters)` is the 2-bit
field of `filters` at bit position `2 * (2 * (row mod 8) + (col mod 2))`; it is the field at
position `2 * (2 * (row mod 2) + (col mod 2))` for every descriptor that repeats one byte four
times, as the Bayer descriptors do. -/
theorem C16_FC_bit_field (row col filters : Nat) :
    FC row col filters = (filters >>> (2 * (2 * (row % 8) + col % 2))) &&& 3 ∧
    (∀ b, b < 256 → filters = b * 0x01010101 →
      FC row col filters = (filters >>> (2 * (2 * (row % 2) + col % 2))) &&& 3) := by
  refine ⟨FC_field row col filters, ?_⟩
  intro b hb hf
  rw [FC_field, hf]
  have h := byte_periodic_field ⟨b, hb⟩ ⟨row % 8, Nat.mod_lt _ (by decide)⟩
    ⟨col % 2, Nat.mod_lt _ (by decide)⟩
  simp only [] at h
  have e : row % 8 % 2 = row % 2 := by omega
  rw [e] at h
  exact h

/-- C17 (as stated, refuted): the descriptor `0x16161616` does not give red at `(0, 0)` and
blue at `(1, 1)`. -/
theorem C17_not_rggb :
    ¬ (FC 0 0 0x16161616 = 0 ∧ FC 0 1 0x16161616 = 1 ∧ FC 1 0 0x16161616 = 1 ∧
      FC 1 1 0x16161616 = 2) := by
  decide

/-- C17 (amended): the descriptor `0x16161616` denotes the BGGR layout, blue at `(0, 0)`,
green at `(0, 1)` and `(1, 0)`, red at `(1, 1)`; the RGGB layout is `0x94949494`. -/
theorem C17_descriptor_layouts :
    (FC 0 0 0x16161616 = 2 ∧ FC 0 1 0x16161616 = 1 ∧ FC 1 0 0x16161616 = 1 ∧
      FC 1 1 0x16161616 = 0) ∧
    (FC 0 0 0x94949494 = 0 ∧ FC 0 1 0x94949494 = 1 ∧ FC 1 0 0x94949494 = 1 ∧
      FC 1 1 0x94949494 = 2) := by
  decide

/-- C18 (as stated, refuted): for `row = -7` the index `((row)+6)%6` of `fcol` is `-1`, not
the non-negative remainder 5. -/
theorem C18_index_negative : fcolIdx (-7) = -1 ∧ (-7 : Int) % 6 = 5 := by
  decide

/-- C18 (amended): for every pair of integers `row >= -6` and `col >= -6`, `fcol(row, col)`
reads the table entry `xtrans[row mod 6][col mod 6]`, mod being the non-negative remainder,
and both indices lie in 0..5. -/
theorem C18_fcol_index (xtrans : Int → Int → Nat) (row col : Int) (hr : -6 ≤ row)
    (hc : -6 ≤ col) :
    fcol xtrans row col = xtrans (row % 6) (col % 6) ∧
    (0 ≤ fcolIdx row ∧ fcolIdx row < 6) ∧ (0 ≤ fcolIdx col ∧ fcolIdx col < 6) := by
  unfold fcol
  rw [fcolIdx_emod row hr, fcolIdx_emod col hc]
  refine ⟨rfl, ⟨?_, ?_⟩, ⟨?_, ?_⟩⟩ <;> omega

/-- C18 (amended), instance: `row = -6`, `col = -1` in the Fuji table. -/
theorem C18_fcol_index_witness :
    fcol xtransStd (-6) (-1) = xtransStd ((-6) % 6) ((-1) % 6) ∧
    (0 ≤ fcolIdx (-6) ∧ fcolIdx (-6) < 6) ∧ (0 ≤ fcolIdx (-1) ∧ fcolIdx (-1) < 6) :=
  C18_fcol_index xtransStd (-6) (-1) (by decide) (by decide)

/-- C19: `legacy_params` with `old_version = 2` and `new_version = 3` returns 0 and leaves a
record with `green_eq` and `median_thrs` of the old record and the three other fields 0; for
every other pair of versions it returns 1 and leaves the new record as it was. -/
theorem C19_legacy_params (o n : dt_iop_demosaic_params_t) (old_version new_version : Int) :
    (old_version = 2 ∧ new_version = 3 →
      legacy_params o old_version n new_version
        = (0, { green_eq := o.green_eq, median_thrs := o.median_thrs, color_smoothing := 0,
                demosaicing_method := 0,
                yet_unused_data_specific_to_demosaicing_method := 0 })) ∧
    (¬ (old_version = 2 ∧ new_version = 3) →
      legacy_params o old_version n new_version = (1, n)) := by
  unfold legacy_params
  constructor
  · intro h
    rw [if_pos h]
  · intro h
    rw [if_neg h]

/-- The second loop of `favg` leaves every site it does not visit as it is. -/
theorem favg_unvisited (inp : Raw) (width height filters x y j i : Nat)
    (h : ¬ (Visits 0 (height - 1) 2 j ∧
      Visits (favg_oi filters x y) ((width : Int) - 1 - favg_g2 filters x y).toNat 2 i)) :
    green_equilibration_favg inp width height filters x y j i = inp j i := by
  unfold green_equilibration_favg
  simp only []
  split_ifs
  · refine forLoop2_inv (fun s : Raw => s j i = inp j i) 0 (height - 1) 2
      (fun _ => favg_oi filters x y)
      (fun _ => ((width : Int) - 1 - favg_g2 filters x y).toNat) 2 (by decide) (by decide)
      (fun r c out => out.set r c (inp r c / ((favg_sums inp width height filters x y).1
        / (favg_sums inp width height filters x y).2))) inp rfl ?_
    intro r c s hr hc hs
    beta_reduce
    rw [raw_set_apply, if_neg]
    · exact hs
    · intro e
      apply h
      rw [e.1, e.2]
      exact ⟨hr, hc⟩
  · rfl

/-! ## Binary floating point: the numbers that round to themselves -/

/-- The upward search never goes below its start value. -/
theorem ulpUp_ge (a : ℚ) : ∀ (fuel : Nat) (j : Int) (pw : ℚ), j ≤ ulpUp fuel j pw a := by
  intro fuel
  induction fuel with
  | zero => intro j pw; exact le_refl _
  | succ n ih =>
    intro j pw
    unfold ulpUp
    split_ifs
    · exact le_refl _
    · exact le_trans (by omega) (ih (j + 1) (2 * pw))

/-- The upward search stops at or before any exponent `e` with `a < 2^(e+p)`. -/
theorem ulpUp_le (p : Nat) (a : ℚ) (e : Int) (ha : a < (2 : ℚ) ^ (e + (p : Int))) :
    ∀ (fuel : Nat) (j : Int) (pw : ℚ), pw = (2 : ℚ) ^ (j + (p : Int)) → j ≤ e →
      e - j ≤ (fuel : Int) → ulpUp fuel j pw a ≤ e := by
  intro fuel
  induction fuel with
  | zero =>
    intro j pw _ hj _
    exact hj
  | succ n ih =>
    intro j pw hpw hj hf
    unfold ulpUp
    split_ifs with h
    · exact hj
    · have hne : j ≠ e := fun he => h (by rw [hpw, he]; exact ha)
      refine ih (j + 1) (2 * pw) ?_ (by omega) (by push_cast at hf; omega)
      rw [hpw, add_right_comm, zpow_add_one₀ (by norm_num : (2 : ℚ) ≠ 0)]
      ring

/-- The downward search stays between its start value less the fuel and its start value. -/
theorem ulpDown_range (a : ℚ) :
    ∀ (fuel : Nat) (j : Int) (pw : ℚ),
      j - (fuel : Int) ≤ ulpDown fuel j pw a ∧ ulpDown fuel j pw a ≤ j := by
  intro fuel
  induction fuel with
  | zero => intro j pw; exact ⟨by simp [ulpDown], le_refl _⟩
  | succ n ih =>
    intro j pw
    unfold ulpDown
    split_ifs
    · have := ih (j - 1) (pw / 2)
      push_cast
      constructor <;> omega
    · push_cast
      constructor <;> omega

/-- The downward search reaches any exponent `e` with `a < 2^(e+p)` that the fuel allows. -/
theorem ulpDown_le (p : Nat) (a : ℚ) (e : Int) (ha : a < (2 : ℚ) ^ (e + (p : Int))) :
    ∀ (fuel : Nat) (j : Int) (pw : ℚ), pw = (2 : ℚ) ^ (j + (p : Int)) → e ≤ j →
      j - e ≤ (fuel : Int) → ulpDown fuel j pw a ≤ e := by
  intro fuel
  induction fuel with
  | zero =>
    intro j pw _ hj hf
    unfold ulpDown
    simp at hf
    omega
  | succ n ih =>
    intro j pw hpw hj hf
    by_cases hje : j = e
    · rw [hje]
      exact (ulpDown_range a (n + 1) e pw).2
    · have hlt : e + 1 ≤ j := by omega
      have hpw2 : pw / 2 = (2 : ℚ) ^ (j - 1 + (p : Int)) := by
        rw [hpw, show j + (p : Int) = (j - 1 + (p : Int)) + 1 by ring,
          zpow_add_one₀ (by norm_num : (2 : ℚ) ≠ 0)]
        ring
      have hmono : (2 : ℚ) ^ (e + (p : Int)) ≤ (2 : ℚ) ^ (j - 1 + (p : Int)) :=
        zpow_le_zpow_right₀ (by norm_num) (by omega)
      unfold ulpDown
      rw [if_pos (by rw [hpw2]; exact lt_of_lt_of_le ha hmono)]
      exact ih (j - 1) (pw / 2) hpw2 (by omega) (by push_cast at hf; omega)

/-- For `a < 2^(e+p)` with `emin <= e` in the range of the fuel, the exponent of the spacing
lies between `emin` and `e`. -/
theorem ulpExp_range (p : Nat) (emin : Int) (fuel : Nat) (a : ℚ) (e : Int) (h0 : emin ≤ 0)
    (he : emin ≤ e) (hfuel : e ≤ (fuel : Int)) (ha : a < (2 : ℚ) ^ (e + (p : Int))) :
    emin ≤ ulpExp p emin fuel a ∧ ulpExp p emin fuel a ≤ e := by
  unfold ulpExp
  split_ifs with h
  · have hr := ulpDown_range a (-emin).toNat 0 ((2 : ℚ) ^ p)
    constructor
    · have : ((-emin).toNat : Int) = -emin := Int.toNat_of_nonneg (by omega)
      omega
    · by_cases hpos : 0 ≤ e
      · exact le_trans hr.2 hpos
      · exact ulpDown_le p a e ha (-emin).toNat 0 ((2 : ℚ) ^ p)
          (by rw [zero_add, zpow_natCast]) (by omega)
          (by
            have : ((-emin).toNat : Int) = -emin := Int.toNat_of_nonneg (by omega)
            omega)
  · have he1 : 1 ≤ e := by
      by_contra hc
      apply h
      refine lt_of_lt_of_le ha ?_
      rw [← zpow_natCast]
      exact zpow_le_zpow_right₀ (by norm_num) (by omega)
    constructor
    · exact le_trans (by omega) (ulpUp_ge a fuel 1 ((2 : ℚ) ^ (p + 1)))
    · exact ulpUp_le p a e ha fuel 1 ((2 : ℚ) ^ (p + 1))
        (by rw [← zpow_natCast]; push_cast; ring_nf) he1 (by omega)

/-- Rounding to the nearest integer keeps an integer. -/
theorem roundEven_intCast (m : Int) : roundEven (m : ℚ) = m := by
  unfold roundEven
  rw [Int.floor_intCast]
  simp

/-- A number `n * 2^e` with `|n| < 2^p` and `e` in the range of the exponent search is kept by
the rounding. -/
theorem roundBin_exact (p : Nat) (emin : Int) (fuel : Nat) (n e : Int) (h0 : emin ≤ 0)
    (he : emin ≤ e) (hfuel : e ≤ (fuel : Int)) (hn : |n| < 2 ^ p) :
    roundBin p emin fuel ((n : ℚ) * (2 : ℚ) ^ e) = (n : ℚ) * (2 : ℚ) ^ e := by
  have h2 : (0 : ℚ) < 2 := by norm_num
  have habs : |(n : ℚ) * (2 : ℚ) ^ e| < (2 : ℚ) ^ (e + (p : Int)) := by
    rw [abs_mul, abs_of_pos (zpow_pos h2 e), zpow_add₀ (by norm_num : (2 : ℚ) ≠ 0), mul_comm]
    apply mul_lt_mul_of_pos_left _ (zpow_pos h2 e)
    have : ((|n| : Int) : ℚ) < ((2 ^ p : Int) : ℚ) := by exact_mod_cast hn
    rw [zpow_natCast]
    push_cast at this
    exact this
  obtain ⟨hge, hle⟩ := ulpExp_range p emin fuel _ e h0 he hfuel habs
  unfold roundBin roundAt
  generalize ulpExp p emin fuel |(n : ℚ) * (2 : ℚ) ^ e| = j at hle hge
  obtain ⟨k, hk⟩ : ∃ k : Nat, e = j + (k : Int) := ⟨(e - j).toNat, by omega⟩
  have hq : (n : ℚ) * (2 : ℚ) ^ e / (2 : ℚ) ^ j = ((n * 2 ^ k : Int) : ℚ) := by
    rw [hk, zpow_add₀ (by norm_num : (2 : ℚ) ≠ 0), zpow_natCast]
    push_cast
    field_simp
    ring
  rw [hq, roundEven_intCast, hk, zpow_add₀ (by norm_num : (2 : ℚ) ≠ 0), zpow_natCast]
  push_cast
  ring

/-- A finite `float`, `n * 2^e` with `|n| < 2^24` and `-149 <= e <= 104`, rounds to itself. -/
theorem f32_exact (n e : Int) (hn : |n| < 2 ^ 24) (he : -149 ≤ e) (he2 : e ≤ 104) :
    f32 ((n : ℚ) * (2 : ℚ) ^ e) = (n : ℚ) * (2 : ℚ) ^ e :=
  roundBin_exact 24 (-149) 300 n e (by decide) he (by push_cast; omega) hn

/-- A number `n * 2^e` with `|n| < 2^53` and `-1074 <= e <= 971` rounds to itself in `double`. -/
theorem f64_exact (n e : Int) (hn : |n| < 2 ^ 53) (he : -1074 ≤ e) (he2 : e ≤ 971) :
    f64 ((n : ℚ) * (2 : ℚ) ^ e) = (n : ℚ) * (2 : ℚ) ^ e :=
  roundBin_exact 53 (-1074) 2200 n e (by decide) he (by push_cast; omega) hn

/-! ## The rounded kernels with the identity for the rounding are the exact kernels -/

theorem pre_median_fl_id : pre_median_fl id = pre_median := rfl

theorem color_smoothing_fl_id : color_smoothing_fl id = color_smoothing := rfl

theorem green_equilibration_favg_fl_id :
    green_equilibration_favg_fl id id = green_equilibration_favg := rfl

theorem green_equilibration_lavg_fl_id :
    green_equilibration_lavg_fl id = green_equilibration_lavg := rfl

theorem ppg_redblue_pixel_fl_id : ppg_redblue_pixel_fl id = ppg_redblue_pixel := rfl

theorem xtrans_lin_pixel_fl_id : xtrans_lin_pixel_fl id = xtrans_lin_pixel := rfl

theorem vote_pixel_fl_id : vote_pixel_fl id = vote_pixel := rfl

theorem demosaic_ppg_fl_id : demosaic_ppg_fl id = demosaic_ppg := rfl

theorem xtrans_lin_interpolate_fl_id :
    xtrans_lin_interpolate_fl id = xtrans_lin_interpolate := rfl

/-! ## Loops that store one value per site -/

/-- A double loop that stores `w r c` at each site `(r, c)` it visits leaves every other
site as it was. -/
theorem setLoop_unvisited (lo1 hi1 s1 : Nat) (lo2 hi2 : Nat → Nat) (s2 : Nat) (hs1 : 0 < s1)
    (hs2 : 0 < s2) (w : Nat → Nat → ℚ) (s : Raw) (j i : Nat)
    (h : ¬ (Visits lo1 hi1 s1 j ∧ Visits (lo2 j) (hi2 j) s2 i)) :
    forLoop lo1 hi1 s1 (fun r o =>
      forLoop (lo2 r) (hi2 r) s2 (fun c o => Raw.set o r c (w r c)) o) s j i = s j i := by
  refine forLoop2_inv (fun t : Raw => t j i = s j i) lo1 hi1 s1 lo2 hi2 s2 hs1 hs2
    (fun r c o => Raw.set o r c (w r c)) s rfl ?_
  intro r c t hr hc ht
  beta_reduce
  rw [raw_set_apply, if_neg]
  · exact ht
  · intro e
    apply h
    rw [e.1, e.2]
    exact ⟨hr, hc⟩

/-- A double loop that stores `w r c` at each site `(r, c)` it visits leaves `w j i` at the
visited site `(j, i)`. -/
theorem setLoop_visited (lo1 hi1 s1 : Nat) (lo2 hi2 : Nat → Nat) (s2 : Nat) (hs1 : 0 < s1)
    (hs2 : 0 < s2) (w : Nat → Nat → ℚ) (s : Raw) (j i : Nat)
    (hj : Visits lo1 hi1 s1 j) (hi : Visits (lo2 j) (hi2 j) s2 i) :
    forLoop lo1 hi1 s1 (fun r o =>
      forLoop (lo2 r) (hi2 r) s2 (fun c o => Raw.set o r c (w r c)) o) s j i = w j i := by
  have key := forLoop2_post (fun _ : Raw => True) (fun r c (t : Raw) => t r c = w r c)
    lo1 hi1 s1 lo2 hi2 s2 hs1 hs2 (fun r c o => Raw.set o r c (w r c)) s trivial
    (by
      intro r c t _ _ _
      refine ⟨trivial, ?_⟩
      simp only [raw_set_apply, and_self, if_true])
    (by
      intro r c r2 c2 t _ _ _ _ hne _ hQ
      simp only [raw_set_apply]
      rw [if_neg (fun e => hne ⟨e.1.symm, e.2.symm⟩)]
      exact hQ)
  exact key.2 j i hj hi

/-! ## Global green equilibration, rounded -/

/-- The second loop of `favg` leaves every site it does not visit as it is, whatever the
rounding. -/
theorem favg_fl_unvisited (fd fs : ℚ → ℚ) (inp : Raw) (width height filters x y j i : Nat)
    (h : ¬ (Visits 0 (height - 1) 2 j ∧
      Visits (favg_oi filters x y) ((width : Int) - 1 - favg_g2 filters x y).toNat 2 i)) :
    green_equilibration_favg_fl fd fs inp width height filters x y j i = inp j i := by
  unfold green_equilibration_favg_fl
  simp only []
  split_ifs
  · exact setLoop_unvisited 0 (height - 1) 2 (fun _ => favg_oi filters x y)
      (fun _ => ((width : Int) - 1 - favg_g2 filters x y).toNat) 2 (by decide) (by decide)
      _ inp j i h
  · rfl

/-- With positive sums, a site that the rescaling loop visits holds the `double` quotient
`in / gr_ratio` converted to `float`. -/
theorem favg_fl_visited (fd fs : ℚ → ℚ) (inp : Raw) (width height filters x y j i : Nat)
    (hpos : 0 < (favg_sums_fl fd inp width height filters x y).1 ∧
      0 < (favg_sums_fl fd inp width height filters x y).2)
    (hj : Visits 0 (height - 1) 2 j)
    (hi : Visits (favg_oi filters x y) ((width : Int) - 1 - favg_g2 filters x y).toNat 2 i) :
    green_equilibration_favg_fl fd fs inp width height filters x y j i
      = fs (fd (inp j i / fd ((favg_sums_fl fd inp width height filters x y).1
          / (favg_sums_fl fd inp width height filters x y).2))) := by
  unfold green_equilibration_favg_fl
  simp only []
  rw [if_pos hpos]
  exact setLoop_visited 0 (height - 1) 2 (fun _ => favg_oi filters x y)
    (fun _ => ((width : Int) - 1 - favg_g2 filters x y).toNat) 2 (by decide) (by decide)
    (fun j i => fs (fd (inp j i / fd ((favg_sums_fl fd inp width height filters x y).1
          / (favg_sums_fl fd inp width height filters x y).2)))) inp j i hj hi

/-- With a sum that is not strictly positive, `favg` returns its input, whatever the
rounding. -/
theorem favg_fl_degenerate (fd fs : ℚ → ℚ) (inp : Raw) (width height filters x y : Nat)
    (h : (favg_sums_fl fd inp width height filters x y).1 ≤ 0 ∨
      (favg_sums_fl fd inp width height filters x y).2 ≤ 0) :
    green_equilibration_favg_fl fd fs inp width height filters x y = inp := by
  unfold green_equilibration_favg_fl
  simp only []
  rw [if_neg]
  intro hc
  rcases h with h | h
  · exact absurd hc.1 (not_lt.mpr h)
  · exact absurd hc.2 (not_lt.mpr h)

/-- C20: for every buffer with at least one row and a non-negative column bound (the sizes
for which the `size_t` bounds of the summing loop do not wrap), and whatever the rounding of
the `double` and `float` operations: when the sum over the sampled first-green sites or the
sum over the sampled second-green sites is not strictly positive, `green_equilibration_favg`
returns the input buffer; and for every input, every site that the rescaling loop does not
visit (every site that is not a sampled first-green site) is copied unchanged. -/
theorem C20_favg_passthrough (fd fs : ℚ → ℚ) (inp : Raw) (width height filters x y : Nat)
    (_hh : 1 ≤ height) (_hw : 0 ≤ (width : Int) - 1 - favg_g2 filters x y) :
    (((favg_sums_fl fd inp width height filters x y).1 ≤ 0 ∨
        (favg_sums_fl fd inp width height filters x y).2 ≤ 0) →
      green_equilibration_favg_fl fd fs inp width height filters x y = inp) ∧
    (∀ j i, ¬ (Visits 0 (height - 1) 2 j ∧
        Visits (favg_oi filters x y) ((width : Int) - 1 - favg_g2 filters x y).toNat 2 i) →
      green_equilibration_favg_fl fd fs inp width height filters x y j i = inp j i) :=
  ⟨favg_fl_degenerate fd fs inp width height filters x y,
   fun j i h => favg_fl_unvisited fd fs inp width height filters x y j i h⟩

/-- C20, instance: the 4x4 GRBG buffer of zeros, whose sums are not positive, with `double`
sums and `float` stores. -/
theorem C20_favg_passthrough_witness :
    green_equilibration_favg_fl f64 f32 (fun _ _ => 0) 4 4 0x61616161 0 0 = (fun _ _ => 0) :=
  (C20_favg_passthrough f64 f32 (fun _ _ => 0) 4 4 0x61616161 0 0 (by decide) (by decide!)).1
    (Or.inl (by decide!))

/-! ## The pre-median at an isolated site, rounded -/

/-- Zero is a `float`. -/
theorem f32_zero : f32 0 = 0 := by decide!

/-- With the centre at most each of the eight other entries, the exchange sort puts the
centre first and the fourth smallest of the eight at index 4. -/
theorem exchange_centre_low (b0 b1 b2 b3 c b5 b6 b7 b8 : ℚ)
    (hc : ∀ n ∈ [b0, b1, b2, b3, b5, b6, b7, b8], c ≤ n) :
    (List.insertionSort (fun a b => a ≤ b) [b0, b1, b2, b3, b5, b6, b7, b8])[3]?
      = some (runNetwork exchangeNetwork (vec9 b0 b1 b2 b3 c b5 b6 b7 b8) 4) := by
  have hlen : (List.insertionSort (fun a b : ℚ => a ≤ b) [b0, b1, b2, b3, b5, b6, b7, b8]).length
      = 8 := by rw [List.length_insertionSort]; rfl
  have hsorted := List.sorted_insertionSort (fun a b : ℚ => a ≤ b)
    [b0, b1, b2, b3, b5, b6, b7, b8]
  have hperm := List.perm_insertionSort (fun a b : ℚ => a ≤ b) [b0, b1, b2, b3, b5, b6, b7, b8]
  obtain ⟨s0, s1, s2, s3, s4, s5, s6, s7, hs⟩ := list8_of_length _ hlen
  rw [hs] at hsorted hperm ⊢
  have hmem : ∀ n ∈ [s0, s1, s2, s3, s4, s5, s6, s7], c ≤ n :=
    fun n hn => hc n (hperm.mem_iff.mp hn)
  have hs2 : List.Sorted (fun a b : ℚ => a ≤ b) (c :: [s0, s1, s2, s3, s4, s5, s6, s7]) := by
    unfold List.Sorted at hsorted ⊢
    rw [List.pairwise_cons]
    exact ⟨hmem, hsorted⟩
  have hp1 : ([b0, b1, b2, b3, c, b5, b6, b7, b8]).Perm (c :: [b0, b1, b2, b3, b5, b6, b7, b8]) :=
    @List.perm_middle ℚ c [b0, b1, b2, b3] [b5, b6, b7, b8]
  have hp2 : (c :: [b0, b1, b2, b3, b5, b6, b7, b8]).Perm
      (c :: [s0, s1, s2, s3, s4, s5, s6, s7]) := List.Perm.cons c hperm.symm
  have hof : List.ofFn (vec9 b0 b1 b2 b3 c b5 b6 b7 b8) = [b0, b1, b2, b3, c, b5, b6, b7, b8] :=
    rfl
  have hsort : sorted9 (vec9 b0 b1 b2 b3 c b5 b6 b7 b8)
      = c :: [s0, s1, s2, s3, s4, s5, s6, s7] := by
    refine List.eq_of_perm_of_sorted ?_ (sorted9_sorted _) hs2
    refine (sorted9_perm _).trans ?_
    rw [hof]
    exact hp1.trans hp2
  have h4 := runNetwork_getElem exchangeNetwork (vec9 b0 b1 b2 b3 c b5 b6 b7 b8) 4
  rw [exchangeNetwork_eq_sorted, hsort] at h4
  exact h4

/-- Value of `pre_median_site_fl` at a centre that no neighbour comes within `threshold` of
in the rounded test, for a rounding that keeps zero. -/
theorem pre_median_site_fl_isolated (fl : ℚ → ℚ) (hfl : fl 0 = 0) (inp : Raw) (row col : Nat)
    (threshold : ℚ) (hr : 2 ≤ row) (hc : 2 ≤ col) (hthr : 0 < threshold)
    (hiso : ∀ p ∈ diamond row col, p ≠ (row, col) →
      threshold ≤ |fl (inp p.1 p.2 - inp row col)|)
    (hsent : ∀ p ∈ diamond row col, p ≠ (row, col) → inp row col ≤ fl (64 + inp p.1 p.2)) :
    ((List.insertionSort (fun a b => a ≤ b)
        [fl (64 + inp (row - 2) col), fl (64 + inp (row - 1) (col - 1)),
         fl (64 + inp (row - 1) (col + 1)), fl (64 + inp row (col - 2)),
         fl (64 + inp row (col + 2)), fl (64 + inp (row + 1) (col - 1)),
         fl (64 + inp (row + 1) (col + 1)), fl (64 + inp (row + 2) col)])[3]?).map
        (fun m => fl (m - 64))
      = some (pre_median_site_fl fl inp row col threshold) := by
  rw [diamond_eq row col hr hc] at hiso hsent
  have hi : ∀ p ∈ [(row - 2, col), (row - 1, col - 1), (row - 1, col + 1), (row, col - 2),
      (row, col + 2), (row + 1, col - 1), (row + 1, col + 1), (row + 2, col)],
      ¬ |fl (inp p.1 p.2 - inp row col)| < threshold ∧ inp row col ≤ fl (64 + inp p.1 p.2) := by
    intro p hp
    have hne : p ≠ (row, col) := by
      simp only [List.mem_cons, List.mem_singleton, List.not_mem_nil, or_false] at hp
      rcases hp with h | h | h | h | h | h | h | h <;> rw [h] <;> intro h2 <;>
        simp only [Prod.mk.injEq] at h2 <;> omega
    have hm : p ∈ [(row - 2, col), (row - 1, col - 1), (row - 1, col + 1), (row, col - 2),
        (row, col), (row, col + 2), (row + 1, col - 1), (row + 1, col + 1), (row + 2, col)] := by
      simp only [List.mem_cons, List.mem_singleton, List.not_mem_nil, or_false] at hp ⊢
      tauto
    exact ⟨not_lt.mpr (hiso p hm hne), hsent p hm hne⟩
  simp only [List.mem_cons, List.mem_singleton, List.not_mem_nil, or_false, forall_eq_or_imp,
    forall_eq] at hi
  obtain ⟨⟨h0, g0⟩, ⟨h1, g1⟩, ⟨h2, g2⟩, ⟨h3, g3⟩, ⟨h5, g5⟩, ⟨h6, g6⟩, ⟨h7, g7⟩, ⟨h8, g8⟩⟩ := hi
  have hcen : |fl (inp row col - inp row col)| < threshold := by
    rw [sub_self, hfl, abs_zero]
    exact hthr
  have hval : pre_median_site_fl fl inp row col threshold
      = fl (runNetwork exchangeNetwork (vec9 (fl (64 + inp (row - 2) col))
          (fl (64 + inp (row - 1) (col - 1))) (fl (64 + inp (row - 1) (col + 1)))
          (fl (64 + inp row (col - 2))) (inp row col) (fl (64 + inp row (col + 2)))
          (fl (64 + inp (row + 1) (col - 1))) (fl (64 + inp (row + 1) (col + 1)))
          (fl (64 + inp (row + 2) col))) 4 - 64) := by
    unfold pre_median_site_fl
    rw [diamond_eq row col hr hc]
    simp only [List.map_cons, List.map_nil, List.countP_cons, List.countP_nil, medEntry_fl,
      h0, h1, h2, h3, h5, h6, h7, h8, hcen, if_true, if_false, decide_True, decide_False,
      Bool.false_eq_true, zero_add, add_zero]
    congr 3
    funext k
    fin_cases k <;> rfl
  rw [hval, exchange_centre_low _ _ _ _ (inp row col) _ _ _ _ (by
    intro n hn
    simp only [List.mem_cons, List.mem_singleton, List.not_mem_nil, or_false] at hn
    rcases hn with h | h | h | h | h | h | h | h <;> rw [h] <;> assumption)]
  rfl

/-- A site that the green scan visits holds `pre_median_site_fl` after at least one pass. -/
theorem pre_median_b_fl_visited (fl : ℚ → ℚ) (inp : Raw)
    (width height filters num_passes : Nat) (threshold : ℚ) (row col : Nat)
    (hpass : 1 ≤ num_passes) (hrow : Visits 3 (height - 3) 1 row)
    (hcol : Visits (if FC row 3 filters ≠ 1 ∧ FC row 3 filters ≠ 3 then 4 else 3) (width - 3) 2
      col) :
    pre_median_b_fl fl inp width height filters num_passes threshold row col
      = pre_median_site_fl fl inp row col threshold := by
  have hpassv : ∀ s : Raw, forLoop 3 (height - 3) 1 (fun row out =>
        forLoop (if FC row 3 filters ≠ 1 ∧ FC row 3 filters ≠ 3 then 4 else 3) (width - 3) 2
          (fun col out => out.set row col (pre_median_site_fl fl inp row col threshold)) out)
        s row col = pre_median_site_fl fl inp row col threshold :=
    fun s => setLoop_visited 3 (height - 3) 1
      (fun row => if FC row 3 filters ≠ 1 ∧ FC row 3 filters ≠ 3 then 4 else 3)
      (fun _ => width - 3) 2 Nat.one_pos (by decide)
      (fun row col => pre_median_site_fl fl inp row col threshold) s row col hrow hcol
  have hp := forLoop_post (fun _ : Raw => True)
    (fun _ (out : Raw) => out row col = pre_median_site_fl fl inp row col threshold)
    0 num_passes 1 Nat.one_pos
    (fun _ out =>
      forLoop 3 (height - 3) 1 (fun row out =>
        forLoop (if FC row 3 filters ≠ 1 ∧ FC row 3 filters ≠ 3 then 4 else 3) (width - 3) 2
          (fun col out => out.set row col (pre_median_site_fl fl inp row col threshold)) out) out)
    inp trivial
    (fun k s _ _ => ⟨trivial, hpassv s⟩)
    (fun k k2 s _ _ _ _ _ => hpassv s)
  exact hp.2 0 ⟨le_refl _, by omega, by simp⟩

/-- C6 (amended): for every threshold > 0 and every interior green site of a Bayer layout
whose eight diamond neighbours each fail the `float` test `fabsf(v - centre) < threshold`
(so `cnt = 1`), `pre_median` (one pass or more) writes `med[4] - 64.0f` computed in `float`;
when the centre is at most every sum `64.0f + v`, `med[4]` is the fourth smallest of the
eight sums `64.0f + v` of the neighbour samples, so the value written comes from a neighbour,
not from the centre sample. -/
theorem C6_pre_median_isolated (inp : Raw) (width height filters num_passes row col : Nat)
    (threshold : ℚ) (hb : IsBayer filters) (hthr : 0 < threshold) (hpass : 1 ≤ num_passes)
    (hrow : 3 ≤ row ∧ row < height - 3) (hcol : 3 ≤ col ∧ col < width - 3)
    (hgreen : FC row col filters = 1 ∨ FC row col filters = 3)
    (hiso : ∀ p ∈ diamond row col, p ≠ (row, col) →
      threshold ≤ |f32 (inp p.1 p.2 - inp row col)|)
    (hsent : ∀ p ∈ diamond row col, p ≠ (row, col) → inp row col ≤ f32 (64 + inp p.1 p.2)) :
    ((List.insertionSort (fun a b => a ≤ b)
        [f32 (64 + inp (row - 2) col), f32 (64 + inp (row - 1) (col - 1)),
         f32 (64 + inp (row - 1) (col + 1)), f32 (64 + inp row (col - 2)),
         f32 (64 + inp row (col + 2)), f32 (64 + inp (row + 1) (col - 1)),
         f32 (64 + inp (row + 1) (col + 1)), f32 (64 + inp (row + 2) col)])[3]?).map
        (fun m => f32 (m - 64))
      = some (pre_median_fl f32 inp width height filters num_passes threshold row col) := by
  unfold pre_median_fl
  rw [pre_median_b_fl_visited f32 inp width height filters num_passes threshold row col hpass
    ((visits_one _ _ _).mpr hrow) (pre_median_visits_green hb width row col hcol hgreen)]
  exact pre_median_site_fl_isolated f32 f32_zero inp row col threshold (by omega) (by omega)
    hthr hiso hsent

/-- C6 (amended), instance: the 7x7 GRBG buffer `dimSpikeRaw`, threshold 1/2, site `(3, 3)`:
the centre holds 1, the neighbours hold 0.1f, and `pre_median` writes
`(64.0f + 0.1f) - 64.0f` = 13107/131072. -/
theorem C6_pre_median_isolated_witness :
    ((List.insertionSort (fun a b => a ≤ b)
        [f32 (64 + dimSpikeRaw (3 - 2) 3), f32 (64 + dimSpikeRaw (3 - 1) (3 - 1)),
         f32 (64 + dimSpikeRaw (3 - 1) (3 + 1)), f32 (64 + dimSpikeRaw 3 (3 - 2)),
         f32 (64 + dimSpikeRaw 3 (3 + 2)), f32 (64 + dimSpikeRaw (3 + 1) (3 - 1)),
         f32 (64 + dimSpikeRaw (3 + 1) (3 + 1)), f32 (64 + dimSpikeRaw (3 + 2) 3)])[3]?).map
        (fun m => f32 (m - 64))
      = some (pre_median_fl f32 dimSpikeRaw 7 7 0x61616161 1 (1 / 2) 3 3) ∧
    pre_median_fl f32 dimSpikeRaw 7 7 0x61616161 1 (1 / 2) 3 3 = 13107 / 131072 :=
  ⟨C6_pre_median_isolated dimSpikeRaw 7 7 0x61616161 1 3 3 (1 / 2) (by decide) (by decide!)
    (by decide) (by decide) (by decide) (by decide) (by decide!) (by decide!), by decide!⟩

/-! ## Colour smoothing on a constant-chroma image, rounded -/

/-- On a constant-chroma image without negative interior values of channel `c`, at whose
interior pixels the rounded sum of the rounded chroma and the green gives back the value of
channel `c`, the treatment of one channel by `color_smoothing` keeps the three colour
channels. -/
theorem color_smoothing_channel_fl_fixed (fl : ℚ → ℚ) (o : Img) (width height c : Nat) (d : ℚ)
    (hc : c = 0 ∨ c = 2)
    (hchroma : ∀ j i, j < height → i < width → o j i c - o j i 1 = d)
    (hpos : ∀ j i, 1 ≤ j → j < height - 1 → 1 ≤ i → i < width - 1 → 0 ≤ o j i c)
    (hfix : ∀ j i, 1 ≤ j → j < height - 1 → 1 ≤ i → i < width - 1 →
      fl (fl d + o j i 1) = o j i c)
    (s : Img) (hs : ∀ j i ch, ch < 3 → s j i ch = o j i ch) :
    ∀ j i ch, ch < 3 → color_smoothing_channel_fl fl width height c s j i ch = o j i ch := by
  unfold color_smoothing_channel_fl
  have hsnap := forLoop2_post (fun s : Img => ∀ j i ch, ch < 3 → s j i ch = o j i ch)
    (fun j i (s : Img) => s j i 3 = o j i c)
    0 height 1 (fun _ => 0) (fun _ => width) 1 Nat.one_pos Nat.one_pos
    (fun j i o2 => o2.set j i 3 (o2 j i c)) s hs
    (by
      intro j i s _ _ hR
      constructor
      · intro j2 i2 ch hch
        simp only [img_set_apply]
        rw [if_neg (by omega)]
        exact hR j2 i2 ch hch
      · simp only [img_set_apply, and_self, if_true]
        exact hR j i c (by omega))
    (by
      intro j i j2 i2 s _ _ _ _ hne _ hQ
      simp only [img_set_apply]
      rw [if_neg (fun h => hne ⟨h.1.symm, h.2.1.symm⟩)]
      exact hQ)
  have hmain := forLoop2_inv
    (fun s : Img => (∀ j i ch, ch < 3 → s j i ch = o j i ch) ∧
      ∀ j i, j < height → i < width → s j i 3 = o j i c)
    1 (height - 1) 1 (fun _ => 1) (fun _ => width - 1) 1 Nat.one_pos Nat.one_pos
    (fun j i o2 =>
      o2.set j i c
        (max (fl (runNetwork medianNetwork (smoothingMed_fl fl o2 j i) 4 + o2 j i 1)) 0))
    _ ⟨hsnap.1, fun j i hj hi => hsnap.2 j i ((visits_one _ _ _).mpr ⟨Nat.zero_le _, hj⟩)
      ((visits_one _ _ _).mpr ⟨Nat.zero_le _, hi⟩)⟩
    (by
      intro j i s hj hi ⟨hR, hS⟩
      simp only [visits_one] at hj hi
      have hd : ∀ j2 i2, j2 < height → i2 < width → fl (s j2 i2 3 - s j2 i2 1) = fl d := by
        intro j2 i2 h1 h2
        rw [hS j2 i2 h1 h2, hR j2 i2 1 (by omega), hchroma j2 i2 h1 h2]
      have hmed : smoothingMed_fl fl s j i
          = vec9 (fl d) (fl d) (fl d) (fl d) (fl d) (fl d) (fl d) (fl d) (fl d) := by
        unfold smoothingMed_fl
        rw [hd (j - 1) (i - 1) (by omega) (by omega), hd (j - 1) i (by omega) (by omega),
          hd (j - 1) (i + 1) (by omega) (by omega), hd j (i - 1) (by omega) (by omega),
          hd j i (by omega) (by omega), hd j (i + 1) (by omega) (by omega),
          hd (j + 1) (i - 1) (by omega) (by omega), hd (j + 1) i (by omega) (by omega),
          hd (j + 1) (i + 1) (by omega) (by omega)]
      have hval : max (fl (runNetwork medianNetwork (smoothingMed_fl fl s j i) 4 + s j i 1)) 0
          = s j i c := by
        rw [hmed, runNetwork_const, hR j i 1 (by omega), hR j i c (by omega),
          hfix j i hj.1 hj.2 hi.1 hi.2]
        exact max_eq_left (hpos j i hj.1 hj.2 hi.1 hi.2)
      beta_reduce
      rw [hval, img_set_same]
      exact ⟨hR, hS⟩)
  exact hmain.1

/-- C7 (amended): for every 4-channel image in which `R - G` is the same at every pixel and
`B - G` is the same at every pixel, in which no interior pixel has a negative `R` or `B`, and
at whose interior pixels the `float` sum of the rounded difference and the green gives back
the value, `fl(fl(X - G) + G) = X` for `X = R` and `X = B` (so it is for short binary
fractions), and for every `num_passes`, `color_smoothing` leaves `R`, `G` and `B` of every
pixel unchanged. -/
theorem C7_color_smoothing_fixed (o : Img) (width height num_passes : Nat) (d0 d2 : ℚ)
    (hred : ∀ j i, j < height → i < width → o j i 0 - o j i 1 = d0)
    (hblue : ∀ j i, j < height → i < width → o j i 2 - o j i 1 = d2)
    (hpos : ∀ j i, 1 ≤ j → j < height - 1 → 1 ≤ i → i < width - 1 → 0 ≤ o j i 0 ∧ 0 ≤ o j i 2)
    (hfix : ∀ j i, 1 ≤ j → j < height - 1 → 1 ≤ i → i < width - 1 →
      f32 (f32 d0 + o j i 1) = o j i 0 ∧ f32 (f32 d2 + o j i 1) = o j i 2)
    (j i ch : Nat) (hch : ch < 3) :
    color_smoothing_fl f32 o width height num_passes j i ch = o j i ch := by
  unfold color_smoothing_fl
  have h := forLoop2_inv (fun s : Img => ∀ j i ch, ch < 3 → s j i ch = o j i ch)
    0 num_passes 1 (fun _ => 0) (fun _ => 3) 2 Nat.one_pos (by decide)
    (fun _ c s => color_smoothing_channel_fl f32 width height c s) o (fun _ _ _ _ => rfl)
    (by
      intro p c s _ hc hs
      simp only [Visits] at hc
      have hc2 : c = 0 ∨ c = 2 := by omega
      rcases hc2 with rfl | rfl
      · exact color_smoothing_channel_fl_fixed f32 o width height 0 d0 (Or.inl rfl) hred
          (fun j i a b c d => (hpos j i a b c d).1) (fun j i a b c d => (hfix j i a b c d).1)
          s hs
      · exact color_smoothing_channel_fl_fixed f32 o width height 2 d2 (Or.inr rfl) hblue
          (fun j i a b c d => (hpos j i a b c d).2) (fun j i a b c d => (hfix j i a b c d).2)
          s hs)
  exact h j i ch hch

/-- C7 (amended), instance: the image `warmImg` (`R = 3/4`, `G = 1/2`, `B = 1/4`), 3x3, one
pass, red of the centre. -/
theorem C7_color_smoothing_fixed_witness :
    color_smoothing_fl f32 warmImg 3 3 1 1 1 0 = warmImg 1 1 0 :=
  C7_color_smoothing_fixed warmImg 3 3 1 (1 / 4) (-1 / 4)
    (fun _ _ _ _ => by norm_num [warmImg]) (fun _ _ _ _ => by norm_num [warmImg])
    (fun _ _ _ _ _ _ => by norm_num [warmImg])
    (fun _ _ _ _ _ _ => by
      constructor
      · show f32 (f32 (1 / 4) + 1 / 2) = 3 / 4
        decide!
      · show f32 (f32 (-1 / 4) + 1 / 2) = 1 / 4
        decide!) 1 1 0 (by decide)

/-- On the uniform image with `R = 0.2f` and `G = 0.7f`, whose `R - G` is the same at every
pixel, the `float` sum `fl(fl(R - G) + G)` is 0.19999999, not `R`: `color_smoothing` changes
the red of the centre pixel. -/
theorem color_smoothing_fl_rounds :
    color_smoothing_fl f32 (fun _ _ c => if c = 0 then 13421773 / 67108864
      else 11744051 / 16777216) 3 3 1 1 1 0 = 6710886 / 33554432 ∧
    (6710886 : ℚ) / 33554432 ≠ 13421773 / 67108864 := by
  constructor
  · decide!
  · norm_num

/-! ## Green equilibration of a constant buffer, rounded -/

/-- An integer multiple `m * k` of a number `k` with `bits` significant bits is a `float`
when `|m| * 2^bits <= 2^24`. -/
theorem f32_mul_onGrid (bits : Nat) (k : ℚ) (hk : OnGrid bits k) (m : Int)
    (hm : |m| * 2 ^ bits ≤ 2 ^ 24) : f32 ((m : ℚ) * k) = (m : ℚ) * k := by
  obtain ⟨n, e, hn, he1, he2, rfl⟩ := hk
  have hmn : |m * n| < 2 ^ 24 := by
    rw [abs_mul]
    rcases eq_or_lt_of_le (abs_nonneg m) with h0 | hpos
    · rw [← h0, zero_mul]
      positivity
    · exact lt_of_lt_of_le (mul_lt_mul_of_pos_left hn hpos) hm
  have := f32_exact (m * n) e hmn (by omega) (by omega)
  push_cast at this
  rw [← mul_assoc]
  exact this

/-- A number with at most 24 significant bits is a `float`. -/
theorem f32_onGrid (k : ℚ) (hk : OnGrid 24 k) : f32 k = k := by
  have := f32_mul_onGrid 24 k hk 1 (by norm_num)
  simpa using this

/-- A number with at most 24 significant bits is a `double`. -/
theorem f64_onGrid (k : ℚ) (hk : OnGrid 24 k) : f64 k = k := by
  obtain ⟨n, e, hn, he1, he2, rfl⟩ := hk
  exact f64_exact n e (lt_trans hn (by norm_num)) (by omega) (by omega)

/-- Fewer significant bits are at most 24 significant bits. -/
theorem onGrid_mono {bits : Nat} (hb : bits ≤ 24) (k : ℚ) (hk : OnGrid bits k) : OnGrid 24 k := by
  obtain ⟨n, e, hn, he1, he2, rfl⟩ := hk
  exact ⟨n, e, lt_of_lt_of_le hn (pow_le_pow_right₀ (by norm_num) hb), he1, he2, rfl⟩

/-- The square of a number with at most 12 significant bits is a `float`. -/
theorem f32_sq_onGrid (k : ℚ) (hk : OnGrid 12 k) : f32 (k * k) = k * k := by
  obtain ⟨n, e, hn, he1, he2, rfl⟩ := hk
  have hnn : |n * n| < 2 ^ 24 := by
    rw [abs_mul]
    have h0 := abs_nonneg n
    nlinarith
  have := f32_exact (n * n) (e + e) hnn (by omega) (by omega)
  rw [zpow_add₀ (by norm_num : (2 : ℚ) ≠ 0)] at this
  push_cast at this
  rw [show (n : ℚ) * (2 : ℚ) ^ e * ((n : ℚ) * (2 : ℚ) ^ e)
    = (n : ℚ) * (n : ℚ) * ((2 : ℚ) ^ e * (2 : ℚ) ^ e) by ring]
  exact this

/-- The `float` mean of four equal samples with at most 12 significant bits is the sample. -/
theorem quadMean_fl_const (k : ℚ) (hk : OnGrid 12 k) : quadMean_fl f32 k k k k = k := by
  have h2 : f32 (k + k) = 2 * k := by
    have := f32_mul_onGrid 12 k hk 2 (by norm_num)
    push_cast at this
    rw [two_mul] at this ⊢
    exact this
  have h3 : f32 (2 * k + k) = 3 * k := by
    have := f32_mul_onGrid 12 k hk 3 (by norm_num)
    push_cast at this
    rw [show 2 * k + k = 3 * k by ring]
    exact this
  have h4 : f32 (3 * k + k) = 4 * k := by
    have := f32_mul_onGrid 12 k hk 4 (by norm_num)
    push_cast at this
    rw [show 3 * k + k = 4 * k by ring]
    exact this
  unfold quadMean_fl
  rw [h2, h3, h4, show 4 * k / 4 = k by ring]
  exact f32_onGrid k (onGrid_mono (by norm_num) k hk)

/-- At a site whose nine source samples equal a `k` with at most 12 significant bits, the
body of the loops of `green_equilibration_lavg` leaves the buffer or stores `k`. -/
theorem lavg_site_fl_const (src out : Raw) (j i : Nat) (thr k : ℚ) (hk : OnGrid 12 k)
    (h0 : src j i = k)
    (h1 : src (j - 1) (i - 1) = k) (h2 : src (j - 1) (i + 1) = k)
    (h3 : src (j + 1) (i - 1) = k) (h4 : src (j + 1) (i + 1) = k)
    (h5 : src (j - 2) i = k) (h6 : src (j + 2) i = k)
    (h7 : src j (i - 2) = k) (h8 : src j (i + 2) = k) :
    lavg_site_fl f32 src out j i thr = out ∨ lavg_site_fl f32 src out j i thr = out.set j i k := by
  unfold lavg_site_fl
  simp only [h0, h1, h2, h3, h4, h5, h6, h7, h8, quadMean_fl_const k hk]
  split_ifs with ha hb
  · right
    have hne : k ≠ 0 := ne_of_gt ha.1
    rw [f32_sq_onGrid k hk, mul_div_assoc, div_self hne, mul_one,
      f32_onGrid k (onGrid_mono (by norm_num) k hk)]
  · left; rfl
  · left; rfl

/-- The body of the loops of `green_equilibration_lavg` writes at most the site `(j, i)`. -/
theorem lavg_site_fl_frame (fl : ℚ → ℚ) (src out : Raw) (j i : Nat) (thr : ℚ) (r c : Nat)
    (h : ¬ (r = j ∧ c = i)) : lavg_site_fl fl src out j i thr r c = out r c := by
  unfold lavg_site_fl
  simp only []
  split_ifs
  · rw [raw_set_apply, if_neg h]
  · rfl
  · rfl

/-- Local green equilibration in `float` keeps a buffer at least 2 wide and 2 high whose
samples all equal a `k` with at most 12 significant bits. -/
theorem lavg_fl_constant (k thr : ℚ) (hk : OnGrid 12 k) (width height filters x y : Nat)
    (hh : 2 ≤ height) (hw : 2 ≤ width) (in_place : Bool)
    (inp : Raw) (hconst : ∀ j i, j < height → i < width → inp j i = k) :
    ∀ j i, j < height → i < width →
      green_equilibration_lavg_fl f32 inp width height filters x y in_place thr j i = k := by
  unfold green_equilibration_lavg_fl
  have hoff := lavg_offsets_ge filters x y
  have hhz : toSizeT ((height : Int) - 2) = height - 2 := by
    rw [toSizeT_nonneg _ (by omega)]; omega
  have hwz : toSizeT ((width : Int) - 2) = width - 2 := by
    rw [toSizeT_nonneg _ (by omega)]; omega
  refine forLoop2_inv (fun s : Raw => ∀ j i, j < height → i < width → s j i = k)
    _ _ 2 (fun _ => _) (fun _ => _) 2 (by decide) (by decide) _ inp hconst ?_
  intro j i s hj hi hs
  simp only [Visits] at hj hi
  rw [hhz] at hj
  rw [hwz] at hi
  intro r c hr hc
  have hsrc : ∀ a b, a < height → b < width → (if in_place then s else inp) a b = k := by
    intro a b ha hb
    cases in_place
    · exact hconst a b ha hb
    · exact hs a b ha hb
  rcases lavg_site_fl_const (if in_place then s else inp) s j i thr k hk
    (hsrc _ _ (by omega) (by omega)) (hsrc _ _ (by omega) (by omega))
    (hsrc _ _ (by omega) (by omega)) (hsrc _ _ (by omega) (by omega))
    (hsrc _ _ (by omega) (by omega)) (hsrc _ _ (by omega) (by omega))
    (hsrc _ _ (by omega) (by omega)) (hsrc _ _ (by omega) (by omega))
    (hsrc _ _ (by omega) (by omega)) with h | h
  · rw [h]; exact hs r c hr hc
  · rw [h, raw_set_apply]
    split_ifs
    · rfl
    · exact hs r c hr hc

/-- The `double` sums of `favg` agree on a buffer that is constant on its samples. -/
theorem favg_sums_fl_const (fd : ℚ → ℚ) (k : ℚ) (width height filters x y : Nat) (inp : Raw)
    (hconst : ∀ j i, j < height → i < width → inp j i = k) (hh : 1 ≤ height)
    (hw : 0 ≤ (width : Int) - 1 - favg_g2 filters x y) :
    (favg_sums_fl fd inp width height filters x y).1
      = (favg_sums_fl fd inp width height filters x y).2 := by
  unfold favg_sums_fl
  refine forLoop2_inv (fun s : ℚ × ℚ => s.1 = s.2) _ _ 2 (fun _ => _) (fun _ => _) 2
    (by decide) (by decide) _ (0, 0) rfl ?_
  intro j i s hj hi hs
  simp only [Visits] at hj hi
  rw [toSizeT_nonneg _ (by omega)] at hj
  rw [toSizeT_nonneg _ hw] at hi
  have h1 : inp j i = k :=
    hconst j i (by omega) (by rcases favg_oi_g2 filters x y with h | h <;> omega)
  have h2 : inp (j + 1) ((i : Int) + favg_g2 filters x y).toNat = k :=
    hconst _ _ (by omega) (by rcases favg_oi_g2 filters x y with h | h <;> omega)
  rw [h1, h2, hs]

/-- One is a `double`. -/
theorem f64_one : f64 1 = 1 := by decide!

/-- Full-average green equilibration, with `double` sums and `float` stores, keeps a buffer
whose samples all equal one `float` `k`. -/
theorem favg_fl_constant (k : ℚ) (hk : OnGrid 24 k) (width height filters x y : Nat)
    (hh : 1 ≤ height) (hw : 0 ≤ (width : Int) - 1 - favg_g2 filters x y) (inp : Raw)
    (hconst : ∀ j i, j < height → i < width → inp j i = k) :
    ∀ j i, j < height → i < width →
      green_equilibration_favg_fl f64 f32 inp width height filters x y j i = inp j i := by
  intro j i hj hi
  by_cases hv : Visits 0 (height - 1) 2 j ∧
      Visits (favg_oi filters x y) ((width : Int) - 1 - favg_g2 filters x y).toNat 2 i
  · by_cases hpos : 0 < (favg_sums_fl f64 inp width height filters x y).1 ∧
        0 < (favg_sums_fl f64 inp width height filters x y).2
    · rw [favg_fl_visited f64 f32 inp width height filters x y j i hpos hv.1 hv.2,
        favg_sums_fl_const f64 k width height filters x y inp hconst hh hw,
        div_self (ne_of_gt hpos.2), f64_one, div_one, hconst j i hj hi, f64_onGrid k hk,
        f32_onGrid k hk]
    · rw [favg_fl_degenerate f64 f32 inp width height filters x y (by
        rcases not_and_or.mp hpos with h | h
        · exact Or.inl (not_lt.mp h)
        · exact Or.inr (not_lt.mp h))]
  · exact favg_fl_unvisited f64 f32 inp width height filters x y j i hv

/-- C5, counterexample: the 8x8 RGGB buffer of the constant `float` 0.1f =
13421773/134217728, threshold 1/8.  At the visited site `(3, 2)` both means are 0.1f, the
product `in * m1` is rounded and so is its quotient by `m2`: `green_equilibration_lavg`
stores 6710887/67108864, one unit in the last place above the input. -/
theorem C5_lavg_rounds_constant :
    green_equilibration_lavg_fl f32 (fun _ _ => 13421773 / 134217728) 8 8 0x94949494 0 0 false
      (1 / 8) 3 2 = 6710887 / 67108864 ∧
    green_equilibration_lavg_fl f32 (fun _ _ => 13421773 / 134217728) 8 8 0x94949494 0 0 false
      (1 / 8) 3 2 ≠ (fun _ _ => (13421773 : ℚ) / 134217728) 3 2 := by
  have h : green_equilibration_lavg_fl f32 (fun _ _ => 13421773 / 134217728) 8 8 0x94949494
      0 0 false (1 / 8) 3 2 = 6710887 / 67108864 := by decide!
  refine ⟨h, ?_⟩
  rw [h]
  norm_num

/-- C5 (amended): for every size of at least 2 by 2, every descriptor, phase and threshold,
and every raw buffer whose samples all equal one `float` `k`: `green_equilibration_favg`
(`double` sums, `float` stores) returns a buffer equal to the input; and when `k` has at most
12 significant bits, so that the product `in * m1` of `green_equilibration_lavg` is exact,
`green_equilibration_lavg` (in place or not) returns a buffer equal to the input. -/
theorem C5_green_eq_constant_fixed (k thr : ℚ) (hk : OnGrid 24 k)
    (width height filters x y : Nat) (hh : 2 ≤ height) (hw : 2 ≤ width)
    (in_place : Bool) (inp : Raw) (hconst : ∀ j i, j < height → i < width → inp j i = k)
    (j i : Nat) (hj : j < height) (hi : i < width) :
    green_equilibration_favg_fl f64 f32 inp width height filters x y j i = inp j i ∧
    (OnGrid 12 k →
      green_equilibration_lavg_fl f32 inp width height filters x y in_place thr j i
        = inp j i) :=
  ⟨favg_fl_constant k hk width height filters x y (by omega)
      (by rcases favg_oi_g2 filters x y with h | h <;> omega) inp hconst j i hj hi,
   fun hk12 => (lavg_fl_constant k thr hk12 width height filters x y hh hw in_place inp hconst
      j i hj hi).trans (hconst j i hj hi).symm⟩

/-- C5 (amended), instance: the constant buffer 3/8 of size 8x8, RGGB, threshold 1/8, at the
site `(3, 2)` that `green_equilibration_lavg` visits. -/
theorem C5_green_eq_constant_fixed_witness :
    green_equilibration_favg_fl f64 f32 (fun _ _ => 3 / 8) 8 8 0x94949494 0 0 3 2 = 3 / 8 ∧
    green_equilibration_lavg_fl f32 (fun _ _ => 3 / 8) 8 8 0x94949494 0 0 false (1 / 8) 3 2
      = 3 / 8 :=
  ⟨(C5_green_eq_constant_fixed (3 / 8) (1 / 8) ⟨3, -3, by norm_num, by norm_num, by norm_num,
      by norm_num⟩ 8 8 0x94949494 0 0 (by decide) (by decide) false (fun _ _ => 3 / 8)
      (fun _ _ _ _ => rfl) 3 2 (by decide) (by decide)).1,
   (C5_green_eq_constant_fixed (3 / 8) (1 / 8) ⟨3, -3, by norm_num, by norm_num, by norm_num,
      by norm_num⟩ 8 8 0x94949494 0 0 (by decide) (by decide) false (fun _ _ => 3 / 8)
      (fun _ _ _ _ => rfl) 3 2 (by decide) (by decide)).2
      ⟨3, -3, by norm_num, by norm_num, by norm_num, by norm_num⟩⟩

/-! ## The second pass of PPG on a hue-constant neighbourhood, rounded -/

/-- On samples that are multiples of one power of two with significands below `2^20`, and
with the same difference `d` in both pairs, every `float` operation of the guess of the
second pass is exact: the guess is `2 * (g + d)`, and `g + d` and `4 * (g + d)` are
`float`s. -/
theorem ppg_guess_fl_grid (e : Int) (he1 : -50 ≤ e) (he2 : e ≤ 50) (a b g a1 b1 d : ℚ)
    (ha : OnGridAt 20 e a) (hb : OnGridAt 20 e b) (hg : OnGridAt 20 e g)
    (ha1 : OnGridAt 20 e a1) (hb1 : OnGridAt 20 e b1) (h1 : a - a1 = d) (h2 : b - b1 = d) :
    ppg_guess_fl f32 a b g a1 b1 = 2 * (g + d) ∧ f32 (g + d) = g + d ∧
      f32 (4 * (g + d)) = 4 * (g + d) := by
  obtain ⟨A, hA, rfl⟩ := ha
  obtain ⟨B, hB, rfl⟩ := hb
  obtain ⟨G, hG, rfl⟩ := hg
  obtain ⟨A1, hA1, rfl⟩ := ha1
  obtain ⟨B1, hB1, rfl⟩ := hb1
  have key : ∀ m : Int, |m| < 2 ^ 24 → f32 ((m : ℚ) * (2 : ℚ) ^ e) = (m : ℚ) * (2 : ℚ) ^ e :=
    fun m hm => f32_exact m e hm (by omega) (by omega)
  have hu : (2 : ℚ) ^ e ≠ 0 := zpow_ne_zero e (by norm_num)
  generalize (2 : ℚ) ^ e = u at key hu h1 h2 ⊢
  rw [abs_lt] at hA hB hG hA1 hB1
  have hAB : (B : ℚ) - B1 = A - A1 := by
    have : ((B : ℚ) - B1 - (A - A1)) * u = 0 := by linear_combination h2 - h1
    rcases mul_eq_zero.mp this with h | h
    · linarith
    · exact absurd h hu
  have hABi : B - B1 = A - A1 := by exact_mod_cast hAB
  have hd : d = ((A - A1 : Int) : ℚ) * u := by
    push_cast
    linear_combination -h1
  have s1 : f32 ((A : ℚ) * u + (B : ℚ) * u) = ((A + B : Int) : ℚ) * u := by
    rw [show (A : ℚ) * u + (B : ℚ) * u = ((A + B : Int) : ℚ) * u by push_cast; ring]
    exact key _ (by rw [abs_lt]; constructor <;> omega)
  have s2 : f32 (2 * ((G : ℚ) * u)) = ((2 * G : Int) : ℚ) * u := by
    rw [show 2 * ((G : ℚ) * u) = ((2 * G : Int) : ℚ) * u by push_cast; ring]
    exact key _ (by rw [abs_lt]; constructor <;> omega)
  have s3 : f32 (((A + B : Int) : ℚ) * u + ((2 * G : Int) : ℚ) * u)
      = ((A + B + 2 * G : Int) : ℚ) * u := by
    rw [show ((A + B : Int) : ℚ) * u + ((2 * G : Int) : ℚ) * u
      = ((A + B + 2 * G : Int) : ℚ) * u by push_cast; ring]
    exact key _ (by rw [abs_lt]; constructor <;> omega)
  have s4 : f32 (((A + B + 2 * G : Int) : ℚ) * u - (A1 : ℚ) * u)
      = ((A + B + 2 * G - A1 : Int) : ℚ) * u := by
    rw [show ((A + B + 2 * G : Int) : ℚ) * u - (A1 : ℚ) * u
      = ((A + B + 2 * G - A1 : Int) : ℚ) * u by push_cast; ring]
    exact key _ (by rw [abs_lt]; constructor <;> omega)
  have s5 : f32 (((A + B + 2 * G - A1 : Int) : ℚ) * u - (B1 : ℚ) * u)
      = ((A + B + 2 * G - A1 - B1 : Int) : ℚ) * u := by
    rw [show ((A + B + 2 * G - A1 : Int) : ℚ) * u - (B1 : ℚ) * u
      = ((A + B + 2 * G - A1 - B1 : Int) : ℚ) * u by push_cast; ring]
    exact key _ (by rw [abs_lt]; constructor <;> omega)
  refine ⟨?_, ?_, ?_⟩
  · unfold ppg_guess_fl
    rw [s1, s2, s3, s4, s5, hd]
    push_cast
    linear_combination u * hAB
  · rw [hd, show (G : ℚ) * u + ((A - A1 : Int) : ℚ) * u = ((G + (A - A1) : Int) : ℚ) * u by
      push_cast; ring]
    exact key _ (by rw [abs_lt]; constructor <;> omega)
  · rw [hd, show 4 * ((G : ℚ) * u + ((A - A1 : Int) : ℚ) * u)
      = ((4 * (G + (A - A1)) : Int) : ℚ) * u by push_cast; ring]
    exact key _ (by rw [abs_lt]; constructor <;> omega)

/-- The value the second pass stores from a guess that is exact: half the guess. -/
theorem ppg_half_guess (x : ℚ) (hx : f32 x = x) : f32 (2 * x * (1 / 2)) = x := by
  rw [show 2 * x * (1 / 2) = x by ring]
  exact hx

/-- The value an axis branch of the second pass stores, `(a + b + 2.0f*g - a1 - b1)*.5f`
in `float`, on two neighbours of hue `d`. -/
theorem ppg_axis_fl_hue (e : Int) (he1 : -50 ≤ e) (he2 : e ≤ 50) (g d : ℚ)
    (hg : OnGridAt 20 e g) (p q : Nat → ℚ) (x : Nat) (hp : HueAt e d p x) (hq : HueAt e d q x) :
    f32 (ppg_guess_fl f32 (p x) (q x) g (p 1) (q 1) * (1 / 2)) = g + d := by
  obtain ⟨h1, h2, h3⟩ := ppg_guess_fl_grid e he1 he2 (p x) (q x) g (p 1) (q 1) d hp.1 hq.1 hg
    hp.2.1 hq.2.1 hp.2.2 hq.2.2
  rw [h1]
  exact ppg_half_guess _ h2

/-- C25 (amended): in the second pass of `demosaic_ppg`, computed in `float`, for a colour
`X` (red 0 or blue 2) filled at a pixel, if `X - G` has one common value `d` at all the
neighbours the branch reads (left and right or top and bottom at a green site, the four
diagonal neighbours at a red or blue site), and the samples read (the `X` and `G` of those
neighbours and the green of the pixel) are multiples of one power of two `2^e` with
significands below `2^20`, so that no operation rounds, then the value written is the green
of the pixel plus `d`, in every branch. -/
theorem C25_hue_constant (filters j i : Nat) (out : Img) (d : ℚ) (e : Int) (he1 : -50 ≤ e)
    (he2 : e ≤ 50) (hg : OnGridAt 20 e (out j i 1)) :
    (FC j i filters &&& 1 ≠ 0 → FC j (i + 1) filters = 0 →
      ((HueAt e d (out j (i - 1)) 0 ∧ HueAt e d (out j (i + 1)) 0) →
        ppg_redblue_pixel_fl f32 filters j i out j i 0 = out j i 1 + d) ∧
      ((HueAt e d (out (j - 1) i) 2 ∧ HueAt e d (out (j + 1) i) 2) →
        ppg_redblue_pixel_fl f32 filters j i out j i 2 = out j i 1 + d)) ∧
    (FC j i filters &&& 1 ≠ 0 → FC j (i + 1) filters ≠ 0 →
      ((HueAt e d (out (j - 1) i) 0 ∧ HueAt e d (out (j + 1) i) 0) →
        ppg_redblue_pixel_fl f32 filters j i out j i 0 = out j i 1 + d) ∧
      ((HueAt e d (out j (i - 1)) 2 ∧ HueAt e d (out j (i + 1)) 2) →
        ppg_redblue_pixel_fl f32 filters j i out j i 2 = out j i 1 + d)) ∧
    (¬ FC j i filters &&& 1 ≠ 0 → ∀ x, x = (if FC j i filters = 0 then 2 else 0) →
      (HueAt e d (out (j - 1) (i - 1)) x ∧ HueAt e d (out (j - 1) (i + 1)) x ∧
        HueAt e d (out (j + 1) (i - 1)) x ∧ HueAt e d (out (j + 1) (i + 1)) x) →
      ppg_redblue_pixel_fl f32 filters j i out j i x = out j i 1 + d) := by
  refine ⟨?_, ?_, ?_⟩
  · intro hgr h0
    unfold ppg_redblue_pixel_fl
    simp only []
    rw [if_pos hgr, if_pos h0]
    constructor
    · intro ⟨h1, h2⟩
      simp only [img_set_apply, and_self, if_true]
      exact ppg_axis_fl_hue e he1 he2 _ d hg _ _ 0 h1 h2
    · intro ⟨h1, h2⟩
      simp only [img_set_apply]
      rw [if_neg (by simp), if_pos (by simp)]
      exact ppg_axis_fl_hue e he1 he2 _ d hg _ _ 2 h1 h2
  · intro hgr h0
    unfold ppg_redblue_pixel_fl
    simp only []
    rw [if_pos hgr, if_neg h0]
    constructor
    · intro ⟨h1, h2⟩
      simp only [img_set_apply]
      rw [if_neg (by simp), if_pos (by simp)]
      exact ppg_axis_fl_hue e he1 he2 _ d hg _ _ 0 h1 h2
    · intro ⟨h1, h2⟩
      simp only [img_set_apply, and_self, if_true]
      exact ppg_axis_fl_hue e he1 he2 _ d hg _ _ 2 h1 h2
  · intro hgr x hx ⟨h1, h2, h3, h4⟩
    obtain ⟨g1, e1, e4⟩ := ppg_guess_fl_grid e he1 he2 _ _ (out j i 1) _ _ d h1.1 h4.1 hg
      h1.2.1 h4.2.1 h1.2.2 h4.2.2
    obtain ⟨g2, _, _⟩ := ppg_guess_fl_grid e he1 he2 _ _ (out j i 1) _ _ d h2.1 h3.1 hg
      h2.2.1 h3.2.1 h2.2.2 h3.2.2
    unfold ppg_redblue_pixel_fl
    simp only []
    rw [if_neg hgr, ← hx, g1, g2]
    split_ifs
    · simp only [img_set_apply, and_self, if_true]
      exact ppg_half_guess _ e1
    · simp only [img_set_apply, and_self, if_true]
      exact ppg_half_guess _ e1
    · simp only [img_set_apply, and_self, if_true]
      rw [show 2 * (out j i 1 + d) + 2 * (out j i 1 + d) = 4 * (out j i 1 + d) by ring, e4,
        show 4 * (out j i 1 + d) * (1 / 4) = out j i 1 + d by ring]
      exact e1

/-- C25, counterexample: on the image that holds the `float` 0.1f = 13421773/134217728 in
every channel of every pixel, `X - G` is 0 everywhere, yet at the green site `(1, 2)` of the
RGGB layout the `float` formula `(a + b + 2.0f*g - a1 - b1)*.5f` rounds twice and the second
pass stores 6710887/67108864 in the red channel, not the green of the pixel plus 0. -/
theorem C25_hue_rounds :
    FC 1 2 0x94949494 = 1 ∧
    ppg_redblue_pixel_fl f32 0x94949494 1 2 (fun _ _ _ => 13421773 / 134217728) 1 2 0
      = 6710887 / 67108864 ∧
    ppg_redblue_pixel_fl f32 0x94949494 1 2 (fun _ _ _ => 13421773 / 134217728) 1 2 0
      ≠ (fun _ _ _ => (13421773 : ℚ) / 134217728) 1 2 1 + 0 := by
  have h : ppg_redblue_pixel_fl f32 0x94949494 1 2 (fun _ _ _ => 13421773 / 134217728) 1 2 0
      = 6710887 / 67108864 := by decide!
  refine ⟨by decide, h, ?_⟩
  rw [h]
  norm_num

/-- C25 (amended), instance: the image `warmImg` (`R = 3/4`, `G = 1/2`, `B = 1/4`, multiples
of 1/4) at the green site `(1, 2)` of the RGGB layout, whose red comes from the pixels above
and below. -/
theorem C25_hue_constant_witness :
    ppg_redblue_pixel_fl f32 0x94949494 1 2 warmImg 1 2 0 = warmImg 1 2 1 + 1 / 4 :=
  ((C25_hue_constant 0x94949494 1 2 warmImg (1 / 4) (-2) (by decide) (by decide)
    ⟨2, by norm_num, by norm_num [warmImg]⟩).2.1 (by decide) (by decide)).1
    ⟨⟨⟨3, by norm_num, by norm_num [warmImg]⟩, ⟨2, by norm_num, by norm_num [warmImg]⟩,
        by norm_num [warmImg]⟩,
      ⟨⟨3, by norm_num, by norm_num [warmImg]⟩, ⟨2, by norm_num, by norm_num [warmImg]⟩,
        by norm_num [warmImg]⟩⟩

/-! ## The border rule -/

/-- A scan that adds each sample to the sum of its colour and counts it leaves, for every
colour, the sum and the number of the scanned positions of that colour. -/
theorem sum_count_fold {α : Type} (sample : α → ℚ) (colour : α → Nat)
    (step : (Nat → ℚ) × (Nat → Nat) → α → (Nat → ℚ) × (Nat → Nat))
    (hstep : ∀ s p, step s p
      = (fun n => if n = colour p then s.1 n + sample p else s.1 n,
         fun n => if n = colour p then s.2 n + 1 else s.2 n)) (c : Nat) :
    ∀ (l : List α) (s : (Nat → ℚ) × (Nat → Nat)),
      (l.foldl step s).1 c = s.1 c + ((l.filter (fun p => colour p = c)).map sample).sum ∧
      (l.foldl step s).2 c = s.2 c + (l.filter (fun p => colour p = c)).length := by
  intro l
  induction l with
  | nil => intro s; simp
  | cons p ps ih =>
    intro s
    rw [List.foldl_cons]
    obtain ⟨h1, h2⟩ := ih (step s p)
    rw [h1, h2, hstep]
    by_cases e : colour p = c
    · rw [List.filter_cons_of_pos (by simpa using e)]
      simp only [List.map_cons, List.sum_cons, List.length_cons, if_pos e.symm]
      constructor
      · ring
      · omega
    · rw [List.filter_cons_of_neg (by simpa using e)]
      have e2 : ¬ c = colour p := fun h => e h.symm
      simp only [if_neg e2]
      exact ⟨trivial, trivial⟩

/-- The sums and counts of the PPG border scan, which keeps the count of colour `c` in the
slot `c + 4`. -/
theorem ppg_sum_list (inp : Raw) (filters c : Nat) (hc : c < 4) :
    ∀ (l : List (Nat × Nat)) (sum : Nat → ℚ),
      (l.foldl (ppg_sum_step inp filters) sum) c
        = sum c + ((l.filter (fun p => FC p.1 p.2 filters = c)).map
            (fun p => inp p.1 p.2)).sum ∧
      (l.foldl (ppg_sum_step inp filters) sum) (c + 4)
        = sum (c + 4) + ((l.filter (fun p => FC p.1 p.2 filters = c)).length : ℚ) := by
  intro l
  induction l with
  | nil => intro s; simp
  | cons p ps ih =>
    intro s
    rw [List.foldl_cons]
    obtain ⟨h1, h2⟩ := ih (ppg_sum_step inp filters s p)
    rw [h1, h2]
    have hf := FC_lt p.1 p.2 filters
    unfold ppg_sum_step
    by_cases e : FC p.1 p.2 filters = c
    · rw [List.filter_cons_of_pos (by simpa using e)]
      simp only [List.map_cons, List.sum_cons, List.length_cons]
      rw [if_pos e.symm, if_neg (by omega), if_pos (by omega)]
      push_cast
      constructor <;> ring
    · rw [List.filter_cons_of_neg (by simpa using e)]
      have e2 : ¬ c = FC p.1 p.2 filters := fun h => e h.symm
      rw [if_neg e2, if_neg (by omega), if_neg (by omega), if_neg (by omega)]
      exact ⟨rfl, rfl⟩

/-- The value of the PPG border loop is the border rule over the in-bounds 3x3 neighbours. -/
theorem ppg_border_val_rule (inp : Raw) (wi hi filters j i c : Nat) (hc : c < 4) :
    ppg_border_val inp wi hi filters j i c
      = borderRule (fun p : Nat × Nat => inp p.1 p.2) (fun p => FC p.1 p.2 filters)
          (nbhd3 j i hi wi) (FC j i filters) (inp j i) c := by
  unfold ppg_border_val borderRule neighbourMean ppg_border_sum
  simp only []
  obtain ⟨h1, h2⟩ := ppg_sum_list inp filters c hc (nbhd3 j i hi wi) (fun _ => 0)
  rw [h1, h2]
  simp only [zero_add, gt_iff_lt, Nat.cast_pos]

/-- The value of the X-Trans border loop is the border rule over the in-bounds 3x3
neighbours. -/
theorem xtrans_border_val_rule (inp : Raw) (xtrans : Int → Int → Nat) (ix iy : Int)
    (wi hi row col c : Nat) :
    xtrans_border_val inp xtrans ix iy wi hi row col c
      = borderRule (fun p : Nat × Nat => inp p.1 p.2)
          (fun p => fcol xtrans ((p.1 : Int) + iy) ((p.2 : Int) + ix))
          (nbhd3 row col hi wi) (fcol xtrans ((row : Int) + iy) ((col : Int) + ix))
          (inp row col) c := by
  unfold xtrans_border_val borderRule neighbourMean xtrans_border_sum
  simp only []
  obtain ⟨h1, h2⟩ := sum_count_fold (fun p : Nat × Nat => inp p.1 p.2)
    (fun p => fcol xtrans ((p.1 : Int) + iy) ((p.2 : Int) + ix))
    (xtrans_sum_step inp xtrans ix iy) (fun _ _ => rfl) c (nbhd3 row col hi wi)
    (fun _ => 0, fun _ => 0)
  rw [h1, h2]
  simp only [zero_add, Nat.zero_add, Nat.pos_iff_ne_zero]

/-- The value of the Markesteijn halo is the border rule over the nine mirrored
neighbours. -/
theorem markesteijn_halo_rule (inp : Raw) (xtrans : Int → Int → Nat) (xoff yoff : Int)
    (width height : Int) (row col c : Nat)
    (h : ¬ ((col : Int) ≥ 6 ∧ (row : Int) ≥ 6 ∧ (col : Int) < width - 6 ∧
      (row : Int) < height - 6)) :
    markesteijn_image_val inp xtrans xoff yoff width height row col c
      = borderRule (rawAt inp) (fun p => fcol xtrans (p.1 + yoff) (p.2 + xoff))
          (halo_nbrs width height row col)
          (fcol xtrans (TRANSLATE row height + yoff) (TRANSLATE col width + xoff))
          (rawAt inp (TRANSLATE row height, TRANSLATE col width)) c := by
  unfold markesteijn_image_val borderRule neighbourMean
  rw [if_neg h]
  simp only []
  obtain ⟨h1, h2⟩ := sum_count_fold (rawAt inp)
    (fun p => fcol xtrans (p.1 + yoff) (p.2 + xoff))
    (halo_sum_step inp xtrans xoff yoff) (fun _ _ => rfl) c (halo_nbrs width height row col)
    (fun _ => 0, fun _ => 0)
  rw [h1, h2]
  simp only [zero_add, Nat.zero_add, Nat.pos_iff_ne_zero]

/-- The first loop of `xtrans_markesteijn_interpolate` stores `markesteijn_image_val` in the
channels 0, 1, 2 of every pixel of the padded buffer. -/
theorem markesteijn_image_at (image : Img) (inp : Raw) (xtrans : Int → Int → Nat)
    (xoff yoff : Int) (wo ho row col c : Nat) (hr : row < ho + 12) (hcol : col < wo + 12)
    (hc : c < 3) :
    markesteijn_image image inp xtrans xoff yoff wo ho row col c
      = markesteijn_image_val inp xtrans xoff yoff ((wo : Int) + 12) ((ho : Int) + 12)
          row col c := by
  have h3 : ∀ (r k : Nat) (s : Img) (r2 k2 ch : Nat),
      forLoop 0 3 1 (fun c im => im.set r k c
        (markesteijn_image_val inp xtrans xoff yoff ((wo : Int) + 12) ((ho : Int) + 12)
          r k c)) s r2 k2 ch
      = if r2 = r ∧ k2 = k ∧ ch < 3
        then markesteijn_image_val inp xtrans xoff yoff ((wo : Int) + 12) ((ho : Int) + 12)
          r k ch
        else s r2 k2 ch := by
    intro r k s r2 k2 ch
    rw [forLoop_three]
    simp only [img_set_apply]
    by_cases e : r2 = r ∧ k2 = k
    · obtain ⟨rfl, rfl⟩ := e
      by_cases e2 : ch = 2
      · subst e2; simp
      · by_cases e1 : ch = 1
        · subst e1; simp
        · by_cases e0 : ch = 0
          · subst e0; simp
          · rw [if_neg (by omega), if_neg (by omega), if_neg (by omega), if_neg (by omega)]
    · rw [if_neg (fun h => e ⟨h.1, h.2.1⟩), if_neg (fun h => e ⟨h.1, h.2.1⟩),
        if_neg (fun h => e ⟨h.1, h.2.1⟩), if_neg (fun h => e ⟨h.1, h.2.1⟩)]
  have := forLoop2_post (fun _ : Img => True)
    (fun r k (s : Img) => s r k c
      = markesteijn_image_val inp xtrans xoff yoff ((wo : Int) + 12) ((ho : Int) + 12) r k c)
    0 (ho + 12) 1 (fun _ => 0) (fun _ => wo + 12) 1 Nat.one_pos Nat.one_pos
    (fun r k im => forLoop 0 3 1 (fun c im => im.set r k c
        (markesteijn_image_val inp xtrans xoff yoff ((wo : Int) + 12) ((ho : Int) + 12)
          r k c)) im) image trivial
    (fun r k s _ _ _ => ⟨trivial, by
      beta_reduce
      rw [h3, if_pos ⟨rfl, rfl, hc⟩]⟩)
    (fun r k r2 k2 s _ _ _ _ hne _ hQ => by
      beta_reduce
      rw [h3, if_neg (fun e => hne ⟨e.1.symm, e.2.1.symm⟩)]
      exact hQ)
  exact this.2 row col ((visits_one _ _ _).mpr ⟨Nat.zero_le _, hr⟩)
    ((visits_one _ _ _).mpr ⟨Nat.zero_le _, hcol⟩)

/-- C14: in the border interpolators of `demosaic_ppg`, of `xtrans_lin_interpolate` and of
the Markesteijn halo, for every buffer size and every pixel, each of the three channels is
given a value: the sum over the count of the neighbours of colour `c` where `c` is not the
pixel's colour and that count is strictly positive, and the sample of the pixel otherwise, so
no division is by zero.  The Markesteijn halo is taken on regions of at least 8 by 8 pixels
(padded sizes of at least 20) at non-negative ROI offsets, for which `TRANSLATE` keeps its
nine mirrored reads inside the raw buffer and the colour table is read at non-negative
positions. -/
theorem C14_border_values_defined (inp : Raw) (c : Fin 3) :
    (∀ (wi hi filters j i : Nat) (o : Img),
      ppg_border_pixel inp wi hi filters j i o j i c.val
        = borderRule (fun p : Nat × Nat => inp p.1 p.2) (fun p => FC p.1 p.2 filters)
            (nbhd3 j i hi wi) (FC j i filters) (inp j i) c.val) ∧
    (∀ (xtrans : Int → Int → Nat) (ix iy : Int) (wi hi row col : Nat) (o : Img),
      xtrans_border_pixel inp xtrans ix iy wi hi row col o row col c.val
        = borderRule (fun p : Nat × Nat => inp p.1 p.2)
            (fun p => fcol xtrans ((p.1 : Int) + iy) ((p.2 : Int) + ix))
            (nbhd3 row col hi wi) (fcol xtrans ((row : Int) + iy) ((col : Int) + ix))
            (inp row col) c.val) ∧
    (∀ (xtrans : Int → Int → Nat) (xoff yoff : Int) (wo ho row col : Nat) (image : Img),
      8 ≤ wo → 8 ≤ ho → 0 ≤ xoff → 0 ≤ yoff →
      row < ho + 12 → col < wo + 12 → ¬ (6 ≤ col ∧ 6 ≤ row ∧ col < wo + 6 ∧ row < ho + 6) →
      (∀ p ∈ halo_nbrs ((wo : Int) + 12) ((ho : Int) + 12) row col,
        0 ≤ p.1 ∧ p.1 < ho ∧ 0 ≤ p.2 ∧ p.2 < wo) ∧
      markesteijn_image image inp xtrans xoff yoff wo ho row col c.val
        = borderRule (rawAt inp) (fun p => fcol xtrans (p.1 + yoff) (p.2 + xoff))
            (halo_nbrs ((wo : Int) + 12) ((ho : Int) + 12) row col)
            (fcol xtrans (TRANSLATE row ((ho : Int) + 12) + yoff)
              (TRANSLATE col ((wo : Int) + 12) + xoff))
            (rawAt inp (TRANSLATE row ((ho : Int) + 12), TRANSLATE col ((wo : Int) + 12)))
            c.val) := by
  refine ⟨?_, ?_, ?_⟩
  · intro wi hi filters j i o
    rw [ppg_border_pixel_at inp wi hi filters j i o c.val c.isLt,
      ppg_border_val_rule inp wi hi filters j i c.val (by omega)]
  · intro xtrans ix iy wi hi row col o
    rw [xtrans_border_pixel_at inp xtrans ix iy wi hi row col o c.val c.isLt,
      xtrans_border_val_rule]
  · intro xtrans xoff yoff wo ho row col image hwo hho _ _ hr hcol hb
    constructor
    · intro p hp
      unfold halo_nbrs at hp
      rw [List.mem_map] at hp
      obtain ⟨q, hq, rfl⟩ := hp
      have hq2 : (-1 ≤ q.1 ∧ q.1 ≤ 1) ∧ (-1 ≤ q.2 ∧ q.2 ≤ 1) := by
        simp only [offsets3, List.mem_cons, List.mem_singleton, List.not_mem_nil, or_false] at hq
        rcases hq with h | h | h | h | h | h | h | h | h <;> rw [h] <;> simp
      unfold TRANSLATE
      simp only []
      split_ifs <;> omega
    · rw [markesteijn_image_at image inp xtrans xoff yoff wo ho row col c.val hr hcol c.isLt,
        markesteijn_halo_rule]
      intro h
      apply hb
      omega

/-- The second pass keeps the green channel and the channel of the site's own colour of
every pixel, and every channel of the outermost frame. -/
theorem ppg_pass2_keep (filters wo ho : Nat) (o2 : Img) (r k ch : Nat)
    (h : ¬ (1 ≤ r ∧ r < ho - 1 ∧ 1 ≤ k ∧ k < wo - 1) ∨ ch = 1 ∨
      ch = nativeChannel (FC r k filters)) :
    forLoop 1 (ho - 1) 1 (fun j o =>
        forLoop 1 (wo - 1) 1 (fun i o => ppg_redblue_pixel filters j i o) o) o2 r k ch
      = o2 r k ch := by
  rcases h with h | h
  · exact ppg_pass2_frame filters wo ho o2 r k ch h
  · exact forLoop2_inv (fun s : Img => s r k ch = o2 r k ch)
      1 (ho - 1) 1 (fun _ => 1) (fun _ => wo - 1) 1 Nat.one_pos Nat.one_pos
      (fun j i o => ppg_redblue_pixel filters j i o) o2 rfl
      (fun j i s _ _ hs => by
        beta_reduce
        by_cases e : r = j ∧ k = i
        · obtain ⟨rfl, rfl⟩ := e
          rw [ppg_redblue_pixel_keep filters r k s ch h]
          exact hs
        · rw [ppg_redblue_pixel_frame _ _ _ _ _ _ _ e]
          exact hs)

/-- C13 (as stated, refuted): (1) on the 7x7 GRBG buffer `spikeRaw` the green pixel `(2, 2)`,
inside the border band, ends with red `-1/8` while the mean of its red neighbours is 0: the
red/blue pass rewrites it; (2) with the descriptor `0xb4b4b4b4`, whose second green has the
code 3, the pixel `(1, 0)` of code 3 holding 1 ends with green 0, the mean of its neighbours
of code 1, not its own sample; (3) on a 1x1 buffer the red channel of the green pixel holds
the raw sample, there being no red neighbour to average. -/
theorem C13_band_not_border_values :
    (FC 2 2 0x61616161 = 1 ∧
      neighbourMean (fun p : Nat × Nat => spikeRaw p.1 p.2) (fun p => FC p.1 p.2 0x61616161)
        (nbhd3 2 2 7 7) 0 = 0 ∧
      (demosaic_ppg 8 (fun _ _ _ => 0) spikeRaw 7 7 7 7 0x61616161 0).map
        (fun o => o 2 2 0) = some (-1 / 8)) ∧
    (FC 1 0 0xb4b4b4b4 = 3 ∧
      (demosaic_ppg 4 (fun _ _ _ => 0) (fun r c => if r = 1 ∧ c = 0 then 1 else 0) 3 3 3 3
        0xb4b4b4b4 0).map (fun o => o 1 0 1) = some 0) ∧
    (FC 0 0 0x61616161 = 1 ∧
      (demosaic_ppg 2 (fun _ _ _ => 0) (fun _ _ => 1) 1 1 1 1 0x61616161 0).map
        (fun o => o 0 0 0) = some 1) := by
  decide!

/-- C13 (amended): in the final output of `demosaic_ppg`, for every pixel within 3 pixels of
an edge, the channel of the pixel's own colour 0, 1 or 2 holds the raw sample, and the green
channel of every other pixel holds the mean of the raw samples of colour 1 among its in-buffer
3x3 neighbours; on the outermost one-pixel frame each channel `c` other than the pixel's own
colour holds the mean of the raw samples of colour `c` among the in-buffer 3x3 neighbours;
a channel with no neighbour of its colour holds the raw sample.  The red and blue channels
that the red/blue pass rewrites inside the band are left out. -/
theorem C13_ppg_border_band (fuel : Nat) (out : Img) (inp : Raw) (wo ho wi hi filters : Nat)
    (thrs : ℚ) (hT : wo ≤ 3 ∨ 6 ≤ wo ∨ ho ≤ 6) (hf : wo < fuel) (j i : Nat) (hj : j < ho)
    (hi2 : i < wo) (hband : ¬ (3 ≤ j ∧ j < ho - 3 ∧ 3 ≤ i ∧ i < wo - 3)) :
    ∃ o, demosaic_ppg fuel out inp wo ho wi hi filters thrs = some o ∧
      ∀ c, c < 3 →
        (j = 0 ∨ j = ho - 1 ∨ i = 0 ∨ i = wo - 1 ∨ c = 1 ∨ c = FC j i filters) →
        o j i c = borderRule (fun p : Nat × Nat => inp p.1 p.2) (fun p => FC p.1 p.2 filters)
          (nbhd3 j i hi wi) (FC j i filters) (inp j i) c := by
  unfold demosaic_ppg
  rw [ppg_border_eq fuel inp wo ho wi hi filters out hT hf]
  simp only []
  refine ⟨_, rfl, ?_⟩
  intro c hc hcase
  have hkeep : ¬ (1 ≤ j ∧ j < ho - 1 ∧ 1 ≤ i ∧ i < wo - 1) ∨ c = 1 ∨
      c = nativeChannel (FC j i filters) := by
    unfold nativeChannel
    rcases hcase with h | h | h | h | h | h
    · left; omega
    · left; omega
    · left; omega
    · left; omega
    · right; left; exact h
    · right
      by_cases h02 : FC j i filters = 0 ∨ FC j i filters = 2
      · right; rw [if_pos h02]; exact h
      · left; omega
  rw [ppg_pass2_keep filters wo ho _ j i c hkeep, ppg_pass1_frame _ filters wo ho _ j i c hband,
    ppg_border_result_at inp wo ho wi hi filters out j i c hj hi2 hc hband,
    ppg_border_val_rule inp wi hi filters j i c (by omega)]

/-- C13 (amended), instance: the 7x7 GRBG buffer `spikeRaw`, the band pixel `(2, 2)`. -/
theorem C13_ppg_border_band_witness :
    ∃ o, demosaic_ppg 8 (fun _ _ _ => 0) spikeRaw 7 7 7 7 0x61616161 0 = some o ∧
      ∀ c, c < 3 →
        (2 = 0 ∨ 2 = 7 - 1 ∨ 2 = 0 ∨ 2 = 7 - 1 ∨ c = 1 ∨ c = FC 2 2 0x61616161) →
        o 2 2 c = borderRule (fun p : Nat × Nat => spikeRaw p.1 p.2)
          (fun p => FC p.1 p.2 0x61616161) (nbhd3 2 2 7 7) (FC 2 2 0x61616161)
          (spikeRaw 2 2) c :=
  C13_ppg_border_band 8 (fun _ _ _ => 0) spikeRaw 7 7 7 7 0x61616161 0
    (Or.inr (Or.inl (by decide))) (by decide) 2 2 (by decide) (by decide) (by decide)

/-! ## VNG interpolation -/

theorem CLIPF_unit (x : ℚ) : 0 ≤ CLIPF x ∧ CLIPF x ≤ 1 := by
  unfold CLIPF
  split_ifs with h1 h2
  · exact ⟨le_of_lt h1, le_of_lt h2⟩
  · exact ⟨zero_le_one, le_refl 1⟩
  · exact ⟨le_refl 0, zero_le_one⟩

/-- The three colour channels that the column loop stores for a pixel lie in [0, 1] when
those of the pixel in the image do: they are clamped, or copied from the image. -/
theorem vng_pixel_unit (o : Img) (xtrans : Int → Int → Nat) (row col : Nat) (old : Nat → ℚ)
    (ho : ∀ ch, ch < 3 → 0 ≤ o row col ch ∧ o row col ch ≤ 1) (ch : Nat) (hch : ch < 3) :
    0 ≤ vng_pixel o xtrans row col old ch ∧ vng_pixel o xtrans row col old ch ≤ 1 := by
  unfold vng_pixel
  simp only []
  split_ifs with h0
  · beta_reduce
    rw [if_pos (by omega)]
    exact ho ch hch
  · beta_reduce
    rw [if_pos hch]
    exact CLIPF_unit _

/-- The rotation `brow[(g-1) & 3] = brow[g]` for `g = 0..3`. -/
theorem vng_rotate (b : Nat → Nat) :
    forLoop 0 4 1 (fun g b => fun n => if n = (g + 3) % 4 then b g else b n) b 0 = b 1 ∧
    forLoop 0 4 1 (fun g b => fun n => if n = (g + 3) % 4 then b g else b n) b 1 = b 2 ∧
    forLoop 0 4 1 (fun g b => fun n => if n = (g + 3) % 4 then b g else b n) b 2 = b 0 := by
  have e : forLoop 0 4 1 (fun g b => fun n => if n = (g + 3) % 4 then b g else b n) b
      = (fun g b => fun n => if n = (g + 3) % 4 then b g else b n) 3
        ((fun g b => fun n => if n = (g + 3) % 4 then b g else b n) 2
          ((fun g b => fun n => if n = (g + 3) % 4 then b g else b n) 1
            ((fun g b => fun n => if n = (g + 3) % 4 then b g else b n) 0 b))) := rfl
  rw [e]
  simp

/-- The column loop of one row fills the row `brow[2]` of the scratch buffer from column 2
to column `width-3` and leaves the other rows as they are. -/
theorem vng_fill (o : Img) (xtrans : Int → Int → Nat) (width row b2 : Nat)
    (buf : Nat → Nat → Nat → ℚ)
    (ho : ∀ k ch, 2 ≤ k → k < width - 2 → ch < 3 → 0 ≤ o row k ch ∧ o row k ch ≤ 1) :
    (∀ r k ch, r ≠ b2 →
      forLoop 2 (width - 2) 1 (fun col buf =>
        fun r k c => if r = b2 ∧ k = col
          then vng_pixel o xtrans row col (buf r k) c else buf r k c) buf r k ch
        = buf r k ch) ∧
    (∀ k ch, 2 ≤ k → k < width - 2 → ch < 3 →
      0 ≤ forLoop 2 (width - 2) 1 (fun col buf =>
        fun r k c => if r = b2 ∧ k = col
          then vng_pixel o xtrans row col (buf r k) c else buf r k c) buf b2 k ch ∧
      forLoop 2 (width - 2) 1 (fun col buf =>
        fun r k c => if r = b2 ∧ k = col
          then vng_pixel o xtrans row col (buf r k) c else buf r k c) buf b2 k ch ≤ 1) := by
  have key := forLoop_post
    (fun s : Nat → Nat → Nat → ℚ => ∀ r k ch, r ≠ b2 → s r k ch = buf r k ch)
    (fun col (s : Nat → Nat → Nat → ℚ) => ∀ ch, ch < 3 → 0 ≤ s b2 col ch ∧ s b2 col ch ≤ 1)
    2 (width - 2) 1 Nat.one_pos
    (fun col buf => fun r k c => if r = b2 ∧ k = col
      then vng_pixel o xtrans row col (buf r k) c else buf r k c) buf
    (fun _ _ _ _ => rfl)
    (fun col s hcol hR => by
      rw [visits_one] at hcol
      constructor
      · intro r k ch hne
        beta_reduce
        rw [if_neg (fun e => hne e.1)]
        exact hR r k ch hne
      · intro ch hch
        beta_reduce
        rw [if_pos ⟨rfl, rfl⟩]
        exact vng_pixel_unit o xtrans row col _ (fun c hc => ho col c hcol.1 hcol.2 hc) ch hch)
    (fun col col2 s _ _ hne _ hQ => by
      intro ch hch
      beta_reduce
      rw [if_neg (fun e => hne e.2.symm)]
      exact hQ ch hch)
  exact ⟨key.1, fun k ch h1 h2 hch => key.2 k ((visits_one _ _ _).mpr ⟨h1, h2⟩) ch hch⟩

theorem vng_copy_row_unit (o : Img) (dst : Nat) (src : Nat → Nat → ℚ) (width : Nat)
    (hsrc : ∀ k ch, 2 ≤ k → k < width - 2 → ch < 3 → 0 ≤ src k ch ∧ src k ch ≤ 1)
    (r k ch : Nat) (hch : ch < 3) (ho : 0 ≤ o r k ch ∧ o r k ch ≤ 1) :
    0 ≤ vng_copy_row o dst src width r k ch ∧ vng_copy_row o dst src width r k ch ≤ 1 := by
  unfold vng_copy_row
  split_ifs with h
  · exact hsrc k ch h.2.1 h.2.2.1 hch
  · exact ho

/-- One iteration of the row loop keeps the invariant. -/
theorem vng_row_inv (xtrans : Int → Int → Nat) (wo ho m : Nat) (st : VngState)
    (hrow : 2 + m < ho - 2) (h : VngInv wo ho m st) :
    VngInv wo ho (m + 1) (vng_row xtrans wo (2 + m) st) := by
  obtain ⟨hout, hb, h1, h0⟩ := h
  have hm2 : 2 + m > 3 → 2 ≤ m := fun h => by omega
  have hm1 : 2 ≤ m + 1 → 1 ≤ m := fun h => by omega
  have hfill := vng_fill st.out xtrans wo (2 + m) (st.brow 2) st.buf
    (fun k ch hk1 hk2 hch => hout (2 + m) k ch (by omega) (by omega) hch)
  have hrot := vng_rotate st.brow
  unfold vng_row
  refine ⟨?_, ?_, ?_, ?_⟩
  · intro j i ch hj hi hch
    simp only []
    split_ifs with h3
    · apply vng_copy_row_unit _ _ _ _ _ j i ch hch (hout j i ch hj hi hch)
      intro k c hk1 hk2 hc
      have e := hfill.1 (st.brow 0) k c hb.2.1
      rw [e]
      exact h0 (hm2 h3) k c hk1 hk2 hc
    · exact hout j i ch hj hi hch
  · simp only []
    rw [hrot.1, hrot.2.1, hrot.2.2]
    exact ⟨hb.2.2, fun e => hb.1 e.symm, fun e => hb.2.1 e.symm⟩
  · intro _ k ch hk1 hk2 hch
    simp only []
    rw [hrot.2.1]
    exact hfill.2 k ch hk1 hk2 hch
  · intro hm k ch hk1 hk2 hch
    simp only []
    have e := hfill.1 (st.brow 1) k ch hb.2.2
    rw [hrot.1, e]
    exact h1 (hm1 hm) k ch hk1 hk2 hch

/-- Range of VNG on regular sizes: for a complete table, a non-negative ROI offset, samples
in [0, 1] and an output region at least 6 rows high inside the raw buffer,
`xtrans_vng_interpolate` returns and every channel 0..2 of every output pixel lies in
[0, 1], whatever the scratch buffer held. -/
theorem vng_range_regular {xtrans : Int → Int → Nat} (hx : XtransComplete xtrans)
    (ix iy : Int) (hix : 0 ≤ ix) (hiy : 0 ≤ iy) (fuel : Nat) (out : Img)
    (scratch : Nat → Nat → Nat → ℚ) (inp : Raw) (wo ho wi hi : Nat)
    (hw : wo ≤ wi) (hh : ho ≤ hi) (hf : wo < fuel) (h6 : 6 ≤ ho)
    (hin : ∀ r c, r < hi → c < wi → 0 ≤ inp r c ∧ inp r c ≤ 1) :
    ∃ o, xtrans_vng_interpolate fuel out scratch inp wo ho wi hi ix iy xtrans = some o ∧
      ∀ j i ch, j < ho → i < wo → ch < 3 → 0 ≤ o j i ch ∧ o j i ch ≤ 1 := by
  have hconv : ∀ x y t : ℚ, (0 ≤ x ∧ x ≤ 1) → (0 ≤ y ∧ y ≤ 1) → 0 ≤ t → t ≤ 1 →
      (0 ≤ t * x + (1 - t) * y ∧ t * x + (1 - t) * y ≤ 1) := by
    intro x y t hx hy h0 h1
    constructor
    · have := mul_nonneg h0 hx.1
      have := mul_nonneg (sub_nonneg.mpr h1) hy.1
      linarith
    · have := mul_le_mul_of_nonneg_left hx.2 h0
      have := mul_le_mul_of_nonneg_left hy.2 (sub_nonneg.mpr h1)
      linarith
  obtain ⟨o1, hlin, ho1⟩ := xtrans_lin_generic (fun x => 0 ≤ x ∧ x ≤ 1) hconv hx ix iy hix hiy
    fuel out inp wo ho wi hi hw hh hf hin
  unfold xtrans_vng_interpolate
  rw [hlin]
  simp only []
  refine ⟨_, rfl, ?_⟩
  have hinv : VngInv wo ho (ho - 2 - 2)
      (forLoop 2 (ho - 2) 1 (vng_row xtrans wo)
        { out := o1, brow := fun n => if n < 3 then n else 0, buf := scratch }) := by
    rw [forLoop_one]
    refine loopN_inv (fun m st => VngInv wo ho m st) (vng_row xtrans wo) 1 (ho - 2 - 2) 2 _
      ⟨ho1, by simp, fun h => absurd h (by decide), fun h => absurd h (by decide)⟩ ?_
    intro m hm st hst
    rw [Nat.mul_one]
    exact vng_row_inv xtrans wo ho m st (by omega) hst
  obtain ⟨hout, _, h1, h0⟩ := hinv
  intro j i ch hj hi2 hch
  apply vng_copy_row_unit _ _ _ _ (h1 (by omega)) j i ch hch
  exact vng_copy_row_unit _ _ _ _ (h0 (by omega)) j i ch hch (hout j i ch hj hi2 hch)

/-- C15 (failing input): on a 5x5 region of the Fuji layout with every sample 1/2, and a
scratch buffer that held 7 when allocated, `xtrans_vng_interpolate` returns an image whose
pixel `(1, 2)` holds red 7, outside [0, 1]: the row loop has run once, `brow[0]` still points
at a row of the scratch buffer that was never written, and the final `memcpy` copies it to
the output row `height-4`. -/
theorem C15_vng_small_region_leak :
    XtransComplete xtransStd ∧
    (xtrans_vng_interpolate 6 (fun _ _ _ => 0) (fun _ _ _ => 7) (fun _ _ => 1 / 2)
      5 5 5 5 0 0 xtransStd).map (fun o => o 1 2 0) = some 7 := by
  decide!

/-! ## Out-of-range methods and tiling -/

/-- On the 1:1 branch and the demosaic-then-zoom branch of an X-Trans image the first call
is the kernel chosen from the method after the quality override. -/
theorem process_xtrans_kernel (p : ProcessInput) (h9 : p.filters = 9)
    (hpath : (process p).path ≠ Path.subsample) :
    (process p).calls.head? = some (xtrans_call (process_method p)) := by
  unfold process at hpath ⊢
  unfold demosaic_calls
  simp only [] at hpath ⊢
  split_ifs at hpath ⊢ <;> first | rfl | exact absurd rfl hpath

/-- C21 (as stated, refuted): for an X-Trans image with the configured method 0, on the
export pipeline with full quality, `process` runs `xtrans_vng_interpolate` on the 1:1 branch
(scale 1) and on the demosaic-then-zoom branch (scale 1/2), not `xtrans_lin_interpolate`. -/
theorem C21_method_zero_runs_vng :
    exportXtransInput.filters = 9 ∧ exportXtransInput.demosaicing_method = 0 ∧
    (process exportXtransInput).path = Path.one_to_one ∧
    (process exportXtransInput).calls = [Call.xtrans_vng] ∧
    (process { exportXtransInput with scale := 1 / 2 }).path = Path.demosaic_then_zoom ∧
    (process { exportXtransInput with scale := 1 / 2 }).calls
      = [Call.xtrans_vng, Call.clip_and_zoom] := by
  decide!

/-- C21 (amended): for an X-Trans image, on the 1:1 and on the demosaic-then-zoom branch,
the kernel `process` runs is chosen from the method `m` left by the quality override:
`xtrans_lin_interpolate` exactly when `m = 0x400`, `xtrans_vng_interpolate` for every other
`m < 0x402`, in particular for the configured value 0, and `xtrans_markesteijn_interpolate`
with `1 + 2 (m - 0x402)` passes for every `m >= 0x402`; without the override `m` is the
configured method, so a configured method outside the four never runs the linear kernel. -/
theorem C21_out_of_range_kernel (p : ProcessInput) (h9 : p.filters = 9)
    (hpath : (process p).path ≠ Path.subsample) :
    (process p).calls.head? = some (xtrans_call (process_method p)) ∧
    (xtrans_call (process_method p) = Call.xtrans_lin ↔ process_method p = 1024) ∧
    (process_method p ≠ 1024 → process_method p < 1026 →
      xtrans_call (process_method p) = Call.xtrans_vng) ∧
    (1026 ≤ process_method p →
      xtrans_call (process_method p)
        = Call.xtrans_markesteijn (1 + (process_method p - 1026) * 2)) ∧
    (p.demosaicing_method = 0 → 0 ≤ p.qual →
      xtrans_call (process_method p) = Call.xtrans_vng) ∧
    (¬ (p.pipe = PipeType.full ∧ p.qual < 2 ∧ p.scale ≤ 99999 / 100000) →
      process_method p = p.demosaicing_method) := by
  have hcall : ∀ m : Int,
      (xtrans_call m = Call.xtrans_lin ↔ m = 1024) ∧
      (m ≠ 1024 → m < 1026 → xtrans_call m = Call.xtrans_vng) ∧
      (1026 ≤ m → xtrans_call m = Call.xtrans_markesteijn (1 + (m - 1026) * 2)) := by
    intro m
    unfold xtrans_call DT_IOP_DEMOSAIC_LINEAR DT_IOP_DEMOSAIC_MARKESTEIJN
    refine ⟨?_, ?_, ?_⟩
    · split_ifs with h1 h2
      · exact ⟨fun _ => h1, fun _ => rfl⟩
      · exact ⟨fun h => absurd h (by simp), fun h => absurd h h1⟩
      · exact ⟨fun h => absurd h (by simp), fun h => absurd h h1⟩
    · intro h1 h2
      rw [if_neg h1, if_pos h2]
    · intro h
      rw [if_neg (by omega), if_neg (by omega)]
  refine ⟨process_xtrans_kernel p h9 hpath, (hcall _).1, (hcall _).2.1, (hcall _).2.2, ?_, ?_⟩
  · intro h0 hq
    apply (hcall _).2.1
    · unfold process_method DT_IOP_DEMOSAIC_PPG DT_IOP_DEMOSAIC_LINEAR
      rw [h0]
      split_ifs <;> omega
    · unfold process_method DT_IOP_DEMOSAIC_PPG DT_IOP_DEMOSAIC_LINEAR
      rw [h0]
      split_ifs <;> omega
  · intro h
    unfold process_method
    rw [if_neg h]

/-- C21 (amended), instance: the configured method 0 on the export pipeline at scale 1. -/
theorem C21_out_of_range_kernel_witness :
    (process exportXtransInput).calls.head? = some Call.xtrans_vng :=
  ((C21_out_of_range_kernel exportXtransInput rfl (by decide!)).1).trans
    (congrArg some ((C21_out_of_range_kernel exportXtransInput rfl (by decide!)).2.2.2.2.1 rfl
      (by decide)))

/-- C22 (failing input): for an X-Trans image (`filters = 9`) `tiling_callback` reports the
alignment 2 in `x` and `y`, as for every input, while `modify_roi_in` snaps the ROI of that
image to multiples of 3 (here `x = 3`, which the alignment 2 does not divide); the overlap
is 5. -/
theorem C22_tiling_alignment_xtrans :
    exportXtransInput.filters = 9 ∧
    (∀ (p : ProcessInput) (roi_in roi_out : Roi),
      (tiling_callback p roi_in roi_out).overlap = 5 ∧
      (tiling_callback p roi_in roi_out).xalign = 2 ∧
      (tiling_callback p roi_in roi_out).yalign = 2) ∧
    (modify_roi_in 9 6000 4000 ⟨4, 5, 300, 300, 1⟩).x = 3 ∧
    (modify_roi_in 9 6000 4000 ⟨4, 5, 300, 300, 1⟩).y = 3 :=
  ⟨rfl, fun _ _ _ => ⟨rfl, rfl, rfl⟩, by decide!, by decide!⟩

/-! ## PPG green and hue rules -/

theorem clampTo_eq (v m M : ℚ) (h : m ≤ M) : max (min v M) m = clampTo v m M := by
  unfold clampTo
  split_ifs with h1 h2
  · exact max_eq_right (le_trans (min_le_left _ _) (le_of_lt h1))
  · rw [min_eq_right (le_of_lt h2)]
    exact max_eq_left h
  · rw [min_eq_left (not_lt.mp h2)]
    exact max_eq_left (not_lt.mp h1)

/-- The green that the first pass stores is the green of the specification at a red or blue
site and the sample read at a green site. -/
theorem ppg_green_pixel_value (inp : Raw) (filters j i : Nat) (o : Img) :
    ppg_green_pixel inp filters j i o j i 1
      = if FC j i filters = 0 ∨ FC j i filters = 2 then ppg_green_rule inp j i
        else inp j i := by
  unfold ppg_green_pixel ppg_green_rule ppg_diff_x ppg_diff_y ppg_guess_x ppg_guess_y
  simp only []
  by_cases hc : FC j i filters = 0 ∨ FC j i filters = 2
  · rw [if_pos hc, if_pos hc]
    have e1 : (|inp j (i - 2) - inp j i| + |inp j (i + 2) - inp j i|
        + |inp j (i - 1) - inp j (i + 1)|) * 3
        + (|inp j (i + 3) - inp j (i + 1)| + |inp j (i - 3) - inp j (i - 1)|) * 2
        = 3 * (|inp j (i - 2) - inp j i| + |inp j (i + 2) - inp j i|
          + |inp j (i - 1) - inp j (i + 1)|)
          + 2 * (|inp j (i + 3) - inp j (i + 1)| + |inp j (i - 3) - inp j (i - 1)|) := by ring
    have e2 : (|inp (j - 2) i - inp j i| + |inp (j + 2) i - inp j i|
        + |inp (j - 1) i - inp (j + 1) i|) * 3
        + (|inp (j + 3) i - inp (j + 1) i| + |inp (j - 3) i - inp (j - 1) i|) * 2
        = 3 * (|inp (j - 2) i - inp j i| + |inp (j + 2) i - inp j i|
          + |inp (j - 1) i - inp (j + 1) i|)
          + 2 * (|inp (j + 3) i - inp (j + 1) i| + |inp (j - 3) i - inp (j - 1) i|) := by ring
    have e3 : ∀ g : ℚ, g * (1 / 4) = g / 4 := fun g => by ring
    rw [e1, e2, e3, e3]
    have e4 : (inp j (i - 1) + inp j i + inp j (i + 1)) * 2 - inp j (i + 2) - inp j (i - 2)
        = (inp j (i - 1) + inp j i + inp j (i + 1)) * 2 - inp j (i - 2) - inp j (i + 2) := by
      ring
    have e5 : (inp (j - 1) i + inp j i + inp (j + 1) i) * 2 - inp (j + 2) i - inp (j - 2) i
        = (inp (j - 1) i + inp j i + inp (j + 1) i) * 2 - inp (j - 2) i - inp (j + 2) i := by
      ring
    rw [e4, e5]
    split_ifs
    · simp only [img_set_apply, and_self, if_true]
      exact clampTo_eq _ _ _ (le_trans (min_le_left _ _) (le_max_left _ _))
    · simp only [img_set_apply, and_self, if_true]
      exact clampTo_eq _ _ _ (le_trans (min_le_left _ _) (le_max_left _ _))
  · rw [if_neg hc, if_neg hc]
    simp [img_set_apply]

/-- After the first pass the green of every interior pixel is the one its own iteration
stored. -/
theorem ppg_pass1_value (inp : Raw) (filters wo ho : Nat) (o1 : Img) (j i : Nat)
    (hj : 3 ≤ j ∧ j < ho - 3) (hi : 3 ≤ i ∧ i < wo - 3) :
    forLoop 3 (ho - 3) 1 (fun j o =>
        forLoop 3 (wo - 3) 1 (fun i o => ppg_green_pixel inp filters j i o) o) o1 j i 1
      = if FC j i filters = 0 ∨ FC j i filters = 2 then ppg_green_rule inp j i
        else inp j i := by
  have := forLoop2_post (fun _ : Img => True)
    (fun j i (s : Img) => s j i 1
      = if FC j i filters = 0 ∨ FC j i filters = 2 then ppg_green_rule inp j i else inp j i)
    3 (ho - 3) 1 (fun _ => 3) (fun _ => wo - 3) 1 Nat.one_pos Nat.one_pos
    (fun j i o => ppg_green_pixel inp filters j i o) o1 trivial
    (fun j i s _ _ _ => ⟨trivial, ppg_green_pixel_value inp filters j i s⟩)
    (fun j i j2 i2 s _ _ _ _ hne _ hQ => by
      beta_reduce
      rw [ppg_green_pixel_frame _ _ _ _ _ _ _ _ (fun e => hne ⟨e.1.symm, e.2.symm⟩)]
      exact hQ)
  exact this.2 j i ((visits_one _ _ _).mpr hj) ((visits_one _ _ _).mpr hi)

/-- The green of the specification lies between the two neighbours on the chosen axis. -/
theorem ppg_green_rule_between (inp : Raw) (j i : Nat) :
    (ppg_diff_x inp j i > ppg_diff_y inp j i →
      min (inp (j - 1) i) (inp (j + 1) i) ≤ ppg_green_rule inp j i ∧
      ppg_green_rule inp j i ≤ max (inp (j - 1) i) (inp (j + 1) i)) ∧
    (¬ ppg_diff_x inp j i > ppg_diff_y inp j i →
      min (inp j (i - 1)) (inp j (i + 1)) ≤ ppg_green_rule inp j i ∧
      ppg_green_rule inp j i ≤ max (inp j (i - 1)) (inp j (i + 1))) := by
  unfold ppg_green_rule
  constructor
  · intro h
    rw [if_pos h, ← clampTo_eq _ _ _ (le_trans (min_le_left _ _) (le_max_left _ _))]
    exact clamp_between _ _ _
  · intro h
    rw [if_neg h, ← clampTo_eq _ _ _ (le_trans (min_le_left _ _) (le_max_left _ _))]
    exact clamp_between _ _ _

/-- The green channel of an interior pixel in the output of `demosaic_ppg`. -/
theorem ppg_green_output (fuel : Nat) (out : Img) (inp : Raw) (wo ho wi hi filters : Nat)
    (thrs : ℚ) (j i : Nat) (hf : wo < fuel) (hj : 3 ≤ j ∧ j < ho - 3)
    (hi2 : 3 ≤ i ∧ i < wo - 3) :
    ∃ o, demosaic_ppg fuel out inp wo ho wi hi filters thrs = some o ∧
      o j i 1 = if FC j i filters = 0 ∨ FC j i filters = 2
        then ppg_green_rule (if thrs > 0 then pre_median inp wi hi filters 1 thrs else inp) j i
        else (if thrs > 0 then pre_median inp wi hi filters 1 thrs else inp) j i := by
  unfold demosaic_ppg
  rw [ppg_border_eq fuel inp wo ho wi hi filters out (by omega) hf]
  simp only []
  refine ⟨_, rfl, ?_⟩
  rw [ppg_pass2_keep filters wo ho _ j i 1 (Or.inr (Or.inl rfl)),
    ppg_pass1_value _ filters wo ho _ j i hj hi2]

/-- C23: at every interior site of the output of `demosaic_ppg`, with `guess_x`, `guess_y`,
`diff_x`, `diff_y` computed from the buffer PPG reads (the raw buffer, or its pre-median when
`thrs > 0`), the green at a red or blue site is `clamp(guess_a / 4, m_a, M_a)` where the axis
`a` is `y` when `diff_x > diff_y` and `x` otherwise, so it lies between the two immediate
neighbours on that axis; at a green site the green is the sample read. -/
theorem C23_ppg_green_rule (fuel : Nat) (out : Img) (inp : Raw) (wo ho wi hi filters : Nat)
    (thrs : ℚ) (j i : Nat) (hf : wo < fuel) (hj : 3 ≤ j ∧ j < ho - 3)
    (hi2 : 3 ≤ i ∧ i < wo - 3) (rd : Raw)
    (hrd : rd = if thrs > 0 then pre_median inp wi hi filters 1 thrs else inp) :
    ∃ o, demosaic_ppg fuel out inp wo ho wi hi filters thrs = some o ∧
      ((FC j i filters = 0 ∨ FC j i filters = 2) →
        (ppg_diff_x rd j i > ppg_diff_y rd j i →
          o j i 1 = clampTo (ppg_guess_y rd j i / 4) (min (rd (j - 1) i) (rd (j + 1) i))
            (max (rd (j - 1) i) (rd (j + 1) i)) ∧
          min (rd (j - 1) i) (rd (j + 1) i) ≤ o j i 1 ∧
          o j i 1 ≤ max (rd (j - 1) i) (rd (j + 1) i)) ∧
        (¬ ppg_diff_x rd j i > ppg_diff_y rd j i →
          o j i 1 = clampTo (ppg_guess_x rd j i / 4) (min (rd j (i - 1)) (rd j (i + 1)))
            (max (rd j (i - 1)) (rd j (i + 1))) ∧
          min (rd j (i - 1)) (rd j (i + 1)) ≤ o j i 1 ∧
          o j i 1 ≤ max (rd j (i - 1)) (rd j (i + 1)))) ∧
      (¬ (FC j i filters = 0 ∨ FC j i filters = 2) → o j i 1 = rd j i) := by
  obtain ⟨o, ho1, hval⟩ := ppg_green_output fuel out inp wo ho wi hi filters thrs j i hf hj hi2
  rw [← hrd] at hval
  refine ⟨o, ho1, ?_, ?_⟩
  · intro hc
    rw [if_pos hc] at hval
    have hb := ppg_green_rule_between rd j i
    constructor
    · intro hd
      have e : ppg_green_rule rd j i = clampTo (ppg_guess_y rd j i / 4)
          (min (rd (j - 1) i) (rd (j + 1) i)) (max (rd (j - 1) i) (rd (j + 1) i)) := by
        unfold ppg_green_rule
        rw [if_pos hd]
      rw [hval]
      exact ⟨e, hb.1 hd⟩
    · intro hd
      have e : ppg_green_rule rd j i = clampTo (ppg_guess_x rd j i / 4)
          (min (rd j (i - 1)) (rd j (i + 1))) (max (rd j (i - 1)) (rd j (i + 1))) := by
        unfold ppg_green_rule
        rw [if_neg hd]
      rw [hval]
      exact ⟨e, hb.2 hd⟩
  · intro hc
    rw [if_neg hc] at hval
    exact hval

/-- C23, instance: the 16x16 RGGB buffer `edgeRaw`, median off, the red site `(4, 8)`. -/
theorem C23_ppg_green_rule_witness :
    ∃ o, demosaic_ppg 17 (fun _ _ _ => 0) edgeRaw 16 16 16 16 0x94949494 0 = some o ∧
      ((FC 4 8 0x94949494 = 0 ∨ FC 4 8 0x94949494 = 2) →
        (ppg_diff_x edgeRaw 4 8 > ppg_diff_y edgeRaw 4 8 →
          o 4 8 1 = clampTo (ppg_guess_y edgeRaw 4 8 / 4)
            (min (edgeRaw (4 - 1) 8) (edgeRaw (4 + 1) 8))
            (max (edgeRaw (4 - 1) 8) (edgeRaw (4 + 1) 8)) ∧
          min (edgeRaw (4 - 1) 8) (edgeRaw (4 + 1) 8) ≤ o 4 8 1 ∧
          o 4 8 1 ≤ max (edgeRaw (4 - 1) 8) (edgeRaw (4 + 1) 8)) ∧
        (¬ ppg_diff_x edgeRaw 4 8 > ppg_diff_y edgeRaw 4 8 →
          o 4 8 1 = clampTo (ppg_guess_x edgeRaw 4 8 / 4)
            (min (edgeRaw 4 (8 - 1)) (edgeRaw 4 (8 + 1)))
            (max (edgeRaw 4 (8 - 1)) (edgeRaw 4 (8 + 1))) ∧
          min (edgeRaw 4 (8 - 1)) (edgeRaw 4 (8 + 1)) ≤ o 4 8 1 ∧
          o 4 8 1 ≤ max (edgeRaw 4 (8 - 1)) (edgeRaw 4 (8 + 1)))) ∧
      (¬ (FC 4 8 0x94949494 = 0 ∨ FC 4 8 0x94949494 = 2) → o 4 8 1 = edgeRaw 4 8) :=
  C23_ppg_green_rule 17 (fun _ _ _ => 0) edgeRaw 16 16 16 16 0x94949494 0 4 8 (by decide)
    (by decide) (by decide) edgeRaw (by simp)

/-- C24: for a raw buffer that is constant along each column, `in[r][c] = v(c)`, with the
median off, at every interior red or blue site `(r, c)` whose horizontal score `diff_x` is
positive, the vertical score `diff_y` is 0, PPG takes the vertical axis and the green it
writes is `v(c)`, the mean of the two vertical neighbours clamped to their min and max. -/
theorem C24_ppg_vertical_edge (fuel : Nat) (out : Img) (inp : Raw) (v : Nat → ℚ)
    (wo ho wi hi filters : Nat) (thrs : ℚ) (j i : Nat) (hf : wo < fuel)
    (hj : 3 ≤ j ∧ j < ho - 3) (hi2 : 3 ≤ i ∧ i < wo - 3) (hthr : thrs ≤ 0)
    (hcol : ∀ r c, inp r c = v c) (hc : FC j i filters = 0 ∨ FC j i filters = 2)
    (hdx : 0 < ppg_diff_x inp j i) :
    ∃ o, demosaic_ppg fuel out inp wo ho wi hi filters thrs = some o ∧
      ppg_diff_y inp j i = 0 ∧ ppg_diff_x inp j i > ppg_diff_y inp j i ∧
      o j i 1 = v i ∧
      o j i 1 = clampTo ((inp (j - 1) i + inp (j + 1) i) / 2)
        (min (inp (j - 1) i) (inp (j + 1) i)) (max (inp (j - 1) i) (inp (j + 1) i)) := by
  obtain ⟨o, ho1, hval⟩ := ppg_green_output fuel out inp wo ho wi hi filters thrs j i hf hj hi2
  rw [if_pos hc, if_neg (not_lt.mpr hthr)] at hval
  have hdy : ppg_diff_y inp j i = 0 := by
    unfold ppg_diff_y
    simp [hcol]
  have hgt : ppg_diff_x inp j i > ppg_diff_y inp j i := by
    rw [hdy]
    exact hdx
  have hclamp : ∀ x : ℚ, clampTo x x x = x := by
    intro x
    unfold clampTo
    simp
  refine ⟨o, ho1, hdy, hgt, ?_, ?_⟩
  · rw [hval]
    unfold ppg_green_rule
    rw [if_pos hgt]
    unfold ppg_guess_y
    simp only [hcol, min_self, max_self]
    have e : ((v i + v i + v i) * 2 - v i - v i) / 4 = v i := by ring
    rw [e, hclamp]
  · rw [hval]
    unfold ppg_green_rule
    rw [if_pos hgt]
    unfold ppg_guess_y
    simp only [hcol, min_self, max_self]
    have e : ((v i + v i + v i) * 2 - v i - v i) / 4 = v i := by ring
    have e2 : (v i + v i) / 2 = v i := by ring
    rw [e, e2]

/-- C24, instance: the 16x16 RGGB buffer with `v = 0.1` for `c < 8` and `0.9` for `c >= 8`,
at the red site `(4, 8)` next to the edge. -/
theorem C24_ppg_vertical_edge_witness :
    ∃ o, demosaic_ppg 17 (fun _ _ _ => 0) edgeRaw 16 16 16 16 0x94949494 0 = some o ∧
      ppg_diff_y edgeRaw 4 8 = 0 ∧ ppg_diff_x edgeRaw 4 8 > ppg_diff_y edgeRaw 4 8 ∧
      o 4 8 1 = (fun c => if c < 8 then (1 : ℚ) / 10 else 9 / 10) 8 ∧
      o 4 8 1 = clampTo ((edgeRaw (4 - 1) 8 + edgeRaw (4 + 1) 8) / 2)
        (min (edgeRaw (4 - 1) 8) (edgeRaw (4 + 1) 8))
        (max (edgeRaw (4 - 1) 8) (edgeRaw (4 + 1) 8)) :=
  C24_ppg_vertical_edge 17 (fun _ _ _ => 0) edgeRaw (fun c => if c < 8 then 1 / 10 else 9 / 10)
    16 16 16 16 0x94949494 0 4 8 (by decide) (by decide) (by decide) (le_refl 0)
    (fun _ _ => rfl) (by decide) (by decide!)

/-! ## Local green equilibration -/

theorem standard_codes :
    ∀ f ∈ standardBayer, ∀ r : Fin 8, ∀ c : Fin 2, FC r.val c.val f ≠ 3 := by
  decide

theorem standard_no_three (filters : Nat) (hs : filters ∈ standardBayer) (r c : Nat) :
    FC r c filters ≠ 3 := by
  rw [FC_mod]
  exact standard_codes filters hs ⟨r % 8, Nat.mod_lt _ (by decide)⟩
    ⟨c % 2, Nat.mod_lt _ (by decide)⟩

theorem standard_isBayer (filters : Nat) (hs : filters ∈ standardBayer) : IsBayer filters := by
  unfold standardBayer at hs
  simp only [List.mem_cons, List.mem_singleton, List.not_mem_nil, or_false] at hs
  rcases hs with rfl | rfl | rfl | rfl <;> decide

/-- For a standard Bayer descriptor the start offsets of `lavg` are `(2, 2)` or `(3, 2)` and
point at a site of colour 1. -/
theorem lavg_offsets_green (filters x y : Nat) (hs : filters ∈ standardBayer) :
    FC ((lavg_offsets filters x y).1 + y) ((lavg_offsets filters x y).2 + x) filters = 1 := by
  have hb := standard_isBayer filters hs
  have h3 := standard_no_three filters hs
  unfold lavg_offsets
  simp only []
  by_cases h1 : FC (2 + y) (2 + x) filters = 1
  · simp [h1]
  · have hlt := FC_lt (2 + y) (2 + x) filters
    have h33 := h3 (2 + y) (2 + x)
    have h02 : FC (2 + y) (2 + x) filters = 0 ∨ FC (2 + y) (2 + x) filters = 2 := by omega
    have hbelow : FC (2 + y + 1) (2 + x) filters % 2 = 1 := by
      rcases h02 with h | h
      · exact ((isBayer_at hb (2 + y) (2 + x)).2.1 h).2.2
      · exact ((isBayer_at hb (2 + y) (2 + x)).2.2 h).2.2
    have hlt2 := FC_lt (2 + y + 1) (2 + x) filters
    have h34 := h3 (2 + y + 1) (2 + x)
    have e : FC (2 + 1 + y) (2 + x) filters = 1 := by
      have e2 : 2 + 1 + y = 2 + y + 1 := by omega
      rw [e2]
      omega
    simp [h1, e]

theorem lavg_offsets_range (filters x y : Nat) :
    ((lavg_offsets filters x y).1 = 2 ∨ (lavg_offsets filters x y).1 = 3) ∧
    ((lavg_offsets filters x y).2 = 2 ∨ (lavg_offsets filters x y).2 = 3) := by
  unfold lavg_offsets
  simp only []
  split_ifs <;> simp

/-- The site update of `lavg` leaves the rule of the specification at its site when the
site still holds the sample or already holds the rule. -/
theorem lavg_site_rule (inp out : Raw) (j i : Nat) (thr : ℚ)
    (h : out j i = inp j i ∨ out j i = lavg_rule inp j i thr) :
    lavg_site inp out j i thr j i = lavg_rule inp j i thr := by
  unfold lavg_site lavg_rule quadMean quadSpread at *
  simp only [one_mul] at *
  have e : ∀ a b c d : ℚ, |a - b| + |a - c| + |a - d| + |b - c| + |c - d| + |b - d|
      = |a - b| + |a - c| + |a - d| + |b - c| + |b - d| + |c - d| := fun a b c d => by ring
  rw [e, e]
  by_cases h1 : (inp (j - 2) i + inp (j + 2) i + inp j (i - 2) + inp j (i + 2)) / 4 > 0 ∧
      (inp (j - 1) (i - 1) + inp (j - 1) (i + 1) + inp (j + 1) (i - 1) + inp (j + 1) (i + 1)) / 4
        / ((inp (j - 2) i + inp (j + 2) i + inp j (i - 2) + inp j (i + 2)) / 4) < 2
  · rw [if_pos h1]
    by_cases h2 : inp j i < 15938355 / 16777216 ∧
        (|inp (j - 1) (i - 1) - inp (j - 1) (i + 1)| + |inp (j - 1) (i - 1) - inp (j + 1) (i - 1)|
          + |inp (j - 1) (i - 1) - inp (j + 1) (i + 1)|
          + |inp (j - 1) (i + 1) - inp (j + 1) (i - 1)|
          + |inp (j - 1) (i + 1) - inp (j + 1) (i + 1)|
          + |inp (j + 1) (i - 1) - inp (j + 1) (i + 1)|) / 6 < thr ∧
        (|inp (j - 2) i - inp (j + 2) i| + |inp (j - 2) i - inp j (i - 2)|
          + |inp (j - 2) i - inp j (i + 2)| + |inp (j + 2) i - inp j (i - 2)|
          + |inp (j + 2) i - inp j (i + 2)| + |inp j (i - 2) - inp j (i + 2)|) / 6 < thr
    · rw [if_pos h2, if_pos ⟨h1.1, h1.2, h2⟩, raw_set_apply, if_pos ⟨rfl, rfl⟩]
    · rw [if_neg h2, if_neg (fun hc => h2 hc.2.2)]
      rw [if_neg (fun hc => h2 hc.2.2)] at h
      rcases h with h | h <;> exact h
  · rw [if_neg h1, if_neg (fun hc => h1 ⟨hc.1, hc.2.1⟩)]
    rw [if_neg (fun hc => h1 ⟨hc.1, hc.2.1⟩)] at h
    rcases h with h | h <;> exact h

/-- C26: `green_equilibration_lavg` (not in place) on a buffer at least 2 wide and 2 high
visits exactly the sites `(j, i)` with `j = oj + 2k < height-2` and `i = oi + 2l < width-2`,
where `(oj, oi)` lies in `{2,3} x {2,3}` and, for a standard Bayer descriptor, has
`FC(oj+y, oi+x) = 1`; at a visited site the output is the rule of the specification
(`in*m1/m2` if `m2 > 0`, `m1/m2 < 2`, `in < 0.95`, `c1 < thr` and `c2 < thr`, else `in`),
0.95 being the `float` constant `0.95f` of the comparison; every site not visited is copied
unchanged. -/
theorem C26_lavg_rule (inp : Raw) (width height filters x y : Nat) (thr : ℚ)
    (hw : 2 ≤ width) (hh : 2 ≤ height) :
    (((lavg_offsets filters x y).1 = 2 ∨ (lavg_offsets filters x y).1 = 3) ∧
      ((lavg_offsets filters x y).2 = 2 ∨ (lavg_offsets filters x y).2 = 3)) ∧
    (filters ∈ standardBayer →
      FC ((lavg_offsets filters x y).1 + y) ((lavg_offsets filters x y).2 + x) filters = 1) ∧
    (∀ j i, Visits (lavg_offsets filters x y).1 (height - 2) 2 j →
      Visits (lavg_offsets filters x y).2 (width - 2) 2 i →
      green_equilibration_lavg inp width height filters x y false thr j i
        = lavg_rule inp j i thr) ∧
    (∀ j i, ¬ (Visits (lavg_offsets filters x y).1 (height - 2) 2 j ∧
        Visits (lavg_offsets filters x y).2 (width - 2) 2 i) →
      green_equilibration_lavg inp width height filters x y false thr j i = inp j i) := by
  have ehh : toSizeT ((height : Int) - 2) = height - 2 := by
    rw [toSizeT_nonneg _ (by omega)]; omega
  have eww : toSizeT ((width : Int) - 2) = width - 2 := by
    rw [toSizeT_nonneg _ (by omega)]; omega
  refine ⟨lavg_offsets_range filters x y, lavg_offsets_green filters x y, ?_, ?_⟩
  · intro j i hj hi
    unfold green_equilibration_lavg
    simp only [Bool.false_eq_true, if_false]
    rw [ehh, eww]
    have key := forLoop2_post
      (fun s : Raw => ∀ r c, s r c = inp r c ∨ s r c = lavg_rule inp r c thr)
      (fun r c (s : Raw) => s r c = lavg_rule inp r c thr)
      (lavg_offsets filters x y).1 (height - 2) 2 (fun _ => (lavg_offsets filters x y).2)
      (fun _ => width - 2) 2 (by decide) (by decide)
      (fun r c out => lavg_site inp out r c thr) inp (fun _ _ => Or.inl rfl)
      (fun r c s _ _ hR => by
        have hval := lavg_site_rule inp s r c thr (hR r c)
        refine ⟨?_, hval⟩
        intro r2 c2
        by_cases e : r2 = r ∧ c2 = c
        · right
          rw [e.1, e.2]
          exact hval
        · beta_reduce
          rw [lavg_site_frame _ _ _ _ _ _ _ e]
          exact hR r2 c2)
      (fun r c r2 c2 s _ _ _ _ hne _ hQ => by
        beta_reduce
        rw [lavg_site_frame _ _ _ _ _ _ _ (fun e => hne ⟨e.1.symm, e.2.symm⟩)]
        exact hQ)
    exact key.2 j i hj hi
  · intro j i hv
    unfold green_equilibration_lavg
    simp only [Bool.false_eq_true, if_false]
    rw [ehh, eww]
    refine forLoop2_inv (fun s : Raw => s j i = inp j i)
      (lavg_offsets filters x y).1 (height - 2) 2 (fun _ => (lavg_offsets filters x y).2)
      (fun _ => width - 2) 2 (by decide) (by decide)
      (fun r c out => lavg_site inp out r c thr) inp rfl ?_
    intro r c s hr hc hs
    beta_reduce
    rw [lavg_site_frame _ _ _ _ _ _ _ (fun e => hv (by rw [e.1, e.2]; exact ⟨hr, hc⟩))]
    exact hs

/-- C26, instance: an 8x8 RGGB buffer of constant 1/2 with threshold 1/100. -/
theorem C26_lavg_rule_witness :
    (((lavg_offsets 0x94949494 0 0).1 = 2 ∨ (lavg_offsets 0x94949494 0 0).1 = 3) ∧
      ((lavg_offsets 0x94949494 0 0).2 = 2 ∨ (lavg_offsets 0x94949494 0 0).2 = 3)) ∧
    (0x94949494 ∈ standardBayer →
      FC ((lavg_offsets 0x94949494 0 0).1 + 0) ((lavg_offsets 0x94949494 0 0).2 + 0)
        0x94949494 = 1) ∧
    (∀ j i, Visits (lavg_offsets 0x94949494 0 0).1 (8 - 2) 2 j →
      Visits (lavg_offsets 0x94949494 0 0).2 (8 - 2) 2 i →
      green_equilibration_lavg (fun _ _ => 1 / 2) 8 8 0x94949494 0 0 false (1 / 100) j i
        = lavg_rule (fun _ _ => 1 / 2) j i (1 / 100)) ∧
    (∀ j i, ¬ (Visits (lavg_offsets 0x94949494 0 0).1 (8 - 2) 2 j ∧
        Visits (lavg_offsets 0x94949494 0 0).2 (8 - 2) 2 i) →
      green_equilibration_lavg (fun _ _ => 1 / 2) 8 8 0x94949494 0 0 false (1 / 100) j i
        = (fun _ _ => (1 : ℚ) / 2) j i) :=
  C26_lavg_rule (fun _ _ => 1 / 2) 8 8 0x94949494 0 0 (1 / 100) (by decide) (by decide)

/-- A sample equal to the `float` constant 0.95f = 15938355/16777216 is not below the bound:
at the site `(4, 4)` of `brightRaw`, where the two means are 3/8 and 1/4 and both spreads are
0, the rule and the function keep the sample. -/
theorem lavg_keeps_bound_sample :
    lavg_rule brightRaw 4 4 (1 / 100) = 15938355 / 16777216 ∧
    green_equilibration_lavg brightRaw 8 8 0x61616161 0 0 false (1 / 100) 4 4
      = 15938355 / 16777216 := by
  decide!

/-! ## The X-Trans linear rule -/

/-- The weighted sum of the interior loop for a colour, as a sum over the list. -/
theorem lin_sum_list (inp : Raw) (row col c : Nat) :
    ∀ (l : List (Int × Int × Nat × Nat)) (s : Nat → ℚ),
      (l.foldl (lin_sum_step inp row col) s) c
        = s c + ((l.filter (fun t => t.2.2.2 = c)).map
            (fun t => rawNbr inp row col (t.1, t.2.1) * (t.2.2.1 : ℚ))).sum := by
  intro l
  induction l with
  | nil => intro s; simp
  | cons t ts ih =>
    intro s
    rw [List.foldl_cons, ih]
    unfold lin_sum_step rawNbr
    by_cases e : t.2.2.2 = c
    · rw [List.filter_cons_of_pos (by simpa using e)]
      simp only [List.map_cons, List.sum_cons, if_pos e.symm]
      ring
    · rw [List.filter_cons_of_neg (by simpa using e)]
      have e2 : ¬ c = t.2.2.2 := fun h => e h.symm
      simp only [if_neg e2]

/-- A list of neighbours built as in `linLookup`, filtered by a colour other than the centre
colour, gives the weighted samples and the weights of the neighbours of that colour. -/
theorem lookup_filter (inp : Raw) (row col c f : Nat) (colour : Int × Int → Nat)
    (weight : Int × Int → Nat) (hcf : c ≠ f) :
    ∀ l : List (Int × Int),
      (((l.filterMap (fun p => if colour p = f then none
            else some (p.1, p.2, weight p, colour p))).filter (fun t => t.2.2.2 = c)).map
          (fun t => rawNbr inp row col (t.1, t.2.1) * (t.2.2.1 : ℚ))).sum
        = ((l.filter (fun p => colour p = c)).map
            (fun p => rawNbr inp row col p * (weight p : ℚ))).sum ∧
      lin_total (l.filterMap (fun p => if colour p = f then none
            else some (p.1, p.2, weight p, colour p))) c
        = ((l.filter (fun p => colour p = c)).map weight).sum := by
  intro l
  induction l with
  | nil => exact ⟨rfl, rfl⟩
  | cons p ps ih =>
    unfold lin_total at ih ⊢
    by_cases e : colour p = c
    · have hne : ¬ colour p = f := fun h => hcf (e.symm.trans h)
      rw [List.filterMap_cons_some (by rw [if_neg hne]), List.filter_cons_of_pos (by simpa using e),
        List.filter_cons_of_pos (by simpa using e)]
      simp only [List.map_cons, List.sum_cons]
      rw [ih.1, ih.2]
      exact ⟨rfl, rfl⟩
    · rw [List.filter_cons_of_neg (by simpa using e)]
      by_cases hf : colour p = f
      · rw [List.filterMap_cons_none (by rw [if_pos hf])]
        exact ih
      · rw [List.filterMap_cons_some (by rw [if_neg hf]),
          List.filter_cons_of_neg (by simpa using e)]
        exact ih

/-- The colours read through the 6x6 phase of a position are those of the position. -/
theorem fcol_period (xtrans : Int → Int → Nat) (row col : Nat) (a b : Int) (ha : -1 ≤ a)
    (hb : -1 ≤ b) :
    fcol xtrans (((row % 6 : Nat) : Int) + a) (((col % 6 : Nat) : Int) + b)
      = fcol xtrans ((row : Int) + a) ((col : Int) + b) := by
  unfold fcol
  rw [fcolIdx_emod _ (by omega), fcolIdx_emod _ (by omega), fcolIdx_emod _ (by omega),
    fcolIdx_emod _ (by omega)]
  have e1 : (((row % 6 : Nat) : Int) + a) % 6 = ((row : Int) + a) % 6 := by omega
  have e2 : (((col % 6 : Nat) : Int) + b) % 6 = ((col : Int) + b) % 6 := by omega
  rw [e1, e2]

theorem offsets3_bounds (p : Int × Int) (hp : p ∈ offsets3) :
    (-1 ≤ p.1 ∧ p.1 ≤ 1) ∧ (-1 ≤ p.2 ∧ p.2 ≤ 1) := by
  simp only [offsets3, List.mem_cons, List.mem_singleton, List.not_mem_nil, or_false] at hp
  rcases hp with h | h | h | h | h | h | h | h | h <;> rw [h] <;> simp

theorem offsets3_filter (q : Int × Int → Bool) (h0 : q (0, 0) = false) :
    offsets3.filter q = offsets8.filter q := by
  have e3 : offsets3 = [(-1, -1), (-1, 0), (-1, 1), (0, -1)] ++ (0, 0)
      :: [(0, 1), (1, -1), (1, 0), (1, 1)] := rfl
  have e8 : offsets8 = [(-1, -1), (-1, 0), (-1, 1), (0, -1)]
      ++ [(0, 1), (1, -1), (1, 0), (1, 1)] := rfl
  rw [e3, e8, List.filter_append, List.filter_append]
  congr 1
  exact List.filter_cons_of_neg (by rw [h0]; exact Bool.false_ne_true)

/-- The interior interpolation of `xtrans_lin_interpolate` stores, for a colour other than
the centre colour, the weighted mean of the specification. -/
theorem xtrans_lin_pixel_rule (inp : Raw) (xtrans : Int → Int → Nat) (ix iy : Int)
    (hix : 0 ≤ ix) (hiy : 0 ≤ iy) (row col : Nat) (o : Img) (c : Nat) (hc : c < 3)
    (hf : fcol xtrans ((row : Int) + iy) ((col : Int) + ix) < 3)
    (hcf : c ≠ fcol xtrans ((row : Int) + iy) ((col : Int) + ix)) :
    xtrans_lin_pixel inp xtrans ix iy row col o row col c
      = lin_rule inp xtrans ix iy row col c := by
  have hper0 := fcol_period xtrans row col iy ix (by omega) (by omega)
  rw [xtrans_lin_pixel_at inp xtrans ix iy row col o c hc (by rw [hper0]; exact hf), hper0,
    if_neg hcf]
  have hn : (linLookup xtrans ix iy (row % 6) (col % 6)).nbrs
      = offsets3.filterMap (fun p =>
          if (fun p : Int × Int => fcol xtrans (((row % 6 : Nat) : Int) + p.1 + iy)
              (((col % 6 : Nat) : Int) + p.2 + ix)) p
              = fcol xtrans (((row % 6 : Nat) : Int) + iy) (((col % 6 : Nat) : Int) + ix)
          then none
          else some (p.1, p.2,
            (fun p : Int × Int => (1 : Nat) <<< ((if p.1 = (0 : Int) then (1 : Nat) else 0)
              + (if p.2 = (0 : Int) then (1 : Nat) else 0))) p,
            (fun p : Int × Int => fcol xtrans (((row % 6 : Nat) : Int) + p.1 + iy)
              (((col % 6 : Nat) : Int) + p.2 + ix)) p)) := rfl
  have hlf := lookup_filter inp row col c
    (fcol xtrans (((row % 6 : Nat) : Int) + iy) (((col % 6 : Nat) : Int) + ix))
    (fun p : Int × Int => fcol xtrans (((row % 6 : Nat) : Int) + p.1 + iy)
      (((col % 6 : Nat) : Int) + p.2 + ix))
    (fun p : Int × Int => (1 : Nat) <<< ((if p.1 = (0 : Int) then (1 : Nat) else 0)
      + (if p.2 = (0 : Int) then (1 : Nat) else 0)))
    (by rw [hper0]; exact hcf) offsets3
  rw [lin_sum_list, hn, hlf.1, hlf.2, zero_add]
  have hfil : offsets3.filter (fun p => decide (fcol xtrans (((row % 6 : Nat) : Int) + p.1 + iy)
      (((col % 6 : Nat) : Int) + p.2 + ix) = c)) = lin_contrib xtrans ix iy row col c := by
    unfold lin_contrib
    rw [← offsets3_filter _ (by
      have e : fcol xtrans ((row : Int) + (0, 0).1 + iy) ((col : Int) + (0, 0).2 + ix)
          = fcol xtrans ((row : Int) + iy) ((col : Int) + ix) := by simp
      rw [e]
      exact decide_eq_false (fun h => hcf h.symm))]
    apply List.filter_congr
    intro p hp
    have hb := offsets3_bounds p hp
    have e := fcol_period xtrans row col (p.1 + iy) (p.2 + ix) (by omega) (by omega)
    rw [← add_assoc, ← add_assoc, ← add_assoc, ← add_assoc] at e
    rw [e]
  rw [hfil]
  unfold lin_rule
  have hmem : ∀ p ∈ lin_contrib xtrans ix iy row col c,
      (1 : Nat) <<< ((if p.1 = (0 : Int) then (1 : Nat) else 0)
        + (if p.2 = (0 : Int) then (1 : Nat) else 0)) = lin_weight p := by
    intro p hp
    unfold lin_contrib at hp
    have hp8 := (List.mem_filter.mp hp).1
    simp only [offsets8, List.mem_cons, List.mem_singleton, List.not_mem_nil, or_false] at hp8
    rcases hp8 with h | h | h | h | h | h | h | h <;> rw [h] <;> rfl
  have e1 : (lin_contrib xtrans ix iy row col c).map (fun p => rawNbr inp row col p
      * (((1 : Nat) <<< ((if p.1 = (0 : Int) then (1 : Nat) else 0)
        + (if p.2 = (0 : Int) then (1 : Nat) else 0)) : Nat) : ℚ))
      = (lin_contrib xtrans ix iy row col c).map
          (fun p => rawNbr inp row col p * (lin_weight p : ℚ)) := by
    apply List.map_congr_left
    intro p hp
    rw [hmem p hp]
  have e2 : (lin_contrib xtrans ix iy row col c).map
      (fun p : Int × Int => (1 : Nat) <<< ((if p.1 = (0 : Int) then (1 : Nat) else 0)
        + (if p.2 = (0 : Int) then (1 : Nat) else 0)))
      = (lin_contrib xtrans ix iy row col c).map lin_weight := by
    apply List.map_congr_left
    intro p hp
    exact hmem p hp
  rw [e1, e2]

/-- C27, counterexample: the 24x24 buffer of the constant `float` 0.3f = 5033165/16777216
with the Fuji table.  At the interior pixel `(1, 2)` the `float` sum of the weighted green
neighbours is rounded, and so is the quotient by the total weight: the green channel
receives 10066329/33554432, which is below every contributing sample. -/
theorem C27_rounded_mean_below_samples :
    ∃ o, xtrans_lin_interpolate_fl f32 25 (fun _ _ _ => 0) (fun _ _ => 5033165 / 16777216)
        24 24 24 24 0 0 xtransStd = some o ∧
      fcol xtransStd 1 2 ≠ 1 ∧
      o 1 2 1 = 10066329 / 33554432 ∧
      ∀ p ∈ lin_contrib xtransStd 0 0 1 2 1,
        o 1 2 1 < rawNbr (fun _ _ => 5033165 / 16777216) 1 2 p := by
  have h : (xtrans_lin_interpolate_fl f32 25 (fun _ _ _ => 0) (fun _ _ => 5033165 / 16777216)
      24 24 24 24 0 0 xtransStd).map (fun o => o 1 2 1) = some (10066329 / 33554432) := by
    decide!
  obtain ⟨o, ho, hv⟩ := Option.map_eq_some'.mp h
  refine ⟨o, ho, by decide, hv, fun p _ => ?_⟩
  rw [hv]
  unfold rawNbr
  norm_num

/-- C27 (amended): for a complete table and a non-negative ROI offset, at every interior
pixel (not on the outermost one-pixel frame) with native colour `f`,
`xtrans_lin_interpolate` returns and writes the raw sample in channel `f` and, for each
other colour `c`, the weighted sum of the raw samples of colour `c` among the eight
neighbours, weight 2 for the edge neighbours and 1 for the corner neighbours, over their
total weight. -/
theorem C27_xtrans_lin_rule {xtrans : Int → Int → Nat} (hx : XtransComplete xtrans)
    (ix iy : Int) (hix : 0 ≤ ix) (hiy : 0 ≤ iy) (fuel : Nat) (out : Img) (inp : Raw)
    (wo ho wi hi : Nat) (hf : wo < fuel) (row col : Nat) (hr : 1 ≤ row ∧ row < ho - 1)
    (hc : 1 ≤ col ∧ col < wo - 1) :
    ∃ o, xtrans_lin_interpolate fuel out inp wo ho wi hi ix iy xtrans = some o ∧
      o row col (fcol xtrans ((row : Int) + iy) ((col : Int) + ix)) = inp row col ∧
      ∀ c, c < 3 → c ≠ fcol xtrans ((row : Int) + iy) ((col : Int) + ix) →
        o row col c = lin_rule inp xtrans ix iy row col c := by
  unfold xtrans_lin_interpolate
  rw [xtrans_border_eq fuel inp xtrans ix iy wo ho wi hi out hf]
  refine ⟨_, rfl, ?_⟩
  have hcolour : ∀ r k : Nat, fcol xtrans ((r : Int) + iy) ((k : Int) + ix) < 3 :=
    fun r k => (complete_at hx _ _ (by omega) (by omega)).1
  have key := forLoop2_post (fun _ : Img => True)
    (fun r k (s : Img) => ∀ ch, ch < 3 → s r k ch
      = if ch = fcol xtrans ((r : Int) + iy) ((k : Int) + ix) then inp r k
        else lin_rule inp xtrans ix iy r k ch)
    1 (ho - 1) 1 (fun _ => 1) (fun _ => wo - 1) 1 Nat.one_pos Nat.one_pos
    (fun row col o => xtrans_lin_pixel inp xtrans ix iy row col o)
    (forLoop 0 ho 1 (xtrans_border_row inp xtrans ix iy wo ho wi hi) out) trivial
    (fun r k s _ _ _ => ⟨trivial, fun ch hch => by
      beta_reduce
      by_cases e : ch = fcol xtrans ((r : Int) + iy) ((k : Int) + ix)
      · rw [if_pos e]
        have hper := fcol_period xtrans r k iy ix (by omega) (by omega)
        rw [xtrans_lin_pixel_at inp xtrans ix iy r k s ch hch (by rw [hper]; exact hcolour r k),
          hper, if_pos e]
      · rw [if_neg e]
        exact xtrans_lin_pixel_rule inp xtrans ix iy hix hiy r k s ch hch (hcolour r k) e⟩)
    (fun r k r2 k2 s _ _ _ _ hne _ hQ => by
      intro ch hch
      beta_reduce
      rw [xtrans_lin_pixel_frame _ _ _ _ _ _ _ _ _ _ (fun e => hne ⟨e.1.symm, e.2.symm⟩)]
      exact hQ ch hch)
  have hval := key.2 row col ((visits_one _ _ _).mpr hr) ((visits_one _ _ _).mpr hc)
  constructor
  · have := hval _ (hcolour row col)
    rw [if_pos rfl] at this
    exact this
  · intro c hc3 hcf
    have hv := hval c hc3
    rw [if_neg hcf] at hv
    exact hv

/-- C27 (amended), instance: the 24x24 buffer `edgeRaw` with the Fuji table, pixel `(5, 7)`. -/
theorem C27_xtrans_lin_rule_witness :
    ∃ o, xtrans_lin_interpolate 25 (fun _ _ _ => 0) edgeRaw 24 24 24 24 0 0
        xtransStd = some o ∧
      o 5 7 (fcol xtransStd (((5 : Nat) : Int) + 0) (((7 : Nat) : Int) + 0)) = edgeRaw 5 7 ∧
      ∀ c, c < 3 → c ≠ fcol xtransStd (((5 : Nat) : Int) + 0) (((7 : Nat) : Int) + 0) →
        o 5 7 c = lin_rule edgeRaw xtransStd 0 0 5 7 c :=
  C27_xtrans_lin_rule xtransStd_complete 0 0 (le_refl 0) (le_refl 0) 25 (fun _ _ _ => 0)
    edgeRaw 24 24 24 24 (by decide) 5 7 (by decide) (by decide)

/-! ## VNG: phase and the averaging division -/

/-- With ROI offsets that are non-negative multiples of 6 the colour of a position does not
depend on the offset. -/
theorem fcol_shift_six (xtrans : Int → Int → Nat) (row col : Nat) (a b : Nat) :
    fcol xtrans ((row : Int) + 6 * (a : Int)) ((col : Int) + 6 * (b : Int))
      = fcol xtrans (row : Int) (col : Int) := by
  unfold fcol
  rw [fcolIdx_emod _ (by omega), fcolIdx_emod _ (by omega), fcolIdx_emod _ (by omega),
    fcolIdx_emod _ (by omega)]
  have e1 : ((row : Int) + 6 * (a : Int)) % 6 = (row : Int) % 6 := by omega
  have e2 : ((col : Int) + 6 * (b : Int)) % 6 = (col : Int) % 6 := by omega
  rw [e1, e2]

/-- C28 (failing input): for the ROI `y = 3` at scale 1 of an X-Trans image, which
`modify_roi_in` leaves at `roi_in.y = 3`, and the Fuji table, the colour
`xtrans_vng_interpolate` uses at the output position `(0, 1)`, `fcol(0, 1)`, is blue (2),
while the raw sample stored there has the colour `fcol(0 + 3, 1 + 0)`, red (0), which is the
centre colour of the lookup record of `xtrans_lin_interpolate`. -/
theorem C28_vng_phase_mismatch :
    (modify_roi_in 9 6000 4000 ⟨0, 3, 300, 300, 1⟩).x = 0 ∧
    (modify_roi_in 9 6000 4000 ⟨0, 3, 300, 300, 1⟩).y = 3 ∧
    fcol xtransStd 0 1 = 2 ∧ fcol xtransStd (0 + 3) (1 + 0) = 0 ∧
    (linLookup xtransStd 0 3 0 1).colorpix = 0 := by
  decide!

theorem vng_gval_nonneg (o : Img) (xtrans : Int → Int → Nat) (row col : Nat) (g : Nat) :
    0 ≤ vng_gval o xtrans row col g := by
  unfold vng_gval
  have inner : ∀ (dirs : List Nat) (diff : ℚ) (gv : Nat → ℚ), 0 ≤ diff → (∀ n, 0 ≤ gv n) →
      ∀ n, 0 ≤ (dirs.foldl (fun gv g => fun n => if n = g then gv n + diff else gv n) gv) n := by
    intro dirs diff
    induction dirs with
    | nil => intro gv _ h; exact h
    | cons d ds ih =>
      intro gv hd h
      rw [List.foldl_cons]
      apply ih _ hd
      intro n
      split_ifs
      · linarith [h n]
      · exact h n
  have outer : ∀ (l : List VngGrad) (gv : Nat → ℚ), (∀ n, 0 ≤ gv n) →
      ∀ n, 0 ≤ (l.foldl (fun gval t =>
        t.dirs.foldl (fun gv g => fun n =>
          if n = g then gv n + |pixAt o row col t.y1 t.x1 t.color
            - pixAt o row col t.y2 t.x2 t.color| * (t.weight : ℚ) else gv n) gval) gv) n := by
    intro l
    induction l with
    | nil => intro gv h; exact h
    | cons t ts ih =>
      intro gv h
      rw [List.foldl_cons]
      apply ih
      exact inner t.dirs _ gv (mul_nonneg (abs_nonneg _) (Nat.cast_nonneg _)) h
  exact outer _ _ (fun _ => le_refl 0) g

/-- The minimum of `for (g=1; g < 8; g++)` is one of the eight values, and the maximum is at
least `gval[0]`. -/
theorem vng_minmax_spec (gval : Nat → ℚ) :
    (∃ g, g < 8 ∧ (vng_minmax gval).1 = gval g) ∧ gval 0 ≤ (vng_minmax gval).2 := by
  unfold vng_minmax
  refine forLoop_inv (fun m : ℚ × ℚ => (∃ g, g < 8 ∧ m.1 = gval g) ∧ gval 0 ≤ m.2)
    1 8 1 Nat.one_pos _ (gval 0, gval 0) ⟨⟨0, by decide, rfl⟩, le_refl _⟩ ?_
  intro g m hg hm
  rw [visits_one] at hg
  simp only []
  constructor
  · split_ifs
    · exact ⟨g, hg.2, rfl⟩
    · exact hm.1
  · split_ifs with h
    · exact le_trans hm.2 (le_of_lt h)
    · exact hm.2

/-- The count `num` is at least 1 when some direction passes the threshold. -/
theorem vng_average_num (o : Img) (xtrans : Int → Int → Nat) (row col : Nat) (gval : Nat → ℚ)
    (thold : ℚ) (g : Nat) (hg : g < 8) (hle : gval g ≤ thold) :
    1 ≤ (vng_average o xtrans row col gval thold).2 := by
  unfold vng_average
  simp only []
  have key := forLoop_post (fun _ : (Nat → ℚ) × Nat => True)
    (fun k (s : (Nat → ℚ) × Nat) => gval k ≤ thold → 1 ≤ s.2) 0 8 1 Nat.one_pos
    (fun g s =>
      if gval g ≤ thold then
        (fun c => if c < 3 then
            (if c = fcol xtrans (row : Int) (col : Int) ∧
                ((vng_nbrs xtrans (row % 6) (col % 6)).getD g (0, 0, false)).2.2 = true
              then s.1 c + (o row col c + pixAt o row col
                (((vng_nbrs xtrans (row % 6) (col % 6)).getD g (0, 0, false)).1 * 2)
                (((vng_nbrs xtrans (row % 6) (col % 6)).getD g (0, 0, false)).2.1 * 2)
                (fcol xtrans (row : Int) (col : Int))) * (1 / 2)
              else s.1 c + pixAt o row col
                ((vng_nbrs xtrans (row % 6) (col % 6)).getD g (0, 0, false)).1
                ((vng_nbrs xtrans (row % 6) (col % 6)).getD g (0, 0, false)).2.1 c)
          else s.1 c,
         s.2 + 1)
      else s) (fun _ => 0, 0) trivial
    (fun k s _ _ => ⟨trivial, fun h => by
      beta_reduce
      rw [if_pos h]
      exact Nat.le_add_left 1 s.2⟩)
    (fun k k2 s _ _ _ _ hQ h => by
      beta_reduce
      split_ifs
      · exact le_trans (hQ h) (Nat.le_succ _)
      · exact hQ h)
  exact key.2 g ((visits_one _ _ _).mpr ⟨Nat.zero_le _, hg⟩) hle

/-- C29: the gradient sums `gval[0..7]` are non-negative; for every eight non-negative sums
with `gmax != 0`, at least one direction has `gval[g] <= gmin + 0.5*gmax`, so the count `num`
by which `(sum[c] - sum[native])` is divided is at least 1; and when `gmax = 0` the pixel is
copied from the image of the linear pass, without any division. -/
theorem C29_vng_division_guarded (o : Img) (xtrans : Int → Int → Nat) (row col : Nat) :
    (∀ g, 0 ≤ vng_gval o xtrans row col g) ∧
    (∀ gval : Nat → ℚ, (∀ g, 0 ≤ gval g) → (vng_minmax gval).2 ≠ 0 →
      (∃ g, g < 8 ∧ gval g ≤ (vng_minmax gval).1 + (vng_minmax gval).2 * (1 / 2)) ∧
      1 ≤ (vng_average o xtrans row col gval
        ((vng_minmax gval).1 + (vng_minmax gval).2 * (1 / 2))).2) ∧
    (∀ old : Nat → ℚ, (vng_minmax (vng_gval o xtrans row col)).2 = 0 →
      ∀ c, c < 4 → vng_pixel o xtrans row col old c = o row col c) := by
  refine ⟨vng_gval_nonneg o xtrans row col, ?_, ?_⟩
  · intro gval hnn _
    obtain ⟨⟨g, hg, hmin⟩, hmax⟩ := vng_minmax_spec gval
    have hle : gval g ≤ (vng_minmax gval).1 + (vng_minmax gval).2 * (1 / 2) := by
      have := hnn 0
      rw [hmin]
      linarith
    exact ⟨⟨g, hg, hle⟩, vng_average_num o xtrans row col gval _ g hg hle⟩
  · intro old h0 c hc
    unfold vng_pixel
    simp only []
    rw [if_pos h0]
    rw [if_pos hc]

/-! ## The sentinel median and the median of the included samples -/

theorem getD_ofFn9 (l : List ℚ) (h : l.length = 9) :
    List.ofFn (fun k : Fin 9 => l.getD k.val 0) = l := by
  obtain ⟨a0, a1, a2, a3, a4, a5, a6, a7, a8, rfl⟩ := list9_of_length l h
  rfl

theorem diamond_length (row col : Nat) : (diamond row col).length = 9 := by
  rfl

/-- The nine entries of `med` are, up to order, the included samples followed by the
excluded samples plus 64. -/
theorem medEntry_perm (threshold centre : ℚ) (vals : List ℚ) :
    (vals.map (medEntry threshold centre)).Perm
      (vals.filter (fun v => decide (|v - centre| < threshold))
        ++ (vals.filter (fun v => !decide (|v - centre| < threshold))).map (fun v => 64 + v)) := by
  induction vals with
  | nil => exact List.Perm.refl _
  | cons v vs ih =>
    by_cases h : |v - centre| < threshold
    · have e1 : medEntry threshold centre v = v := by unfold medEntry; rw [if_pos h]
      rw [List.map_cons, e1, List.filter_cons_of_pos (by simpa using h),
        List.filter_cons_of_neg (by simpa using h), List.cons_append]
      exact List.Perm.cons _ ih
    · have e1 : medEntry threshold centre v = 64 + v := by unfold medEntry; rw [if_neg h]
      rw [List.map_cons, e1, List.filter_cons_of_neg (by simpa using h),
        List.filter_cons_of_pos (by simpa using h), List.map_cons]
      exact (List.Perm.cons _ ih).trans List.perm_middle.symm

/-- When every included sample is at most 64 plus every excluded sample, the ascending sort
of the nine entries starts with the ascending sort of the included samples. -/
theorem sentinel_sort_split (threshold centre : ℚ) (vals : List ℚ)
    (hsep : ∀ a ∈ vals, ∀ b ∈ vals, |a - centre| < threshold → ¬ |b - centre| < threshold →
      a ≤ 64 + b) :
    List.insertionSort (fun a b : ℚ => a ≤ b) (vals.map (medEntry threshold centre))
      = List.insertionSort (fun a b : ℚ => a ≤ b)
          (vals.filter (fun v => decide (|v - centre| < threshold)))
        ++ List.insertionSort (fun a b : ℚ => a ≤ b)
          ((vals.filter (fun v => !decide (|v - centre| < threshold))).map (fun v => 64 + v)) := by
  have hp : (List.insertionSort (fun a b : ℚ => a ≤ b) (vals.map (medEntry threshold centre))).Perm
      (List.insertionSort (fun a b : ℚ => a ≤ b)
          (vals.filter (fun v => decide (|v - centre| < threshold)))
        ++ List.insertionSort (fun a b : ℚ => a ≤ b)
          ((vals.filter (fun v => !decide (|v - centre| < threshold))).map (fun v => 64 + v))) := by
    refine (List.perm_insertionSort _ _).trans ((medEntry_perm threshold centre vals).trans ?_)
    exact List.Perm.append (List.perm_insertionSort _ _).symm (List.perm_insertionSort _ _).symm
  have hs1 : (List.insertionSort (fun a b : ℚ => a ≤ b)
      (vals.map (medEntry threshold centre))).Sorted (fun a b : ℚ => a ≤ b) :=
    List.sorted_insertionSort _ _
  have hs2 : (List.insertionSort (fun a b : ℚ => a ≤ b)
          (vals.filter (fun v => decide (|v - centre| < threshold)))
        ++ List.insertionSort (fun a b : ℚ => a ≤ b)
          ((vals.filter (fun v => !decide (|v - centre| < threshold))).map
            (fun v => 64 + v))).Sorted (fun a b : ℚ => a ≤ b) := by
    unfold List.Sorted
    rw [List.pairwise_append]
    refine ⟨List.sorted_insertionSort _ _, List.sorted_insertionSort _ _, ?_⟩
    intro a ha b hb
    have ha2 := (List.perm_insertionSort _ _).mem_iff.mp ha
    have hb2 := (List.perm_insertionSort _ _).mem_iff.mp hb
    rw [List.mem_filter] at ha2
    rw [List.mem_map] at hb2
    obtain ⟨b0, hb0, rfl⟩ := hb2
    rw [List.mem_filter] at hb0
    exact hsep a ha2.1 b0 hb0.1 (by simpa using ha2.2) (by simpa using hb0.2)
  exact List.eq_of_perm_of_sorted hp hs1 hs2

/-- C30 (as stated, refuted): at the green site `(4, 5)` of the RGGB buffer `pairRaw`, with
threshold 1, two samples are included (both 100) and seven are excluded (all 0, entered as
64): the sentinel median `med[(2-1)/2] = med[0]` is 64, while the element of index 0 of the
sorted included samples is 100. -/
theorem C30_sentinel_below_included :
    FC 4 5 0x94949494 = 1 ∧
    (included_samples pairRaw 4 5 1).length = 2 ∧
    pre_median_site pairRaw 4 5 1 = 64 ∧
    pre_median pairRaw 16 16 0x94949494 1 1 4 5 = 64 ∧
    explicit_median pairRaw 4 5 1 = some 100 := by
  decide!

/-- C30 (amended): for every threshold and every nine-sample neighbourhood in which at least
two samples are included and every included sample is at most 64 plus every excluded sample
(as for samples in a range of width at most 64, such as [0, 1]), the value `pre_median_b`
selects with the +64 sentinel, `med[(cnt-1)/2]` of the sorted nine, is the element of index
`(cnt-1)/2` of the ascending sort of the included samples alone. -/
theorem C30_sentinel_median (inp : Raw) (row col : Nat) (threshold : ℚ)
    (hcnt : 2 ≤ (included_samples inp row col threshold).length)
    (hsep : ∀ a ∈ (diamond row col).map (fun p => inp p.1 p.2),
      ∀ b ∈ (diamond row col).map (fun p => inp p.1 p.2),
      |a - inp row col| < threshold → ¬ |b - inp row col| < threshold → a ≤ 64 + b) :
    explicit_median inp row col threshold = some (pre_median_site inp row col threshold) := by
  have hlen : ((diamond row col).map (fun p => inp p.1 p.2)).length = 9 := by
    rw [List.length_map, diamond_length]
  have hcntle : (included_samples inp row col threshold).length ≤ 9 := by
    unfold included_samples
    exact le_trans (List.length_filter_le _ _) (le_of_eq hlen)
  have hcnt_eq : ((diamond row col).map (fun p => inp p.1 p.2)).countP
      (fun v => decide (|v - inp row col| < threshold))
      = (included_samples inp row col threshold).length := by
    unfold included_samples
    rw [List.countP_eq_length_filter]
  unfold pre_median_site
  simp only []
  rw [hcnt_eq, if_neg (by omega)]
  have hk : (((included_samples inp row col threshold).length - 1) / 2) < 9 := by omega
  have hfin : ((Fin.ofNat (((included_samples inp row col threshold).length - 1) / 2) : Fin 9)).val
      = ((included_samples inp row col threshold).length - 1) / 2 := by
    show (((included_samples inp row col threshold).length - 1) / 2) % 9 = _
    exact Nat.mod_eq_of_lt hk
  have h1 := runNetwork_getElem exchangeNetwork
    (fun k : Fin 9 => (((diamond row col).map (fun p => inp p.1 p.2)).map
      (medEntry threshold (inp row col))).getD k.val 0)
    (Fin.ofNat (((included_samples inp row col threshold).length - 1) / 2))
  rw [exchangeNetwork_eq_sorted, hfin] at h1
  rw [← h1]
  unfold sorted9
  rw [getD_ofFn9 _ (by rw [List.length_map]; exact hlen),
    sentinel_sort_split threshold (inp row col) _ hsep]
  unfold explicit_median
  rw [List.getElem?_append_left (by rw [List.length_insertionSort]; unfold included_samples at hcnt ⊢; omega)]
  rfl

theorem C30_sentinel_median_witness :
    explicit_median edgeRaw 4 8 (1 / 2) = some (pre_median_site edgeRaw 4 8 (1 / 2)) :=
  C30_sentinel_median edgeRaw 4 8 (1 / 2) (by decide!) (by
    intro a ha b hb _ _
    have hu : ∀ v ∈ (diamond 4 8).map (fun p => edgeRaw p.1 p.2), 0 ≤ v ∧ v ≤ 1 := by decide!
    have := hu a ha
    have := hu b hb
    linarith)

/-! ## Pre-median: the sites it can change -/

/-- C31: for every standard Bayer descriptor, every threshold and every number of passes,
`pre_median` leaves every red site, every blue site and every site within 3 pixels of an
edge equal to the input; a site whose value differs from the input is a green site (code 1)
with `3 <= row < height-3` and `3 <= col < width-3`. -/
theorem C31_pre_median_interior_greens (inp : Raw) (width height filters num_passes : Nat)
    (threshold : ℚ) (row col : Nat) (hs : filters ∈ standardBayer) :
    ((FC row col filters = 0 ∨ FC row col filters = 2) →
      pre_median inp width height filters num_passes threshold row col = inp row col) ∧
    (¬ (3 ≤ row ∧ row < height - 3 ∧ 3 ≤ col ∧ col < width - 3) →
      pre_median inp width height filters num_passes threshold row col = inp row col) ∧
    (pre_median inp width height filters num_passes threshold row col ≠ inp row col →
      FC row col filters = 1 ∧ 3 ≤ row ∧ row < height - 3 ∧ 3 ≤ col ∧ col < width - 3) := by
  have hb := standard_isBayer filters hs
  have hcol : Visits (if FC row 3 filters ≠ 1 ∧ FC row 3 filters ≠ 3 then 4 else 3)
      (width - 3) 2 col → 3 ≤ col ∧ col < width - 3 := by
    intro h
    unfold Visits at h
    split_ifs at h <;> omega
  have hred : (FC row col filters = 0 ∨ FC row col filters = 2) →
      pre_median inp width height filters num_passes threshold row col = inp row col := by
    intro hc
    unfold pre_median
    apply pre_median_b_unvisited
    intro hv
    have := pre_median_visits_only_green hb width row col hv.2
    omega
  have hframe : ¬ (3 ≤ row ∧ row < height - 3 ∧ 3 ≤ col ∧ col < width - 3) →
      pre_median inp width height filters num_passes threshold row col = inp row col := by
    intro hn
    unfold pre_median
    apply pre_median_b_unvisited
    intro hv
    apply hn
    have h1 := (visits_one _ _ _).mp hv.1
    have h2 := hcol hv.2
    exact ⟨h1.1, h1.2, h2.1, h2.2⟩
  refine ⟨hred, hframe, ?_⟩
  intro hne
  have h3 := standard_no_three filters hs row col
  have hlt := FC_lt row col filters
  have hg : FC row col filters = 1 := by
    by_contra hg
    exact hne (hred (by omega))
  have hin : 3 ≤ row ∧ row < height - 3 ∧ 3 ≤ col ∧ col < width - 3 := by
    by_contra hn
    exact hne (hframe hn)
  exact ⟨hg, hin⟩

/-- C31, instance: the red site `(4, 4)` of the 16x16 RGGB buffer `pairRaw`. -/
theorem C31_pre_median_interior_greens_witness :
    pre_median pairRaw 16 16 0x94949494 1 1 4 4 = pairRaw 4 4 :=
  (C31_pre_median_interior_greens pairRaw 16 16 0x94949494 1 1 4 4 (by decide)).1
    (Or.inl (by decide))

/-! ## Dispatcher: the override condition and the fast path -/

/-- C35: the method `process` uses differs from the configured one only if the pipeline is
full, `qual < 2` and `scale <= 0.99999`; under that condition, for `qual = 1` as for
`qual = 0` and every other `qual < 2`, a Bayer image gets PPG and an X-Trans image
`min(configured, LINEAR + qual)`, so that at `qual = 1` MARKESTEIJN_1 and MARKESTEIJN_3 become
VNG (and at `qual = 0` every method above LINEAR becomes LINEAR). -/
theorem C35_downgrade_condition (p : ProcessInput) :
    ((process p).method ≠ p.demosaicing_method →
      p.pipe = PipeType.full ∧ p.qual < 2 ∧ p.scale ≤ 99999 / 100000) ∧
    (p.pipe = PipeType.full ∧ p.qual < 2 ∧ p.scale ≤ 99999 / 100000 →
      (p.filters ≠ 9 → (process p).method = DT_IOP_DEMOSAIC_PPG) ∧
      (p.filters = 9 →
        (process p).method = min p.demosaicing_method (DT_IOP_DEMOSAIC_LINEAR + p.qual)) ∧
      (p.filters = 9 → p.qual = 1 →
        (p.demosaicing_method = DT_IOP_DEMOSAIC_MARKESTEIJN ∨
          p.demosaicing_method = DT_IOP_DEMOSAIC_MARKESTEIJN_3) →
        (process p).method = DT_IOP_DEMOSAIC_VNG) ∧
      (p.filters = 9 → p.qual = 0 → DT_IOP_DEMOSAIC_LINEAR ≤ p.demosaicing_method →
        (process p).method = DT_IOP_DEMOSAIC_LINEAR)) := by
  rw [process_method_eq]
  unfold process_method
  constructor
  · intro hne
    by_contra hc
    rw [if_neg hc] at hne
    exact hne rfl
  · intro hc
    rw [if_pos hc]
    refine ⟨?_, ?_, ?_, ?_⟩
    · intro h9
      rw [if_pos h9]
    · intro h9
      rw [if_neg (not_not.mpr h9)]
    · intro h9 hq hm
      rw [if_neg (not_not.mpr h9), hq]
      unfold DT_IOP_DEMOSAIC_MARKESTEIJN DT_IOP_DEMOSAIC_MARKESTEIJN_3 at hm
      unfold DT_IOP_DEMOSAIC_LINEAR DT_IOP_DEMOSAIC_VNG
      rcases hm with h | h <;> rw [h] <;> decide
    · intro h9 hq hm
      rw [if_neg (not_not.mpr h9), hq]
      unfold DT_IOP_DEMOSAIC_LINEAR at hm ⊢
      rw [min_eq_right (by omega)]
      rfl

/-- C36: whenever `process` takes the half-size or third-size branch the pipeline is not
export, so `pre_median_b`, which that branch calls only for the export pipeline with
`median_thrs > 0`, is not among the calls. -/
theorem C36_fast_path_no_pre_median (p : ProcessInput)
    (h : (process p).path = Path.subsample) :
    p.pipe ≠ PipeType.export ∧
    ¬ (p.pipe = PipeType.export ∧ p.median_thrs > 0) ∧
    Call.pre_median_b ∉ (process p).calls ∧
    (process p).calls = (if p.filters = 9 then [Call.third_size_xtrans] else [Call.half_size])
      ++ (if p.color_smoothing ≠ 0 then [Call.color_smoothing p.color_smoothing] else []) := by
  have hp := (path_cases _ _ _ (process_path_eq p)).2.2.mp h
  have hne : p.pipe ≠ PipeType.export := fun e => hp.2 (Or.inr (Or.inr e))
  have hcalls : (process p).calls
      = (if p.filters = 9 then [Call.third_size_xtrans] else [Call.half_size])
        ++ (if p.color_smoothing ≠ 0 then [Call.color_smoothing p.color_smoothing] else []) := by
    unfold process
    simp only []
    rw [if_neg hp.1, if_neg hp.2]
    simp only [if_neg (fun e : p.pipe = PipeType.export ∧ p.median_thrs > 0 => hne e.1)]
  refine ⟨hne, fun e => hne e.1, ?_, hcalls⟩
  rw [hcalls]
  split_ifs <;> simp

/-- C36, instance: a Bayer image on the preview pipeline at scale 0.3 with the median on. -/
theorem C36_fast_path_no_pre_median_witness :
    Call.pre_median_b ∉ (process ⟨PipeType.preview, 1, 3 / 10, 0x94949494, 0, 0, 1 / 2, 0⟩).calls :=
  (C36_fast_path_no_pre_median ⟨PipeType.preview, 1, 3 / 10, 0x94949494, 0, 0, 1 / 2, 0⟩
    (by decide!)).2.2.1

/-! ## Markesteijn: mirror indexing, tiles and the vote -/

/-- C40: for every padded size of at least 20 and every `n` with `-1 <= n <= size`,
`TRANSLATE(n, size)` lies in `[0, size-12)`, a valid index of the unpadded raw buffer; it is
`n-6` for `6 <= n < size-6`, the reflection `-(n-6)` of `n-6` about index 0 for `n < 6`, and
the reflection `2 (size-13) - (n-6)` about the last index `size-13` for `n >= size-6`. -/
theorem C40_translate_in_bounds (n size : Int) (hs : 20 ≤ size) (hn : -1 ≤ n ∧ n ≤ size) :
    (0 ≤ TRANSLATE n size ∧ TRANSLATE n size < size - 12) ∧
    (6 ≤ n ∧ n < size - 6 → TRANSLATE n size = n - 6) ∧
    (n < 6 → TRANSLATE n size = -(n - 6)) ∧
    (size - 6 ≤ n → TRANSLATE n size = 2 * (size - 13) - (n - 6)) := by
  unfold TRANSLATE
  refine ⟨?_, ?_, ?_, ?_⟩
  · split_ifs <;> omega
  · intro h
    rw [if_neg (by omega), if_neg (by omega)]
  · intro h
    rw [if_pos h]
    omega
  · intro h
    rw [if_neg (by omega), if_pos (by omega)]
    omega

/-- C40, instance: padded size 20, `n = -1` is mirrored to index 7, the last raw index. -/
theorem C40_translate_in_bounds_witness :
    (0 ≤ TRANSLATE (-1) 20 ∧ TRANSLATE (-1) 20 < 20 - 12) ∧ TRANSLATE (-1) 20 = -(-1 - 6) :=
  ⟨(C40_translate_in_bounds (-1) 20 (by decide) (by decide)).1,
   (C40_translate_in_bounds (-1) 20 (by decide) (by decide)).2.2.1 (by decide)⟩

/-- C33: for every padded size of at least 23 (rows with the height, columns with the
width), the ranges `[top + min(top, 8), top + mrow - 8)` written by the averaging loops of
the tiles `top = 3, 3 + 240, ...` with `top < size - 19` cover exactly the indices
`6 <= r < size - 6`, and no index is written by two tiles. -/
theorem C33_tile_partition (size : Nat) (hs : 23 ≤ size) (r : Int) :
    ((6 ≤ r ∧ r < (size : Int) - 6) ↔
      ∃ top : Nat, tile_start size top ∧ tile_writes (size : Int) (top : Int) r) ∧
    (∀ top top2 : Nat, tile_start size top → tile_start size top2 →
      tile_writes (size : Int) (top : Int) r → tile_writes (size : Int) (top2 : Int) r →
      top = top2) := by
  unfold tile_start tile_writes tile_mrow Visits TS
  simp only []
  constructor
  · constructor
    · intro ⟨h1, h2⟩
      by_cases hsmall : r < 251
      · refine ⟨3, ⟨by omega, by omega, by decide⟩, ?_⟩
        constructor
        · simp only [Nat.cast_ofNat]
          omega
        · simp only [Nat.cast_ofNat]
          split_ifs <;> omega
      · obtain ⟨k, hk⟩ : ∃ k : Nat, (k : Int) = (r - 11) / 240 := ⟨((r - 11) / 240).toNat, by omega⟩
        by_cases hlast : 3 + 240 * (k : Int) < (size : Int) - 19
        · refine ⟨3 + 240 * k, ⟨by omega, by omega, by omega⟩, ?_⟩
          push_cast
          constructor
          · omega
          · split_ifs <;> omega
        · refine ⟨3 + 240 * (k - 1), ⟨by omega, by omega, by omega⟩, ?_⟩
          have hk1 : 1 ≤ k := by omega
          have e : ((3 + 240 * (k - 1) : Nat) : Int) = 240 * (k : Int) - 237 := by omega
          rw [e]
          constructor
          · omega
          · split_ifs <;> omega
    · intro ⟨top, ⟨ht1, ht2, ht3⟩, hw1, hw2⟩
      split_ifs at hw2 <;> omega
  · intro top top2 ⟨ht1, ht2, ht3⟩ ⟨hu1, hu2, hu3⟩ ⟨hw1, hw2⟩ ⟨hv1, hv2⟩
    split_ifs at hw2 hv2 <;> omega

/-- C33, instance: padded size 500, the row 251 is written by the tile at 243. -/
theorem C33_tile_partition_witness :
    ∃ top : Nat, tile_start 500 top ∧ tile_writes 500 (top : Int) 251 :=
  ((C33_tile_partition 500 (by decide) 251).1).mp (by decide)

/-- A loop with step 1 is the fold over the list of its indices. -/
theorem loopN_range {σ : Type} (body : Nat → σ → σ) :
    ∀ (n k : Nat) (s : σ),
      loopN n k 1 body s = (List.range' k n).foldl (fun s d => body d s) s := by
  intro n
  induction n with
  | zero => intro k s; rfl
  | succ n ih =>
    intro k s
    show loopN n (k + 1) 1 body (body k s) = _
    rw [ih, List.range'_succ, List.foldl_cons]

theorem forLoop_range {σ : Type} (n : Nat) (body : Nat → σ → σ) (s : σ) :
    forLoop 0 n 1 body s = (List.range n).foldl (fun s d => body d s) s := by
  rw [forLoop_one, Nat.sub_zero, loopN_range, List.range_eq_range']

/-- The sums of the vote are the sums over the selected directions and their number. -/
theorem vote_avg_list (hm : Nat → Nat) (max : Nat) (rgb : Nat → Nat → ℚ) :
    ∀ (l : List Nat) (avg : Nat → ℚ),
      (∀ c, c < 3 →
        (l.foldl (fun avg d =>
          if hm d ≥ max then
            (fun c => if c < 3 then avg c + rgb d c else if c = 3 then avg c + 1 else avg c)
          else avg) avg) c
          = avg c + ((l.filter (fun d => decide (hm d ≥ max))).map (fun d => rgb d c)).sum) ∧
      (l.foldl (fun avg d =>
          if hm d ≥ max then
            (fun c => if c < 3 then avg c + rgb d c else if c = 3 then avg c + 1 else avg c)
          else avg) avg) 3
        = avg 3 + ((l.filter (fun d => decide (hm d ≥ max))).length : ℚ) := by
  intro l
  induction l with
  | nil => intro avg; simp
  | cons d ds ih =>
    intro avg
    rw [List.foldl_cons]
    by_cases h : hm d ≥ max
    · rw [if_pos h, List.filter_cons_of_pos (by simpa using h)]
      obtain ⟨h1, h2⟩ := ih (fun c => if c < 3 then avg c + rgb d c
        else if c = 3 then avg c + 1 else avg c)
      constructor
      · intro c hc
        rw [h1 c hc, if_pos hc, List.map_cons, List.sum_cons]
        ring
      · rw [h2, if_neg (by decide), if_pos rfl, List.length_cons]
        push_cast
        ring
    · rw [if_neg h, List.filter_cons_of_neg (by simpa using h)]
      exact ih avg

/-- The stored threshold is at most one of the sums. -/
theorem vote_threshold_le (ndir : Nat) (hm : Nat → Nat) (hn : 1 ≤ ndir) :
    ∃ d, d < ndir ∧ vote_threshold ndir hm ≤ hm d := by
  unfold vote_threshold
  simp only []
  have key : ∃ d, d < ndir ∧
      forLoop 1 ndir 1 (fun d max => if max < hm d then hm d % 65536 else max) (hm 0 % 65536)
        ≤ hm d := by
    refine forLoop_inv (fun m : Nat => ∃ d, d < ndir ∧ m ≤ hm d) 1 ndir 1 Nat.one_pos _ _
      ⟨0, hn, Nat.mod_le _ _⟩ ?_
    intro d m hd hm2
    rw [visits_one] at hd
    beta_reduce
    split_ifs
    · exact ⟨d, hd.2, Nat.mod_le _ _⟩
    · exact hm2
  obtain ⟨d, hd, hle⟩ := key
  exact ⟨d, hd, le_trans (Nat.mod_le _ _) (le_trans (Nat.sub_le _ _) hle)⟩

/-- C34, counterexample: four directions, three of them selected, whose candidates all hold
the `float` 0.9f = 7549747/8388608 in channel 0.  The `float` sum of the three is rounded
and so is the quotient by 3: the vote stores 15099493/16777216, below every candidate. -/
theorem C34_rounded_mean_below_candidates :
    vote_selected 4 (fun d => if d < 3 then 10 else 0) = [0, 1, 2] ∧
    vote_pixel_fl f32 4 (fun d => if d < 3 then 10 else 0) (fun _ _ => 7549747 / 8388608) 0
      = 15099493 / 16777216 ∧
    ∀ d, d < 4 → vote_pixel_fl f32 4 (fun d => if d < 3 then 10 else 0)
      (fun _ _ => 7549747 / 8388608) 0 < (fun _ _ => (7549747 : ℚ) / 8388608) d 0 := by
  have h : vote_pixel_fl f32 4 (fun d => if d < 3 then 10 else 0)
      (fun _ _ => 7549747 / 8388608) 0 = 15099493 / 16777216 := by decide!
  refine ⟨by decide, h, fun d _ => ?_⟩
  rw [h]
  norm_num

/-- C34 (amended): for `ndir` 4 or 8 and every vector of non-negative homogeneity sums, after
the suppression of `hm[d]` against `hm[d+4]` and with the threshold `max - (max >> 3)`, at
least one direction has `hm[d] >= max`, so the count `avg[3]` is the number of selected
directions and at least 1, the division `avg[c]/avg[3]` is defined, and each channel is the
sum of the selected candidates over their number. -/
theorem C34_vote_selects (passes : Int) (hm : Nat → Nat) (rgb : Nat → Nat → ℚ) :
    (markesteijn_ndir passes = 4 ∨ markesteijn_ndir passes = 8) ∧
    (∃ d, d < markesteijn_ndir passes ∧
      vote_suppress (markesteijn_ndir passes) hm d
        ≥ vote_threshold (markesteijn_ndir passes) (vote_suppress (markesteijn_ndir passes) hm)) ∧
    1 ≤ (vote_selected (markesteijn_ndir passes) hm).length ∧
    vote_avg (markesteijn_ndir passes) (vote_suppress (markesteijn_ndir passes) hm)
        (vote_threshold (markesteijn_ndir passes) (vote_suppress (markesteijn_ndir passes) hm))
        rgb 3
      = ((vote_selected (markesteijn_ndir passes) hm).length : ℚ) ∧
    (∀ c, c < 3 →
      vote_pixel (markesteijn_ndir passes) hm rgb c
        = ((vote_selected (markesteijn_ndir passes) hm).map (fun d => rgb d c)).sum
          / ((vote_selected (markesteijn_ndir passes) hm).length : ℚ)) := by
  have hnd : markesteijn_ndir passes = 4 ∨ markesteijn_ndir passes = 8 := by
    unfold markesteijn_ndir
    split_ifs
    · right; rfl
    · left; rfl
  have hn1 : 1 ≤ markesteijn_ndir passes := by omega
  obtain ⟨d, hd, hle⟩ := vote_threshold_le (markesteijn_ndir passes)
    (vote_suppress (markesteijn_ndir passes) hm) hn1
  have hmem : d ∈ vote_selected (markesteijn_ndir passes) hm := by
    unfold vote_selected
    rw [List.mem_filter, List.mem_range]
    exact ⟨hd, by simpa using hle⟩
  have hlen : 1 ≤ (vote_selected (markesteijn_ndir passes) hm).length :=
    List.length_pos_of_mem hmem
  have havg := vote_avg_list (vote_suppress (markesteijn_ndir passes) hm)
    (vote_threshold (markesteijn_ndir passes) (vote_suppress (markesteijn_ndir passes) hm)) rgb
    (List.range (markesteijn_ndir passes)) (fun _ => 0)
  have h3 : vote_avg (markesteijn_ndir passes) (vote_suppress (markesteijn_ndir passes) hm)
        (vote_threshold (markesteijn_ndir passes) (vote_suppress (markesteijn_ndir passes) hm))
        rgb 3
      = ((vote_selected (markesteijn_ndir passes) hm).length : ℚ) := by
    unfold vote_avg vote_selected
    rw [forLoop_range, havg.2, zero_add]
  refine ⟨hnd, ⟨d, hd, hle⟩, hlen, h3, ?_⟩
  intro c hc
  unfold vote_pixel
  simp only []
  rw [h3]
  unfold vote_avg vote_selected
  rw [forLoop_range, havg.1 c hc, zero_add]

/-! ## Colour smoothing as a snapshot computation -/

/-- The value the network leaves at `med[4]` is the snapshot median of the differences. -/
theorem network_snapshot (o s : Img) (c j i : Nat)
    (h3 : ∀ r k, j - 1 ≤ r → r ≤ j + 1 → i - 1 ≤ k → k ≤ i + 1 → s r k 3 = o r k c)
    (h1 : ∀ r k, j - 1 ≤ r → r ≤ j + 1 → i - 1 ≤ k → k ≤ i + 1 → s r k 1 = o r k 1) :
    runNetwork medianNetwork (smoothingMed s j i) 4 = snapshot_median o c j i := by
  have hmed : smoothingMed s j i =
      vec9 (o (j - 1) (i - 1) c - o (j - 1) (i - 1) 1) (o (j - 1) i c - o (j - 1) i 1)
        (o (j - 1) (i + 1) c - o (j - 1) (i + 1) 1) (o j (i - 1) c - o j (i - 1) 1)
        (o j i c - o j i 1) (o j (i + 1) c - o j (i + 1) 1)
        (o (j + 1) (i - 1) c - o (j + 1) (i - 1) 1) (o (j + 1) i c - o (j + 1) i 1)
        (o (j + 1) (i + 1) c - o (j + 1) (i + 1) 1) := by
    unfold smoothingMed
    rw [h3 (j - 1) (i - 1) (by omega) (by omega) (by omega) (by omega),
      h3 (j - 1) i (by omega) (by omega) (by omega) (by omega),
      h3 (j - 1) (i + 1) (by omega) (by omega) (by omega) (by omega),
      h3 j (i - 1) (by omega) (by omega) (by omega) (by omega),
      h3 j i (by omega) (by omega) (by omega) (by omega),
      h3 j (i + 1) (by omega) (by omega) (by omega) (by omega),
      h3 (j + 1) (i - 1) (by omega) (by omega) (by omega) (by omega),
      h3 (j + 1) i (by omega) (by omega) (by omega) (by omega),
      h3 (j + 1) (i + 1) (by omega) (by omega) (by omega) (by omega),
      h1 (j - 1) (i - 1) (by omega) (by omega) (by omega) (by omega),
      h1 (j - 1) i (by omega) (by omega) (by omega) (by omega),
      h1 (j - 1) (i + 1) (by omega) (by omega) (by omega) (by omega),
      h1 j (i - 1) (by omega) (by omega) (by omega) (by omega),
      h1 j i (by omega) (by omega) (by omega) (by omega),
      h1 j (i + 1) (by omega) (by omega) (by omega) (by omega),
      h1 (j + 1) (i - 1) (by omega) (by omega) (by omega) (by omega),
      h1 (j + 1) i (by omega) (by omega) (by omega) (by omega),
      h1 (j + 1) (i + 1) (by omega) (by omega) (by omega) (by omega)]
  have hs := medianNetwork_eq_sorted (smoothingMed s j i)
  rw [hmed] at hs ⊢
  unfold snapshot_median
  have e : List.insertionSort (fun a b : ℚ => a ≤ b) (chroma9 o c j i)
      = sorted9 (vec9 (o (j - 1) (i - 1) c - o (j - 1) (i - 1) 1) (o (j - 1) i c - o (j - 1) i 1)
        (o (j - 1) (i + 1) c - o (j - 1) (i + 1) 1) (o j (i - 1) c - o j (i - 1) 1)
        (o j i c - o j i 1) (o j (i + 1) c - o j (i + 1) 1)
        (o (j + 1) (i - 1) c - o (j + 1) (i - 1) 1) (o (j + 1) i c - o (j + 1) i 1)
        (o (j + 1) (i + 1) c - o (j + 1) (i + 1) 1)) := by
    unfold sorted9
    rw [ofFn9]
    rfl
  rw [e, List.getD_eq_getElem?_getD, hs, Option.getD_some]

/-- The treatment of one channel `c` (0 or 2) by `color_smoothing`: the interior pixels get
the snapshot rule of the image before it, everything else in the channels 0, 1, 2 stays. -/
theorem color_smoothing_channel_rule (s : Img) (width height c : Nat) (hc : c = 0 ∨ c = 2)
    (j i : Nat) :
    ((1 ≤ j ∧ j < height - 1) ∧ (1 ≤ i ∧ i < width - 1) →
      color_smoothing_channel width height c s j i c = smoothing_rule s c j i) ∧
    (¬ ((1 ≤ j ∧ j < height - 1) ∧ (1 ≤ i ∧ i < width - 1)) →
      color_smoothing_channel width height c s j i c = s j i c) ∧
    (∀ ch, ch ≠ c → ch ≠ 3 → color_smoothing_channel width height c s j i ch = s j i ch) := by
  unfold color_smoothing_channel
  have hsnap := forLoop2_post (fun t : Img => ∀ j i ch, ch ≠ 3 → t j i ch = s j i ch)
    (fun j i (t : Img) => t j i 3 = s j i c)
    0 height 1 (fun _ => 0) (fun _ => width) 1 Nat.one_pos Nat.one_pos
    (fun j i o2 => o2.set j i 3 (o2 j i c)) s (fun _ _ _ _ => rfl)
    (by
      intro j i t _ _ hR
      constructor
      · intro j2 i2 ch hch
        simp only [img_set_apply]
        rw [if_neg (fun h => hch h.2.2)]
        exact hR j2 i2 ch hch
      · simp only [img_set_apply, and_self, if_true]
        exact hR j i c (by omega))
    (by
      intro j i j2 i2 t _ _ _ _ hne _ hQ
      simp only [img_set_apply]
      rw [if_neg (fun h => hne ⟨h.1.symm, h.2.1.symm⟩)]
      exact hQ)
  have hsnap3 : ∀ r k, r < height → k < width → _ := fun r k hr hk =>
    hsnap.2 r k ((visits_one _ _ _).mpr ⟨Nat.zero_le _, hr⟩)
      ((visits_one _ _ _).mpr ⟨Nat.zero_le _, hk⟩)
  have hmain := forLoop2_post
    (fun t : Img => (∀ r k ch, ch ≠ c → ch ≠ 3 → t r k ch = s r k ch) ∧
      (∀ r k, r < height → k < width → t r k 3 = s r k c) ∧
      (∀ r k, ¬ ((1 ≤ r ∧ r < height - 1) ∧ (1 ≤ k ∧ k < width - 1)) → t r k c = s r k c))
    (fun j i (t : Img) => t j i c = smoothing_rule s c j i)
    1 (height - 1) 1 (fun _ => 1) (fun _ => width - 1) 1 Nat.one_pos Nat.one_pos
    (fun j i o2 =>
      o2.set j i c (max (runNetwork medianNetwork (smoothingMed o2 j i) 4 + o2 j i 1) 0))
    _ ⟨fun r k ch h1 h3 => hsnap.1 r k ch h3, hsnap3,
       fun r k _ => hsnap.1 r k c (by omega)⟩
    (by
      intro j i t hj hi ⟨hR, hS, hF⟩
      simp only [visits_one] at hj hi
      refine ⟨⟨?_, ?_, ?_⟩, ?_⟩
      · intro r k ch h1 h3
        simp only [img_set_apply]
        rw [if_neg (fun h => h1 h.2.2)]
        exact hR r k ch h1 h3
      · intro r k hr hk
        simp only [img_set_apply]
        rw [if_neg (fun h => by omega)]
        exact hS r k hr hk
      · intro r k hn
        simp only [img_set_apply]
        rw [if_neg (fun h => hn (by rw [h.1, h.2.1]; exact ⟨hj, hi⟩))]
        exact hF r k hn
      · simp only [img_set_apply, and_self, if_true]
        unfold smoothing_rule
        rw [network_snapshot s t c j i
          (fun r k _ _ _ _ => hS r k (by omega) (by omega))
          (fun r k _ _ _ _ => hR r k 1 (by omega) (by decide)),
          hR j i 1 (by omega) (by decide)])
    (by
      intro j i j2 i2 t _ _ _ _ hne _ hQ
      simp only [img_set_apply]
      rw [if_neg (fun h => hne ⟨h.1.symm, h.2.1.symm⟩)]
      exact hQ)
  refine ⟨?_, ?_, ?_⟩
  · intro h
    exact hmain.2 j i ((visits_one _ _ _).mpr h.1) ((visits_one _ _ _).mpr h.2)
  · intro h
    exact hmain.1.2.2 j i h
  · intro ch h1 h3
    exact hmain.1.1 j i ch h1 h3

/-- The snapshot rule reads only the channel of the colour and the green channel of the
3x3 neighbourhood. -/
theorem smoothing_rule_congr (o s : Img) (c j i : Nat) (hc : ∀ r k, s r k c = o r k c)
    (hg : ∀ r k, s r k 1 = o r k 1) : smoothing_rule s c j i = smoothing_rule o c j i := by
  unfold smoothing_rule snapshot_median chroma9
  simp only [hc, hg]

/-- C32: one pass of `color_smoothing` is a snapshot computation: every interior pixel gets
`R = max(m_R + G, 0)` and `B = max(m_B + G, 0)`, with `m_X` the median of the nine values
`X - G` of its 3x3 neighbourhood in the image as it was before the pass and `G` its green;
the green channel is never modified, and `R`, `G`, `B` of every pixel that is not interior
(the outermost one-pixel frame) are unchanged.  The result is a function of the image before
the pass alone, so the order of the in-place traversal has no influence. -/
theorem C32_smoothing_snapshot (o : Img) (width height j i : Nat) :
    ((1 ≤ j ∧ j < height - 1) ∧ (1 ≤ i ∧ i < width - 1) →
      color_smoothing o width height 1 j i 0 = smoothing_rule o 0 j i ∧
      color_smoothing o width height 1 j i 2 = smoothing_rule o 2 j i) ∧
    color_smoothing o width height 1 j i 1 = o j i 1 ∧
    (¬ ((1 ≤ j ∧ j < height - 1) ∧ (1 ≤ i ∧ i < width - 1)) →
      ∀ ch, ch < 3 → color_smoothing o width height 1 j i ch = o j i ch) := by
  have e : color_smoothing o width height 1
      = color_smoothing_channel width height 2 (color_smoothing_channel width height 0 o) := rfl
  rw [e]
  have h0 := fun r k => color_smoothing_channel_rule o width height 0 (Or.inl rfl) r k
  have h2 := color_smoothing_channel_rule (color_smoothing_channel width height 0 o)
    width height 2 (Or.inr rfl) j i
  refine ⟨?_, ?_, ?_⟩
  · intro hin
    constructor
    · rw [h2.2.2 0 (by decide) (by decide)]
      exact (h0 j i).1 hin
    · rw [h2.1 hin]
      exact smoothing_rule_congr o _ 2 j i
        (fun r k => (h0 r k).2.2 2 (by decide) (by decide))
        (fun r k => (h0 r k).2.2 1 (by decide) (by decide))
  · rw [h2.2.2 1 (by decide) (by decide)]
    exact (h0 j i).2.2 1 (by decide) (by decide)
  · intro hout ch hch
    have hcases : ch = 0 ∨ ch = 1 ∨ ch = 2 := by omega
    rcases hcases with rfl | rfl | rfl
    · rw [h2.2.2 0 (by decide) (by decide)]
      exact (h0 j i).2.1 hout
    · rw [h2.2.2 1 (by decide) (by decide)]
      exact (h0 j i).2.2 1 (by decide) (by decide)
    · rw [h2.2.1 hout]
      exact (h0 j i).2.2 2 (by decide) (by decide)

/-! ## Green equilibration: the balance of the two greens -/

/-- Two runs of a loop over the same indices keep a relation between their states. -/
theorem loopN_rel {σ τ : Type} (Rel : σ → τ → Prop) (b1 : Nat → σ → σ) (b2 : Nat → τ → τ)
    (step : Nat) :
    ∀ (n k : Nat) (s : σ) (t : τ), Rel s t →
      (∀ m, m < n → ∀ s t, Rel s t → Rel (b1 (k + m * step) s) (b2 (k + m * step) t)) →
      Rel (loopN n k step b1 s) (loopN n k step b2 t) := by
  intro n
  induction n with
  | zero => intro k s t h _; exact h
  | succ n ih =>
    intro k s t h hstep
    have h1 : Rel (b1 k s) (b2 k t) := by
      have := hstep 0 (Nat.succ_pos n) s t h
      simpa using this
    refine ih (k + step) (b1 k s) (b2 k t) h1 ?_
    intro m hm s2 t2 hr
    have := hstep (m + 1) (Nat.succ_lt_succ hm) s2 t2 hr
    have e : k + (m + 1) * step = k + step + m * step := by ring
    rw [e] at this
    exact this

theorem forLoop_rel {σ τ : Type} (Rel : σ → τ → Prop) (lo hi step : Nat) (hstep : 0 < step)
    (b1 : Nat → σ → σ) (b2 : Nat → τ → τ) (s : σ) (t : τ) (h0 : Rel s t)
    (hbody : ∀ k s t, Visits lo hi step k → Rel s t → Rel (b1 k s) (b2 k t)) :
    Rel (forLoop lo hi step b1 s) (forLoop lo hi step b2 t) := by
  unfold forLoop
  exact loopN_rel Rel b1 b2 step _ lo s t h0
    (fun m hm s t hr => hbody _ s t (visits_of_lt_count lo hi step m hstep hm) hr)

theorem forLoop2_rel {σ τ : Type} (Rel : σ → τ → Prop)
    (lo1 hi1 s1 : Nat) (lo2 hi2 : Nat → Nat) (s2 : Nat) (hs1 : 0 < s1) (hs2 : 0 < s2)
    (b1 : Nat → Nat → σ → σ) (b2 : Nat → Nat → τ → τ) (s : σ) (t : τ) (h0 : Rel s t)
    (hbody : ∀ j i s t, Visits lo1 hi1 s1 j → Visits (lo2 j) (hi2 j) s2 i → Rel s t →
      Rel (b1 j i s) (b2 j i t)) :
    Rel (forLoop lo1 hi1 s1 (fun j o => forLoop (lo2 j) (hi2 j) s2 (fun i o => b1 j i o) o) s)
      (forLoop lo1 hi1 s1 (fun j o => forLoop (lo2 j) (hi2 j) s2 (fun i o => b2 j i o) o) t) :=
  forLoop_rel Rel lo1 hi1 s1 hs1 _ _ s t h0 (fun j s t hj hr =>
    forLoop_rel Rel (lo2 j) (hi2 j) s2 hs2 _ _ s t hr (fun i s t hi hr => hbody j i s t hj hi hr))

/-- The second-green sites lie on odd rows, which the rescaling loop never visits: the second
sum of the output of `favg` is the second sum of the input, whatever the rounding. -/
theorem favg_fl_second_sum (fd fs : ℚ → ℚ) (inp : Raw) (width height filters x y : Nat)
    (hh : 1 ≤ height) :
    (favg_sums_fl fd (green_equilibration_favg_fl fd fs inp width height filters x y)
        width height filters x y).2
      = (favg_sums_fl fd inp width height filters x y).2 := by
  have hhz : toSizeT ((height : Int) - 1) = height - 1 := by
    rw [toSizeT_nonneg _ (by omega)]
    omega
  have key := forLoop2_rel (fun (s t : ℚ × ℚ) => t.2 = s.2)
    0 (toSizeT ((height : Int) - 1)) 2 (fun _ => favg_oi filters x y)
    (fun _ => toSizeT ((width : Int) - 1 - favg_g2 filters x y)) 2 (by decide) (by decide)
    (fun j i (s : ℚ × ℚ) =>
      (fd (s.1 + inp j i), fd (s.2 + inp (j + 1) ((i : Int) + favg_g2 filters x y).toNat)))
    (fun j i (s : ℚ × ℚ) =>
      (fd (s.1 + green_equilibration_favg_fl fd fs inp width height filters x y j i),
       fd (s.2 + green_equilibration_favg_fl fd fs inp width height filters x y (j + 1)
         ((i : Int) + favg_g2 filters x y).toNat)))
    (0, 0) (0, 0) rfl
    (by
      intro j i s t hj _ h2
      rw [hhz] at hj
      have e2 : green_equilibration_favg_fl fd fs inp width height filters x y (j + 1)
          ((i : Int) + favg_g2 filters x y).toNat
          = inp (j + 1) ((i : Int) + favg_g2 filters x y).toNat := by
        apply favg_fl_unvisited
        intro hv
        have := hv.1
        have := hj
        unfold Visits at *
        omega
      beta_reduce
      rw [e2, h2])
  exact key

/-- The `double` sums of `favgRaw` are 1 and 28521267/16777216. -/
theorem favgRaw_sums :
    favg_sums_fl f64 favgRaw 4 4 0x61616161 0 0
      = (1, 28521267 / 16777216) := by decide!

/-- C37, counterexample: on the 4x4 GRBG buffer with 1/2 at the two sampled first-green
sites and 0.8f, 0.9f at the two sampled second-green sites, the sums are 1 and
28521267/16777216; `favg` stores the `float` 7130317/8388608 at both first-green sites, so
the first sum of the output is 28521268/16777216, not the second sum; and a second
application of `favg` stores 14260633/16777216 there, so it changes its own output. -/
theorem C37_rounded_sum_differs :
    (favg_sums_fl f64 (green_equilibration_favg_fl f64 f32
        favgRaw 4 4 0x61616161 0 0)
      4 4 0x61616161 0 0).1 = 28521268 / 16777216 ∧
    (favg_sums_fl f64 (green_equilibration_favg_fl f64 f32
        favgRaw 4 4 0x61616161 0 0)
      4 4 0x61616161 0 0).1
      ≠ (favg_sums_fl f64 favgRaw 4 4 0x61616161 0 0).2 ∧
    green_equilibration_favg_fl f64 f32
        favgRaw 4 4 0x61616161 0 0 0 0
      = 7130317 / 8388608 ∧
    green_equilibration_favg_fl f64 f32 (green_equilibration_favg_fl f64 f32
        favgRaw 4 4 0x61616161 0 0)
        4 4 0x61616161 0 0 0 0
      = 14260633 / 16777216 := by
  have h1 : (favg_sums_fl f64 (green_equilibration_favg_fl f64 f32
        favgRaw 4 4 0x61616161 0 0)
      4 4 0x61616161 0 0).1 = 28521268 / 16777216 := by decide!
  refine ⟨h1, ?_, by decide!, by decide!⟩
  rw [h1, favgRaw_sums]
  norm_num

/-- C37 (amended): for every buffer with at least one row and a non-negative column bound,
whose sums `sum1` over the sampled first-green sites and `sum2` over the sampled
second-green sites are both positive, and whatever the rounding of the `double` and `float`
operations, `green_equilibration_favg` stores `in / (sum1 / sum2)` at every sampled
first-green site (the ratio and the quotient are `double`s, the store converts to `float`),
and the sum of the output over the sampled second-green sites is `sum2`. -/
theorem C37_favg_balance (fd fs : ℚ → ℚ) (inp : Raw) (width height filters x y : Nat)
    (hh : 1 ≤ height) (_hw : 0 ≤ (width : Int) - 1 - favg_g2 filters x y)
    (hpos : 0 < (favg_sums_fl fd inp width height filters x y).1 ∧
      0 < (favg_sums_fl fd inp width height filters x y).2) :
    (∀ j i, Visits 0 (height - 1) 2 j →
      Visits (favg_oi filters x y) ((width : Int) - 1 - favg_g2 filters x y).toNat 2 i →
      green_equilibration_favg_fl fd fs inp width height filters x y j i
        = fs (fd (inp j i / fd ((favg_sums_fl fd inp width height filters x y).1
            / (favg_sums_fl fd inp width height filters x y).2)))) ∧
    (favg_sums_fl fd (green_equilibration_favg_fl fd fs inp width height filters x y)
        width height filters x y).2
      = (favg_sums_fl fd inp width height filters x y).2 :=
  ⟨fun j i hj hi => favg_fl_visited fd fs inp width height filters x y j i hpos hj hi,
   favg_fl_second_sum fd fs inp width height filters x y hh⟩

/-- C37 (amended), instance: `double` sums and `float` stores on the 4x4 GRBG buffer of the
counterexample, at the site `(2, 0)`. -/
theorem C37_favg_balance_witness :
    green_equilibration_favg_fl f64 f32 favgRaw 4 4 0x61616161 0 0 2 0
      = f32 (f64 (favgRaw 2 0
        / f64 ((favg_sums_fl f64 favgRaw 4 4 0x61616161 0 0).1
          / (favg_sums_fl f64 favgRaw 4 4 0x61616161 0 0).2))) :=
  (C37_favg_balance f64 f32 favgRaw 4 4 0x61616161 0 0 (by decide)
    (by decide!) (by rw [favgRaw_sums]; norm_num)).1 2 0 (by unfold Visits; decide)
    (by unfold Visits; decide)

/-! ## Termination of the PPG border loop and the positions it visits -/

/-- Two runs of a loop with a moving index, with related states, stop together and end in
related states: the moves of the index do not depend on the state. -/
theorem jumpLoop_rel {σ τ : Type} (Rel : σ → τ → Prop) (jump : Nat → Nat) (brk : Bool)
    (width : Nat) (b1 : Nat → σ → σ) (b2 : Nat → τ → τ)
    (hb : ∀ i s t, Rel s t → Rel (b1 i s) (b2 i t)) :
    ∀ (fuel a : Nat) (s : σ) (t : τ), Rel s t →
      Option.Rel Rel (jumpLoop jump brk width b1 fuel a s) (jumpLoop jump brk width b2 fuel a t) := by
  intro fuel
  induction fuel with
  | zero => intro a s t _; exact Option.Rel.none
  | succ f ih =>
    intro a s t h
    unfold jumpLoop
    split_ifs
    · exact Option.Rel.some h
    · exact ih _ _ _ (hb _ _ _ h)
    · exact Option.Rel.some h

theorem loopNOpt_rel {σ τ : Type} (Rel : σ → τ → Prop) (f1 : Nat → σ → Option σ)
    (f2 : Nat → τ → Option τ)
    (hf : ∀ k s t, Rel s t → Option.Rel Rel (f1 k s) (f2 k t)) :
    ∀ (n k : Nat) (s : σ) (t : τ), Rel s t →
      Option.Rel Rel (loopNOpt n k f1 s) (loopNOpt n k f2 t) := by
  intro n
  induction n with
  | zero => intro k s t h; exact Option.Rel.some h
  | succ n ih =>
    intro k s t h
    unfold loopNOpt
    have hk := hf k s t h
    generalize f1 k s = r1 at hk
    generalize f2 k t = r2 at hk
    cases hk with
    | none => exact Option.Rel.none
    | some h2 => exact ih _ _ _ h2

/-- A loop whose body does not return at some index does not return. -/
theorem loopNOpt_none {σ : Type} (f : Nat → σ → Option σ) (m : Nat) (hm : ∀ s, f m s = none) :
    ∀ (n k : Nat) (s : σ), k ≤ m → m < k + n → loopNOpt n k f s = none := by
  intro n
  induction n with
  | zero => intro k s h1 h2; omega
  | succ n ih =>
    intro k s h1 h2
    unfold loopNOpt
    by_cases e : k = m
    · rw [e, hm s]
    · cases hfk : f k s with
      | none => rfl
      | some s2 => exact ih (k + 1) s2 (by omega) (by omega)

/-- On a row `3 <= j < ho-3` of a buffer 4 or 5 wide the index is moved back from column 3
to column `wo-3` for ever: the row does not return, whatever the fuel. -/
theorem ppg_row_diverges {σ : Type} (wo ho j : Nat) (body : Nat → σ → σ)
    (hw : wo = 4 ∨ wo = 5) (hj : 3 ≤ j ∧ j < ho - 3) :
    ∀ (fuel a : Nat) (s : σ), a ≤ 3 →
      jumpLoop (ppg_jump wo ho j) true wo body fuel a s = none := by
  intro fuel
  induction fuel with
  | zero => intro a s _; rfl
  | succ f ih =>
    intro a s ha
    unfold jumpLoop
    have hjump : ppg_jump wo ho j a ≠ wo ∧ ppg_jump wo ho j a + 1 ≤ 3 := by
      unfold ppg_jump
      split_ifs <;> omega
    rw [if_pos (by omega), if_neg (fun h => hjump.1 h.2)]
    exact ih _ _ hjump.2

/-- A loop that appends the positions `(j, lo), (j, lo+1), ...` adds one occurrence of each
of them. -/
theorem count_append_loop (j : Nat) (p : Nat × Nat) :
    ∀ (n lo : Nat) (l : List (Nat × Nat)),
      (loopN n lo 1 (fun i l => l ++ [(j, i)]) l).count p
        = l.count p + (if p.1 = j ∧ lo ≤ p.2 ∧ p.2 < lo + n then 1 else 0) := by
  intro n
  induction n with
  | zero =>
    intro lo l
    rw [if_neg (by omega)]
    rfl
  | succ n ih =>
    intro lo l
    show (loopN n (lo + 1) 1 (fun i l => l ++ [(j, i)]) (l ++ [(j, lo)])).count p = _
    rw [ih, List.count_append, List.count_singleton]
    by_cases e : p = (j, lo)
    · rw [e]
      simp
    · have e2 : ¬ ((j, lo) == p) = true := by
        intro h
        exact e (beq_iff_eq.mp h).symm
      rw [if_neg e2]
      have e3 : ¬ (p.1 = j ∧ p.2 = lo) := fun h => e (Prod.ext h.1 h.2)
      by_cases h1 : p.1 = j ∧ lo ≤ p.2 ∧ p.2 < lo + (n + 1)
      · rw [if_pos h1, if_pos ⟨h1.1, by omega, by omega⟩]
      · rw [if_neg h1, if_neg (fun h => h1 ⟨h.1, by omega, by omega⟩)]

theorem count_append_forLoop (j : Nat) (p : Nat × Nat) (lo hi : Nat) (l : List (Nat × Nat)) :
    (forLoop lo hi 1 (fun i l => l ++ [(j, i)]) l).count p
      = l.count p + (if p.1 = j ∧ lo ≤ p.2 ∧ p.2 < hi then 1 else 0) := by
  rw [forLoop_one, count_append_loop]
  by_cases h : p.1 = j ∧ lo ≤ p.2 ∧ p.2 < hi
  · rw [if_pos h, if_pos ⟨h.1, h.2.1, by omega⟩]
  · rw [if_neg h, if_neg (fun h2 => h ⟨h2.1, h2.2.1, by omega⟩)]

/-- The border loop makes the moves of the loop that records the positions: it returns
exactly when that loop returns, and its result is the fold of the border interpolation over
the recorded positions. -/
theorem ppg_border_trace (fuel : Nat) (inp : Raw) (wo ho wi hi filters : Nat) (out : Img) :
    ppg_border fuel inp wo ho wi hi filters out
      = (ppg_border_visits fuel wo ho).map (fun l =>
          l.foldl (fun o p => ppg_border_pixel inp wi hi filters p.1 p.2 o) out) := by
  have key := loopNOpt_rel
    (fun (l : List (Nat × Nat)) (o : Img) =>
      o = l.foldl (fun o p => ppg_border_pixel inp wi hi filters p.1 p.2 o) out)
    (fun j l => jumpLoop (ppg_jump wo ho j) true wo (fun i l => l ++ [(j, i)]) fuel 0 l)
    (fun j o =>
      jumpLoop (ppg_jump wo ho j) true wo (fun i o => ppg_border_pixel inp wi hi filters j i o)
        fuel 0 o)
    (fun j l o h => jumpLoop_rel _ (ppg_jump wo ho j) true wo _ _
      (fun i l o h => by rw [List.foldl_append, ← h]; rfl) fuel 0 l o h)
    ho 0 [] out rfl
  unfold ppg_border ppg_border_visits
  generalize loopNOpt ho 0 (fun j l =>
    jumpLoop (ppg_jump wo ho j) true wo (fun i l => l ++ [(j, i)]) fuel 0 l) [] = r1 at key
  generalize loopNOpt ho 0 (fun j o =>
    jumpLoop (ppg_jump wo ho j) true wo (fun i o => ppg_border_pixel inp wi hi filters j i o)
      fuel 0 o) out = r2 at key
  cases key with
  | none => rfl
  | some h => rw [h]; rfl

/-- With a width of at least 6 and `fuel > wo` the loop that records the positions returns,
and every position within 3 pixels of an edge occurs once, every other position never. -/
theorem ppg_border_visits_count (fuel wo ho : Nat) (hw : 6 ≤ wo) (hf : wo < fuel) :
    ∃ l, ppg_border_visits fuel wo ho = some l ∧
      ∀ j i, l.count (j, i)
        = if j < ho ∧ i < wo ∧ ¬ ((3 ≤ j ∧ j < ho - 3) ∧ (3 ≤ i ∧ i < wo - 3)) then 1 else 0 := by
  have hrow : ∀ j (l : List (Nat × Nat)),
      jumpLoop (ppg_jump wo ho j) true wo (fun i l => l ++ [(j, i)]) fuel 0 l
        = some (if 3 ≤ j ∧ j < ho - 3 then
            forLoop (wo - 3) wo 1 (fun i l => l ++ [(j, i)])
              (forLoop 0 3 1 (fun i l => l ++ [(j, i)]) l)
          else forLoop 0 wo 1 (fun i l => l ++ [(j, i)]) l) := by
    intro j l
    by_cases h : 3 ≤ j ∧ j < ho - 3
    · rw [if_pos h]
      exact ppg_row_split wo ho j fuel _ l hf h hw
    · rw [if_neg h]
      exact ppg_row_plain wo ho j fuel _ l hf (Or.inl h)
  unfold ppg_border_visits
  rw [loopNOpt_some _ _ hrow]
  refine ⟨_, rfl, ?_⟩
  have key := loopN_inv
    (fun m (l : List (Nat × Nat)) => ∀ j i, l.count (j, i)
      = if j < m ∧ i < wo ∧ ¬ ((3 ≤ j ∧ j < ho - 3) ∧ (3 ≤ i ∧ i < wo - 3)) then 1 else 0)
    (fun j l => if 3 ≤ j ∧ j < ho - 3 then
            forLoop (wo - 3) wo 1 (fun i l => l ++ [(j, i)])
              (forLoop 0 3 1 (fun i l => l ++ [(j, i)]) l)
          else forLoop 0 wo 1 (fun i l => l ++ [(j, i)]) l)
    1 ho 0 [] (by
      intro j i
      rw [if_neg (by omega)]
      rfl)
    (by
      intro m _ l hl j i
      have e : 0 + m * 1 = m := by omega
      rw [e]
      beta_reduce
      by_cases h : 3 ≤ m ∧ m < ho - 3
      · rw [if_pos h, count_append_forLoop, count_append_forLoop, hl j i]
        simp only []
        split_ifs <;> omega
      · rw [if_neg h, count_append_forLoop, hl j i]
        simp only []
        split_ifs <;> omega)
  exact key

/-- C38: the border loop of `demosaic_ppg` returns for some fuel if and only if the width is
not 4 or 5, or the height is at most 6; it makes the same moves as the loop that records the
positions of its body; and with a width of at least 6 that loop returns and has recorded
every position within 3 pixels of an edge exactly once and no interior position. -/
theorem C38_border_termination (inp : Raw) (wo ho wi hi filters : Nat) (out : Img) :
    ((∃ fuel, (ppg_border fuel inp wo ho wi hi filters out).isSome = true)
      ↔ (¬ (wo = 4 ∨ wo = 5) ∨ ho ≤ 6)) ∧
    (∀ fuel, ppg_border fuel inp wo ho wi hi filters out
      = (ppg_border_visits fuel wo ho).map (fun l =>
          l.foldl (fun o p => ppg_border_pixel inp wi hi filters p.1 p.2 o) out)) ∧
    (6 ≤ wo → ∀ fuel, wo < fuel →
      ∃ l, ppg_border_visits fuel wo ho = some l ∧
        ∀ j i, l.count (j, i)
          = if j < ho ∧ i < wo ∧ ¬ ((3 ≤ j ∧ j < ho - 3) ∧ (3 ≤ i ∧ i < wo - 3))
            then 1 else 0) := by
  refine ⟨⟨?_, ?_⟩, fun fuel => ppg_border_trace fuel inp wo ho wi hi filters out,
    fun hw fuel hf => ppg_border_visits_count fuel wo ho hw hf⟩
  · intro ⟨fuel, hsome⟩
    by_contra hcon
    have hw : wo = 4 ∨ wo = 5 := by omega
    have hnone : ppg_border fuel inp wo ho wi hi filters out = none := by
      unfold ppg_border
      exact loopNOpt_none _ 3
        (fun s => ppg_row_diverges wo ho 3 _ hw (by omega) fuel 0 s (by omega))
        ho 0 out (by omega) (by omega)
    rw [hnone] at hsome
    exact absurd hsome (by decide)
  · intro h
    refine ⟨wo + 1, ?_⟩
    rw [ppg_border_eq (wo + 1) inp wo ho wi hi filters out (by omega) (by omega)]
    rfl

/-! ## Markesteijn on small regions -/

/-- A `while` loop with an invariant and a measure that every turn decreases returns, given
fuel above the measure, in a state that satisfies the invariant and fails the condition. -/
theorem whileLoop_terminates {σ : Type} (cond : σ → Bool) (step : σ → σ) (Inv : σ → Prop)
    (μ : σ → Nat)
    (hstep : ∀ s, Inv s → cond s = true → Inv (step s) ∧ μ (step s) < μ s) :
    ∀ (fuel : Nat) (s : σ), Inv s → μ s < fuel →
      ∃ s2, whileLoop cond step fuel s = some s2 ∧ Inv s2 ∧ cond s2 = false := by
  intro fuel
  induction fuel with
  | zero => intro s _ h; omega
  | succ f ih =>
    intro s hI hμ
    unfold whileLoop
    by_cases hc : cond s = true
    · rw [if_pos hc]
      obtain ⟨h1, h2⟩ := hstep s hI hc
      exact ih (step s) h1 (by omega)
    · rw [if_neg hc]
      exact ⟨s, rfl, hI, by simpa using hc⟩

/-- What one turn of the hexagon loop does to `ng`, `sgrow` and `sgcol`. -/
theorem hex_step_sg (xtrans : Int → Int → Nat) (row col d : Nat) (s : Nat × HexState) :
    (hex_step xtrans row col d s).1
      = (if fcol xtrans ((row : Int) + orth d) ((col : Int) + orth (d + 2)) = 1 then 0
          else s.1 + 1) ∧
    (hex_step xtrans row col d s).2.sgrow
      = (if (if fcol xtrans ((row : Int) + orth d) ((col : Int) + orth (d + 2)) = 1 then 0
          else s.1 + 1) = 4 then row else s.2.sgrow) ∧
    (hex_step xtrans row col d s).2.sgcol
      = (if (if fcol xtrans ((row : Int) + orth d) ((col : Int) + orth (d + 2)) = 1 then 0
          else s.1 + 1) = 4 then col else s.2.sgcol) := by
  unfold hex_step
  simp only []
  refine ⟨?_, ?_, ?_⟩
  · trivial
  · split_ifs <;> rfl
  · split_ifs <;> rfl

/-- The values `sgrow` and `sgcol` do not depend on the initial content of `allhex`, and
are below 3. -/
theorem markesteijn_hex_sg (xtrans : Int → Int → Nat) (a b : Nat → Nat → Nat → Int × Int) :
    (markesteijn_hex xtrans a).sgrow = (markesteijn_hex xtrans b).sgrow ∧
    (markesteijn_hex xtrans a).sgcol = (markesteijn_hex xtrans b).sgcol ∧
    (markesteijn_hex xtrans a).sgrow < 3 ∧ (markesteijn_hex xtrans a).sgcol < 3 := by
  unfold markesteijn_hex
  have key := forLoop2_rel
    (fun (s t : HexState) => s.sgrow = t.sgrow ∧ s.sgcol = t.sgcol ∧ s.sgrow < 3 ∧ s.sgcol < 3)
    0 3 1 (fun _ => 0) (fun _ => 3) 1 Nat.one_pos Nat.one_pos
    (fun row col st => (forLoop 0 10 2 (fun d s => hex_step xtrans row col d s) (0, st)).2)
    (fun row col st => (forLoop 0 10 2 (fun d s => hex_step xtrans row col d s) (0, st)).2)
    { sgrow := 0, sgcol := 0, allhex := a } { sgrow := 0, sgcol := 0, allhex := b }
    ⟨rfl, rfl, Nat.zero_lt_succ 2, Nat.zero_lt_succ 2⟩
    (by
      intro row col s t hrow hcol h
      beta_reduce at hcol
      rw [visits_one] at hrow hcol
      have inner := forLoop_rel
        (fun (p q : Nat × HexState) => p.1 = q.1 ∧ p.2.sgrow = q.2.sgrow ∧
          p.2.sgcol = q.2.sgcol ∧ p.2.sgrow < 3 ∧ p.2.sgcol < 3)
        0 10 2 (by decide) (fun d s => hex_step xtrans row col d s)
        (fun d s => hex_step xtrans row col d s) (0, s) (0, t) ⟨rfl, h⟩
        (by
          intro d p q _ ⟨h1, h2, h3, h4, h5⟩
          obtain ⟨a1, a2, a3⟩ := hex_step_sg xtrans row col d p
          obtain ⟨b1, b2, b3⟩ := hex_step_sg xtrans row col d q
          rw [a1, a2, a3, b1, b2, b3, h1, h2, h3]
          refine ⟨rfl, rfl, rfl, ?_, ?_⟩
          · split_ifs <;> omega
          · split_ifs <;> omega)
      exact inner.2)
  exact key

/-- With a layout the hexagon loop expects and a row offset that is a multiple of 3, on an
image row that is not a row of solitary greens the green pixels are those whose column is
not a column of solitary greens. -/
theorem layout_green (xtrans : Int → Int → Nat) (hL : HexLayout xtrans)
    (allhex0 : Nat → Nat → Nat → Int × Int) (xn yn row col : Nat) (hy : yn % 3 = 0)
    (hrow : 2 ≤ row) (hρ : (row - (markesteijn_hex xtrans allhex0).sgrow) % 3 ≠ 0) :
    fcol xtrans ((yn : Int) + (row : Int)) ((xn : Int) + (col : Int)) = 1
      ↔ (xn + col + 3 - (markesteijn_hex xtrans allhex0).sgcol) % 3 ≠ 0 := by
  obtain ⟨e1, e2, h1, h2⟩ := markesteijn_hex_sg xtrans allhex0 (fun _ _ _ => (0, 0))
  have hl := (hL ⟨(yn + row) % 6, Nat.mod_lt _ (by decide)⟩
    ⟨(xn + col) % 6, Nat.mod_lt _ (by decide)⟩).2
  rw [← e1, ← e2] at hl
  simp only [] at hl
  have ef : fcol xtrans ((yn : Int) + (row : Int)) ((xn : Int) + (col : Int))
      = xtrans (((yn + row) % 6 : Nat) : Int) (((xn + col) % 6 : Nat) : Int) := by
    unfold fcol
    rw [fcolIdx_emod _ (by omega), fcolIdx_emod _ (by omega)]
    have c1 : ((yn : Int) + (row : Int)) % 6 = (((yn + row) % 6 : Nat) : Int) := by omega
    have c2 : ((xn : Int) + (col : Int)) % 6 = (((xn + col) % 6 : Nat) : Int) := by omega
    rw [c1, c2]
  rw [ef, hl (by omega)]
  constructor <;> intro h <;> omega

/-- One turn of the loop of the green bounds: where it moves `row` and `col`, and what it
writes. -/
theorem minmax_step_spec (xtrans : Int → Int → Nat) (xoff yoff : Int) (width height : Nat)
    (hx : HexState) (s : MMState) :
    (fcol xtrans (yoff + (s.row : Int)) (xoff + (s.col : Int)) = 1 →
      (minmax_step xtrans xoff yoff width height hx s).row = s.row ∧
      (minmax_step xtrans xoff yoff width height hx s).col = s.col + 1 ∧
      (minmax_step xtrans xoff yoff width height hx s).image = s.image) ∧
    (¬ fcol xtrans (yoff + (s.row : Int)) (xoff + (s.col : Int)) = 1 →
      (∀ r k ch, ¬ (r = s.row ∧ k = s.col ∧ (ch = 1 ∨ ch = 3)) →
        (minmax_step xtrans xoff yoff width height hx s).image r k ch = s.image r k ch) ∧
      ((s.row - hx.sgrow) % 3 = 1 → (s.row : Int) < (height : Int) - 3 →
        (minmax_step xtrans xoff yoff width height hx s).row = s.row + 1 ∧
        (minmax_step xtrans xoff yoff width height hx s).col = s.col - 1 + 1) ∧
      ((s.row - hx.sgrow) % 3 = 1 → ¬ (s.row : Int) < (height : Int) - 3 →
        (minmax_step xtrans xoff yoff width height hx s).row = s.row ∧
        (minmax_step xtrans xoff yoff width height hx s).col = s.col + 1) ∧
      ((s.row - hx.sgrow) % 3 = 2 → ((s.col : Int) + 2 < (width : Int) - 3 ∧ s.row > 2) →
        (minmax_step xtrans xoff yoff width height hx s).row = s.row - 1 ∧
        (minmax_step xtrans xoff yoff width height hx s).col = s.col + 2 + 1) ∧
      ((s.row - hx.sgrow) % 3 = 2 → ¬ ((s.col : Int) + 2 < (width : Int) - 3 ∧ s.row > 2) →
        (minmax_step xtrans xoff yoff width height hx s).row = s.row ∧
        (minmax_step xtrans xoff yoff width height hx s).col = s.col + 2 + 1) ∧
      ((s.row - hx.sgrow) % 3 = 0 →
        (minmax_step xtrans xoff yoff width height hx s).row = s.row ∧
        (minmax_step xtrans xoff yoff width height hx s).col = s.col + 1)) := by
  constructor
  · intro hg
    unfold minmax_step
    rw [if_pos hg]
    exact ⟨rfl, rfl, rfl⟩
  · intro hg
    unfold minmax_step
    rw [if_neg hg]
    simp only []
    refine ⟨?_, ?_, ?_, ?_, ?_, ?_⟩
    · intro r k ch hne
      have himg : ∀ (a b : ℚ), ((s.image.set s.row s.col 1 a).set s.row s.col 3 b) r k ch
          = s.image r k ch := by
        intro a b
        simp only [img_set_apply]
        rw [if_neg (fun h => hne ⟨h.1, h.2.1, Or.inr h.2.2⟩),
          if_neg (fun h => hne ⟨h.1, h.2.1, Or.inl h.2.2⟩)]
      split_ifs <;> exact himg _ _
    · intro h1 h2
      rw [if_pos h1, if_pos h2]
      exact ⟨rfl, rfl⟩
    · intro h1 h2
      rw [if_pos h1, if_neg h2]
      exact ⟨rfl, rfl⟩
    · intro h1 h2
      rw [if_neg (by omega), if_pos h1, if_pos h2]
      exact ⟨rfl, rfl⟩
    · intro h1 h2
      rw [if_neg (by omega), if_pos h1, if_neg h2]
      exact ⟨rfl, rfl⟩
    · intro h1
      rw [if_neg (by omega), if_neg (by omega)]
      exact ⟨rfl, rfl⟩

/-- One turn keeps what the loop of the green bounds keeps, keeps `row >= 2`, and decreases
the measure `2 (width - col) + [(row - sgrow) % 3 = 1]`. -/
theorem minmax_step_progress (xtrans : Int → Int → Nat) (xoff yoff : Int) (width height : Nat)
    (hx : HexState) (hsg : hx.sgrow < 3) (image : Img) (s : MMState)
    (hk : MMKeep xtrans xoff yoff image s.image) (hrow : 2 ≤ s.row)
    (hcond : s.col + 2 < width) :
    MMKeep xtrans xoff yoff image (minmax_step xtrans xoff yoff width height hx s).image ∧
    2 ≤ (minmax_step xtrans xoff yoff width height hx s).row ∧
    2 * (width - (minmax_step xtrans xoff yoff width height hx s).col)
        + (if ((minmax_step xtrans xoff yoff width height hx s).row - hx.sgrow) % 3 = 1
            then 1 else 0)
      < 2 * (width - s.col) + (if (s.row - hx.sgrow) % 3 = 1 then 1 else 0) := by
  obtain ⟨hgreen, hng⟩ := minmax_step_spec xtrans xoff yoff width height hx s
  by_cases hg : fcol xtrans (yoff + (s.row : Int)) (xoff + (s.col : Int)) = 1
  · obtain ⟨e1, e2, e3⟩ := hgreen hg
    rw [e1, e2, e3]
    refine ⟨hk, hrow, ?_⟩
    split_ifs <;> omega
  · obtain ⟨himg, c1, c2, c3, c4, c0⟩ := hng hg
    have hkeep : MMKeep xtrans xoff yoff image
        (minmax_step xtrans xoff yoff width height hx s).image := by
      intro r k ch hch
      rw [himg r k ch, hk r k ch hch]
      intro ⟨er, ek, ec⟩
      rw [er, ek] at hch
      rcases hch with h | h | h
      · omega
      · omega
      · exact hg h.2
    refine ⟨hkeep, ?_⟩
    have hm : (s.row - hx.sgrow) % 3 = 0 ∨ (s.row - hx.sgrow) % 3 = 1
        ∨ (s.row - hx.sgrow) % 3 = 2 := by omega
    rcases hm with h | h | h
    · obtain ⟨e1, e2⟩ := c0 h
      rw [e1, e2]
      refine ⟨hrow, ?_⟩
      split_ifs <;> omega
    · by_cases hh : (s.row : Int) < (height : Int) - 3
      · obtain ⟨e1, e2⟩ := c1 h hh
        rw [e1, e2]
        refine ⟨by omega, ?_⟩
        rw [if_neg (by omega), if_pos h]
        omega
      · obtain ⟨e1, e2⟩ := c2 h hh
        rw [e1, e2]
        refine ⟨hrow, ?_⟩
        rw [if_pos h]
        omega
    · by_cases hh : (s.col : Int) + 2 < (width : Int) - 3 ∧ s.row > 2
      · obtain ⟨e1, e2⟩ := c3 h hh
        rw [e1, e2]
        refine ⟨by omega, ?_⟩
        split_ifs <;> omega
      · obtain ⟨e1, e2⟩ := c4 h hh
        rw [e1, e2]
        refine ⟨hrow, ?_⟩
        split_ifs <;> omega

/-- The inner loop of the green bounds, started at column 2 of the row `r0`, returns; it
keeps what the loop keeps, ends on the row `r0` or below it, and the row the outer loop
continues with is not the second row of a pair of rows without solitary greens, unless it is
past the last row. -/
theorem minmax_row_end (xtrans : Int → Int → Nat) (hL : HexLayout xtrans)
    (allhex0 : Nat → Nat → Nat → Int × Int) (xn yn : Nat) (hy : yn % 3 = 0)
    (width height : Nat) (hW : 7 ≤ width) (image img : Img) (r0 : Nat) (h2 : 2 ≤ r0)
    (hOI : r0 = 2 ∨ (r0 - (markesteijn_hex xtrans allhex0).sgrow) % 3 ≠ 2)
    (hk : MMKeep xtrans (xn : Int) (yn : Int) image img) (fuel : Nat)
    (hf : 2 * width + 1 < fuel) :
    ∃ s2, minmax_row xtrans (xn : Int) (yn : Int) width height (markesteijn_hex xtrans allhex0)
        fuel { row := r0, col := 2, mn := FLT_MAX, mx := 0, image := img } = some s2 ∧
      MMKeep xtrans (xn : Int) (yn : Int) image s2.image ∧ r0 ≤ s2.row ∧
      ((s2.row + 1 - (markesteijn_hex xtrans allhex0).sgrow) % 3 ≠ 2 ∨ height ≤ s2.row + 3) := by
  obtain ⟨_, _, hsg, hsc⟩ := markesteijn_hex_sg xtrans allhex0 allhex0
  unfold minmax_row
  by_cases hz : (r0 - (markesteijn_hex xtrans allhex0).sgrow) % 3 = 1 ∧ r0 + 3 < height
  · -- the loop alternates between the rows r0 and r0 + 1
    have hg0 := fun col => layout_green xtrans hL allhex0 xn yn r0 col hy h2 (by omega)
    have hg1 := fun col => layout_green xtrans hL allhex0 xn yn (r0 + 1) col hy (by omega)
      (by omega)
    obtain ⟨s2, hs2, hI, hc⟩ := whileLoop_terminates
      (fun s : MMState => decide ((s.col : Int) < (width : Int) - 2))
      (minmax_step xtrans (xn : Int) (yn : Int) width height (markesteijn_hex xtrans allhex0))
      (fun s => MMKeep xtrans (xn : Int) (yn : Int) image s.image ∧ 2 ≤ s.col ∧
        ((s.row = r0 ∧
            (((xn + s.col + 3 - (markesteijn_hex xtrans allhex0).sgcol) % 3 = 0
                ∧ s.col + 2 < width) ∨
              ∀ c, 2 ≤ c → c < s.col →
                (xn + c + 3 - (markesteijn_hex xtrans allhex0).sgcol) % 3 ≠ 0)) ∨
          (s.row = r0 + 1 ∧
            (((xn + s.col + 3 - (markesteijn_hex xtrans allhex0).sgcol) % 3 = 0
                ∧ s.col + 2 < width) ∨ width ≤ s.col + 2))))
      (fun s => 2 * (width - s.col)
        + (if (s.row - (markesteijn_hex xtrans allhex0).sgrow) % 3 = 1 then 1 else 0))
      (by
        intro s ⟨hk2, hcol, hC⟩ hcond
        have hcond2 : s.col + 2 < width := by
          have : (s.col : Int) < (width : Int) - 2 := of_decide_eq_true hcond
          omega
        have hrow : 2 ≤ s.row := by rcases hC with h | h <;> omega
        obtain ⟨p1, _, p3⟩ := minmax_step_progress xtrans (xn : Int) (yn : Int) width height
          (markesteijn_hex xtrans allhex0) hsg image s hk2 hrow hcond2
        refine ⟨⟨p1, ?_⟩, p3⟩
        obtain ⟨sg, sn⟩ := minmax_step_spec xtrans (xn : Int) (yn : Int) width height
          (markesteijn_hex xtrans allhex0) s
        rcases hC with ⟨er, hC⟩ | ⟨er, hC⟩
        · by_cases hK : (xn + s.col + 3 - (markesteijn_hex xtrans allhex0).sgcol) % 3 = 0
          · have hng : ¬ fcol xtrans ((yn : Int) + (s.row : Int)) ((xn : Int) + (s.col : Int)) = 1 := by
              rw [er, hg0 s.col]
              exact not_not.mpr hK
            obtain ⟨e1, e2⟩ := (sn hng).2.1 (by rw [er]; exact hz.1) (by rw [er]; omega)
            rw [e1, e2]
            refine ⟨by omega, Or.inr ⟨by omega, Or.inl ⟨?_, by omega⟩⟩⟩
            have e3 : s.col - 1 + 1 = s.col := by omega
            rw [e3]
            exact hK
          · have hgr : fcol xtrans ((yn : Int) + (s.row : Int)) ((xn : Int) + (s.col : Int)) = 1 := by
              rw [er, hg0 s.col]
              exact hK
            obtain ⟨e1, e2, _⟩ := sg hgr
            rw [e1, e2]
            refine ⟨by omega, Or.inl ⟨er, Or.inr ?_⟩⟩
            rcases hC with h | h
            · exact absurd h.1 hK
            · intro c hc1 hc2
              by_cases e : c = s.col
              · rw [e]; exact hK
              · exact h c hc1 (by omega)
        · rcases hC with ⟨hK, _⟩ | h
          · have hng : ¬ fcol xtrans ((yn : Int) + (s.row : Int)) ((xn : Int) + (s.col : Int)) = 1 := by
              rw [er, hg1 s.col]
              exact not_not.mpr hK
            by_cases hh : (s.col : Int) + 2 < (width : Int) - 3 ∧ s.row > 2
            · obtain ⟨e1, e2⟩ := (sn hng).2.2.2.1 (by rw [er]; omega) hh
              rw [e1, e2]
              refine ⟨by omega, Or.inl ⟨by omega, Or.inl ⟨by omega, by omega⟩⟩⟩
            · obtain ⟨e1, e2⟩ := (sn hng).2.2.2.2.1 (by rw [er]; omega) hh
              rw [e1, e2]
              refine ⟨by omega, Or.inr ⟨er, Or.inr (by omega)⟩⟩
          · omega)
      fuel { row := r0, col := 2, mn := FLT_MAX, mx := 0, image := img }
      ⟨hk, le_refl 2, Or.inl ⟨rfl, Or.inr (fun c h1 h2 => absurd h2 (by
        show ¬ c < 2
        omega))⟩⟩
      (by
        show 2 * (width - 2) + _ < fuel
        split_ifs <;> omega)
    refine ⟨s2, hs2, hI.1, ?_⟩
    have hc2 : width ≤ s2.col + 2 := by
      have : ¬ (s2.col : Int) < (width : Int) - 2 := of_decide_eq_false hc
      omega
    have hrow : s2.row = r0 + 1 := by
      rcases hI.2.2 with ⟨er, hC⟩ | ⟨er, _⟩
      · rcases hC with h | h
        · omega
        · exfalso
          have a2 := h 2 (by omega) (by omega)
          have a3 := h 3 (by omega) (by omega)
          have a4 := h 4 (by omega) (by omega)
          omega
      · exact er
    rw [hrow]
    exact ⟨by omega, Or.inl (by omega)⟩
  · -- the loop stays on the row r0
    obtain ⟨s2, hs2, hI, _⟩ := whileLoop_terminates
      (fun s : MMState => decide ((s.col : Int) < (width : Int) - 2))
      (minmax_step xtrans (xn : Int) (yn : Int) width height (markesteijn_hex xtrans allhex0))
      (fun s => MMKeep xtrans (xn : Int) (yn : Int) image s.image ∧ s.row = r0)
      (fun s => 2 * (width - s.col)
        + (if (s.row - (markesteijn_hex xtrans allhex0).sgrow) % 3 = 1 then 1 else 0))
      (by
        intro s ⟨hk2, er⟩ hcond
        have hcond2 : s.col + 2 < width := by
          have : (s.col : Int) < (width : Int) - 2 := of_decide_eq_true hcond
          omega
        obtain ⟨p1, _, p3⟩ := minmax_step_progress xtrans (xn : Int) (yn : Int) width height
          (markesteijn_hex xtrans allhex0) hsg image s hk2 (by omega) hcond2
        refine ⟨⟨p1, ?_⟩, p3⟩
        obtain ⟨sg, sn⟩ := minmax_step_spec xtrans (xn : Int) (yn : Int) width height
          (markesteijn_hex xtrans allhex0) s
        by_cases hgr : fcol xtrans ((yn : Int) + (s.row : Int)) ((xn : Int) + (s.col : Int)) = 1
        · rw [(sg hgr).1, er]
        · obtain ⟨_, c1, c2, c3, c4, c0⟩ := sn hgr
          have hm : (s.row - (markesteijn_hex xtrans allhex0).sgrow) % 3 = 0
              ∨ (s.row - (markesteijn_hex xtrans allhex0).sgrow) % 3 = 1
              ∨ (s.row - (markesteijn_hex xtrans allhex0).sgrow) % 3 = 2 := by omega
          rcases hm with h | h | h
          · rw [(c0 h).1, er]
          · rw [(c2 h (by rw [er] at h ⊢; omega)).1, er]
          · rw [(c4 h (by rw [er] at h ⊢; omega)).1, er])
      fuel { row := r0, col := 2, mn := FLT_MAX, mx := 0, image := img } ⟨hk, rfl⟩
      (by
        show 2 * (width - 2) + _ < fuel
        split_ifs <;> omega)
    refine ⟨s2, hs2, hI.1, by rw [hI.2], ?_⟩
    rw [hI.2]
    omega

/-- A loop that stores `val row col c` in the channels 0, 1, 2 of every pixel of a region
leaves these values there. -/
theorem fill3_at (val : Nat → Nat → Nat → ℚ) (w h : Nat) (out : Img) (row col c : Nat)
    (hr : row < h) (hcol : col < w) (hc : c < 3) :
    forLoop 0 h 1 (fun row out =>
      forLoop 0 w 1 (fun col out =>
        forLoop 0 3 1 (fun c out => out.set row col c (val row col c)) out) out) out row col c
      = val row col c := by
  have h3 : ∀ (r k : Nat) (s : Img) (r2 k2 ch : Nat),
      forLoop 0 3 1 (fun c im => im.set r k c (val r k c)) s r2 k2 ch
      = if r2 = r ∧ k2 = k ∧ ch < 3 then val r k ch else s r2 k2 ch := by
    intro r k s r2 k2 ch
    rw [forLoop_three]
    simp only [img_set_apply]
    by_cases e : r2 = r ∧ k2 = k
    · obtain ⟨rfl, rfl⟩ := e
      by_cases e2 : ch = 2
      · subst e2; simp
      · by_cases e1 : ch = 1
        · subst e1; simp
        · by_cases e0 : ch = 0
          · subst e0; simp
          · rw [if_neg (by omega), if_neg (by omega), if_neg (by omega), if_neg (by omega)]
    · rw [if_neg (fun h => e ⟨h.1, h.2.1⟩), if_neg (fun h => e ⟨h.1, h.2.1⟩),
        if_neg (fun h => e ⟨h.1, h.2.1⟩), if_neg (fun h => e ⟨h.1, h.2.1⟩)]
  have := forLoop2_post (fun _ : Img => True)
    (fun r k (s : Img) => s r k c = val r k c)
    0 h 1 (fun _ => 0) (fun _ => w) 1 Nat.one_pos Nat.one_pos
    (fun r k im => forLoop 0 3 1 (fun c im => im.set r k c (val r k c)) im) out trivial
    (fun r k s _ _ _ => ⟨trivial, by
      beta_reduce
      rw [h3, if_pos ⟨rfl, rfl, hc⟩]⟩)
    (fun r k r2 k2 s _ _ _ _ hne _ hQ => by
      beta_reduce
      rw [h3, if_neg (fun e => hne ⟨e.1.symm, e.2.1.symm⟩)]
      exact hQ)
  exact this.2 row col ((visits_one _ _ _).mpr ⟨Nat.zero_le _, hr⟩)
    ((visits_one _ _ _).mpr ⟨Nat.zero_le _, hcol⟩)

/-- The loop of the green bounds returns, given fuel above `2 width + 1` for the inner loops
and above the number of rows for the outer loop, and keeps the channels 0 and 2 of every
pixel and the channel 1 of every green pixel. -/
theorem minmax_rows_end (xtrans : Int → Int → Nat) (hL : HexLayout xtrans)
    (allhex0 : Nat → Nat → Nat → Int × Int) (xn yn : Nat) (hy : yn % 3 = 0)
    (width height : Nat) (hW : 7 ≤ width) (image : Img) (fuel0 : Nat)
    (hf0 : 2 * width + 1 < fuel0) :
    ∀ (n fuel row : Nat) (img : Img), 2 ≤ row →
      (row = 2 ∨ (row - (markesteijn_hex xtrans allhex0).sgrow) % 3 ≠ 2 ∨ height ≤ row + 2) →
      MMKeep xtrans (xn : Int) (yn : Int) image img → height - row ≤ n → n < fuel →
      ∃ img2, minmax_rows xtrans (xn : Int) (yn : Int) width height
          (markesteijn_hex xtrans allhex0) fuel0 fuel row img = some img2 ∧
        MMKeep xtrans (xn : Int) (yn : Int) image img2 := by
  intro n
  induction n with
  | zero =>
    intro fuel row img _ _ hk hn hfuel
    obtain ⟨f, rfl⟩ : ∃ f, fuel = f + 1 := ⟨fuel - 1, by omega⟩
    unfold minmax_rows
    rw [if_neg (by omega)]
    exact ⟨img, rfl, hk⟩
  | succ n ih =>
    intro fuel row img h2 hOI hk hn hfuel
    obtain ⟨f, rfl⟩ : ∃ f, fuel = f + 1 := ⟨fuel - 1, by omega⟩
    unfold minmax_rows
    by_cases hc : (row : Int) < (height : Int) - 2
    · rw [if_pos hc]
      obtain ⟨s2, hs2, hk2, hle, hnext⟩ := minmax_row_end xtrans hL allhex0 xn yn hy width height
        hW image img row h2 (by omega) hk fuel0 hf0
      rw [hs2]
      simp only []
      exact ih f (s2.row + 1) s2.image (by omega) (by omega) hk2 (by omega) (by omega)
    · rw [if_neg hc]
      exact ⟨img, rfl, hk⟩

/-- C39: for an X-Trans table with the layout the hexagon loop expects, ROI offsets that are
not negative with the row offset a multiple of 3, and an output region of at least 8 by 8
pixels (so that the mirrored reads of the halo stay inside the raw buffer) that is at most 10
high or at most 10 wide, the tile loops of `xtrans_markesteijn_interpolate` have no tile to run on, the
function returns (given fuel for the loop of the green bounds), and every pixel of the output
holds the raw sample in the channel of its own colour and 0 in each of the channels 0 and 2
that is not its own colour. -/
theorem C39_markesteijn_small (fuel : Nat) (out image0 : Img)
    (allhex0 : Nat → Nat → Nat → Int × Int) (tile : Nat → Nat → Img → Img) (inp : Raw)
    (xtrans : Int → Int → Nat) (hL : HexLayout xtrans) (xn yn : Nat) (hy : yn % 3 = 0)
    (wo ho : Nat) (_hwo : 8 ≤ wo) (_hho : 8 ≤ ho) (hsmall : ho ≤ 10 ∨ wo ≤ 10)
    (hf : 2 * (wo + 12) + (ho + 12) + 1 < fuel) :
    (∀ top left, ¬ (tile_start (ho + 12) top ∧ tile_start (wo + 12) left)) ∧
    ∃ o, xtrans_markesteijn_interpolate fuel out image0 allhex0 tile inp xtrans
        (xn : Int) (yn : Int) wo ho = some o ∧
      ∀ row col, row < ho → col < wo →
        o row col (fcol xtrans ((row : Int) + (yn : Int)) ((col : Int) + (xn : Int)))
          = inp row col ∧
        ∀ c, c = 0 ∨ c = 2 →
          c ≠ fcol xtrans ((row : Int) + (yn : Int)) ((col : Int) + (xn : Int)) →
          o row col c = 0 := by
  have hno : ∀ top left, ¬ (tile_start (ho + 12) top ∧ tile_start (wo + 12) left) := by
    intro top left ⟨h1, h2⟩
    unfold tile_start Visits at h1 h2
    omega
  refine ⟨hno, ?_⟩
  obtain ⟨img2, hrows, hkeep⟩ := minmax_rows_end xtrans hL allhex0 xn yn hy (wo + 12) (ho + 12)
    (by omega) (markesteijn_image image0 inp xtrans (xn : Int) (yn : Int) wo ho) fuel
    (by omega) (ho + 12) fuel 2 (markesteijn_image image0 inp xtrans (xn : Int) (yn : Int) wo ho)
    (le_refl 2) (Or.inl rfl) (fun _ _ _ _ => rfl) (by omega) (by omega)
  unfold xtrans_markesteijn_interpolate
  simp only []
  rw [hrows]
  simp only []
  have htiles : forLoop 3 (ho + 12 - 19) (TS - 16) (fun top image =>
      forLoop 3 (wo + 12 - 19) (TS - 16) (fun left image => tile top left image) image) img2
      = img2 :=
    forLoop2_inv (fun s : Img => s = img2) 3 (ho + 12 - 19) (TS - 16) (fun _ => 3)
      (fun _ => wo + 12 - 19) (TS - 16) (by decide) (by decide) tile img2 rfl
      (fun j i s hj hi _ => absurd ⟨hj, hi⟩ (hno j i))
  rw [htiles]
  refine ⟨_, rfl, ?_⟩
  intro row col hr hcol
  have hlt : ∀ r c : Fin 6, xtrans (r.val : Int) (c.val : Int) < 3 := fun r c => (hL r c).1
  have hf3 : fcol xtrans ((row : Int) + (yn : Int)) ((col : Int) + (xn : Int)) < 3 := by
    unfold fcol
    rw [fcolIdx_emod _ (by omega), fcolIdx_emod _ (by omega)]
    have c1 : ((row : Int) + (yn : Int)) % 6 = (((row + yn) % 6 : Nat) : Int) := by omega
    have c2 : ((col : Int) + (xn : Int)) % 6 = (((col + xn) % 6 : Nat) : Int) := by omega
    rw [c1, c2]
    exact hlt ⟨(row + yn) % 6, Nat.mod_lt _ (by decide)⟩ ⟨(col + xn) % 6, Nat.mod_lt _ (by decide)⟩
  have hper : fcol xtrans ((yn : Int) + ((row + 6 : Nat) : Int)) ((xn : Int) + ((col + 6 : Nat) : Int))
      = fcol xtrans ((row : Int) + (yn : Int)) ((col : Int) + (xn : Int)) := by
    unfold fcol
    rw [fcolIdx_emod _ (by omega), fcolIdx_emod _ (by omega), fcolIdx_emod _ (by omega),
      fcolIdx_emod _ (by omega)]
    have c1 : ((yn : Int) + ((row + 6 : Nat) : Int)) % 6 = ((row : Int) + (yn : Int)) % 6 := by
      omega
    have c2 : ((xn : Int) + ((col + 6 : Nat) : Int)) % 6 = ((col : Int) + (xn : Int)) % 6 := by
      omega
    rw [c1, c2]
  have hval : ∀ c, c < 3 →
      markesteijn_image image0 inp xtrans (xn : Int) (yn : Int) wo ho (row + 6) (col + 6) c
        = if c = fcol xtrans ((row : Int) + (yn : Int)) ((col : Int) + (xn : Int))
          then inp row col else 0 := by
    intro c hc
    rw [markesteijn_image_at image0 inp xtrans (xn : Int) (yn : Int) wo ho (row + 6) (col + 6) c
      (by omega) (by omega) hc]
    unfold markesteijn_image_val
    rw [if_pos (by omega)]
    have e1 : ((row + 6 : Nat) : Int) - 6 + (yn : Int) = (row : Int) + (yn : Int) := by omega
    have e2 : ((col + 6 : Nat) : Int) - 6 + (xn : Int) = (col : Int) + (xn : Int) := by omega
    rw [e1, e2]
    rfl
  constructor
  · rw [fill3_at (fun row col c => img2 (row + 6) (col + 6) c) wo ho out row col _ hr hcol hf3]
    rw [hkeep (row + 6) (col + 6) _ (by
      rw [hper]
      generalize fcol xtrans ((row : Int) + (yn : Int)) ((col : Int) + (xn : Int)) = f at hf3 ⊢
      have : f = 0 ∨ f = 1 ∨ f = 2 := by omega
      rcases this with h | h | h
      · exact Or.inl h
      · exact Or.inr (Or.inr ⟨h, h⟩)
      · exact Or.inr (Or.inl h)), hval _ hf3, if_pos rfl]
  · intro c hc hne
    rw [fill3_at (fun row col c => img2 (row + 6) (col + 6) c) wo ho out row col c hr hcol
      (by omega)]
    rw [hkeep (row + 6) (col + 6) c (by omega), hval c (by omega), if_neg hne]

/-- C39, instance: a region 9 wide and 8 high at the ROI offset `(0, 3)` of the Fuji table,
read from the buffer `edgeRaw`. -/
theorem C39_markesteijn_small_witness :
    ∃ o, xtrans_markesteijn_interpolate 100 (fun _ _ _ => 0) (fun _ _ _ => 0)
        (fun _ _ _ => (0, 0)) (fun _ _ im => im) edgeRaw xtransStd ((0 : Nat) : Int)
        ((3 : Nat) : Int) 9 8 = some o ∧
      ∀ row col, row < 8 → col < 9 →
        o row col (fcol xtransStd ((row : Int) + ((3 : Nat) : Int))
            ((col : Int) + ((0 : Nat) : Int))) = edgeRaw row col ∧
        ∀ c, c = 0 ∨ c = 2 →
          c ≠ fcol xtransStd ((row : Int) + ((3 : Nat) : Int))
            ((col : Int) + ((0 : Nat) : Int)) →
          o row col c = 0 :=
  (C39_markesteijn_small 100 (fun _ _ _ => 0) (fun _ _ _ => 0) (fun _ _ _ => (0, 0))
    (fun _ _ im => im) edgeRaw xtransStd (by decide) 0 3 (by decide) 9 8 (by decide)
    (by decide) (by decide) (by decide)).2

/-! ## Constant buffers through the rounded interpolators

On a buffer whose samples all equal a `k` with at most 18 significant bits, the sums the
interpolators form are multiples `m * k` with `m <= 64`, which are `float`s: the rounded
kernels then compute what the exact kernels compute. -/

/-- The multiples `m * k`, `m <= 64`, of a number with at most 18 significant bits are
`float`s. -/
theorem f32_nat_mul (k : ℚ) (hk : OnGrid 18 k) (m : Nat) (hm : m ≤ 64) :
    f32 ((m : ℚ) * k) = (m : ℚ) * k := by
  have := f32_mul_onGrid 18 k hk (m : Int) (by
    rw [abs_of_nonneg (by omega : (0 : Int) ≤ (m : Int))]
    have : (m : Int) ≤ 64 := by exact_mod_cast hm
    omega)
  exact_mod_cast this

/-- The naturals up to 64 are `float`s. -/
theorem f32_nat (m : Nat) (hm : m ≤ 64) : f32 (m : ℚ) = (m : ℚ) := by
  have := f32_exact (m : Int) 0 (by
    rw [abs_of_nonneg (by omega : (0 : Int) ≤ (m : Int))]
    have : (m : Int) ≤ 64 := by exact_mod_cast hm
    omega) (by decide) (by decide)
  simpa using this

/-- A number with at most 18 significant bits is a `float`. -/
theorem f32_of_onGrid18 (k : ℚ) (hk : OnGrid 18 k) : f32 k = k := by
  have := f32_nat_mul k hk 1 (by decide)
  simpa using this

/-- The 3x3 neighbourhood holds at most nine positions. -/
theorem nbhd3_length (j i height width : Nat) : (nbhd3 j i height width).length ≤ 9 := by
  unfold nbhd3
  have h3 : List.range 3 = [0, 1, 2] := rfl
  rw [h3]
  simp only [List.flatMap_cons, List.flatMap_nil, List.length_append, List.append_nil]
  have a := List.length_filterMap_le (fun dx =>
    if 1 ≤ j + 0 ∧ 1 ≤ i + dx ∧ j + 0 - 1 < height ∧ i + dx - 1 < width
    then some (j + 0 - 1, i + dx - 1) else none) [0, 1, 2]
  have b := List.length_filterMap_le (fun dx =>
    if 1 ≤ j + 1 ∧ 1 ≤ i + dx ∧ j + 1 - 1 < height ∧ i + dx - 1 < width
    then some (j + 1 - 1, i + dx - 1) else none) [0, 1, 2]
  have c := List.length_filterMap_le (fun dx =>
    if 1 ≤ j + 2 ∧ 1 ≤ i + dx ∧ j + 2 - 1 < height ∧ i + dx - 1 < width
    then some (j + 2 - 1, i + dx - 1) else none) [0, 1, 2]
  simp only [List.length_cons, List.length_nil] at a b c
  omega

/-! ### X-Trans linear interpolation -/

/-- The border scan of `xtrans_lin_interpolate` over samples equal to `k`, for a rounding
that keeps the multiples `m * k`, `m <= 64`: the counts are those of the exact scan and
each sum is its count times `k`. -/
theorem xtrans_sum_fl_const (fl : ℚ → ℚ) (k : ℚ)
    (hfl : ∀ m : Nat, m ≤ 64 → fl ((m : ℚ) * k) = (m : ℚ) * k)
    (inp : Raw) (xtrans : Int → Int → Nat) (ix iy : Int) (c : Nat) :
    ∀ (l : List (Nat × Nat)) (s : (Nat → ℚ) × (Nat → Nat)),
      (∀ p ∈ l, inp p.1 p.2 = k) → s.1 c = (s.2 c : ℚ) * k → s.2 c + l.length ≤ 64 →
      (l.foldl (xtrans_sum_step_fl fl inp xtrans ix iy) s).1 c
          = ((l.foldl (xtrans_sum_step_fl fl inp xtrans ix iy) s).2 c : ℚ) * k ∧
        (l.foldl (xtrans_sum_step_fl fl inp xtrans ix iy) s).2 c
          = s.2 c + (l.filter (fun p =>
              decide (fcol xtrans ((p.1 : Int) + iy) ((p.2 : Int) + ix) = c))).length := by
  intro l
  induction l with
  | nil => intro s _ h _; exact ⟨h, by simp⟩
  | cons p ps ih =>
    intro s hmem h hlen
    rw [List.foldl_cons]
    have hp := hmem p (List.mem_cons_self _ _)
    have hps : ∀ q ∈ ps, inp q.1 q.2 = k := fun q hq => hmem q (List.mem_cons_of_mem _ hq)
    rw [List.length_cons] at hlen
    by_cases e : fcol xtrans ((p.1 : Int) + iy) ((p.2 : Int) + ix) = c
    · have hs1 : (xtrans_sum_step_fl fl inp xtrans ix iy s p).1 c
          = ((xtrans_sum_step_fl fl inp xtrans ix iy s p).2 c : ℚ) * k := by
        unfold xtrans_sum_step_fl
        simp only []
        rw [if_pos e.symm, if_pos e.symm, h, hp]
        have := hfl (s.2 c + 1) (by omega)
        push_cast at this ⊢
        rw [show (s.2 c : ℚ) * k + k = ((s.2 c : ℚ) + 1) * k by ring]
        exact this
      have hs2 : (xtrans_sum_step_fl fl inp xtrans ix iy s p).2 c = s.2 c + 1 := by
        unfold xtrans_sum_step_fl
        simp only []
        rw [if_pos e.symm]
      obtain ⟨r1, r2⟩ := ih _ hps hs1 (by rw [hs2]; omega)
      refine ⟨r1, ?_⟩
      rw [r2, hs2, List.filter_cons_of_pos (by simpa using e), List.length_cons]
      omega
    · have hs1 : (xtrans_sum_step_fl fl inp xtrans ix iy s p).1 c
          = ((xtrans_sum_step_fl fl inp xtrans ix iy s p).2 c : ℚ) * k := by
        unfold xtrans_sum_step_fl
        simp only []
        rw [if_neg (fun h2 => e h2.symm), if_neg (fun h2 => e h2.symm)]
        exact h
      have hs2 : (xtrans_sum_step_fl fl inp xtrans ix iy s p).2 c = s.2 c := by
        unfold xtrans_sum_step_fl
        simp only []
        rw [if_neg (fun h2 => e h2.symm)]
      obtain ⟨r1, r2⟩ := ih _ hps hs1 (by rw [hs2]; omega)
      refine ⟨r1, ?_⟩
      rw [r2, hs2, List.filter_cons_of_neg (by simpa using e)]

/-- On a buffer of samples `k`, the value the border loop of `xtrans_lin_interpolate` stores
is `k` if the colour has a neighbour and is not the colour of the pixel, else the sample of
the pixel, for every rounding that keeps the multiples `m * k`, `m <= 64`. -/
theorem xtrans_border_val_fl_const (fl : ℚ → ℚ) (k : ℚ)
    (hfl : ∀ m : Nat, m ≤ 64 → fl ((m : ℚ) * k) = (m : ℚ) * k)
    (inp : Raw) (xtrans : Int → Int → Nat) (ix iy : Int) (wi hi : Nat)
    (hin : ∀ r c, r < hi → c < wi → inp r c = k) (row col c : Nat) :
    xtrans_border_val_fl fl inp xtrans ix iy wi hi row col c
      = if c ≠ fcol xtrans ((row : Int) + iy) ((col : Int) + ix) ∧
          ((nbhd3 row col hi wi).filter (fun p =>
            decide (fcol xtrans ((p.1 : Int) + iy) ((p.2 : Int) + ix) = c))).length ≠ 0
        then k else inp row col := by
  have hlen := nbhd3_length row col hi wi
  obtain ⟨r1, r2⟩ := xtrans_sum_fl_const fl k hfl inp xtrans ix iy c (nbhd3 row col hi wi)
    (fun _ => 0, fun _ => 0)
    (fun p hp => hin p.1 p.2 (nbhd3_mem row col hi wi p hp).1 (nbhd3_mem row col hi wi p hp).2)
    (by simp) (by simp only []; omega)
  simp only [Nat.zero_add] at r2
  unfold xtrans_border_val_fl
  simp only []
  rw [r2] at r1
  rw [r1, r2]
  split_ifs with h
  · have hne : (((List.filter (fun p =>
        decide (fcol xtrans ((p.1 : Int) + iy) ((p.2 : Int) + ix) = c))
        (nbhd3 row col hi wi)).length : Nat) : ℚ) ≠ 0 := by exact_mod_cast h.2
    rw [mul_div_assoc, mul_comm, div_mul_cancel₀ k hne]
    have := hfl 1 (by decide)
    simpa using this
  · rfl

/-- On a buffer of samples `k` with at most 18 significant bits the border interpolation of
`xtrans_lin_interpolate` in `float` is the exact one. -/
theorem xtrans_border_pixel_fl_const (k : ℚ) (hk : OnGrid 18 k)
    (inp : Raw) (xtrans : Int → Int → Nat) (ix iy : Int) (wi hi : Nat)
    (hin : ∀ r c, r < hi → c < wi → inp r c = k) (row col : Nat) (o : Img) :
    xtrans_border_pixel_fl f32 inp xtrans ix iy wi hi row col o
      = xtrans_border_pixel inp xtrans ix iy wi hi row col o := by
  have h1 : ∀ c, xtrans_border_val_fl f32 inp xtrans ix iy wi hi row col c
      = xtrans_border_val_fl id inp xtrans ix iy wi hi row col c := by
    intro c
    rw [xtrans_border_val_fl_const f32 k (f32_nat_mul k hk) inp xtrans ix iy wi hi hin row col c,
      xtrans_border_val_fl_const id k (fun _ _ => rfl) inp xtrans ix iy wi hi hin row col c]
  have h2 : ∀ c, xtrans_border_val_fl id inp xtrans ix iy wi hi row col c
      = xtrans_border_val inp xtrans ix iy wi hi row col c := fun _ => rfl
  unfold xtrans_border_pixel_fl xtrans_border_pixel
  simp only [h1, h2]


/-- The weights of the table `lookup` are at most 4. -/
theorem linLookup_weight_le (xtrans : Int → Int → Nat) (ix iy : Int) (row col : Nat)
    (t : Int × Int × Nat × Nat) (ht : t ∈ (linLookup xtrans ix iy row col).nbrs) :
    t.2.2.1 ≤ 4 := by
  unfold linLookup at ht
  simp only [List.mem_filterMap] at ht
  obtain ⟨p, _, hpt⟩ := ht
  split_ifs at hpt
  all_goals
    have e := Option.some.inj hpt
    rw [← e]
    simp only [Nat.one_shiftLeft]
    norm_num

/-- The table `lookup` lists at most nine neighbours. -/
theorem linLookup_length (xtrans : Int → Int → Nat) (ix iy : Int) (row col : Nat) :
    (linLookup xtrans ix iy row col).nbrs.length ≤ 9 := by
  unfold linLookup
  simp only []
  exact List.length_filterMap_le _ offsets3

/-- The total weight of a colour is at most 4 times the number of neighbours listed. -/
theorem lin_total_le (c : Nat) :
    ∀ l : List (Int × Int × Nat × Nat), (∀ t ∈ l, t.2.2.1 ≤ 4) →
      lin_total l c ≤ 4 * l.length := by
  intro l
  induction l with
  | nil => intro _; simp [lin_total]
  | cons t ts ih =>
    intro h
    have h1 := h t (List.mem_cons_self _ _)
    have h2 := ih (fun q hq => h q (List.mem_cons_of_mem _ hq))
    unfold lin_total at h2 ⊢
    by_cases e : t.2.2.2 = c
    · rw [List.filter_cons_of_pos (by simpa using e)]
      simp only [List.map_cons, List.sum_cons, List.length_cons]
      omega
    · rw [List.filter_cons_of_neg (by simpa using e)]
      simp only [List.length_cons]
      omega

/-- The weighted sum of the interior loop over samples equal to `k`, for a rounding that
keeps the multiples `m * k`, `m <= 64`: the total weight times `k`. -/
theorem lin_sum_fl_const (fl : ℚ → ℚ) (k : ℚ)
    (hfl : ∀ m : Nat, m ≤ 64 → fl ((m : ℚ) * k) = (m : ℚ) * k)
    (inp : Raw) (row col c : Nat) :
    ∀ (l : List (Int × Int × Nat × Nat)) (s : Nat → ℚ) (w0 : Nat),
      (∀ t ∈ l, inp ((row : Int) + t.1).toNat ((col : Int) + t.2.1).toNat = k ∧ t.2.2.1 ≤ 4) →
      s c = (w0 : ℚ) * k → w0 + 4 * l.length ≤ 64 →
      (l.foldl (lin_sum_step_fl fl inp row col) s) c = ((w0 + lin_total l c : Nat) : ℚ) * k := by
  intro l
  induction l with
  | nil => intro s w0 _ h _; simpa [lin_total] using h
  | cons t ts ih =>
    intro s w0 hmem h hlen
    rw [List.foldl_cons]
    have ht := hmem t (List.mem_cons_self _ _)
    have hts := fun q hq => hmem q (List.mem_cons_of_mem _ hq)
    rw [List.length_cons] at hlen
    by_cases e : t.2.2.2 = c
    · have hs : (lin_sum_step_fl fl inp row col s t) c = ((w0 + t.2.2.1 : Nat) : ℚ) * k := by
        unfold lin_sum_step_fl
        rw [if_pos e.symm, h, ht.1]
        have a1 := hfl t.2.2.1 (by omega)
        rw [mul_comm] at a1
        rw [a1]
        have a2 := hfl (w0 + t.2.2.1) (by omega)
        push_cast at a2 ⊢
        rw [show (w0 : ℚ) * k + k * (t.2.2.1 : ℚ) = ((w0 : ℚ) + (t.2.2.1 : ℚ)) * k by ring]
        exact a2
      rw [ih _ (w0 + t.2.2.1) hts hs (by omega)]
      unfold lin_total
      rw [List.filter_cons_of_pos (by simpa using e)]
      simp only [List.map_cons, List.sum_cons]
      rw [Nat.add_assoc]
    · have hs : (lin_sum_step_fl fl inp row col s t) c = (w0 : ℚ) * k := by
        unfold lin_sum_step_fl
        rw [if_neg (fun h2 => e h2.symm)]
        exact h
      rw [ih _ w0 hts hs (by omega)]
      unfold lin_total
      rw [List.filter_cons_of_neg (by simpa using e)]

/-- Folding stores into the pixel `(row, col)` depends only on the values stored. -/
theorem foldl_set_congr {α : Type} (row col : Nat) (g : α → Nat) (v w : α → ℚ) :
    ∀ (l : List α) (o : Img), (∀ t ∈ l, v t = w t) →
      l.foldl (fun o t => o.set row col (g t) (v t)) o
        = l.foldl (fun o t => o.set row col (g t) (w t)) o := by
  intro l
  induction l with
  | nil => intro o _; rfl
  | cons t ts ih =>
    intro o h
    rw [List.foldl_cons, List.foldl_cons, h t (List.mem_cons_self _ _)]
    exact ih _ (fun q hq => h q (List.mem_cons_of_mem _ hq))

/-- On samples equal to `k`, the value the interior loop stores for a colour: the total
weight times `k` over the total weight, rounded. -/
theorem lin_pixel_val_fl_const (fl : ℚ → ℚ) (k : ℚ)
    (hfl : ∀ m : Nat, m ≤ 64 → fl ((m : ℚ) * k) = (m : ℚ) * k)
    (inp : Raw) (xtrans : Int → Int → Nat) (ix iy : Int) (wi hi row col : Nat)
    (hin : ∀ r c, r < hi → c < wi → inp r c = k) (hr : 1 ≤ row ∧ row + 1 < hi)
    (hc : 1 ≤ col ∧ col + 1 < wi) (c : Nat) :
    fl (((linLookup xtrans ix iy (row % 6) (col % 6)).nbrs.foldl
          (lin_sum_step_fl fl inp row col) (fun _ => 0)) c
        / (lin_total (linLookup xtrans ix iy (row % 6) (col % 6)).nbrs c : ℚ))
      = if lin_total (linLookup xtrans ix iy (row % 6) (col % 6)).nbrs c = 0 then 0 else k := by
  have hlen := linLookup_length xtrans ix iy (row % 6) (col % 6)
  have h := lin_sum_fl_const fl k hfl inp row col c
    (linLookup xtrans ix iy (row % 6) (col % 6)).nbrs (fun _ => 0) 0
    (fun t ht => by
      have hb := linLookup_nbrs_mem xtrans ix iy (row % 6) (col % 6) t ht
      exact ⟨hin _ _ (by omega) (by omega),
        linLookup_weight_le xtrans ix iy (row % 6) (col % 6) t ht⟩)
    (by simp) (by omega)
  rw [h, Nat.zero_add]
  split_ifs with h0
  · rw [h0]
    have := hfl 0 (by decide)
    simpa using this
  · have hne : ((lin_total (linLookup xtrans ix iy (row % 6) (col % 6)).nbrs c : Nat) : ℚ) ≠ 0 := by
      exact_mod_cast h0
    rw [mul_div_assoc, mul_comm, div_mul_cancel₀ k hne]
    have := hfl 1 (by decide)
    simpa using this

/-- On a buffer of samples `k` with at most 18 significant bits the interior interpolation
of `xtrans_lin_interpolate` in `float` is the exact one. -/
theorem xtrans_lin_pixel_fl_const (k : ℚ) (hk : OnGrid 18 k)
    (inp : Raw) (xtrans : Int → Int → Nat) (ix iy : Int) (wi hi row col : Nat)
    (hin : ∀ r c, r < hi → c < wi → inp r c = k) (hr : 1 ≤ row ∧ row + 1 < hi)
    (hc : 1 ≤ col ∧ col + 1 < wi) (o : Img) :
    xtrans_lin_pixel_fl f32 inp xtrans ix iy row col o
      = xtrans_lin_pixel inp xtrans ix iy row col o := by
  have hid : xtrans_lin_pixel inp xtrans ix iy row col o
      = xtrans_lin_pixel_fl id inp xtrans ix iy row col o := rfl
  rw [hid]
  unfold xtrans_lin_pixel_fl
  simp only []
  refine congrArg (fun o2 : Img => o2.set row col
    (linLookup xtrans ix iy (row % 6) (col % 6)).colorpix (inp row col)) ?_
  refine foldl_set_congr row col (fun t : Nat × Nat => t.1)
    (fun t => f32 (((linLookup xtrans ix iy (row % 6) (col % 6)).nbrs.foldl
      (lin_sum_step_fl f32 inp row col) (fun _ => 0)) t.1 / (t.2 : ℚ)))
    (fun t => id (((linLookup xtrans ix iy (row % 6) (col % 6)).nbrs.foldl
      (lin_sum_step_fl id inp row col) (fun _ => 0)) t.1 / (t.2 : ℚ))) _ o ?_
  intro t ht
  have ht2 := List.mem_of_mem_take ht
  have htot : (linLookup xtrans ix iy (row % 6) (col % 6)).totals
      = ((List.range 3).filter (fun c => c ≠ fcol xtrans (((row % 6 : Nat) : Int) + iy)
          (((col % 6 : Nat) : Int) + ix))).map
        (fun c => (c, lin_total (linLookup xtrans ix iy (row % 6) (col % 6)).nbrs c)) := rfl
  rw [htot, List.mem_map] at ht2
  obtain ⟨c, _, rfl⟩ := ht2
  simp only []
  have a := lin_pixel_val_fl_const f32 k (f32_nat_mul k hk) inp xtrans ix iy wi hi row col hin
    hr hc c
  have b := lin_pixel_val_fl_const id k (fun _ _ => rfl) inp xtrans ix iy wi hi row col hin
    hr hc c
  rw [a]
  exact b.symm

/-- On a buffer of samples `k` with at most 18 significant bits, `xtrans_lin_interpolate` in
`float` computes what it computes in exact arithmetic. -/
theorem xtrans_lin_fl_const (k : ℚ) (hk : OnGrid 18 k) (fuel : Nat) (out : Img) (inp : Raw)
    (wo ho wi hi : Nat) (hw : wo ≤ wi) (hh : ho ≤ hi) (ix iy : Int)
    (xtrans : Int → Int → Nat) (hin : ∀ r c, r < hi → c < wi → inp r c = k) :
    xtrans_lin_interpolate_fl f32 fuel out inp wo ho wi hi ix iy xtrans
      = xtrans_lin_interpolate fuel out inp wo ho wi hi ix iy xtrans := by
  unfold xtrans_lin_interpolate_fl xtrans_lin_interpolate
  simp only [xtrans_border_pixel_fl_const k hk inp xtrans ix iy wi hi hin]
  cases loopNOpt ho 0 (fun row o =>
      jumpLoop (xtrans_jump wo ho row) false wo
        (fun col o => xtrans_border_pixel inp xtrans ix iy wi hi row col o) fuel 0 o) out with
  | none => rfl
  | some o1 =>
    simp only []
    congr 1
    exact forLoop2_rel (fun s t : Img => s = t) 1 (ho - 1) 1 (fun _ => 1) (fun _ => wo - 1) 1
      Nat.one_pos Nat.one_pos
      (fun row col o => xtrans_lin_pixel_fl f32 inp xtrans ix iy row col o)
      (fun row col o => xtrans_lin_pixel inp xtrans ix iy row col o) o1 o1 rfl
      (fun row col s t hrow hcol hst => by
        simp only [visits_one] at hrow hcol
        rw [hst]
        exact xtrans_lin_pixel_fl_const k hk inp xtrans ix iy wi hi row col hin
          (by omega) (by omega) t)


/-! ### PPG -/

/-- The border scan of `demosaic_ppg` over samples equal to `k`, for a rounding that keeps
the naturals and the multiples `m * k` up to `m = 64`: the count of a colour is the number of
its positions and the sum is the count times `k`. -/
theorem ppg_sum_fl_const (fl : ℚ → ℚ) (k : ℚ)
    (hfl : ∀ m : Nat, m ≤ 64 → fl ((m : ℚ) * k) = (m : ℚ) * k)
    (hfl1 : ∀ m : Nat, m ≤ 64 → fl (m : ℚ) = (m : ℚ))
    (inp : Raw) (filters c : Nat) (hc : c < 4) :
    ∀ (l : List (Nat × Nat)) (sum : Nat → ℚ) (m0 : Nat),
      (∀ p ∈ l, inp p.1 p.2 = k) → sum (c + 4) = (m0 : ℚ) → sum c = (m0 : ℚ) * k →
      m0 + l.length ≤ 64 →
      (l.foldl (ppg_sum_step_fl fl inp filters) sum) (c + 4)
          = ((m0 + (l.filter (fun p => decide (FC p.1 p.2 filters = c))).length : Nat) : ℚ) ∧
        (l.foldl (ppg_sum_step_fl fl inp filters) sum) c
          = ((m0 + (l.filter (fun p => decide (FC p.1 p.2 filters = c))).length : Nat) : ℚ)
            * k := by
  intro l
  induction l with
  | nil => intro sum m0 _ h1 h2 _; simpa using ⟨h1, h2⟩
  | cons p ps ih =>
    intro sum m0 hmem h1 h2 hlen
    rw [List.foldl_cons]
    have hp := hmem p (List.mem_cons_self _ _)
    have hps : ∀ q ∈ ps, inp q.1 q.2 = k := fun q hq => hmem q (List.mem_cons_of_mem _ hq)
    have hf := FC_lt p.1 p.2 filters
    rw [List.length_cons] at hlen
    by_cases e : FC p.1 p.2 filters = c
    · have e4 : ¬ (c + 4 = FC p.1 p.2 filters) := by omega
      have e5 : c + 4 = FC p.1 p.2 filters + 4 := by omega
      have s1 : (ppg_sum_step_fl fl inp filters sum p) (c + 4) = ((m0 + 1 : Nat) : ℚ) := by
        unfold ppg_sum_step_fl
        rw [if_neg e4, if_pos e5, h1]
        have := hfl1 (m0 + 1) (by omega)
        push_cast at this ⊢
        exact this
      have s2 : (ppg_sum_step_fl fl inp filters sum p) c = ((m0 + 1 : Nat) : ℚ) * k := by
        unfold ppg_sum_step_fl
        rw [if_pos e.symm, h2, hp]
        have := hfl (m0 + 1) (by omega)
        push_cast at this ⊢
        rw [show (m0 : ℚ) * k + k = ((m0 : ℚ) + 1) * k by ring]
        exact this
      obtain ⟨r1, r2⟩ := ih _ (m0 + 1) hps s1 s2 (by omega)
      rw [List.filter_cons_of_pos (by simpa using e), List.length_cons]
      rw [show m0 + ((ps.filter (fun p => decide (FC p.1 p.2 filters = c))).length + 1)
        = m0 + 1 + (ps.filter (fun p => decide (FC p.1 p.2 filters = c))).length by omega]
      exact ⟨r1, r2⟩
    · have e4 : ¬ (c + 4 = FC p.1 p.2 filters) := by omega
      have e5 : ¬ (c + 4 = FC p.1 p.2 filters + 4) := by omega
      have e7 : ¬ (c = FC p.1 p.2 filters + 4) := by omega
      have s1 : (ppg_sum_step_fl fl inp filters sum p) (c + 4) = (m0 : ℚ) := by
        unfold ppg_sum_step_fl
        rw [if_neg e4, if_neg e5, h1]
      have s2 : (ppg_sum_step_fl fl inp filters sum p) c = (m0 : ℚ) * k := by
        unfold ppg_sum_step_fl
        rw [if_neg (fun h => e h.symm), if_neg e7, h2]
      obtain ⟨r1, r2⟩ := ih _ m0 hps s1 s2 (by omega)
      rw [List.filter_cons_of_neg (by simpa using e)]
      exact ⟨r1, r2⟩

/-- On a buffer of samples `k`, the value the border loop of `demosaic_ppg` stores is `k` if
the colour has a neighbour and is not the colour of the pixel, else the sample of the
pixel, for every rounding that keeps the naturals and the multiples of `k` up to 64. -/
theorem ppg_border_val_fl_const (fl : ℚ → ℚ) (k : ℚ)
    (hfl : ∀ m : Nat, m ≤ 64 → fl ((m : ℚ) * k) = (m : ℚ) * k)
    (hfl1 : ∀ m : Nat, m ≤ 64 → fl (m : ℚ) = (m : ℚ))
    (inp : Raw) (wi hi filters : Nat) (hin : ∀ r c, r < hi → c < wi → inp r c = k)
    (j i c : Nat) (hc : c < 4) :
    ppg_border_val_fl fl inp wi hi filters j i c
      = if c ≠ FC j i filters ∧
          ((nbhd3 j i hi wi).filter (fun p => decide (FC p.1 p.2 filters = c))).length ≠ 0
        then k else inp j i := by
  have hlen := nbhd3_length j i hi wi
  obtain ⟨r1, r2⟩ := ppg_sum_fl_const fl k hfl hfl1 inp filters c hc (nbhd3 j i hi wi)
    (fun _ => 0) 0
    (fun p hp => hin p.1 p.2 (nbhd3_mem j i hi wi p hp).1 (nbhd3_mem j i hi wi p hp).2)
    (by simp) (by simp) (by omega)
  rw [Nat.zero_add] at r1 r2
  unfold ppg_border_val_fl
  simp only []
  rw [r1, r2]
  by_cases h0 : ((nbhd3 j i hi wi).filter (fun p => decide (FC p.1 p.2 filters = c))).length = 0
  · rw [h0]
    simp
  · have hpos : (0 : ℚ)
        < (((nbhd3 j i hi wi).filter (fun p => decide (FC p.1 p.2 filters = c))).length : ℚ) := by
      exact_mod_cast Nat.pos_of_ne_zero h0
    by_cases hcf : c ≠ FC j i filters
    · rw [if_pos ⟨hcf, hpos⟩, if_pos ⟨hcf, h0⟩, mul_div_assoc, mul_comm,
        div_mul_cancel₀ k (ne_of_gt hpos)]
      have := hfl 1 (by decide)
      simpa using this
    · rw [if_neg (fun h => hcf h.1), if_neg (fun h => hcf h.1)]

/-- On a buffer of samples `k` with at most 18 significant bits the border interpolation of
`demosaic_ppg` in `float` is the exact one. -/
theorem ppg_border_pixel_fl_const (k : ℚ) (hk : OnGrid 18 k) (inp : Raw) (wi hi filters : Nat)
    (hin : ∀ r c, r < hi → c < wi → inp r c = k) (j i : Nat) (o : Img) :
    ppg_border_pixel_fl f32 inp wi hi filters j i o = ppg_border_pixel inp wi hi filters j i o := by
  have h1 : ∀ c, c < 4 → ppg_border_val_fl f32 inp wi hi filters j i c
      = ppg_border_val inp wi hi filters j i c := by
    intro c hc
    have hid : ppg_border_val inp wi hi filters j i c
        = ppg_border_val_fl id inp wi hi filters j i c := rfl
    rw [hid, ppg_border_val_fl_const f32 k (f32_nat_mul k hk) f32_nat inp wi hi filters hin j i c hc,
      ppg_border_val_fl_const id k (fun _ _ => rfl) (fun _ _ => rfl) inp wi hi filters hin j i c
        hc]
  rw [ppg_border_pixel_eq]
  unfold ppg_border_pixel_fl
  rw [forLoop_three, h1 0 (by decide), h1 1 (by decide), h1 2 (by decide)]

/-- The clamp of any guess between two equal bounds is the bound. -/
theorem clamp_same (x k : ℚ) : max (min x (max k k)) (min k k) = k := by
  rw [max_self, min_self]
  exact max_eq_right (min_le_right _ _)

/-- On samples equal to `k` the first pass of `demosaic_ppg` in `float` is the exact one:
the clamp between two equal neighbours returns `k` whatever the guess. -/
theorem ppg_green_pixel_fl_const (fl : ℚ → ℚ) (k : ℚ) (inp : Raw) (filters j i : Nat)
    (h0 : inp j i = k) (h1 : inp (j - 1) i = k) (h2 : inp (j + 1) i = k)
    (h3 : inp j (i - 1) = k) (h4 : inp j (i + 1) = k) (o : Img) :
    ppg_green_pixel_fl fl inp filters j i o = ppg_green_pixel inp filters j i o := by
  unfold ppg_green_pixel_fl ppg_green_pixel
  simp only [h0, h1, h2, h3, h4, clamp_same]
  split_ifs <;> rfl


/-- The second pass in `float` writes only the pixel it is at. -/
theorem ppg_redblue_pixel_fl_frame (fl : ℚ → ℚ) (filters j i : Nat) (o : Img) (r k ch : Nat)
    (h : ¬ (r = j ∧ k = i)) : ppg_redblue_pixel_fl fl filters j i o r k ch = o r k ch := by
  unfold ppg_redblue_pixel_fl
  simp only []
  split_ifs <;> simp only [img_set_apply] <;> (repeat' rw [if_neg (fun hc => h ⟨hc.1, hc.2.1⟩)])

/-- The second pass in `float` keeps the green and the channel of the site's own colour. -/
theorem ppg_redblue_pixel_fl_keep (fl : ℚ → ℚ) (filters j i : Nat) (o : Img) (ch : Nat)
    (h : ch = 1 ∨ ch = nativeChannel (FC j i filters)) :
    ppg_redblue_pixel_fl fl filters j i o j i ch = o j i ch := by
  have hlt := FC_lt j i filters
  unfold ppg_redblue_pixel_fl
  unfold nativeChannel at h
  simp only []
  rw [and_one]
  by_cases hodd : FC j i filters % 2 ≠ 0
  · rw [if_pos hodd]
    have hn : ¬ (FC j i filters = 0 ∨ FC j i filters = 2) := by omega
    rw [if_neg hn] at h
    have h1 : ch = 1 := by omega
    subst h1
    split_ifs <;> simp [img_set_apply]
  · rw [if_neg hodd]
    have hn : FC j i filters = 0 ∨ FC j i filters = 2 := by omega
    rw [if_pos hn] at h
    rcases hn with h0 | h2
    · rw [h0] at h ⊢
      simp only [if_true]
      split_ifs <;> simp only [img_set_apply] <;> rw [if_neg (by omega)]
    · rw [h2] at h ⊢
      simp only [OfNat.ofNat_ne_zero, if_false]
      split_ifs <;> simp only [img_set_apply] <;> rw [if_neg (by omega)]

/-- In a Bayer layout the second pass in `float` leaves, in the three channels of its pixel,
values of `P2`, when the greens and own-colour channels of the pixel and its eight
neighbours are in `P` and the rounded hue formulas map `P` into `P2`. -/
theorem ppg_redblue_pixel_fl_good (fl : ℚ → ℚ) (P P2 : ℚ → Prop)
    (hhue : ∀ a b g c d : ℚ, P a → P b → P g → P c → P d →
      P2 (fl (ppg_guess_fl fl a b g c d * (1 / 2))))
    (hhue4 : ∀ a b c d a2 b2 c2 d2 g : ℚ, P a → P b → P c → P d → P a2 → P b2 → P c2 → P d2 →
      P g → P2 (fl (fl (ppg_guess_fl fl a b g c d + ppg_guess_fl fl a2 b2 g c2 d2) * (1 / 4))))
    (hP2 : ∀ x, P x → P2 x)
    {filters : Nat} (hb : IsBayer filters) (j i : Nat) (hj : 1 ≤ j) (hi : 1 ≤ i) (s : Img)
    (hR : ∀ r k, j - 1 ≤ r → r ≤ j + 1 → i - 1 ≤ k → k ≤ i + 1 →
      P (s r k 1) ∧ P (s r k (nativeChannel (FC r k filters))))
    (ch : Nat) (hch : ch < 3) : P2 (ppg_redblue_pixel_fl fl filters j i s j i ch) := by
  have hlt := FC_lt j i filters
  have hnb := bayer_nbrs hb j i hj hi
  have g0 := (hR j i (by omega) (by omega) (by omega) (by omega)).1
  have n0 := (hR j i (by omega) (by omega) (by omega) (by omega)).2
  have hT := hR (j - 1) i (by omega) (by omega) (by omega) (by omega)
  have hB := hR (j + 1) i (by omega) (by omega) (by omega) (by omega)
  have hL := hR j (i - 1) (by omega) (by omega) (by omega) (by omega)
  have hRt := hR j (i + 1) (by omega) (by omega) (by omega) (by omega)
  have hTL := hR (j - 1) (i - 1) (by omega) (by omega) (by omega) (by omega)
  have hTR := hR (j - 1) (i + 1) (by omega) (by omega) (by omega) (by omega)
  have hBL := hR (j + 1) (i - 1) (by omega) (by omega) (by omega) (by omega)
  have hBR := hR (j + 1) (i + 1) (by omega) (by omega) (by omega) (by omega)
  by_cases hkeep : ch = 1 ∨ ch = nativeChannel (FC j i filters)
  · rw [ppg_redblue_pixel_fl_keep fl filters j i s ch hkeep]
    rcases hkeep with h | h
    · rw [h]; exact hP2 _ g0
    · rw [h]; exact hP2 _ n0
  · unfold nativeChannel at hkeep hT hB hL hRt hTL hTR hBL hBR
    unfold ppg_redblue_pixel_fl
    simp only []
    rw [and_one]
    by_cases hodd : FC j i filters % 2 ≠ 0
    · rw [if_pos hodd]
      have hodd1 : FC j i filters % 2 = 1 := by omega
      by_cases hred : FC j (i + 1) filters = 0
      · obtain ⟨e1, e2, e3⟩ := hnb.1 hodd1 hred
        rw [if_pos hred]
        rw [e1] at hT
        rw [e2] at hB
        rw [e3] at hL
        rw [hred] at hRt
        simp only [OfNat.ofNat_ne_zero, or_true, true_or, if_true, OfNat.zero_ne_ofNat,
          or_false, false_or] at hT hB hL hRt
        have h3 : ch = 0 ∨ ch = 2 := by omega
        rcases h3 with rfl | rfl
        · simp only [img_set_apply, and_self, if_true]
          exact hhue _ _ _ _ _ hL.2 hRt.2 g0 hL.1 hRt.1
        · simp only [img_set_apply]
          rw [if_neg (by omega), if_pos (by simp)]
          exact hhue _ _ _ _ _ hT.2 hB.2 g0 hT.1 hB.1
      · obtain ⟨e1, e2, e3, e4⟩ := hnb.2.1 hodd1 hred
        rw [if_neg hred]
        rw [e1] at hT
        rw [e2] at hB
        rw [e3] at hL
        rw [e4] at hRt
        simp only [OfNat.ofNat_ne_zero, or_true, true_or, if_true, OfNat.zero_ne_ofNat,
          or_false, false_or] at hT hB hL hRt
        have h3 : ch = 0 ∨ ch = 2 := by omega
        rcases h3 with rfl | rfl
        · simp only [img_set_apply]
          rw [if_neg (by omega), if_pos (by simp)]
          exact hhue _ _ _ _ _ hT.2 hB.2 g0 hT.1 hB.1
        · simp only [img_set_apply, and_self, if_true]
          exact hhue _ _ _ _ _ hL.2 hRt.2 g0 hL.1 hRt.1
    · rw [if_neg hodd]
      have h02 : FC j i filters = 0 ∨ FC j i filters = 2 := by omega
      rw [if_pos h02] at hkeep
      rcases h02 with h0 | h2
      · obtain ⟨e1, e2, e3, e4⟩ := hnb.2.2.1 h0
        rw [e1] at hTL
        rw [e2] at hTR
        rw [e3] at hBL
        rw [e4] at hBR
        simp only [OfNat.ofNat_ne_zero, or_true, true_or, if_true, OfNat.zero_ne_ofNat,
          or_false, false_or] at hTL hTR hBL hBR
        have hc2 : ch = 2 := by omega
        subst hc2
        rw [h0]
        simp only [if_true]
        split_ifs <;> simp only [img_set_apply, and_self, if_true]
        · exact hhue _ _ _ _ _ hTR.2 hBL.2 g0 hTR.1 hBL.1
        · exact hhue _ _ _ _ _ hTL.2 hBR.2 g0 hTL.1 hBR.1
        · exact hhue4 _ _ _ _ _ _ _ _ _ hTL.2 hBR.2 hTL.1 hBR.1 hTR.2 hBL.2 hTR.1 hBL.1 g0
      · obtain ⟨e1, e2, e3, e4⟩ := hnb.2.2.2 h2
        rw [e1] at hTL
        rw [e2] at hTR
        rw [e3] at hBL
        rw [e4] at hBR
        simp only [OfNat.ofNat_ne_zero, or_true, true_or, if_true, OfNat.zero_ne_ofNat,
          or_false, false_or] at hTL hTR hBL hBR
        have hc0 : ch = 0 := by omega
        subst hc0
        rw [h2]
        simp only [OfNat.ofNat_ne_zero, if_false]
        split_ifs <;> simp only [img_set_apply, and_self, if_true]
        · exact hhue _ _ _ _ _ hTR.2 hBL.2 g0 hTR.1 hBL.1
        · exact hhue _ _ _ _ _ hTL.2 hBR.2 g0 hTL.1 hBR.1
        · exact hhue4 _ _ _ _ _ _ _ _ _ hTL.2 hBR.2 hTL.1 hBR.1 hTR.2 hBL.2 hTR.1 hBL.1 g0

/-- A number with at most 18 significant bits is a multiple of a power of two with
significand below `2^20`. -/
theorem onGridAt_of_onGrid18 (k : ℚ) (hk : OnGrid 18 k) :
    ∃ e : Int, -50 ≤ e ∧ e ≤ 50 ∧ OnGridAt 20 e k := by
  obtain ⟨n, e, hn, he1, he2, rfl⟩ := hk
  exact ⟨e, he1, he2, n, lt_trans hn (by norm_num), rfl⟩

/-- The second pass in `float` leaves the outermost frame as it is. -/
theorem ppg_pass2_fl_frame (fl : ℚ → ℚ) (filters wo ho : Nat) (o2 : Img) (r k ch : Nat)
    (h : ¬ (1 ≤ r ∧ r < ho - 1 ∧ 1 ≤ k ∧ k < wo - 1)) :
    forLoop 1 (ho - 1) 1 (fun j o =>
        forLoop 1 (wo - 1) 1 (fun i o => ppg_redblue_pixel_fl fl filters j i o) o) o2 r k ch
      = o2 r k ch :=
  forLoop2_inv (fun s : Img => s r k ch = o2 r k ch)
    1 (ho - 1) 1 (fun _ => 1) (fun _ => wo - 1) 1 Nat.one_pos Nat.one_pos
    (fun j i o => ppg_redblue_pixel_fl fl filters j i o) o2 rfl
    (fun j i s hj hi hs => by
      simp only [visits_one] at hj hi
      beta_reduce
      rw [ppg_redblue_pixel_fl_frame _ _ _ _ _ _ _ _ (by omega)]
      exact hs)

/-- PPG in `float` on a Bayer layout, median off, for a buffer whose samples all equal a `k`
with at most 18 significant bits: when the border loop returns, `demosaic_ppg` returns an
image whose three colour channels equal `k` at every pixel. -/
theorem ppg_fl_const (k : ℚ) (hk : OnGrid 18 k) {filters : Nat} (hb : IsBayer filters)
    (fuel : Nat) (out : Img) (inp : Raw) (wo ho wi hi : Nat) (thrs : ℚ) (hthr : thrs ≤ 0)
    (hw : wo ≤ wi) (hh : ho ≤ hi) (hT : wo ≤ 3 ∨ 6 ≤ wo ∨ ho ≤ 6) (hf : wo < fuel)
    (hin : ∀ r c, r < hi → c < wi → inp r c = k) :
    ∃ o, demosaic_ppg_fl f32 fuel out inp wo ho wi hi filters thrs = some o ∧
      ∀ j i ch, j < ho → i < wo → ch < 3 → o j i ch = k := by
  have hconv : ∀ x y t : ℚ, x = k → y = k → 0 ≤ t → t ≤ 1 → t * x + (1 - t) * y = k := by
    intro x y t hx hy _ _
    rw [hx, hy]
    ring
  obtain ⟨e, he1, he2, hke⟩ := onGridAt_of_onGrid18 k hk
  have hguess := ppg_guess_fl_grid e he1 he2 k k k k k 0 hke hke hke hke hke (sub_self k)
    (sub_self k)
  rw [add_zero] at hguess
  have hborder_eq : loopNOpt ho 0 (fun j o =>
      jumpLoop (ppg_jump wo ho j) true wo
        (fun i o => ppg_border_pixel_fl f32 inp wi hi filters j i o) fuel 0 o) out
      = some (forLoop 0 ho 1 (ppg_border_row inp wo ho wi hi filters) out) := by
    have := ppg_border_eq fuel inp wo ho wi hi filters out hT hf
    unfold ppg_border at this
    simp only [ppg_border_pixel_fl_const k hk inp wi hi filters hin]
    exact this
  have hpass1 : ∀ o1 : Img, forLoop 3 (ho - 3) 1 (fun j o =>
        forLoop 3 (wo - 3) 1 (fun i o => ppg_green_pixel_fl f32 inp filters j i o) o) o1
      = forLoop 3 (ho - 3) 1 (fun j o =>
        forLoop 3 (wo - 3) 1 (fun i o => ppg_green_pixel inp filters j i o) o) o1 := by
    intro o1
    exact forLoop2_rel (fun s t : Img => s = t) 3 (ho - 3) 1 (fun _ => 3) (fun _ => wo - 3) 1
      Nat.one_pos Nat.one_pos
      (fun j i o => ppg_green_pixel_fl f32 inp filters j i o)
      (fun j i o => ppg_green_pixel inp filters j i o) o1 o1 rfl
      (fun j i s t hj hi2 hst => by
        simp only [visits_one] at hj hi2
        beta_reduce
        rw [hst]
        exact ppg_green_pixel_fl_const f32 k inp filters j i (hin _ _ (by omega) (by omega))
          (hin _ _ (by omega) (by omega)) (hin _ _ (by omega) (by omega))
          (hin _ _ (by omega) (by omega)) (hin _ _ (by omega) (by omega)) t)
  unfold demosaic_ppg_fl
  rw [hborder_eq]
  simp only []
  rw [if_neg (not_lt.mpr hthr), hpass1]
  refine ⟨_, rfl, ?_⟩
  have hborder : ∀ j i ch, j < ho → i < wo → ch < 3 →
      ¬ (3 ≤ j ∧ j < ho - 3 ∧ 3 ≤ i ∧ i < wo - 3) →
      forLoop 3 (ho - 3) 1 (fun j o =>
        forLoop 3 (wo - 3) 1 (fun i o => ppg_green_pixel inp filters j i o) o)
        (forLoop 0 ho 1 (ppg_border_row inp wo ho wi hi filters) out) j i ch = k := by
    intro j i ch hj hi2 hch hni
    rw [ppg_pass1_frame _ _ _ _ _ _ _ _ hni,
      ppg_border_result_at inp wo ho wi hi filters out j i ch hj hi2 hch hni]
    exact ppg_border_val_good (fun x => x = k) hconv inp wi hi filters j i hin (by omega)
      (by omega) ch hch
  have hG1 : ∀ j i, j < ho → i < wo →
      forLoop 3 (ho - 3) 1 (fun j o =>
        forLoop 3 (wo - 3) 1 (fun i o => ppg_green_pixel inp filters j i o) o)
        (forLoop 0 ho 1 (ppg_border_row inp wo ho wi hi filters) out) j i 1 = k ∧
      forLoop 3 (ho - 3) 1 (fun j o =>
        forLoop 3 (wo - 3) 1 (fun i o => ppg_green_pixel inp filters j i o) o)
        (forLoop 0 ho 1 (ppg_border_row inp wo ho wi hi filters) out) j i
        (nativeChannel (FC j i filters)) = k := by
    intro j i hj hi2
    by_cases hint : 3 ≤ j ∧ j < ho - 3 ∧ 3 ≤ i ∧ i < wo - 3
    · refine ⟨ppg_pass1_green (fun x => x = k) hconv _ filters wo ho wi hi hw hh hin _ j i
        ⟨hint.1, hint.2.1⟩ ⟨hint.2.2.1, hint.2.2.2⟩, ?_⟩
      rw [ppg_pass1_native _ filters wo ho _ j i ⟨hint.1, hint.2.1⟩ ⟨hint.2.2.1, hint.2.2.2⟩]
      exact hin j i (by omega) (by omega)
    · exact ⟨hborder j i 1 hj hi2 (by omega) hint,
        hborder j i _ hj hi2 (nativeChannel_lt _ (FC_lt j i filters)) hint⟩
  have key := forLoop2_post
    (fun s : Img => ∀ j i, j < ho → i < wo →
      s j i 1 = k ∧ s j i (nativeChannel (FC j i filters)) = k)
    (fun j i (s : Img) => ∀ ch, ch < 3 → s j i ch = k)
    1 (ho - 1) 1 (fun _ => 1) (fun _ => wo - 1) 1 Nat.one_pos Nat.one_pos
    (fun j i o => ppg_redblue_pixel_fl f32 filters j i o) _ hG1
    (by
      intro j i s hj hi2 hR
      simp only [visits_one] at hj hi2
      beta_reduce
      constructor
      · intro r c hr hc
        by_cases e : r = j ∧ c = i
        · rw [e.1, e.2, ppg_redblue_pixel_fl_keep f32 filters j i s 1 (Or.inl rfl),
            ppg_redblue_pixel_fl_keep f32 filters j i s _ (Or.inr rfl)]
          exact hR j i (by omega) (by omega)
        · rw [ppg_redblue_pixel_fl_frame _ _ _ _ _ _ _ _ e,
            ppg_redblue_pixel_fl_frame _ _ _ _ _ _ _ _ e]
          exact hR r c hr hc
      · intro ch hch
        exact ppg_redblue_pixel_fl_good f32 (fun x => x = k) (fun x => x = k)
          (by
            intro a b g c d ha hb2 hg hc hd
            rw [ha, hb2, hg, hc, hd, hguess.1]
            exact ppg_half_guess _ hguess.2.1)
          (by
            intro a b c d a2 b2 c2 d2 g ha hb2 hc hd ha2 hb3 hc2 hd2 hg
            rw [ha, hb2, hg, hc, hd, ha2, hb3, hc2, hd2, hguess.1,
              show 2 * k + 2 * k = 4 * k by ring, hguess.2.2,
              show 4 * k * (1 / 4) = k by ring]
            exact hguess.2.1)
          (fun _ h => h) hb j i hj.1 hi2.1 s
          (fun r c h1 h2 h3 h4 => hR r c (by omega) (by omega)) ch hch)
    (by
      intro j i j2 i2 s _ _ _ _ hne _ hQ ch hch
      beta_reduce
      rw [ppg_redblue_pixel_fl_frame _ _ _ _ _ _ _ _ (fun h => hne ⟨h.1.symm, h.2.symm⟩)]
      exact hQ ch hch)
  intro j i ch hj hi2 hch
  by_cases hin3 : 1 ≤ j ∧ j < ho - 1 ∧ 1 ≤ i ∧ i < wo - 1
  · exact key.2 j i ((visits_one _ _ _).mpr ⟨hin3.1, hin3.2.1⟩)
      ((visits_one _ _ _).mpr ⟨hin3.2.2.1, hin3.2.2.2⟩) ch hch
  · rw [ppg_pass2_fl_frame _ _ _ _ _ _ _ _ hin3]
    exact hborder j i ch hj hi2 hch (by omega)


/-- With a width of 4 or 5 and a height of at least 7 the border loop of `demosaic_ppg` in
`float` does not return, whatever the fuel. -/
theorem ppg_fl_diverges (fl : ℚ → ℚ) (fuel : Nat) (out : Img) (inp : Raw)
    (wo ho wi hi filters : Nat) (thrs : ℚ) (hw : wo = 4 ∨ wo = 5) (hh : 7 ≤ ho) :
    demosaic_ppg_fl fl fuel out inp wo ho wi hi filters thrs = none := by
  unfold demosaic_ppg_fl
  rw [loopNOpt_none _ 3
    (fun s => ppg_row_diverges wo ho 3 _ hw (by omega) fuel 0 s (by omega))
    ho 0 out (by omega) (by omega)]

/-- C3, counterexample: three constant buffers that are not reproduced.  On the 8x8 RGGB
buffer of the constant `float` 0.1f = 13421773/134217728, `demosaic_ppg` (median off)
returns an image whose red channel at the green site `(3, 4)` is 6710887/67108864, one
half-unit above the constant.  On the 24x24 buffer of the constant `float`
0.3f = 5033165/16777216 with the Fuji table, `xtrans_lin_interpolate` returns an image whose
green channel at `(1, 2)` is 10066329/33554432, below the constant.  On a buffer 4 wide and
7 high of the constant 1/2, `demosaic_ppg` returns for no fuel. -/
theorem C3_constant_not_reproduced :
    (∃ o, demosaic_ppg_fl f32 9 (fun _ _ _ => 0) (fun _ _ => 13421773 / 134217728)
        8 8 8 8 0x94949494 0 = some o ∧
      o 3 4 0 = 6710887 / 67108864 ∧ o 3 4 0 ≠ 13421773 / 134217728) ∧
    (∃ o, xtrans_lin_interpolate_fl f32 25 (fun _ _ _ => 0) (fun _ _ => 5033165 / 16777216)
        24 24 24 24 0 0 xtransStd = some o ∧
      o 1 2 1 = 10066329 / 33554432 ∧ o 1 2 1 ≠ 5033165 / 16777216) ∧
    (∀ fuel, demosaic_ppg_fl f32 fuel (fun _ _ _ => 0) (fun _ _ => 1 / 2)
        4 7 4 7 0x94949494 0 = none) := by
  have h1 : (demosaic_ppg_fl f32 9 (fun _ _ _ => 0) (fun _ _ => 13421773 / 134217728)
      8 8 8 8 0x94949494 0).map (fun o => o 3 4 0) = some (6710887 / 67108864) := by
    decide!
  have h2 : (xtrans_lin_interpolate_fl f32 25 (fun _ _ _ => 0)
      (fun _ _ => 5033165 / 16777216) 24 24 24 24 0 0 xtransStd).map (fun o => o 1 2 1)
      = some (10066329 / 33554432) := by
    decide!
  obtain ⟨o1, ho1, hv1⟩ := Option.map_eq_some'.mp h1
  obtain ⟨o2, ho2, hv2⟩ := Option.map_eq_some'.mp h2
  refine ⟨⟨o1, ho1, hv1, ?_⟩, ⟨o2, ho2, hv2, ?_⟩, fun fuel =>
    ppg_fl_diverges f32 fuel _ _ 4 7 4 7 _ 0 (Or.inl rfl) (le_refl 7)⟩
  · rw [hv1]
    norm_num
  · rw [hv2]
    norm_num

/-- C3 (amended): constant images are reproduced when the constant has at most 18
significant bits and the border loop of PPG returns.  For every `k = n * 2^e` with
`|n| < 2^18` and `-50 <= e <= 50` and every raw buffer holding `k` at each sample,
`demosaic_ppg` in `float` (any Bayer descriptor, median off, width at most 3 or at least 6,
or height at most 6) and `xtrans_lin_interpolate` in `float` (any complete 6x6 table, any
non-negative ROI offset, any size) return an output whose channels 0, 1, 2 equal `k` at
every pixel, the border band included. -/
theorem C3_constant_reproduced (k : ℚ) (hk : OnGrid 18 k) (fuel : Nat) (out : Img)
    (inp : Raw) (wo ho wi hi : Nat) (hw : wo ≤ wi) (hh : ho ≤ hi) (hf : wo < fuel)
    (hin : ∀ r c, r < hi → c < wi → inp r c = k) :
    (∀ filters thrs, IsBayer filters → thrs ≤ 0 → (wo ≤ 3 ∨ 6 ≤ wo ∨ ho ≤ 6) →
      ∃ o, demosaic_ppg_fl f32 fuel out inp wo ho wi hi filters thrs = some o ∧
        ∀ j i ch, j < ho → i < wo → ch < 3 → o j i ch = k) ∧
    (∀ xtrans ix iy, XtransComplete xtrans → 0 ≤ ix → 0 ≤ iy →
      ∃ o, xtrans_lin_interpolate_fl f32 fuel out inp wo ho wi hi ix iy xtrans = some o ∧
        ∀ j i ch, j < ho → i < wo → ch < 3 → o j i ch = k) := by
  constructor
  · intro filters thrs hb hthr hT
    exact ppg_fl_const k hk hb fuel out inp wo ho wi hi thrs hthr hw hh hT hf hin
  · intro xtrans ix iy hx hix hiy
    rw [xtrans_lin_fl_const k hk fuel out inp wo ho wi hi hw hh ix iy xtrans hin]
    refine xtrans_lin_generic (fun x => x = k) ?_ hx ix iy hix hiy fuel out inp wo ho wi hi
      hw hh hf hin
    intro x y t hx2 hy _ _
    rw [hx2, hy]
    ring

/-- C3 (amended), instances: the 8x8 RGGB buffer of constant 1/2 through `demosaic_ppg`, and
the 24x24 buffer of constant 5/16 with the Fuji table through `xtrans_lin_interpolate`, both
in `float`. -/
theorem C3_constant_reproduced_witness :
    (∃ o, demosaic_ppg_fl f32 9 (fun _ _ _ => 0) (fun _ _ => 1 / 2) 8 8 8 8 0x94949494 0
        = some o ∧
      ∀ j i ch, j < 8 → i < 8 → ch < 3 → o j i ch = 1 / 2) ∧
    (∃ o, xtrans_lin_interpolate_fl f32 25 (fun _ _ _ => 0) (fun _ _ => 5 / 16) 24 24 24 24
        0 0 xtransStd = some o ∧
      ∀ j i ch, j < 24 → i < 24 → ch < 3 → o j i ch = 5 / 16) :=
  ⟨(C3_constant_reproduced (1 / 2) ⟨1, -1, by decide, by decide, by decide, by norm_num⟩ 9
      (fun _ _ _ => 0) (fun _ _ => 1 / 2) 8 8 8 8 (le_refl 8)
      (le_refl 8) (by decide) (fun _ _ _ _ => rfl)).1 0x94949494 0 (by decide) (le_refl 0)
      (Or.inr (Or.inl (by decide))),
   (C3_constant_reproduced (5 / 16) ⟨5, -4, by decide, by decide, by decide, by norm_num⟩ 25
      (fun _ _ _ => 0) (fun _ _ => 5 / 16) 24 24 24 24
      (le_refl 24) (le_refl 24) (by decide) (fun _ _ _ _ => rfl)).2 xtransStd 0 0 (by decide)
      (le_refl 0) (le_refl 0)⟩

end Demosaic
